import Mathlib

/-!
# Adaptive radix tree (`src/art.c`): embedding and checked properties

The C code works on a heap of nodes reached through tagged pointers.  The heap
of a tree is a tree (every node is held by exactly one slot), so a pointer
value is embedded as the thing it points to:

* `art_ref` is the value of an `art_node*` slot: `NULL`, a tagged leaf pointer
  (`IS_LEAF`), or a pointer to an inner node;
* an inner node is its header (`art_node`) together with the `keys`,
  `children` and `me` (own leaf) members of `art_node4/16/48/256`;
* a function that writes through `art_node **ref` returns the value that
  `*ref` holds when it returns.

Conventions used all over the file:

* a byte is a `Nat` below 256, a key is the list of its bytes and `key_len`
  is the length of that list;
* `void*` values are `Option Nat`, `none` being `NULL`;
* arrays are lists of the declared length (`calloc` fills them with 0 /
  `NULL`), entries at and beyond `num_children` keep whatever was written
  there last, as in C;
* a read of `key[i]` with `i` at or beyond the key's length is a read past the
  array in C; the embedding reads the byte 0 there (the terminator of a C
  string argument, the zeroed tail of a `calloc`ed leaf);
* `int` differences such as `key_len - depth` only bound `for (idx = ..; idx <
  max_cmp; idx++)` loops, which run zero times when the bound is negative or
  zero: they are embedded with truncated subtraction on `Nat`.
-/

namespace Art

/-- MAX_PREFIX_LEN of art.c. -/
def MAX_PREFIX_LEN : Nat := 10

/-- The node kinds NODE4 (1), NODE16 (2), NODE48 (3), NODE256 (4) of art.c. -/
inductive node_type where
  | NODE4
  | NODE16
  | NODE48
  | NODE256
deriving DecidableEq, Repr

open node_type

/-- Build switches of art.c that change what is computed: with `__SSE2__`
defined, `add_child16` looks for the insertion index with `_mm_cmplt_epi8`, a
comparison of signed bytes.  (`FORCE_SSE2` and `FORCE_ARM_NEON` are taken as not
defined; the NEON, word-packed and scalar alternatives compute the same index as
the scalar loops embedded here.) -/
structure build where
  sse2 : Bool
deriving DecidableEq, Repr

/-- The portable build: `__SSE2__` not defined. -/
def scalar_build : build := ⟨false⟩

/-- An x86-64 build: `__SSE2__` defined. -/
def sse2_build : build := ⟨true⟩

/-- Struct art_leaf: the value and the full key (`key_len` is `key.length`). -/
structure art_leaf where
  value : Option Nat
  key : List Nat
deriving DecidableEq, Repr

/-- Struct art_node, the header shared by all node sizes.  `partial_bytes` is
the member `partial[MAX_PREFIX_LEN]`; `num_children` is a `uint8_t`. -/
structure art_node where
  partial_len : Nat
  type : node_type
  num_children : Nat
  partial_bytes : List Nat
deriving DecidableEq, Repr

/-- The value of an `art_node*` slot. -/
inductive art_ref where
  | null : art_ref
  | leaf (l : art_leaf) : art_ref
  | inner (n : art_node) (keys : List Nat) (children : List art_ref)
      (me : Option art_leaf) : art_ref
deriving Repr

mutual
/-- Equality of slot values is decidable. -/
def art_ref.decEq : (a b : art_ref) → Decidable (a = b)
  | art_ref.null, art_ref.null => isTrue rfl
  | art_ref.leaf l1, art_ref.leaf l2 =>
    if h : l1 = l2 then isTrue (by rw [h])
    else isFalse (by intro e; cases e; exact h rfl)
  | art_ref.inner n1 k1 c1 m1, art_ref.inner n2 k2 c2 m2 =>
    if h1 : n1 = n2 ∧ k1 = k2 ∧ m1 = m2 then
      match art_ref.decEqList c1 c2 with
      | isTrue h2 => isTrue (by rw [h1.1, h1.2.1, h1.2.2, h2])
      | isFalse h2 => isFalse (by intro e; cases e; exact h2 rfl)
    else isFalse (by intro e; cases e; exact h1 ⟨rfl, rfl, rfl⟩)
  | art_ref.null, art_ref.leaf _ => isFalse (by intro e; cases e)
  | art_ref.null, art_ref.inner _ _ _ _ => isFalse (by intro e; cases e)
  | art_ref.leaf _, art_ref.null => isFalse (by intro e; cases e)
  | art_ref.leaf _, art_ref.inner _ _ _ _ => isFalse (by intro e; cases e)
  | art_ref.inner _ _ _ _, art_ref.null => isFalse (by intro e; cases e)
  | art_ref.inner _ _ _ _, art_ref.leaf _ => isFalse (by intro e; cases e)
termination_by structural a => a
/-- Equality of arrays of slot values is decidable. -/
def art_ref.decEqList : (a b : List art_ref) → Decidable (a = b)
  | [], [] => isTrue rfl
  | [], _ :: _ => isFalse (by intro e; cases e)
  | _ :: _, [] => isFalse (by intro e; cases e)
  | x :: xs, y :: ys =>
    match art_ref.decEq x y, art_ref.decEqList xs ys with
    | isTrue h1, isTrue h2 => isTrue (by rw [h1, h2])
    | isFalse h1, _ => isFalse (by intro e; cases e; exact h1 rfl)
    | _, isFalse h2 => isFalse (by intro e; cases e; exact h2 rfl)
termination_by structural a => a
end

instance : DecidableEq art_ref := art_ref.decEq

/-- One of art_node4, art_node16, art_node48, art_node256 (told apart by
`n.type`): header, `keys`, `children` and the own leaf `me`. -/
structure inner_node where
  n : art_node
  keys : List Nat
  children : List art_ref
  me : Option art_leaf
deriving DecidableEq, Repr

/-- The pointer to an inner node, as a slot value. -/
def inner_node.to_ref (x : inner_node) : art_ref :=
  art_ref.inner x.n x.keys x.children x.me

/-- Struct art_tree: root slot and the `size` counter. -/
structure art_tree where
  root : art_ref
  size : Nat
deriving DecidableEq, Repr

/-- The test `!p` on a slot value. -/
def art_ref.is_null : art_ref → Bool
  | art_ref.null => true
  | _ => false

/-- The macro IS_LEAF. -/
def IS_LEAF : art_ref → Bool
  | art_ref.leaf _ => true
  | _ => false

/-- The read `a[i]` of a byte array. -/
def byte_at (a : List Nat) (i : Nat) : Nat := a.getD i 0

/-- The read `a[i]` of an array of slots. -/
def slot_at (a : List art_ref) (i : Nat) : art_ref := a.getD i art_ref.null

/-- The effect of `memcpy(dst + doff, src + soff, cnt)` (and of `memmove`) on
`dst`; `src` is the source array as it was before the call. -/
def copy_bytes (dst : List Nat) (doff : Nat) (src : List Nat) (soff : Nat) :
    Nat → List Nat
  | 0 => dst
  | cnt + 1 =>
    (copy_bytes dst doff src soff cnt).set (doff + cnt) (byte_at src (soff + cnt))

/-- The effect of `memcpy`/`memmove` of `cnt` pointers on an array of slots. -/
def copy_slots (dst : List art_ref) (doff : Nat) (src : List art_ref) (soff : Nat) :
    Nat → List art_ref
  | 0 => dst
  | cnt + 1 =>
    (copy_slots dst doff src soff cnt).set (doff + cnt) (slot_at src (soff + cnt))

/-- The loop `for (; idx < max_cmp; idx++) if (differs idx) return idx;`
followed by `return idx`, shared by check_prefix, longest_common_prefix and
prefix_mismatch; it is entered at `idx` with `cnt = max_cmp - idx` rounds to
go. -/
def first_diff (differs : Nat → Bool) : Nat → Nat → Nat
  | 0, idx => idx
  | cnt + 1, idx => if differs idx then idx else first_diff differs cnt (idx + 1)

/-- The loop `for (; i < num; i++) if (hit i) return i;`, entered at `i` with
`cnt = num - i` rounds to go; `none` when it runs to the end. -/
def first_index (hit : Nat → Bool) : Nat → Nat → Option Nat
  | 0, _ => none
  | cnt + 1, i => if hit i then some i else first_index hit cnt (i + 1)

/-- The function alloc_node: a zeroed node of the given type. -/
def alloc_node (t : node_type) : inner_node :=
  { n := { partial_len := 0, type := t, num_children := 0,
           partial_bytes := List.replicate MAX_PREFIX_LEN 0 },
    keys := match t with
      | NODE4 => List.replicate 4 0
      | NODE16 => List.replicate 16 0
      | NODE48 => List.replicate 256 0
      | NODE256 => [],
    children := match t with
      | NODE4 => List.replicate 4 art_ref.null
      | NODE16 => List.replicate 16 art_ref.null
      | NODE48 => List.replicate 48 art_ref.null
      | NODE256 => List.replicate 256 art_ref.null,
    me := none }

/-- The function node_get_own_leaf. -/
def node_get_own_leaf (x : inner_node) : Option art_leaf := x.me

/-- The function node_set_own_leaf. -/
def node_set_own_leaf (x : inner_node) (l : Option art_leaf) : inner_node :=
  { x with me := l }

/-- The function art_tree_init. -/
def art_tree_init : art_tree := { root := art_ref.null, size := 0 }

/-- The function art_size. -/
def art_size (t : art_tree) : Nat := t.size

/-- The function find_child, returning the index of the slot it points to in
`children` (`none` for `NULL`).  For NODE4 and NODE16 every compile-time
alternative (the scalar loops, `word_has_byte` followed by `__builtin_ctz`, the
SSE2 / NEON equality compare masked by `num_children`) yields the first index
below `num_children` whose key equals `c`; that index is what is embedded. -/
def find_child (x : inner_node) (c : Nat) : Option Nat :=
  match x.n.type with
  | NODE4 => first_index (fun i => byte_at x.keys i == c) x.n.num_children 0
  | NODE16 => first_index (fun i => byte_at x.keys i == c) x.n.num_children 0
  | NODE48 =>
    let i := byte_at x.keys c
    if i ≠ 0 then some (i - 1) else none
  | NODE256 => if (slot_at x.children c).is_null then none else some c

/-- The function check_prefix. -/
def check_prefix (n : art_node) (key : List Nat) (depth : Nat) : Nat :=
  let max_cmp := min (min n.partial_len MAX_PREFIX_LEN) (key.length - depth)
  first_diff (fun idx => byte_at n.partial_bytes idx != byte_at key (depth + idx)) max_cmp 0

/-- The function leaf_matches: 0 when the leaf's key is `key`, non-zero (1)
otherwise. -/
def leaf_matches (l : art_leaf) (key : List Nat) (_depth : Nat) : Nat :=
  if l.key.length ≠ key.length then 1
  else if l.key = key then 0 else 1

mutual
/-- The loop of art_search, started at slot value `n` with `depth`. -/
def art_search_loop : art_ref → List Nat → Nat → Option Nat
  | art_ref.null, _, _ => none
  | art_ref.leaf l, key, depth =>
    if leaf_matches l key depth = 0 then l.value else none
  | art_ref.inner n keys children me, key, depth =>
    if n.partial_len ≠ 0 ∧ check_prefix n key depth ≠ min MAX_PREFIX_LEN n.partial_len then
      none
    else
      let depth := depth + n.partial_len
      if depth = key.length then
        match node_get_own_leaf ⟨n, keys, children, me⟩ with
        | some l => l.value
        | none => none
      else
        match find_child ⟨n, keys, children, me⟩ (byte_at key depth) with
        | some i => art_search_at children i key (depth + 1)
        | none => none
termination_by structural r => r
/-- The loop of art_search continued at `children[i]`. -/
def art_search_at : List art_ref → Nat → List Nat → Nat → Option Nat
  | [], _, _, _ => none
  | c :: _, 0, key, depth => art_search_loop c key depth
  | _ :: cs, i + 1, key, depth => art_search_at cs i key depth
termination_by structural cs => cs
end

/-- The function art_search. -/
def art_search (t : art_tree) (key : List Nat) : Option Nat :=
  art_search_loop t.root key 0

mutual
/-- The function minimum: the leaf the C code returns, `none` for `NULL` (and
where the `while` of the NODE48 / NODE256 case would run past the array). -/
def minimum : art_ref → Option art_leaf
  | art_ref.null => none
  | art_ref.leaf l => some l
  | art_ref.inner n keys children me =>
    match node_get_own_leaf ⟨n, keys, children, me⟩ with
    | some l => some l
    | none =>
      match n.type with
      | NODE4 => minimum_at children 0
      | NODE16 => minimum_at children 0
      | NODE48 =>
        match first_index (fun idx => byte_at keys idx != 0) 256 0 with
        | some idx => minimum_at children (byte_at keys idx - 1)
        | none => none
      | NODE256 =>
        match first_index (fun idx => !(slot_at children idx).is_null) 256 0 with
        | some idx => minimum_at children idx
        | none => none
termination_by structural r => r
/-- The call `minimum(children[i])`. -/
def minimum_at : List art_ref → Nat → Option art_leaf
  | [], _ => none
  | c :: _, 0 => minimum c
  | _ :: cs, i + 1 => minimum_at cs i
termination_by structural cs => cs
end

/-- The loop `idx = 255; while (!hit idx) idx--;` of maximum, `none` where it
would run below index 0. -/
def last_index (hit : Nat → Bool) : Nat → Option Nat
  | 0 => none
  | idx + 1 => if hit idx then some idx else last_index hit idx

mutual
/-- The function maximum.  With `num_children` zero the NODE4 / NODE16 case
reads `children[-1]`, which is not a slot of the array: the embedding follows no
pointer there and yields `none`. -/
def maximum : art_ref → Option art_leaf
  | art_ref.null => none
  | art_ref.leaf l => some l
  | art_ref.inner n keys children _ =>
    match n.type with
    | NODE4 => if n.num_children = 0 then none else maximum_at children (n.num_children - 1)
    | NODE16 => if n.num_children = 0 then none else maximum_at children (n.num_children - 1)
    | NODE48 =>
      match last_index (fun idx => byte_at keys idx != 0) 256 with
      | some idx => maximum_at children (byte_at keys idx - 1)
      | none => none
    | NODE256 =>
      match last_index (fun idx => !(slot_at children idx).is_null) 256 with
      | some idx => maximum_at children idx
      | none => none
termination_by structural r => r
/-- The call `maximum(children[i])`. -/
def maximum_at : List art_ref → Nat → Option art_leaf
  | [], _ => none
  | c :: _, 0 => maximum c
  | _ :: cs, i + 1 => maximum_at cs i
termination_by structural cs => cs
end

/-- The function art_minimum. -/
def art_minimum (t : art_tree) : Option art_leaf := minimum t.root

/-- The function art_maximum. -/
def art_maximum (t : art_tree) : Option art_leaf := maximum t.root

/-- The function make_leaf. -/
def make_leaf (key : List Nat) (value : Option Nat) : art_leaf :=
  { value := value, key := key }

/-- The function longest_common_prefix. -/
def longest_common_prefix (l1 l2 : art_leaf) (depth : Nat) : Nat :=
  let max_cmp := min l1.key.length l2.key.length - depth
  first_diff (fun idx => byte_at l1.key (depth + idx) != byte_at l2.key (depth + idx)) max_cmp 0

/-- The function copy_header. -/
def copy_header (dest src : art_node) : art_node :=
  { dest with
    num_children := src.num_children,
    partial_len := src.partial_len,
    partial_bytes :=
      copy_bytes dest.partial_bytes 0 src.partial_bytes 0 (min MAX_PREFIX_LEN src.partial_len) }

/-- The function add_child256; `num_children++` is on a `uint8_t`. -/
def add_child256 (x : inner_node) (c : Nat) (child : art_ref) : inner_node :=
  { x with
    n := { x.n with num_children := (x.n.num_children + 1) % 256 },
    children := x.children.set c child }

/-- The loop `for (i = 0; i < 256; i++) if (n->keys[i]) new_node->children[i] =
n->children[n->keys[i] - 1];` of add_child48, run from `i` for `cnt` rounds. -/
def grow48_children (x : inner_node) : Nat → Nat → List art_ref → List art_ref
  | 0, _, acc => acc
  | cnt + 1, i, acc =>
    grow48_children x cnt (i + 1)
      (if byte_at x.keys i ≠ 0 then acc.set i (slot_at x.children (byte_at x.keys i - 1))
       else acc)

/-- The function add_child48: the node that `*ref` holds afterwards. -/
def add_child48 (x : inner_node) (c : Nat) (child : art_ref) : inner_node :=
  if x.n.num_children < 48 then
    let pos := (first_index (fun p => (slot_at x.children p).is_null) 48 0).getD 48
    { x with
      children := x.children.set pos child,
      keys := x.keys.set c (pos + 1),
      n := { x.n with num_children := (x.n.num_children + 1) % 256 } }
  else
    let new_node := alloc_node NODE256
    add_child256
      { n := copy_header new_node.n x.n,
        keys := new_node.keys,
        children := grow48_children x 256 0 new_node.children,
        me := x.me } c child

/-- The comparison of `_mm_cmplt_epi8`: `c < k` on bytes read as signed. -/
def signed_lt (c k : Nat) : Bool := (c + 128) % 256 < (k + 128) % 256

/-- The loop `for (i = 0; i < 16; i++) new_node->keys[n->keys[i]] = i + 1;` of
add_child16, run from `i` for `cnt` rounds. -/
def grow16_keys (x : inner_node) : Nat → Nat → List Nat → List Nat
  | 0, _, acc => acc
  | cnt + 1, i, acc => grow16_keys x cnt (i + 1) (acc.set (byte_at x.keys i) (i + 1))

/-- The function add_child16: the node that `*ref` holds afterwards.  With
`__SSE2__` the insertion index is the first `idx < num_children` whose key is
above `c` as a signed byte, otherwise as an unsigned one. -/
def add_child16 (b : build) (x : inner_node) (c : Nat) (child : art_ref) : inner_node :=
  if x.n.num_children < 16 then
    let num := x.n.num_children
    let lt : Nat → Bool := fun idx =>
      if b.sse2 then signed_lt c (byte_at x.keys idx) else decide (c < byte_at x.keys idx)
    match first_index lt num 0 with
    | some idx =>
      { x with
        keys := (copy_bytes x.keys (idx + 1) x.keys idx (num - idx)).set idx c,
        children := (copy_slots x.children (idx + 1) x.children idx (num - idx)).set idx child,
        n := { x.n with num_children := (num + 1) % 256 } }
    | none =>
      { x with
        keys := x.keys.set num c,
        children := x.children.set num child,
        n := { x.n with num_children := (num + 1) % 256 } }
  else
    let new_node := alloc_node NODE48
    add_child48
      { n := copy_header new_node.n x.n,
        keys := grow16_keys x 16 0 new_node.keys,
        children := copy_slots new_node.children 0 x.children 0 16,
        me := x.me } c child

/-- The function add_child4: the node that `*ref` holds afterwards (the node
itself below capacity, the NODE16 that replaces it otherwise). -/
def add_child4 (b : build) (x : inner_node) (c : Nat) (child : art_ref) : inner_node :=
  if x.n.num_children < 4 then
    let num := x.n.num_children
    match first_index (fun idx => decide (c < byte_at x.keys idx)) num 0 with
    | some idx =>
      { x with
        keys := (copy_bytes x.keys (idx + 1) x.keys idx (num - idx)).set idx c,
        children := (copy_slots x.children (idx + 1) x.children idx (num - idx)).set idx child,
        n := { x.n with num_children := (num + 1) % 256 } }
    | none =>
      { x with
        keys := x.keys.set num c,
        children := x.children.set num child,
        n := { x.n with num_children := (num + 1) % 256 } }
  else
    let new_node := alloc_node NODE16
    add_child16 b
      { n := copy_header new_node.n x.n,
        keys := copy_bytes new_node.keys 0 x.keys 0 4,
        children := copy_slots new_node.children 0 x.children 0 4,
        me := x.me } c child

/-- The function add_child. -/
def add_child (b : build) (x : inner_node) (c : Nat) (child : art_ref) : inner_node :=
  match x.n.type with
  | NODE4 => add_child4 b x c child
  | NODE16 => add_child16 b x c child
  | NODE48 => add_child48 x c child
  | NODE256 => add_child256 x c child

/-- The leaf a `minimum` call returned; where C would read through `NULL` the
embedding reads a zeroed leaf (no key bytes, `NULL` value). -/
def leaf_of (l : Option art_leaf) : art_leaf :=
  match l with
  | some l => l
  | none => { value := none, key := [] }

/-- The function prefix_mismatch. -/
def prefix_mismatch (x : inner_node) (key : List Nat) (depth : Nat) : Nat :=
  let max_cmp := min (min MAX_PREFIX_LEN x.n.partial_len) (key.length - depth)
  let idx := first_diff
    (fun idx => byte_at x.n.partial_bytes idx != byte_at key (depth + idx)) max_cmp 0
  if idx < max_cmp then idx
  else if x.n.partial_len > MAX_PREFIX_LEN then
    let l := leaf_of (minimum x.to_ref)
    let max_cmp := min l.key.length key.length - depth
    first_diff (fun idx => byte_at l.key (idx + depth) != byte_at key (depth + idx)) (max_cmp - idx) idx
  else idx

/-- What a call of recursive_insert leaves behind: the value of `*ref`, the
returned `void*` and whether `*old` was set to 1. -/
structure insert_result where
  ref : art_ref
  ret : Option Nat
  old : Bool
deriving Repr

/-- The branch of recursive_insert that replaces a leaf `l` holding another key
by a NODE4: the value stored to `*ref`. -/
def split_leaf (b : build) (l : art_leaf) (key : List Nat) (value : Option Nat)
    (depth : Nat) : art_ref :=
  let new_node := alloc_node NODE4
  let l2 := make_leaf key value
  let longest := longest_common_prefix l l2 depth
  let new_node := { new_node with n := { new_node.n with partial_len := longest } }
  if longest ≠ 0 then
    let new_node := { new_node with n := { new_node.n with
      partial_bytes :=
        copy_bytes new_node.n.partial_bytes 0 key depth (min MAX_PREFIX_LEN longest) } }
    let new_node := add_child4 b new_node (byte_at l.key (depth + longest)) (art_ref.leaf l)
    let new_node := add_child4 b new_node (byte_at l2.key (depth + longest)) (art_ref.leaf l2)
    new_node.to_ref
  else if l.key.length = depth then
    let new_node := node_set_own_leaf new_node (some l)
    let new_node := add_child4 b new_node (byte_at l2.key (depth + longest)) (art_ref.leaf l2)
    new_node.to_ref
  else if l2.key.length = depth then
    let new_node := add_child4 b new_node (byte_at l.key (depth + longest)) (art_ref.leaf l)
    let new_node := node_set_own_leaf new_node (some l2)
    new_node.to_ref
  else
    let new_node := add_child4 b new_node (byte_at l.key (depth + longest)) (art_ref.leaf l)
    let new_node := add_child4 b new_node (byte_at l2.key (depth + longest)) (art_ref.leaf l2)
    new_node.to_ref

/-- The branch of recursive_insert that splits the inner node `x` at
`prefix_diff < partial_len`: the value stored to `*ref`. -/
def split_node (b : build) (x : inner_node) (key : List Nat) (value : Option Nat)
    (depth prefix_diff : Nat) : art_ref :=
  let new_node := alloc_node NODE4
  let new_node := { new_node with n := { new_node.n with
    partial_len := prefix_diff,
    partial_bytes :=
      copy_bytes new_node.n.partial_bytes 0 x.n.partial_bytes 0
        (min MAX_PREFIX_LEN prefix_diff) } }
  let new_node :=
    if x.n.partial_len ≤ MAX_PREFIX_LEN then
      let len := x.n.partial_len - (prefix_diff + 1)
      let x1 := { x with n := { x.n with
        partial_len := len,
        partial_bytes :=
          copy_bytes x.n.partial_bytes 0 x.n.partial_bytes (prefix_diff + 1)
            (min MAX_PREFIX_LEN len) } }
      add_child4 b new_node (byte_at x.n.partial_bytes prefix_diff) x1.to_ref
    else
      let len := x.n.partial_len - (prefix_diff + 1)
      let l := leaf_of (minimum x.to_ref)
      let x1 := { x with n := { x.n with
        partial_len := len,
        partial_bytes :=
          copy_bytes x.n.partial_bytes 0 l.key (depth + prefix_diff + 1)
            (min MAX_PREFIX_LEN len) } }
      add_child4 b new_node (byte_at l.key (depth + prefix_diff)) x1.to_ref
  let l := make_leaf key value
  if depth + prefix_diff < key.length then
    (add_child4 b new_node (byte_at key (depth + prefix_diff)) (art_ref.leaf l)).to_ref
  else
    (node_set_own_leaf new_node (some l)).to_ref

/-- The code at the label `update_node_own_leaf` of recursive_insert. -/
def update_node_own_leaf (x : inner_node) (key : List Nat) (value : Option Nat)
    (replace : Bool) : insert_result :=
  match node_get_own_leaf x with
  | some l =>
    { ref := (if replace then node_set_own_leaf x (some { l with value := value })
              else x).to_ref,
      ret := l.value, old := true }
  | none =>
    { ref := (node_set_own_leaf x (some (make_leaf key value))).to_ref,
      ret := none, old := false }

mutual
/-- The function recursive_insert on the slot value `n`. -/
def recursive_insert (b : build) :
    art_ref → List Nat → Option Nat → Nat → Bool → insert_result
  | art_ref.null, key, value, _, _ =>
    { ref := art_ref.leaf (make_leaf key value), ret := none, old := false }
  | art_ref.leaf l, key, value, depth, replace =>
    if leaf_matches l key depth = 0 then
      { ref := art_ref.leaf (if replace then { l with value := value } else l),
        ret := l.value, old := true }
    else
      { ref := split_leaf b l key value depth, ret := none, old := false }
  | art_ref.inner n keys children me, key, value, depth, replace =>
    if n.partial_len ≠ 0 ∧ prefix_mismatch ⟨n, keys, children, me⟩ key depth < n.partial_len then
      { ref := split_node b ⟨n, keys, children, me⟩ key value depth
                 (prefix_mismatch ⟨n, keys, children, me⟩ key depth),
        ret := none, old := false }
    else if n.partial_len = 0 ∧ depth = key.length then
      update_node_own_leaf ⟨n, keys, children, me⟩ key value replace
    else
      -- recurse_search, entered with `depth + partial_len`
      match find_child ⟨n, keys, children, me⟩ (byte_at key (depth + n.partial_len)) with
      | some i =>
        let r := recursive_insert_at b children i key value (depth + n.partial_len + 1) replace
        { ref := art_ref.inner n keys r.1 me, ret := r.2.1, old := r.2.2 }
      | none =>
        if depth + n.partial_len < key.length then
          { ref := (add_child b ⟨n, keys, children, me⟩ (byte_at key (depth + n.partial_len))
                     (art_ref.leaf (make_leaf key value))).to_ref,
            ret := none, old := false }
        else
          update_node_own_leaf ⟨n, keys, children, me⟩ key value replace
termination_by structural r => r
/-- The call `recursive_insert(children[i], &children[i], ..)`: the array
afterwards, the returned value and whether `*old` was set. -/
def recursive_insert_at (b : build) :
    List art_ref → Nat → List Nat → Option Nat → Nat → Bool →
      List art_ref × Option Nat × Bool
  | [], _, _, _, _, _ => ([], none, false)
  | c :: cs, 0, key, value, depth, replace =>
    let r := recursive_insert b c key value depth replace
    (r.ref :: cs, r.ret, r.old)
  | c :: cs, i + 1, key, value, depth, replace =>
    let r := recursive_insert_at b cs i key value depth replace
    (c :: r.1, r.2.1, r.2.2)
termination_by structural cs => cs
end

/-- The function art_insert: the tree afterwards and the returned value. -/
def art_insert (b : build) (t : art_tree) (key : List Nat) (value : Option Nat) :
    art_tree × Option Nat :=
  let r := recursive_insert b t.root key value 0 true
  ({ root := r.ref, size := if r.old then t.size else t.size + 1 }, r.ret)

/-- The function art_insert_no_replace: the tree afterwards and the returned
value. -/
def art_insert_no_replace (b : build) (t : art_tree) (key : List Nat) (value : Option Nat) :
    art_tree × Option Nat :=
  let r := recursive_insert b t.root key value 0 false
  ({ root := r.ref, size := if r.old then t.size else t.size + 1 }, r.ret)

/-- The loop `for (i = 0; i < 256; i++) if (n->children[i]) { new_node->
children[pos] = n->children[i]; new_node->keys[i] = pos + 1; pos++; }` of
remove_child256, run from `i` for `cnt` rounds on (`keys`, `children`, `pos`). -/
def shrink256_loop (x : inner_node) :
    Nat → Nat → List Nat × List art_ref × Nat → List Nat × List art_ref × Nat
  | 0, _, acc => acc
  | cnt + 1, i, acc =>
    shrink256_loop x cnt (i + 1)
      (if (slot_at x.children i).is_null then acc
       else (acc.1.set i (acc.2.2 + 1), acc.2.1.set acc.2.2 (slot_at x.children i),
             acc.2.2 + 1))

/-- The function remove_child256: the node that `*ref` holds afterwards. -/
def remove_child256 (x : inner_node) (c : Nat) : inner_node :=
  let x := { x with
    children := x.children.set c art_ref.null,
    n := { x.n with num_children := (x.n.num_children + 255) % 256 } }
  if x.n.num_children = 37 then
    let new_node := alloc_node NODE48
    let r := shrink256_loop x 256 0 (new_node.keys, new_node.children, 0)
    { n := copy_header new_node.n x.n, keys := r.1, children := r.2.1, me := x.me }
  else x

/-- The loop `for (i = 0; i < 256; i++) { pos = n->keys[i]; if (pos) {
new_node->keys[child] = i; new_node->children[child] = n->children[pos - 1];
child++; } }` of remove_child48, run from `i` for `cnt` rounds on (`keys`,
`children`, `child`). -/
def shrink48_loop (x : inner_node) :
    Nat → Nat → List Nat × List art_ref × Nat → List Nat × List art_ref × Nat
  | 0, _, acc => acc
  | cnt + 1, i, acc =>
    shrink48_loop x cnt (i + 1)
      (if byte_at x.keys i ≠ 0 then
         (acc.1.set acc.2.2 i, acc.2.1.set acc.2.2 (slot_at x.children (byte_at x.keys i - 1)),
          acc.2.2 + 1)
       else acc)

/-- The function remove_child48: the node that `*ref` holds afterwards.  (With
`keys[c]` zero the C code writes `children[-1]`; the embedding writes nothing.) -/
def remove_child48 (x : inner_node) (c : Nat) : inner_node :=
  let pos := byte_at x.keys c
  let x := { x with
    keys := x.keys.set c 0,
    children := if pos = 0 then x.children else x.children.set (pos - 1) art_ref.null,
    n := { x.n with num_children := (x.n.num_children + 255) % 256 } }
  if x.n.num_children = 12 then
    let new_node := alloc_node NODE16
    let r := shrink48_loop x 256 0 (new_node.keys, new_node.children, 0)
    { n := copy_header new_node.n x.n, keys := r.1, children := r.2.1, me := x.me }
  else x

/-- The function remove_child16, `pos` being the index `l - n->children` of
the slot: the node that `*ref` holds afterwards. -/
def remove_child16 (x : inner_node) (pos : Nat) : inner_node :=
  let num := x.n.num_children
  let x := { x with
    keys := copy_bytes x.keys pos x.keys (pos + 1) (num - 1 - pos),
    children := copy_slots x.children pos x.children (pos + 1) (num - 1 - pos),
    n := { x.n with num_children := (num + 255) % 256 } }
  if x.n.num_children = 3 then
    let new_node := alloc_node NODE4
    { n := copy_header new_node.n x.n,
      keys := copy_bytes new_node.keys 0 x.keys 0 4,
      children := copy_slots new_node.children 0 x.children 0 4,
      me := x.me }
  else x

/-- The function remove_child4 for a pointer `l` into `children`, `pos` being
the index `l - n->children` (the only kind of pointer recursive_delete passes;
for it `(art_node**)lp == l` is false): the value that `*ref` holds afterwards. -/
def remove_child4 (x : inner_node) (pos : Nat) : art_ref :=
  let num := x.n.num_children
  let nl : Option art_leaf := if pos < num then none else node_get_own_leaf x
  let x : inner_node :=
    if pos < num then
      { x with
        keys := copy_bytes x.keys pos x.keys (pos + 1) (num - 1 - pos),
        children := copy_slots x.children pos x.children (pos + 1) (num - 1 - pos),
        n := { x.n with num_children := (num + 255) % 256 } }
    else node_set_own_leaf x none
  if nl.isNone ∧ x.n.num_children = 1 then
    match slot_at x.children 0 with
    | art_ref.inner cn ckeys cchildren cme =>
      -- Concatenate the prefixes
      let pfx := x.n.partial_len
      let buf := x.n.partial_bytes
      let buf := if pfx < MAX_PREFIX_LEN then buf.set pfx (byte_at x.keys 0) else buf
      let pfx := if pfx < MAX_PREFIX_LEN then pfx + 1 else pfx
      let sub_len := min cn.partial_len (MAX_PREFIX_LEN - pfx)
      let buf := if pfx < MAX_PREFIX_LEN then copy_bytes buf pfx cn.partial_bytes 0 sub_len
                 else buf
      let pfx := if pfx < MAX_PREFIX_LEN then pfx + sub_len else pfx
      -- Store the prefix in the child
      art_ref.inner
        { cn with
          partial_bytes := copy_bytes cn.partial_bytes 0 buf 0 (min pfx MAX_PREFIX_LEN),
          partial_len := cn.partial_len + x.n.partial_len + 1 }
        ckeys cchildren cme
    | child => child
  else x.to_ref

/-- The function remove_child; `c` is the key byte and `pos` the index of the
slot `l` in `children`. -/
def remove_child (x : inner_node) (c : Nat) (pos : Nat) : art_ref :=
  match x.n.type with
  | NODE4 => remove_child4 x pos
  | NODE16 => (remove_child16 x pos).to_ref
  | NODE48 => (remove_child48 x c).to_ref
  | NODE256 => (remove_child256 x c).to_ref

mutual
/-- The function recursive_delete on the slot value `n`: the value that `*ref`
holds afterwards and the returned leaf. -/
def recursive_delete : art_ref → List Nat → Nat → art_ref × Option art_leaf
  | art_ref.null, _, _ => (art_ref.null, none)
  | art_ref.leaf l, key, depth =>
    if leaf_matches l key depth = 0 then (art_ref.null, some l)
    else (art_ref.leaf l, none)
  | art_ref.inner n keys children me, key, depth =>
    if n.partial_len ≠ 0 ∧ check_prefix n key depth ≠ min MAX_PREFIX_LEN n.partial_len then
      (art_ref.inner n keys children me, none)
    else if depth + n.partial_len = key.length then
      match node_get_own_leaf ⟨n, keys, children, me⟩ with
      | some l => ((node_set_own_leaf ⟨n, keys, children, me⟩ none).to_ref, some l)
      | none => (art_ref.inner n keys children me, none)
    else
      match find_child ⟨n, keys, children, me⟩ (byte_at key (depth + n.partial_len)) with
      | none => (art_ref.inner n keys children me, none)
      | some i =>
        match slot_at children i with
        | art_ref.leaf l =>
          if leaf_matches l key (depth + n.partial_len) = 0 then
            (remove_child ⟨n, keys, children, me⟩ (byte_at key (depth + n.partial_len)) i,
             some l)
          else (art_ref.inner n keys children me, none)
        | _ =>
          let r := recursive_delete_at children i key (depth + n.partial_len + 1)
          (art_ref.inner n keys r.1 me, r.2)
termination_by structural r => r
/-- The call `recursive_delete(children[i], &children[i], ..)`: the array
afterwards and the returned leaf. -/
def recursive_delete_at : List art_ref → Nat → List Nat → Nat →
    List art_ref × Option art_leaf
  | [], _, _, _ => ([], none)
  | c :: cs, 0, key, depth =>
    let r := recursive_delete c key depth
    (r.1 :: cs, r.2)
  | c :: cs, i + 1, key, depth =>
    let r := recursive_delete_at cs i key depth
    (c :: r.1, r.2)
termination_by structural cs => cs
end

/-- The function art_delete: the tree afterwards and the returned value. -/
def art_delete (t : art_tree) (key : List Nat) : art_tree × Option Nat :=
  match recursive_delete t.root key 0 with
  | (r, some l) => ({ root := r, size := t.size - 1 }, l.value)
  | (r, none) => ({ root := r, size := t.size }, none)

/-- The type art_callback: called with the `data` it may update, the key
(pointer and length) and the value, it returns an `int` and the new `data`. -/
abbrev art_callback (σ : Type) := σ → List Nat → Option Nat → Int × σ

/-- The loop `for (i = ..; i < .. + cnt; i++) { res = body(i); if (res) return
res; }` followed by `return 0`, as recursive_iter runs it over the slots. -/
def for_slots {σ : Type} (body : Nat → σ → Int × σ) : Nat → Nat → σ → Int × σ
  | 0, _, data => (0, data)
  | cnt + 1, i, data =>
    let r := body i data
    if r.1 ≠ 0 then r else for_slots body cnt (i + 1) r.2

mutual
/-- The function recursive_iter: its result and the `data` afterwards. -/
def recursive_iter {σ : Type} : art_ref → art_callback σ → σ → Int × σ
  | art_ref.null, _, data => (0, data)
  | art_ref.leaf l, cb, data => cb data l.key l.value
  | art_ref.inner n keys children _, cb, data =>
    match n.type with
    | NODE4 => for_slots (fun i d => recursive_iter_at children i cb d) n.num_children 0 data
    | NODE16 => for_slots (fun i d => recursive_iter_at children i cb d) n.num_children 0 data
    | NODE48 =>
      for_slots
        (fun i d =>
          if byte_at keys i = 0 then (0, d)
          else recursive_iter_at children (byte_at keys i - 1) cb d)
        256 0 data
    | NODE256 =>
      for_slots
        (fun i d =>
          if (slot_at children i).is_null then (0, d)
          else recursive_iter_at children i cb d)
        256 0 data
termination_by structural r => r
/-- The call `recursive_iter(children[i], cb, data)`. -/
def recursive_iter_at {σ : Type} : List art_ref → Nat → art_callback σ → σ → Int × σ
  | [], _, _, data => (0, data)
  | c :: _, 0, cb, data => recursive_iter c cb data
  | _ :: cs, i + 1, cb, data => recursive_iter_at cs i cb data
termination_by structural cs => cs
end

/-- The function art_iter. -/
def art_iter {σ : Type} (t : art_tree) (cb : art_callback σ) (data : σ) : Int × σ :=
  recursive_iter t.root cb data

/-- The function leaf_prefix_matches: 0 when the leaf's key starts with the
bytes of `pfx`, non-zero (1) otherwise. -/
def leaf_prefix_matches (l : art_leaf) (pfx : List Nat) : Nat :=
  if l.key.length < pfx.length then 1
  else if l.key.take pfx.length = pfx then 0 else 1

mutual
/-- The loop of art_iter_prefix, started at slot value `n` with `depth`. -/
def art_iter_prefix_loop {σ : Type} :
    art_ref → List Nat → Nat → art_callback σ → σ → Int × σ
  | art_ref.null, _, _, _, data => (0, data)
  | art_ref.leaf l, key, _, cb, data =>
    if leaf_prefix_matches l key = 0 then cb data l.key l.value else (0, data)
  | art_ref.inner n keys children me, key, depth, cb, data =>
    if depth = key.length then
      if leaf_prefix_matches (leaf_of (minimum (art_ref.inner n keys children me))) key = 0 then
        recursive_iter (art_ref.inner n keys children me) cb data
      else (0, data)
    else if n.partial_len ≠ 0 ∧
        min (prefix_mismatch ⟨n, keys, children, me⟩ key depth) n.partial_len = 0 then
      (0, data)
    else if n.partial_len ≠ 0 ∧
        depth + min (prefix_mismatch ⟨n, keys, children, me⟩ key depth) n.partial_len
          = key.length then
      recursive_iter (art_ref.inner n keys children me) cb data
    else
      match find_child ⟨n, keys, children, me⟩ (byte_at key (depth + n.partial_len)) with
      | some i => art_iter_prefix_at children i key (depth + n.partial_len + 1) cb data
      | none => (0, data)
termination_by structural r => r
/-- The loop of art_iter_prefix continued at `children[i]`. -/
def art_iter_prefix_at {σ : Type} :
    List art_ref → Nat → List Nat → Nat → art_callback σ → σ → Int × σ
  | [], _, _, _, _, data => (0, data)
  | c :: _, 0, key, depth, cb, data => art_iter_prefix_loop c key depth cb data
  | _ :: cs, i + 1, key, depth, cb, data => art_iter_prefix_at cs i key depth cb data
termination_by structural cs => cs
end

/-- The function art_iter_prefix. -/
def art_iter_prefix {σ : Type} (t : art_tree) (key : List Nat) (cb : art_callback σ)
    (data : σ) : Int × σ :=
  art_iter_prefix_loop t.root key 0 cb data

/-- The calls `art_tree_init` and then `art_insert` of every (key, value) of
the list, in list order. -/
def insert_all (b : build) (kvs : List (List Nat × Option Nat)) : art_tree :=
  kvs.foldl (fun t kv => (art_insert b t kv.1 kv.2).1) art_tree_init

/-- The calls `art_delete` of every key of the list, in list order, on `t`. -/
def delete_all (t : art_tree) (keys : List (List Nat)) : art_tree :=
  keys.foldl (fun t k => (art_delete t k).1) t

mutual
/-- The function destroy_node: the leaves it frees, in the order of the calls
of `free` (the children as the loops reach them, then the own leaf). -/
def destroy_node : art_ref → List art_leaf
  | art_ref.null => []
  | art_ref.leaf l => [l]
  | art_ref.inner n keys children me =>
    (match n.type with
     | NODE4 => (List.range n.num_children).flatMap (fun i => destroy_node_at children i)
     | NODE16 => (List.range n.num_children).flatMap (fun i => destroy_node_at children i)
     | NODE48 =>
       (List.range 256).flatMap (fun i =>
         if byte_at keys i = 0 then [] else destroy_node_at children (byte_at keys i - 1))
     | NODE256 =>
       (List.range 256).flatMap (fun i =>
         if (slot_at children i).is_null then [] else destroy_node_at children i))
    ++ (match node_get_own_leaf ⟨n, keys, children, me⟩ with
        | some l => [l]
        | none => [])
termination_by structural r => r
/-- The call `destroy_node(children[i])`. -/
def destroy_node_at : List art_ref → Nat → List art_leaf
  | [], _ => []
  | c :: _, 0 => destroy_node c
  | _ :: cs, i + 1 => destroy_node_at cs i
termination_by structural cs => cs
end

/-- The inner node a slot points to (`none` for `NULL` and for a leaf). -/
def as_inner : art_ref → Option inner_node
  | art_ref.inner n keys children me => some ⟨n, keys, children, me⟩
  | _ => none

/-- The number of populated slots of a node's child map: the bytes for which
find_child returns a slot. -/
def populated (x : inner_node) : Nat :=
  ((List.range 256).filter (fun c => (find_child x c).isSome)).length

/-- The bytes `keys[0..num_children)` of a NODE4 / NODE16 are strictly
increasing as unsigned bytes. -/
def keys_increasing (x : inner_node) : Prop :=
  (x.keys.take x.n.num_children).Pairwise (fun a b => a < b)

instance (x : inner_node) : Decidable (keys_increasing x) := by
  unfold keys_increasing; infer_instance

/-- The NODE48 condition in the words of the specification: for every byte `b`
with `keys[b] = s` not 0 the slot `children[s - 1]` is not `NULL`, and every slot
of `children` that is not `NULL` is referenced by exactly one `keys[b]`. -/
def node48_slots_referenced (x : inner_node) : Prop :=
  (∀ b < 256, byte_at x.keys b ≠ 0 →
      (slot_at x.children (byte_at x.keys b - 1)).is_null = false) ∧
  (∀ s < 48, (slot_at x.children s).is_null = false →
      ((List.range 256).filter (fun b => byte_at x.keys b == s + 1)).length = 1)

instance (x : inner_node) : Decidable (node48_slots_referenced x) := by
  unfold node48_slots_referenced; infer_instance

/-- The keys "abc\0" -> 100, "abc" -> 200 and "abc\x01" -> 1, ..,
"abc\x0f" -> 15: 17 distinct keys. -/
def keys17 : List (List Nat × Option Nat) :=
  [([97, 98, 99, 0], some 100), ([97, 98, 99], some 200)] ++
    (List.range 15).map (fun i => ([97, 98, 99, i + 1], some (i + 1)))

/-- The 256 one-byte keys [0] -> 0, .., [255] -> 255. -/
def all_single_byte_keys : List (List Nat × Option Nat) :=
  (List.range 256).map (fun i => ([i], some i))

/-- The own leaf of the inner node a slot points to (`none` for `NULL` and for
a leaf). -/
def own_leaf_of : art_ref → Option art_leaf
  | art_ref.inner n keys children me => node_get_own_leaf ⟨n, keys, children, me⟩
  | _ => none

/-- A callback that always returns 0 and appends the key and the value it is
called with to `data`. -/
def record_cb : art_callback (List (List Nat × Option Nat)) :=
  fun data key value => (0, data ++ [(key, value)])

/-- The callback `cb` made to keep, next to its `data`, the results of all its
calls so far, oldest first. -/
def logged {σ : Type} (cb : art_callback σ) : art_callback (σ × List Int) :=
  fun d key value =>
    ((cb d.1 key value).1, ((cb d.1 key value).2, d.2 ++ [(cb d.1 key value).1]))

/-- A run `f` under the logging callback returns what the run `g` under the
plain callback returns, leaves the same `data`, and appends to the log some
zeros followed, when the result is not 0, by the result and nothing more. -/
def stops_early {σ : Type} (f : σ × List Int → Int × (σ × List Int))
    (g : σ → Int × σ) : Prop :=
  ∀ d log, (f (d, log)).1 = (g d).1 ∧ (f (d, log)).2.1 = (g d).2 ∧
    ∃ k, (f (d, log)).2.2 =
      log ++ (List.replicate k 0 ++ if (g d).1 = 0 then [] else [(g d).1])

/-- The child stored for byte `c`: what `*find_child(n, c)` is, `NULL` when
find_child returns `NULL`. -/
def child_of (x : inner_node) (c : Nat) : art_ref :=
  match find_child x c with
  | some i => slot_at x.children i
  | none => art_ref.null

/-- A NODE4 (`cap` 4) or NODE16 (`cap` 16) is well formed: the arrays have
their declared length, `num_children` is within it, and the keys of the
`num_children` slots in use are bytes, pairwise distinct, with slots that are
not `NULL`. -/
def flat_ok (cap : Nat) (x : inner_node) : Prop :=
  x.keys.length = cap ∧ x.children.length = cap ∧ x.n.num_children ≤ cap ∧
  (∀ i < x.n.num_children,
    byte_at x.keys i < 256 ∧ (slot_at x.children i).is_null = false) ∧
  (∀ i < x.n.num_children, ∀ j < x.n.num_children,
    byte_at x.keys i = byte_at x.keys j → i = j)

/-- A NODE48 is well formed: the arrays have their declared length,
`num_children` counts the bytes with a non-zero `keys` entry and also the slots
of `children` that are not `NULL`, every non-zero `keys[b]` is at most 48 and
refers to a slot that is not `NULL`, and no two bytes refer to the same slot. -/
def node48_ok (x : inner_node) : Prop :=
  x.keys.length = 256 ∧ x.children.length = 48 ∧
  x.n.num_children = ((List.range 256).filter (fun b => byte_at x.keys b != 0)).length ∧
  x.n.num_children = ((List.range 48).filter (fun s => !(slot_at x.children s).is_null)).length ∧
  (∀ b < 256, byte_at x.keys b ≠ 0 →
    byte_at x.keys b ≤ 48 ∧ (slot_at x.children (byte_at x.keys b - 1)).is_null = false) ∧
  (∀ b < 256, ∀ b' < 256, byte_at x.keys b ≠ 0 →
    byte_at x.keys b = byte_at x.keys b' → b = b')

/-- A NODE256 is well formed: `children` has 256 slots and the 8-bit
`num_children` is the number of slots that are not `NULL`, modulo 256. -/
def node256_ok (x : inner_node) : Prop :=
  x.children.length = 256 ∧
  x.n.num_children =
    ((List.range 256).filter (fun c => !(slot_at x.children c).is_null)).length % 256

/-- An inner node is well formed for its type. -/
def node_ok (x : inner_node) : Prop :=
  match x.n.type with
  | NODE4 => flat_ok 4 x
  | NODE16 => flat_ok 16 x
  | NODE48 => node48_ok x
  | NODE256 => node256_ok x

instance (cap : Nat) (x : inner_node) : Decidable (flat_ok cap x) := by
  unfold flat_ok; infer_instance

instance (x : inner_node) : Decidable (node48_ok x) := by
  unfold node48_ok; infer_instance

instance (x : inner_node) : Decidable (node256_ok x) := by
  unfold node256_ok; infer_instance

instance (x : inner_node) : Decidable (node_ok x) := by
  unfold node_ok; split <;> infer_instance

/-- The in-place branch of add_child4 / add_child16 with insertion index `p`:
the keys and children from `p` on move up by one and (`c`, `child`) is written
at `p`. -/
def flat_insert (x : inner_node) (p c : Nat) (child : art_ref) : inner_node :=
  { x with
    keys := (copy_bytes x.keys (p + 1) x.keys p (x.n.num_children - p)).set p c,
    children :=
      (copy_slots x.children (p + 1) x.children p (x.n.num_children - p)).set p child,
    n := { x.n with num_children := (x.n.num_children + 1) % 256 } }

/-- The NODE16 that add_child4 builds from a full NODE4 before adding the new
child to it. -/
def grow4 (x : inner_node) : inner_node :=
  { n := copy_header (alloc_node NODE16).n x.n,
    keys := copy_bytes (alloc_node NODE16).keys 0 x.keys 0 4,
    children := copy_slots (alloc_node NODE16).children 0 x.children 0 4,
    me := x.me }

/-- The NODE48 that add_child16 builds from a full NODE16 before adding the new
child to it. -/
def grow16 (x : inner_node) : inner_node :=
  { n := copy_header (alloc_node NODE48).n x.n,
    keys := grow16_keys x 16 0 (alloc_node NODE48).keys,
    children := copy_slots (alloc_node NODE48).children 0 x.children 0 16,
    me := x.me }

/-- The NODE256 that add_child48 builds from a full NODE48 before adding the
new child to it. -/
def grow48 (x : inner_node) : inner_node :=
  { n := copy_header (alloc_node NODE256).n x.n,
    keys := (alloc_node NODE256).keys,
    children := grow48_children x 256 0 (alloc_node NODE256).children,
    me := x.me }

/-- The number of indices below `n` at which `p` holds. -/
def count_below (p : Nat → Bool) (n : Nat) : Nat := ((List.range n).filter p).length

/-- The in-place part of remove_child4 / remove_child16 for the slot at index
`pos`: the keys and children after `pos` move down by one and `num_children`
is decremented. -/
def flat_remove (x : inner_node) (pos : Nat) : inner_node :=
  { x with
    keys := copy_bytes x.keys pos x.keys (pos + 1) (x.n.num_children - 1 - pos),
    children := copy_slots x.children pos x.children (pos + 1) (x.n.num_children - 1 - pos),
    n := { x.n with num_children := (x.n.num_children + 255) % 256 } }

/-- The NODE4 that remove_child16 builds from a NODE16 left with 3 children. -/
def shrink16 (x : inner_node) : inner_node :=
  { n := copy_header (alloc_node NODE4).n x.n,
    keys := copy_bytes (alloc_node NODE4).keys 0 x.keys 0 4,
    children := copy_slots (alloc_node NODE4).children 0 x.children 0 4,
    me := x.me }

/-- The in-place part of remove_child48 for the byte `c`. -/
def clear48 (x : inner_node) (c : Nat) : inner_node :=
  { x with
    keys := x.keys.set c 0,
    children :=
      if byte_at x.keys c = 0 then x.children
      else x.children.set (byte_at x.keys c - 1) art_ref.null,
    n := { x.n with num_children := (x.n.num_children + 255) % 256 } }

/-- The NODE16 that remove_child48 builds from a NODE48 left with 12 children. -/
def shrink48 (x : inner_node) : inner_node :=
  { n := copy_header (alloc_node NODE16).n x.n,
    keys := (shrink48_loop x 256 0
      ((alloc_node NODE16).keys, (alloc_node NODE16).children, 0)).1,
    children := (shrink48_loop x 256 0
      ((alloc_node NODE16).keys, (alloc_node NODE16).children, 0)).2.1,
    me := x.me }

/-- The in-place part of remove_child256 for the byte `c`. -/
def clear256 (x : inner_node) (c : Nat) : inner_node :=
  { x with
    children := x.children.set c art_ref.null,
    n := { x.n with num_children := (x.n.num_children + 255) % 256 } }

/-- The NODE48 that remove_child256 builds from a NODE256 left with 37
children. -/
def shrink256 (x : inner_node) : inner_node :=
  { n := copy_header (alloc_node NODE48).n x.n,
    keys := (shrink256_loop x 256 0
      ((alloc_node NODE48).keys, (alloc_node NODE48).children, 0)).1,
    children := (shrink256_loop x 256 0
      ((alloc_node NODE48).keys, (alloc_node NODE48).children, 0)).2.1,
    me := x.me }

/-- The branch of remove_child4 for a node `x` left with one child and no own
leaf: a leaf child replaces the node as it is, an inner child replaces it after
taking over the concatenated prefix. -/
def collapse4 (x : inner_node) : art_ref :=
  match slot_at x.children 0 with
  | art_ref.inner cn ckeys cchildren cme =>
    let pfx := x.n.partial_len
    let buf := x.n.partial_bytes
    let buf := if pfx < MAX_PREFIX_LEN then buf.set pfx (byte_at x.keys 0) else buf
    let pfx := if pfx < MAX_PREFIX_LEN then pfx + 1 else pfx
    let sub_len := min cn.partial_len (MAX_PREFIX_LEN - pfx)
    let buf := if pfx < MAX_PREFIX_LEN then copy_bytes buf pfx cn.partial_bytes 0 sub_len
               else buf
    let pfx := if pfx < MAX_PREFIX_LEN then pfx + sub_len else pfx
    art_ref.inner
      { cn with
        partial_bytes := copy_bytes cn.partial_bytes 0 buf 0 (min pfx MAX_PREFIX_LEN),
        partial_len := cn.partial_len + x.n.partial_len + 1 }
      ckeys cchildren cme
  | child => child

/-- Every inner node among the children of `x` is well formed. -/
def children_ok (x : inner_node) : Prop :=
  ∀ c < 256, ∀ z ∈ as_inner (child_of x c), node_ok z

instance (x : inner_node) : Decidable (children_ok x) := by
  unfold children_ok; infer_instance

/-- A NODE4 with the three leaf children "a", "b" and "c". -/
def three_leaves : inner_node :=
  add_child scalar_build
    (add_child scalar_build
      (add_child scalar_build (alloc_node NODE4) 97 (art_ref.leaf (make_leaf [97] (some 1))))
      98 (art_ref.leaf (make_leaf [98] (some 2))))
    99 (art_ref.leaf (make_leaf [99] (some 3)))

/-- The condition of the specification on the inline prefix of a node `x` at
depth `d`: among the leaves of the subtree (those destroy_node reaches) there is
one with the smallest key, and `partial[0..min(partial_len, 10))` is the bytes
`d .. d + min(partial_len, 10)` of that key. -/
def partial_is_min_leaf_bytes (d : Nat) (x : inner_node) : Prop :=
  ∃ l ∈ destroy_node x.to_ref,
    (∀ m ∈ destroy_node x.to_ref, l.key ≤ m.key) ∧
    x.n.partial_bytes.take (min x.n.partial_len MAX_PREFIX_LEN) =
      (l.key.drop d).take (min x.n.partial_len MAX_PREFIX_LEN)

instance (d : Nat) (x : inner_node) : Decidable (partial_is_min_leaf_bytes d x) := by
  unfold partial_is_min_leaf_bytes; infer_instance

/-- The number of slots of `children` that are not `NULL`, over the whole
array. -/
def slots_in_use (x : inner_node) : Nat :=
  ((List.range x.children.length).filter (fun s => !(slot_at x.children s).is_null)).length

/-- The header of `y` carries what copy_header and the copy of `me` take over
from `x`: `partial_len`, the inline bytes `partial[0..min(10, partial_len))` and
the own leaf. -/
def same_header (y x : inner_node) : Prop :=
  y.n.partial_len = x.n.partial_len ∧ y.me = x.me ∧
  ∀ i < min MAX_PREFIX_LEN x.n.partial_len,
    byte_at y.n.partial_bytes i = byte_at x.n.partial_bytes i

instance (y x : inner_node) : Decidable (same_header y x) := by
  unfold same_header; infer_instance

/-- The growth table of the specification: the variant after add_child on `x`. -/
def variant_after_add (x : inner_node) : node_type :=
  match x.n.type with
  | NODE4 => if x.n.num_children = 4 then NODE16 else NODE4
  | NODE16 => if x.n.num_children = 16 then NODE48 else NODE16
  | NODE48 => if x.n.num_children = 48 then NODE256 else NODE48
  | NODE256 => NODE256

/-- The shrink table of the specification for NODE16, NODE48 and NODE256: the
variant after remove_child on `x`, `populated x - 1` being the count the removal
brings the node to. -/
def variant_after_remove (x : inner_node) : node_type :=
  match x.n.type with
  | NODE4 => NODE4
  | NODE16 => if populated x - 1 = 3 then NODE4 else NODE16
  | NODE48 => if populated x - 1 = 12 then NODE16 else NODE48
  | NODE256 => if populated x - 1 = 37 then NODE48 else NODE256

/-- A NODE4 with the four leaf children "a", "b", "c" and "d". -/
def four_leaves : inner_node :=
  add_child scalar_build three_leaves 100 (art_ref.leaf (make_leaf [100] (some 4)))

/-- A NODE16 with the five leaf children "a", "b", "c", "d" and "e". -/
def five_leaves : inner_node :=
  add_child scalar_build four_leaves 101 (art_ref.leaf (make_leaf [101] (some 5)))

/-- A NODE16 with the four leaf children "b", "c", "d" and "e": what
remove_child16 leaves of the node with the five leaves when slot 0 goes. -/
def four_in_sixteen : inner_node := remove_child16 five_leaves 0

/-- The root after inserting "zza1x", "zza1y" and "zzb": a NODE4 with prefix
"zz" whose child under 'a' is a NODE4 with prefix "1" and whose child under 'b'
is the leaf "zzb". -/
def prefixed_pair : inner_node :=
  { n := { partial_len := 2, type := NODE4, num_children := 2,
           partial_bytes := [122, 122, 0, 0, 0, 0, 0, 0, 0, 0] },
    keys := [97, 98, 0, 0],
    children :=
      [art_ref.inner
         { partial_len := 1, type := NODE4, num_children := 2,
           partial_bytes := [49, 122, 97, 49, 0, 0, 0, 0, 0, 0] }
         [120, 121, 0, 0]
         [art_ref.leaf { value := some 1, key := [122, 122, 97, 49, 120] },
          art_ref.leaf { value := some 2, key := [122, 122, 97, 49, 121] },
          art_ref.null, art_ref.null]
         none,
       art_ref.leaf { value := some 3, key := [122, 122, 98] },
       art_ref.null, art_ref.null],
    me := none }

/-- The NODE4 that recursive_insert allocates when it splits the inner node `x`
at `prefix_diff`, before any child is added: `partial_len` is `prefix_diff` and
the inline prefix is the first `min(10, prefix_diff)` bytes of that of `x`. -/
def split_parent (x : inner_node) (prefix_diff : Nat) : inner_node :=
  { alloc_node NODE4 with
    n := { (alloc_node NODE4).n with
      partial_len := prefix_diff,
      partial_bytes :=
        copy_bytes (alloc_node NODE4).n.partial_bytes 0 x.n.partial_bytes 0
          (min MAX_PREFIX_LEN prefix_diff) } }

/-- The byte under which the split puts the node `x`: `n->partial[prefix_diff]`
for a prefix that fits inline, `l->key[depth + prefix_diff]` of the minimum
leaf otherwise. -/
def split_byte (x : inner_node) (depth prefix_diff : Nat) : Nat :=
  if x.n.partial_len ≤ MAX_PREFIX_LEN then byte_at x.n.partial_bytes prefix_diff
  else byte_at (leaf_of (minimum x.to_ref)).key (depth + prefix_diff)

/-- The node `x` as the split leaves it: `partial_len` is cut by `prefix_diff + 1`
and the inline prefix is moved down (`memmove`) or fetched again from the
minimum leaf. -/
def split_child (x : inner_node) (depth prefix_diff : Nat) : inner_node :=
  { x with n := { x.n with
      partial_len := x.n.partial_len - (prefix_diff + 1),
      partial_bytes :=
        if x.n.partial_len ≤ MAX_PREFIX_LEN then
          copy_bytes x.n.partial_bytes 0 x.n.partial_bytes (prefix_diff + 1)
            (min MAX_PREFIX_LEN (x.n.partial_len - (prefix_diff + 1)))
        else
          copy_bytes x.n.partial_bytes 0 (leaf_of (minimum x.to_ref)).key
            (depth + prefix_diff + 1)
            (min MAX_PREFIX_LEN (x.n.partial_len - (prefix_diff + 1))) } }

/-- The key "foobarbaz1-test1-foo" of scenario S3. -/
def s3_key1 : List Nat :=
  [102, 111, 111, 98, 97, 114, 98, 97, 122, 49, 45, 116, 101, 115, 116, 49, 45, 102, 111, 111]

/-- The key "foobarbaz1-test1-bar" of scenario S3. -/
def s3_key2 : List Nat :=
  [102, 111, 111, 98, 97, 114, 98, 97, 122, 49, 45, 116, 101, 115, 116, 49, 45, 98, 97, 114]

/-- The key "foobarbaz1-test2-foo" of scenario S3. -/
def s3_key3 : List Nat :=
  [102, 111, 111, 98, 97, 114, 98, 97, 122, 49, 45, 116, 101, 115, 116, 50, 45, 102, 111, 111]

/-- The root after the first two inserts of scenario S3: a NODE4 whose prefix
"foobarbaz1-test1-" has the true length 17, with the two leaves under 'b' and
'f'. -/
def s3_root : inner_node :=
  { n := { partial_len := 17, type := NODE4, num_children := 2,
           partial_bytes := [102, 111, 111, 98, 97, 114, 98, 97, 122, 49] },
    keys := [98, 102, 0, 0],
    children :=
      [art_ref.leaf { value := some 2, key := s3_key2 },
       art_ref.leaf { value := some 1, key := s3_key1 },
       art_ref.null, art_ref.null],
    me := none }

/-- The indices `depth + idx` of the reads `key[depth+idx]` that check_prefix
makes: one per round of its loop, the round that returns early included. -/
def check_prefix_reads (n : art_node) (key : List Nat) (depth : Nat) : List Nat :=
  let max_cmp := min (min n.partial_len MAX_PREFIX_LEN) (key.length - depth)
  (List.range (min ( check_prefix n key depth + 1) max_cmp)).map (fun idx => depth + idx)

mutual
/-- The indices `i` of the reads `key[i]` that the loop of art_search makes
itself, in the order of the reads: those of check_prefix and the read
`key[depth]` in the argument of find_child.  (The `memcmp` of leaf_matches is
called with the length `key_len`, and only when the leaf's key has that length;
it is not listed.) -/
def art_search_reads : art_ref → List Nat → Nat → List Nat
  | art_ref.null, _, _ => []
  | art_ref.leaf _, _, _ => []
  | art_ref.inner n keys children me, key, depth =>
    let cmp := if n.partial_len ≠ 0 then check_prefix_reads n key depth else []
    if n.partial_len ≠ 0 ∧ check_prefix n key depth ≠ min MAX_PREFIX_LEN n.partial_len then
      cmp
    else
      let depth := depth + n.partial_len
      if depth = key.length then cmp
      else
        match find_child ⟨n, keys, children, me⟩ (byte_at key depth) with
        | some i => cmp ++ depth :: art_search_reads_at children i key (depth + 1)
        | none => cmp ++ [depth]
termination_by structural r => r
/-- The reads of the loop of art_search continued at `children[i]`. -/
def art_search_reads_at : List art_ref → Nat → List Nat → Nat → List Nat
  | [], _, _, _ => []
  | c :: _, 0, key, depth => art_search_reads c key depth
  | _ :: cs, i + 1, key, depth => art_search_reads_at cs i key depth
termination_by structural cs => cs
end

/-- The function word_has_byte for the `uint32_t` word `v`, the byte `c` and
the `uint32_t` count `num`.  `0x01010101UL` is an `unsigned long` and `~0ULL` an
`unsigned long long`, of 64 bits each: the right-hand side of the first line is
computed modulo 2^64 and stored to the 32-bit `v`; in the second line `~v` is
the complement of the 32-bit `v`, the subtraction is modulo 2^64 and the result
is returned as a `uint32_t`. -/
def word_has_byte (v c num : Nat) : Nat :=
  let v := ((v ^^^ ((0x01010101 * c) % 2 ^ 64)) |||
    (((2 ^ 64 - 1) <<< ((num <<< 3) % 2 ^ 32)) % 2 ^ 64)) % 2 ^ 32
  ((((v + 2 ^ 64 - 0x01010101) % 2 ^ 64) &&& (2 ^ 32 - 1 - v)) &&& 0x80808080) % 2 ^ 32

/-- The builtin `__builtin_ctz` on a 32-bit value: the number of trailing zero
bits (32 for 0, where the builtin is undefined). -/
def ctz (x : Nat) : Nat := (first_index (fun i => x.testBit i) 32 0).getD 32

/-- The value of `*(uint32_t*)p->keys` on a little-endian machine. -/
def word_of_keys (keys : List Nat) : Nat :=
  byte_at keys 0 + 256 * byte_at keys 1 + 65536 * byte_at keys 2 + 16777216 * byte_at keys 3

/-- The NODE4 case of find_child as compiled with a 32-bit `int` and without
`FORCE_SSE2` / `FORCE_ARM_NEON`: the index of the slot returned, `none` when the
code falls through to `return NULL`. -/
def find_child4_word (keys : List Nat) (c num : Nat) : Option Nat :=
  let bitfield := word_has_byte (word_of_keys keys) c num
  if bitfield ≠ 0 then some (ctz bitfield >>> 3) else none

/-- Four bytes as a 32-bit word, lowest byte first. -/
def pack4 (b0 b1 b2 b3 : Nat) : Nat := 256 * (256 * (256 * b3 + b2) + b1) + b0

/-- The leaves below a slot value: `has_leaf r l` holds when the leaf `l` is
`r` itself or is reached from the inner node `r` through child slots that
find_child returns.  Own leaves are not counted. -/
inductive has_leaf : art_ref → art_leaf → Prop
  | here (l : art_leaf) : has_leaf (art_ref.leaf l) l
  | under (n : art_node) (keys : List Nat) (children : List art_ref) (me : Option art_leaf)
      (c : Nat) (l : art_leaf) :
      has_leaf (child_of ⟨n, keys, children, me⟩ c) l →
      has_leaf (art_ref.inner n keys children me) l

/-- The least number of children a node of each type has in a tree built by
recursive_insert and recursive_delete from keys none of which is a prefix of
another: a NODE4 is created with 2 children and replaced by its child when it
is left with 1, a NODE16 becomes a NODE4 at 3, a NODE48 a NODE16 at 12 and a
NODE256 a NODE48 at 37. -/
def min_children (t : node_type) : Nat :=
  match t with
  | NODE4 => 2
  | NODE16 => 4
  | NODE48 => 13
  | NODE256 => 38

/-- The subtree below the slot value `r`, entered at `depth`, is a radix tree
over keys none of which ends at an inner node: every inner node is well formed
for its type, has no own leaf and at least `min_children` children; its
compressed prefix is a byte string `P` of length `partial_len` whose first
`min(10, partial_len)` bytes are stored inline; and every leaf below the child
for byte `c` has the bytes `P` at `depth ..` followed by `c`. -/
inductive radix_ok : Nat → art_ref → Prop
  | leaf (d : Nat) (l : art_leaf) : d ≤ l.key.length → radix_ok d (art_ref.leaf l)
  | inner (d : Nat) (n : art_node) (keys : List Nat) (children : List art_ref)
      (me : Option art_leaf) (P : List Nat) :
      node_ok ⟨n, keys, children, me⟩ →
      me = none →
      n.partial_bytes.length = MAX_PREFIX_LEN →
      min_children n.type ≤ populated ⟨n, keys, children, me⟩ →
      P.length = n.partial_len →
      (∀ i < min MAX_PREFIX_LEN n.partial_len, byte_at n.partial_bytes i = byte_at P i) →
      (∀ c, (child_of ⟨n, keys, children, me⟩ c).is_null = false →
        radix_ok (d + n.partial_len + 1) (child_of ⟨n, keys, children, me⟩ c)) →
      (∀ c l, has_leaf (child_of ⟨n, keys, children, me⟩ c) l →
        byte_at l.key (d + n.partial_len) = c ∧
        ∀ i < n.partial_len, byte_at l.key (d + i) = byte_at P i) →
      radix_ok d (art_ref.inner n keys children me)

/-- Two keys differ at an index that both have: neither is a prefix of the
other. -/
def keys_differ (a b : List Nat) : Prop :=
  ∃ j, j < a.length ∧ j < b.length ∧ byte_at a j ≠ byte_at b j

/-- The NODE4 that recursive_insert allocates when it replaces a leaf, before
any child is added: `partial_len` is `longest` and the inline prefix is the
first `min(10, longest)` bytes of the key from `depth` on. -/
def split_leaf_parent (key : List Nat) (depth longest : Nat) : inner_node :=
  { alloc_node NODE4 with
    n := { (alloc_node NODE4).n with
      partial_len := longest,
      partial_bytes :=
        copy_bytes (alloc_node NODE4).n.partial_bytes 0 key depth
          (min MAX_PREFIX_LEN longest) } }

/-- The tree `t` holds exactly the keys and values of the list `m`: `size` is
the length of `m`, the root is `NULL` or a radix tree entered at depth 0, and the
leaves below the root are the pairs of `m`. -/
def tree_holds (t : art_tree) (m : List (List Nat × Option Nat)) : Prop :=
  t.size = m.length ∧
  (t.root = art_ref.null ∨ radix_ok 0 t.root) ∧
  ∀ l, has_leaf t.root l ↔ (l.key, l.value) ∈ m

/-- The inner nodes of the tree below a slot value: `has_inner r x` holds when
`x` is the inner node `r` points to or is reached from it through child slots
that find_child returns. -/
inductive has_inner : art_ref → inner_node → Prop
  | here (n : art_node) (keys : List Nat) (children : List art_ref) (me : Option art_leaf) :
      has_inner (art_ref.inner n keys children me) ⟨n, keys, children, me⟩
  | under (n : art_node) (keys : List Nat) (children : List art_ref) (me : Option art_leaf)
      (c : Nat) (y : inner_node) :
      has_inner (child_of ⟨n, keys, children, me⟩ c) y →
      has_inner (art_ref.inner n keys children me) y

/-- A call of one of the three functions of art.c that change a tree, with its
key (pointer and length) and, for the inserts, its value. -/
inductive art_op where
  | insert (key : List Nat) (value : Option Nat)
  | insert_no_replace (key : List Nat) (value : Option Nat)
  | delete (key : List Nat)
deriving DecidableEq, Repr

/-- The key of a call. -/
def art_op.key : art_op → List Nat
  | art_op.insert key _ => key
  | art_op.insert_no_replace key _ => key
  | art_op.delete key => key

/-- The tree after the call `op` on the tree `t`. -/
def apply_op (b : build) (t : art_tree) : art_op → art_tree
  | art_op.insert key value => (art_insert b t key value).1
  | art_op.insert_no_replace key value => (art_insert_no_replace b t key value).1
  | art_op.delete key => (art_delete t key).1

/-- The tree after `art_tree_init` and the calls of the list, in list order. -/
def run_ops (b : build) (ops : List art_op) : art_tree :=
  ops.foldl (apply_op b) art_tree_init

/-- A sequence of calls on the C strings "ab", "ac", "b", "ad" and "c" (with
their terminating 0): four inserts, one of them of a key that is there, and
two deletes, one of them of a key that is not there. -/
def reached_ops : List art_op :=
  [art_op.insert [97, 98, 0] (some 1), art_op.insert [97, 99, 0] (some 2),
   art_op.insert [98, 0] (some 3), art_op.insert_no_replace [97, 98, 0] (some 9),
   art_op.insert [97, 100, 0] (some 4), art_op.delete [97, 99, 0], art_op.delete [99, 0]]

/-- The NODE4 under byte 'a' of the root after the calls of `reached_ops`,
with the leaves "ab" and "ad" and a leftover copy of the slot of "ad" beyond
`num_children`. -/
def reached_node : inner_node :=
  { n := { partial_len := 0, type := NODE4, num_children := 2,
           partial_bytes := [97, 0, 0, 0, 0, 0, 0, 0, 0, 0] },
    keys := [98, 100, 100, 0],
    children :=
      [art_ref.leaf { value := some 1, key := [97, 98, 0] },
       art_ref.leaf { value := some 4, key := [97, 100, 0] },
       art_ref.leaf { value := some 4, key := [97, 100, 0] },
       art_ref.null],
    me := none }

/-! ## Lemmas on the iteration loops -/

theorem stops_early_skip {σ : Type} :
    stops_early (fun s : σ × List Int => ((0 : Int), s)) (fun d => (0, d)) := by
  intro d log
  exact ⟨rfl, rfl, 0, by simp⟩

theorem stops_early_call {σ : Type} (cb : art_callback σ) (key : List Nat) (value : Option Nat) :
    stops_early (fun s => logged cb s key value) (fun d => cb d key value) := by
  intro d log
  refine ⟨rfl, rfl, ?_⟩
  by_cases h : (cb d key value).1 = 0
  · exact ⟨1, by simp [logged, h]⟩
  · exact ⟨0, by simp [logged, h]⟩

theorem for_slots_stop {σ : Type} (body : Nat → σ → Int × σ) (cnt i : Nat) (d : σ)
    (h : (body i d).1 ≠ 0) : for_slots body (cnt + 1) i d = body i d := by
  simp [for_slots, h]

theorem for_slots_go {σ : Type} (body : Nat → σ → Int × σ) (cnt i : Nat) (d : σ)
    (h : (body i d).1 = 0) :
    for_slots body (cnt + 1) i d = for_slots body cnt (i + 1) (body i d).2 := by
  simp [for_slots, h]

theorem stops_early_for_slots {σ : Type} (bodyL : Nat → σ × List Int → Int × (σ × List Int))
    (body : Nat → σ → Int × σ) (h : ∀ i, stops_early (bodyL i) (body i)) :
    ∀ cnt i, stops_early (for_slots bodyL cnt i) (for_slots body cnt i) := by
  intro cnt
  induction cnt with
  | zero => intro i d log; exact ⟨rfl, rfl, 0, by simp [for_slots]⟩
  | succ cnt ih =>
    intro i d log
    obtain ⟨h1, h2, k, h3⟩ := h i d log
    by_cases hz : (body i d).1 = 0
    · have hz' : (bodyL i (d, log)).1 = 0 := by rw [h1, hz]
      obtain ⟨g1, g2, k', g3⟩ := ih (i + 1) (body i d).2 (log ++ List.replicate k 0)
      have hs : (bodyL i (d, log)).2 = ((body i d).2, log ++ List.replicate k 0) := by
        apply Prod.ext
        · exact h2
        · rw [h3, if_pos hz]; simp
      rw [for_slots_go bodyL cnt i (d, log) hz', for_slots_go body cnt i d hz, hs]
      refine ⟨g1, g2, k + k', ?_⟩
      rw [g3, List.replicate_add]
      simp only [List.append_assoc]
    · have hz' : (bodyL i (d, log)).1 ≠ 0 := by rw [h1]; exact hz
      rw [for_slots_stop bodyL cnt i (d, log) hz', for_slots_stop body cnt i d hz]
      exact ⟨h1, h2, k, h3⟩

mutual
theorem stops_early_recursive_iter {σ : Type} (cb : art_callback σ) :
    ∀ r : art_ref, stops_early (recursive_iter r (logged cb)) (recursive_iter r cb)
  | art_ref.null => by
    intro d log; exact ⟨rfl, rfl, 0, by simp [recursive_iter]⟩
  | art_ref.leaf l => by
    have := stops_early_call cb l.key l.value
    intro d log
    simpa [recursive_iter] using this d log
  | art_ref.inner n keys children me => by
    have hat := fun i => stops_early_recursive_iter_at cb children i
    cases ht : n.type
    · have := stops_early_for_slots _ _ hat n.num_children 0
      intro d log
      simpa [recursive_iter, ht] using this d log
    · have := stops_early_for_slots _ _ hat n.num_children 0
      intro d log
      simpa [recursive_iter, ht] using this d log
    · have hb : ∀ i, stops_early
          (fun s => if byte_at keys i = 0 then ((0 : Int), s)
            else recursive_iter_at children (byte_at keys i - 1) (logged cb) s)
          (fun d => if byte_at keys i = 0 then ((0 : Int), d)
            else recursive_iter_at children (byte_at keys i - 1) cb d) := by
        intro i
        by_cases hk : byte_at keys i = 0
        · simpa [hk] using (stops_early_skip (σ := σ))
        · simpa [hk] using hat (byte_at keys i - 1)
      have := stops_early_for_slots _ _ hb 256 0
      intro d log
      simpa [recursive_iter, ht] using this d log
    · have hb : ∀ i, stops_early
          (fun s => if (slot_at children i).is_null then ((0 : Int), s)
            else recursive_iter_at children i (logged cb) s)
          (fun d => if (slot_at children i).is_null then ((0 : Int), d)
            else recursive_iter_at children i cb d) := by
        intro i
        by_cases hk : (slot_at children i).is_null
        · simpa [hk] using (stops_early_skip (σ := σ))
        · simpa [hk] using hat i
      have := stops_early_for_slots _ _ hb 256 0
      intro d log
      simpa [recursive_iter, ht] using this d log
theorem stops_early_recursive_iter_at {σ : Type} (cb : art_callback σ) :
    ∀ (cs : List art_ref) (i : Nat),
      stops_early (recursive_iter_at cs i (logged cb)) (recursive_iter_at cs i cb)
  | [], _ => by
    intro d log; exact ⟨rfl, rfl, 0, by simp [recursive_iter_at]⟩
  | c :: _, 0 => by
    have := stops_early_recursive_iter cb c
    intro d log
    simpa [recursive_iter_at] using this d log
  | _ :: cs, i + 1 => by
    have := stops_early_recursive_iter_at cb cs i
    intro d log
    simpa [recursive_iter_at] using this d log
end

mutual
theorem stops_early_iter_prefix_loop {σ : Type} (cb : art_callback σ) (key : List Nat) :
    ∀ (r : art_ref) (depth : Nat),
      stops_early (art_iter_prefix_loop r key depth (logged cb))
        (art_iter_prefix_loop r key depth cb)
  | art_ref.null, _ => by
    intro d log; exact ⟨rfl, rfl, 0, by simp [art_iter_prefix_loop]⟩
  | art_ref.leaf l, _ => by
    intro d log
    by_cases h : leaf_prefix_matches l key = 0
    · simp only [art_iter_prefix_loop, if_pos h]
      exact stops_early_call cb l.key l.value d log
    · simp only [art_iter_prefix_loop, if_neg h]
      exact ⟨trivial, trivial, 0, by simp⟩
  | art_ref.inner n keys children me, depth => by
    intro d log
    have hit := stops_early_recursive_iter cb (art_ref.inner n keys children me) d log
    have hat := fun i =>
      stops_early_iter_prefix_at cb key children i (depth + n.partial_len + 1) d log
    by_cases h1 : depth = key.length
    · by_cases h2 :
          leaf_prefix_matches (leaf_of (minimum (art_ref.inner n keys children me))) key = 0
      · simp only [art_iter_prefix_loop, if_pos h1, if_pos h2]
        exact hit
      · simp only [art_iter_prefix_loop, if_pos h1, if_neg h2]
        exact ⟨trivial, trivial, 0, by simp⟩
    · by_cases h3 : n.partial_len ≠ 0 ∧
          min (prefix_mismatch ⟨n, keys, children, me⟩ key depth) n.partial_len = 0
      · simp only [art_iter_prefix_loop, if_neg h1, if_pos h3]
        exact ⟨trivial, trivial, 0, by simp⟩
      · by_cases h4 : n.partial_len ≠ 0 ∧
            depth + min (prefix_mismatch ⟨n, keys, children, me⟩ key depth) n.partial_len
              = key.length
        · simp only [art_iter_prefix_loop, if_neg h1, if_neg h3, if_pos h4]
          exact hit
        · cases hf : find_child ⟨n, keys, children, me⟩ (byte_at key (depth + n.partial_len)) with
          | none =>
            simp only [art_iter_prefix_loop, if_neg h1, if_neg h3, if_neg h4, hf]
            exact ⟨trivial, trivial, 0, by simp⟩
          | some i =>
            simp only [art_iter_prefix_loop, if_neg h1, if_neg h3, if_neg h4, hf]
            exact hat i
theorem stops_early_iter_prefix_at {σ : Type} (cb : art_callback σ) (key : List Nat) :
    ∀ (cs : List art_ref) (i depth : Nat),
      stops_early (art_iter_prefix_at cs i key depth (logged cb))
        (art_iter_prefix_at cs i key depth cb)
  | [], _, _ => by
    intro d log; exact ⟨rfl, rfl, 0, by simp [art_iter_prefix_at]⟩
  | c :: _, 0, depth => by
    intro d log
    simpa [art_iter_prefix_at] using stops_early_iter_prefix_loop cb key c depth d log
  | _ :: cs, i + 1, depth => by
    intro d log
    simpa [art_iter_prefix_at] using stops_early_iter_prefix_at cb key cs i depth d log
end


/-! ## Lemmas on the node operations -/

/-! ## Lemmas on arrays and loops -/

theorem byte_at_set (l : List Nat) (i v j : Nat) :
    byte_at (l.set i v) j = if i = j ∧ j < l.length then v else byte_at l j := by
  unfold byte_at
  rw [List.getD_eq_getElem?_getD, List.getD_eq_getElem?_getD, List.getElem?_set]
  by_cases h : i = j
  · subst h
    by_cases h2 : i < l.length
    · simp [h2]
    · simp [h2, List.getElem?_eq_none (Nat.le_of_not_lt h2)]
  · simp [h]

theorem slot_at_set (l : List art_ref) (i : Nat) (v : art_ref) (j : Nat) :
    slot_at (l.set i v) j = if i = j ∧ j < l.length then v else slot_at l j := by
  unfold slot_at
  rw [List.getD_eq_getElem?_getD, List.getD_eq_getElem?_getD, List.getElem?_set]
  by_cases h : i = j
  · subst h
    by_cases h2 : i < l.length
    · simp [h2]
    · simp [h2, List.getElem?_eq_none (Nat.le_of_not_lt h2)]
  · simp [h]

theorem copy_bytes_length (dst : List Nat) (doff : Nat) (src : List Nat) (soff cnt : Nat) :
    (copy_bytes dst doff src soff cnt).length = dst.length := by
  induction cnt with
  | zero => rfl
  | succ cnt ih => simp [copy_bytes, ih]

theorem copy_slots_length (dst : List art_ref) (doff : Nat) (src : List art_ref)
    (soff cnt : Nat) : (copy_slots dst doff src soff cnt).length = dst.length := by
  induction cnt with
  | zero => rfl
  | succ cnt ih => simp [copy_slots, ih]

theorem byte_at_copy_bytes (dst : List Nat) (doff : Nat) (src : List Nat) (soff cnt j : Nat) :
    byte_at (copy_bytes dst doff src soff cnt) j =
      if doff ≤ j ∧ j < doff + cnt ∧ j < dst.length then byte_at src (soff + (j - doff))
      else byte_at dst j := by
  induction cnt with
  | zero =>
    have : ¬ (doff ≤ j ∧ j < doff + 0 ∧ j < dst.length) := by omega
    rw [if_neg this]; rfl
  | succ cnt ih =>
    rw [copy_bytes, byte_at_set, copy_bytes_length, ih]
    by_cases h1 : doff + cnt = j
    · subst h1
      by_cases h2 : doff + cnt < dst.length
      · simp [h2]
      · simp [h2]
    · by_cases h3 : doff ≤ j ∧ j < doff + cnt ∧ j < dst.length
      · have : doff ≤ j ∧ j < doff + (cnt + 1) ∧ j < dst.length := ⟨h3.1, by omega, h3.2.2⟩
        simp [h1, h3, this]
      · have : ¬ (doff ≤ j ∧ j < doff + (cnt + 1) ∧ j < dst.length) := by
          intro h; apply h3; exact ⟨h.1, by omega, h.2.2⟩
        simp [h1, h3, this]

theorem slot_at_copy_slots (dst : List art_ref) (doff : Nat) (src : List art_ref)
    (soff cnt j : Nat) :
    slot_at (copy_slots dst doff src soff cnt) j =
      if doff ≤ j ∧ j < doff + cnt ∧ j < dst.length then slot_at src (soff + (j - doff))
      else slot_at dst j := by
  induction cnt with
  | zero =>
    have : ¬ (doff ≤ j ∧ j < doff + 0 ∧ j < dst.length) := by omega
    rw [if_neg this]; rfl
  | succ cnt ih =>
    rw [copy_slots, slot_at_set, copy_slots_length, ih]
    by_cases h1 : doff + cnt = j
    · subst h1
      by_cases h2 : doff + cnt < dst.length
      · simp [h2]
      · simp [h2]
    · by_cases h3 : doff ≤ j ∧ j < doff + cnt ∧ j < dst.length
      · have : doff ≤ j ∧ j < doff + (cnt + 1) ∧ j < dst.length := ⟨h3.1, by omega, h3.2.2⟩
        simp [h1, h3, this]
      · have : ¬ (doff ≤ j ∧ j < doff + (cnt + 1) ∧ j < dst.length) := by
          intro h; apply h3; exact ⟨h.1, by omega, h.2.2⟩
        simp [h1, h3, this]

theorem first_index_some {hit : Nat → Bool} {cnt i j : Nat}
    (h : first_index hit cnt i = some j) :
    i ≤ j ∧ j < i + cnt ∧ hit j = true ∧ ∀ k, i ≤ k → k < j → hit k = false := by
  induction cnt generalizing i with
  | zero => simp [first_index] at h
  | succ cnt ih =>
    rw [first_index] at h
    by_cases hi : hit i = true
    · rw [if_pos hi] at h
      cases h
      exact ⟨Nat.le_refl _, by omega, hi, fun k h1 h2 => by omega⟩
    · rw [if_neg hi] at h
      obtain ⟨h1, h2, h3, h4⟩ := ih h
      refine ⟨by omega, by omega, h3, fun k hk1 hk2 => ?_⟩
      by_cases hk : k = i
      · subst hk; simpa using hi
      · exact h4 k (by omega) hk2

theorem first_index_none {hit : Nat → Bool} {cnt i : Nat}
    (h : first_index hit cnt i = none) : ∀ k, i ≤ k → k < i + cnt → hit k = false := by
  induction cnt generalizing i with
  | zero => intro k h1 h2; omega
  | succ cnt ih =>
    rw [first_index] at h
    by_cases hi : hit i = true
    · rw [if_pos hi] at h; cases h
    · rw [if_neg hi] at h
      intro k hk1 hk2
      by_cases hk : k = i
      · subst hk; simpa using hi
      · exact ih h k (by omega) (by omega)

theorem first_index_exists {hit : Nat → Bool} {cnt i k : Nat}
    (h1 : i ≤ k) (h2 : k < i + cnt) (h3 : hit k = true) :
    ∃ j, first_index hit cnt i = some j := by
  cases h : first_index hit cnt i with
  | some j => exact ⟨j, rfl⟩
  | none => rw [first_index_none h k h1 h2] at h3; cases h3

/-! ## NODE4 and NODE16: adding a child in place -/

theorem find_child_flat (x : inner_node) (c : Nat)
    (ht : x.n.type = NODE4 ∨ x.n.type = NODE16) :
    find_child x c = first_index (fun i => byte_at x.keys i == c) x.n.num_children 0 := by
  unfold find_child
  rcases ht with h | h <;> rw [h]

theorem find_child_flat_some {x : inner_node} {c i : Nat}
    (ht : x.n.type = NODE4 ∨ x.n.type = NODE16) (h : find_child x c = some i) :
    i < x.n.num_children ∧ byte_at x.keys i = c := by
  rw [find_child_flat x c ht] at h
  obtain ⟨_, h2, h3, _⟩ := first_index_some h
  exact ⟨by omega, by simpa using h3⟩

theorem find_child_flat_none {x : inner_node} {c : Nat}
    (ht : x.n.type = NODE4 ∨ x.n.type = NODE16) (h : find_child x c = none) :
    ∀ i < x.n.num_children, byte_at x.keys i ≠ c := by
  rw [find_child_flat x c ht] at h
  intro i hi
  have := first_index_none h i (Nat.zero_le _) (by omega)
  simpa using this

theorem find_child_flat_isSome (x : inner_node) (c : Nat)
    (ht : x.n.type = NODE4 ∨ x.n.type = NODE16) :
    (find_child x c).isSome = true ↔ ∃ i < x.n.num_children, byte_at x.keys i = c := by
  constructor
  · intro h
    obtain ⟨i, hi⟩ := Option.isSome_iff_exists.mp h
    exact ⟨i, find_child_flat_some ht hi⟩
  · rintro ⟨i, hi, hc⟩
    rw [find_child_flat x c ht]
    obtain ⟨j, hj⟩ := @first_index_exists (fun i => byte_at x.keys i == c)
      x.n.num_children 0 i (Nat.zero_le i) (by omega) (by simpa using hc)
    rw [hj]; rfl

theorem flat_insert_keys (x : inner_node) (p c : Nat) (child : art_ref) (j : Nat)
    (hp : p ≤ x.n.num_children) (hn : x.n.num_children < x.keys.length) :
    byte_at (flat_insert x p c child).keys j =
      if j < p then byte_at x.keys j
      else if j = p then c
      else if j ≤ x.n.num_children then byte_at x.keys (j - 1)
      else byte_at x.keys j := by
  unfold flat_insert
  simp only
  rw [byte_at_set, copy_bytes_length, byte_at_copy_bytes]
  by_cases h1 : j < p
  · have a1 : ¬ (p = j ∧ j < x.keys.length) := by omega
    have a2 : ¬ (p + 1 ≤ j ∧ j < p + 1 + (x.n.num_children - p) ∧ j < x.keys.length) := by omega
    rw [if_neg a1, if_neg a2, if_pos h1]
  · by_cases h2 : j = p
    · have a1 : p = j ∧ j < x.keys.length := by omega
      rw [if_pos a1, if_neg h1, if_pos h2]
    · have a1 : ¬ (p = j ∧ j < x.keys.length) := by omega
      rw [if_neg a1, if_neg h1, if_neg h2]
      by_cases h3 : j ≤ x.n.num_children
      · have a2 : p + 1 ≤ j ∧ j < p + 1 + (x.n.num_children - p) ∧ j < x.keys.length := by
          omega
        rw [if_pos a2, if_pos h3]
        congr 1; omega
      · have a2 : ¬ (p + 1 ≤ j ∧ j < p + 1 + (x.n.num_children - p) ∧ j < x.keys.length) := by
          omega
        rw [if_neg a2, if_neg h3]

theorem flat_insert_children (x : inner_node) (p c : Nat) (child : art_ref) (j : Nat)
    (hp : p ≤ x.n.num_children) (hn : x.n.num_children < x.children.length) :
    slot_at (flat_insert x p c child).children j =
      if j < p then slot_at x.children j
      else if j = p then child
      else if j ≤ x.n.num_children then slot_at x.children (j - 1)
      else slot_at x.children j := by
  unfold flat_insert
  simp only
  rw [slot_at_set, copy_slots_length, slot_at_copy_slots]
  by_cases h1 : j < p
  · have a1 : ¬ (p = j ∧ j < x.children.length) := by omega
    have a2 : ¬ (p + 1 ≤ j ∧ j < p + 1 + (x.n.num_children - p) ∧ j < x.children.length) := by
      omega
    rw [if_neg a1, if_neg a2, if_pos h1]
  · by_cases h2 : j = p
    · have a1 : p = j ∧ j < x.children.length := by omega
      rw [if_pos a1, if_neg h1, if_pos h2]
    · have a1 : ¬ (p = j ∧ j < x.children.length) := by omega
      rw [if_neg a1, if_neg h1, if_neg h2]
      by_cases h3 : j ≤ x.n.num_children
      · have a2 : p + 1 ≤ j ∧ j < p + 1 + (x.n.num_children - p) ∧ j < x.children.length := by
          omega
        rw [if_pos a2, if_pos h3]
        congr 1; omega
      · have a2 : ¬ (p + 1 ≤ j ∧ j < p + 1 + (x.n.num_children - p) ∧
            j < x.children.length) := by omega
        rw [if_neg a2, if_neg h3]

theorem flat_insert_ok (cap : Nat) (x : inner_node) (p c : Nat) (child : art_ref)
    (hx : flat_ok cap x) (hcap : cap ≤ 16) (hn : x.n.num_children < cap)
    (hp : p ≤ x.n.num_children) (hc : c < 256)
    (habs : ∀ i < x.n.num_children, byte_at x.keys i ≠ c)
    (hchild : child.is_null = false) :
    flat_ok cap (flat_insert x p c child) := by
  obtain ⟨hk, hch, hle, hby, hinj⟩ := hx
  have hnum : (flat_insert x p c child).n.num_children = x.n.num_children + 1 := by
    show (x.n.num_children + 1) % 256 = _
    omega
  have hkl : x.n.num_children < x.keys.length := by omega
  have hcl : x.n.num_children < x.children.length := by omega
  have key_eq : ∀ j, j < x.n.num_children + 1 → j ≠ p →
      byte_at (flat_insert x p c child).keys j
        = byte_at x.keys (if j < p then j else j - 1) := by
    intro j hj hjp
    rw [flat_insert_keys x p c child j hp hkl]
    by_cases h1 : j < p
    · rw [if_pos h1, if_pos h1]
    · rw [if_neg h1, if_neg hjp, if_pos (by omega), if_neg h1]
  refine ⟨?_, ?_, ?_, ?_, ?_⟩
  · show ((copy_bytes x.keys (p + 1) x.keys p (x.n.num_children - p)).set p c).length = cap
    rw [List.length_set, copy_bytes_length, hk]
  · show ((copy_slots x.children (p + 1) x.children p (x.n.num_children - p)).set p
        child).length = cap
    rw [List.length_set, copy_slots_length, hch]
  · rw [hnum]; omega
  · intro i hi
    rw [hnum] at hi
    by_cases hip : i = p
    · subst hip
      rw [flat_insert_keys x i c child i hp hkl, flat_insert_children x i c child i hp hcl]
      simp [hc, hchild]
    · rw [key_eq i hi hip, flat_insert_children x p c child i hp hcl]
      by_cases h1 : i < p
      · rw [if_pos h1, if_pos h1]
        exact hby i (by omega)
      · rw [if_neg h1, if_neg h1, if_neg hip, if_pos (by omega)]
        exact hby (i - 1) (by omega)
  · intro i hi j hj heq
    rw [hnum] at hi hj
    by_cases hip : i = p
    · by_cases hjp : j = p
      · omega
      · exfalso
        rw [hip, flat_insert_keys x p c child p hp hkl, key_eq j hj hjp] at heq
        simp only [Nat.lt_irrefl, if_false, if_true] at heq
        exact habs _ (by split <;> omega) heq.symm
    · by_cases hjp : j = p
      · exfalso
        rw [hjp, flat_insert_keys x p c child p hp hkl, key_eq i hi hip] at heq
        simp only [Nat.lt_irrefl, if_false, if_true] at heq
        exact habs _ (by split <;> omega) heq
      · rw [key_eq i hi hip, key_eq j hj hjp] at heq
        have := hinj _ (by split <;> omega) _ (by split <;> omega) heq
        split at this <;> split at this <;> omega

theorem child_of_flat_at {cap : Nat} {x : inner_node}
    (ht : x.n.type = NODE4 ∨ x.n.type = NODE16) (hx : flat_ok cap x) {i : Nat}
    (hi : i < x.n.num_children) : child_of x (byte_at x.keys i) = slot_at x.children i := by
  have hs : (find_child x (byte_at x.keys i)).isSome = true :=
    (find_child_flat_isSome x _ ht).2 ⟨i, hi, rfl⟩
  obtain ⟨j, hj⟩ := Option.isSome_iff_exists.mp hs
  obtain ⟨hj1, hj2⟩ := find_child_flat_some ht hj
  have : j = i := hx.2.2.2.2 j hj1 i hi hj2
  unfold child_of
  rw [hj, this]

theorem child_of_flat_absent {x : inner_node} {c : Nat}
    (ht : x.n.type = NODE4 ∨ x.n.type = NODE16)
    (h : ∀ i < x.n.num_children, byte_at x.keys i ≠ c) : child_of x c = art_ref.null := by
  cases hf : find_child x c with
  | none => unfold child_of; rw [hf]
  | some i =>
    obtain ⟨h1, h2⟩ := find_child_flat_some ht hf
    exact absurd h2 (h i h1)

theorem flat_insert_child_of (cap : Nat) (x : inner_node) (p c : Nat) (child : art_ref)
    (ht : x.n.type = NODE4 ∨ x.n.type = NODE16)
    (hx : flat_ok cap x) (hcap : cap ≤ 16) (hn : x.n.num_children < cap)
    (hp : p ≤ x.n.num_children) (hc : c < 256)
    (habs : ∀ i < x.n.num_children, byte_at x.keys i ≠ c)
    (hchild : child.is_null = false) (c' : Nat) :
    child_of (flat_insert x p c child) c' = if c' = c then child else child_of x c' := by
  have hy := flat_insert_ok cap x p c child hx hcap hn hp hc habs hchild
  have hty : (flat_insert x p c child).n.type = NODE4 ∨
      (flat_insert x p c child).n.type = NODE16 := ht
  obtain ⟨hk, hch, hle, hby, hinj⟩ := hx
  have hnum : (flat_insert x p c child).n.num_children = x.n.num_children + 1 := by
    show (x.n.num_children + 1) % 256 = _
    omega
  have hkl : x.n.num_children < x.keys.length := by omega
  have hcl : x.n.num_children < x.children.length := by omega
  by_cases hcc : c' = c
  · rw [if_pos hcc, hcc]
    have h1 := child_of_flat_at hty hy (i := p) (by rw [hnum]; omega)
    rw [flat_insert_keys x p c child p hp hkl, flat_insert_children x p c child p hp hcl] at h1
    simpa using h1
  · rw [if_neg hcc]
    by_cases hex : ∃ i < x.n.num_children, byte_at x.keys i = c'
    · obtain ⟨i, hi, hic⟩ := hex
      have hx' : flat_ok cap x := ⟨hk, hch, hle, hby, hinj⟩
      have h0 := child_of_flat_at ht hx' hi
      rw [hic] at h0
      rw [h0]
      by_cases hip : i < p
      · have h1 := child_of_flat_at hty hy (i := i) (by rw [hnum]; omega)
        rw [flat_insert_keys x p c child i hp hkl, flat_insert_children x p c child i hp hcl,
          if_pos hip, if_pos hip, hic] at h1
        exact h1
      · have h1 := child_of_flat_at hty hy (i := i + 1) (by rw [hnum]; omega)
        rw [flat_insert_keys x p c child (i + 1) hp hkl,
          flat_insert_children x p c child (i + 1) hp hcl,
          if_neg (by omega), if_neg (by omega), if_pos (by omega),
          if_neg (by omega), if_neg (by omega), if_pos (by omega)] at h1
        simp only [Nat.add_sub_cancel] at h1
        rw [hic] at h1
        exact h1
    · have hx0 : child_of x c' = art_ref.null :=
        child_of_flat_absent ht (fun i hi h => hex ⟨i, hi, h⟩)
      rw [hx0]
      apply child_of_flat_absent hty
      intro i hi h
      rw [hnum] at hi
      rw [flat_insert_keys x p c child i hp hkl] at h
      by_cases h1 : i < p
      · rw [if_pos h1] at h; exact hex ⟨i, by omega, h⟩
      · rw [if_neg h1] at h
        by_cases h2 : i = p
        · rw [if_pos h2] at h; exact hcc h.symm
        · rw [if_neg h2, if_pos (by omega)] at h
          exact hex ⟨i - 1, by omega, h⟩

theorem add_child4_in_place (b : build) (x : inner_node) (c : Nat) (child : art_ref)
    (hn : x.n.num_children < 4) :
    ∃ p, p ≤ x.n.num_children ∧ add_child4 b x c child = flat_insert x p c child := by
  unfold add_child4
  rw [if_pos hn]
  dsimp only
  cases h : first_index (fun idx => decide (c < byte_at x.keys idx)) x.n.num_children 0 with
  | some idx =>
    obtain ⟨_, h2, _, _⟩ := first_index_some h
    exact ⟨idx, by omega, rfl⟩
  | none =>
    refine ⟨x.n.num_children, Nat.le_refl _, ?_⟩
    simp [flat_insert, copy_bytes, copy_slots]

theorem add_child16_in_place (b : build) (x : inner_node) (c : Nat) (child : art_ref)
    (hn : x.n.num_children < 16) :
    ∃ p, p ≤ x.n.num_children ∧ add_child16 b x c child = flat_insert x p c child := by
  unfold add_child16
  rw [if_pos hn]
  dsimp only
  cases h : first_index (fun idx =>
      if b.sse2 = true then signed_lt c (byte_at x.keys idx)
      else decide (c < byte_at x.keys idx)) x.n.num_children 0 with
  | some idx =>
    obtain ⟨_, h2, _, _⟩ := first_index_some h
    exact ⟨idx, by omega, rfl⟩
  | none =>
    refine ⟨x.n.num_children, Nat.le_refl _, ?_⟩
    simp [flat_insert, copy_bytes, copy_slots]

/-! ## Counting lemmas -/

theorem filter_length_insert_aux (l : List Nat) (hnd : l.Nodup) (p q : Nat → Bool) (c : Nat)
    (hq : ∀ a ∈ l, q a = (a == c || p a)) (hp : p c = false) :
    (l.filter q).length = (l.filter p).length + if c ∈ l then 1 else 0 := by
  induction l with
  | nil => simp
  | cons a l ih =>
    have hnd' := (List.nodup_cons.mp hnd)
    have ih' := ih hnd'.2 (fun x hx => hq x (List.mem_cons_of_mem _ hx))
    have hqa := hq a (List.mem_cons_self _ _)
    by_cases hac : a = c
    · subst hac
      have hcl : a ∉ l := hnd'.1
      have hqa' : q a = true := by rw [hqa]; simp
      rw [List.filter_cons_of_pos hqa', List.filter_cons_of_neg (by simp [hp])]
      simp only [List.length_cons, ih', if_neg hcl, List.mem_cons, true_or, if_true]
    · have hqa' : q a = p a := by
        rw [hqa]
        have : (a == c) = false := by simpa using hac
        simp [this]
      have hmem : (c ∈ a :: l) ↔ c ∈ l := by
        simp only [List.mem_cons]
        constructor
        · rintro (h | h)
          · exact absurd h.symm hac
          · exact h
        · exact Or.inr
      by_cases hpa : p a = true
      · rw [List.filter_cons_of_pos (by rw [hqa']; exact hpa), List.filter_cons_of_pos hpa]
        simp only [List.length_cons, ih', hmem]
        omega
      · rw [List.filter_cons_of_neg (by rw [hqa']; exact hpa), List.filter_cons_of_neg hpa]
        simp only [ih', hmem]

theorem filter_range_insert (N : Nat) (p q : Nat → Bool) (c : Nat) (hc : c < N)
    (hq : ∀ a < N, q a = (a == c || p a)) (hp : p c = false) :
    ((List.range N).filter q).length = ((List.range N).filter p).length + 1 := by
  have := filter_length_insert_aux (List.range N) (List.nodup_range N) p q c
    (fun a ha => hq a (List.mem_range.mp ha)) hp
  rw [this, if_pos (List.mem_range.mpr hc)]

theorem filter_range_congr (N : Nat) (p q : Nat → Bool) (h : ∀ a < N, p a = q a) :
    (List.range N).filter p = (List.range N).filter q := by
  apply List.filter_congr
  intro a ha
  exact h a (List.mem_range.mp ha)

theorem filter_range_image (N n : Nat) (p : Nat → Bool) (f : Nat → Nat)
    (hf : ∀ j < n, f j < N ∧ p (f j) = true)
    (hinj : ∀ i < n, ∀ j < n, f i = f j → i = j)
    (hsurj : ∀ b < N, p b = true → ∃ j < n, f j = b) :
    ((List.range N).filter p).length = n := by
  have h1 : ((List.range N).filter p).Nodup := (List.nodup_range N).filter _
  have h2 : ((List.range n).map f).Nodup := by
    apply List.Nodup.map_on _ (List.nodup_range n)
    intro a ha b hb hab
    exact hinj a (List.mem_range.mp ha) b (List.mem_range.mp hb) hab
  have h3 : ∀ a, a ∈ (List.range N).filter p ↔ a ∈ (List.range n).map f := by
    intro a
    simp only [List.mem_filter, List.mem_range, List.mem_map]
    constructor
    · rintro ⟨ha, hpa⟩
      obtain ⟨j, hj, hfj⟩ := hsurj a ha hpa
      exact ⟨j, hj, hfj⟩
    · rintro ⟨j, hj, hfj⟩
      rw [← hfj]
      exact hf j hj
  have := ((List.perm_ext_iff_of_nodup h1 h2).2 h3).length_eq
  rw [this, List.length_map, List.length_range]

/-! ## Growing a node to the next type -/

theorem add_child4_grow (b : build) (x : inner_node) (c : Nat) (child : art_ref)
    (hn : ¬ x.n.num_children < 4) :
    add_child4 b x c child = add_child16 b (grow4 x) c child := by
  unfold add_child4
  rw [if_neg hn]
  rfl

theorem add_child16_grow (b : build) (x : inner_node) (c : Nat) (child : art_ref)
    (hn : ¬ x.n.num_children < 16) :
    add_child16 b x c child = add_child48 (grow16 x) c child := by
  unfold add_child16
  rw [if_neg hn]
  rfl

theorem add_child48_grow (x : inner_node) (c : Nat) (child : art_ref)
    (hn : ¬ x.n.num_children < 48) :
    add_child48 x c child = add_child256 (grow48 x) c child := by
  unfold add_child48
  rw [if_neg hn]
  rfl

theorem first_index_congr (hit hit' : Nat → Bool) (cnt i : Nat)
    (h : ∀ k, i ≤ k → k < i + cnt → hit k = hit' k) :
    first_index hit cnt i = first_index hit' cnt i := by
  induction cnt generalizing i with
  | zero => rfl
  | succ cnt ih =>
    rw [first_index, first_index, h i (Nat.le_refl _) (by omega),
      ih (i + 1) (fun k h1 h2 => h k (by omega) (by omega))]

theorem child_of_flat_congr (x y : inner_node) (c : Nat)
    (htx : x.n.type = NODE4 ∨ x.n.type = NODE16)
    (hty : y.n.type = NODE4 ∨ y.n.type = NODE16)
    (hnum : y.n.num_children = x.n.num_children)
    (hk : ∀ i < x.n.num_children, byte_at y.keys i = byte_at x.keys i)
    (hc : ∀ i < x.n.num_children, slot_at y.children i = slot_at x.children i) :
    find_child y c = find_child x c ∧ child_of y c = child_of x c := by
  have h1 : find_child y c = find_child x c := by
    rw [find_child_flat x c htx, find_child_flat y c hty, hnum]
    apply first_index_congr
    intro k _ hk2
    show (byte_at y.keys k == c) = (byte_at x.keys k == c)
    rw [hk k (by omega)]
  refine ⟨h1, ?_⟩
  unfold child_of
  rw [h1]
  cases hf : find_child x c with
  | none => rfl
  | some i => exact hc i (find_child_flat_some htx hf).1

theorem byte_at_replicate_zero (n j : Nat) : byte_at (List.replicate n 0) j = 0 := by
  unfold byte_at
  rw [List.getD_eq_getElem?_getD, List.getElem?_replicate]
  split <;> rfl

theorem slot_at_replicate_null (n j : Nat) :
    slot_at (List.replicate n art_ref.null) j = art_ref.null := by
  unfold slot_at
  rw [List.getD_eq_getElem?_getD, List.getElem?_replicate]
  split <;> rfl

theorem grow4_spec (x : inner_node) (hx : flat_ok 4 x) :
    (grow4 x).n.type = NODE16 ∧ (grow4 x).n.num_children = x.n.num_children ∧
    (grow4 x).me = x.me ∧ (grow4 x).n.partial_len = x.n.partial_len ∧
    flat_ok 16 (grow4 x) ∧
    (∀ i < 4, byte_at (grow4 x).keys i = byte_at x.keys i) ∧
    (∀ i < 4, slot_at (grow4 x).children i = slot_at x.children i) := by
  obtain ⟨hk, hch, hle, hby, hinj⟩ := hx
  have hkeys : ∀ i < 4, byte_at (grow4 x).keys i = byte_at x.keys i := by
    intro i hi
    show byte_at (copy_bytes (List.replicate 16 0) 0 x.keys 0 4) i = _
    rw [byte_at_copy_bytes, if_pos (by simp; omega)]
    simp
  have hchildren : ∀ i < 4, slot_at (grow4 x).children i = slot_at x.children i := by
    intro i hi
    show slot_at (copy_slots (List.replicate 16 art_ref.null) 0 x.children 0 4) i = _
    rw [slot_at_copy_slots, if_pos (by simp; omega)]
    simp
  have hnum : (grow4 x).n.num_children = x.n.num_children := rfl
  refine ⟨rfl, rfl, rfl, rfl, ⟨?_, ?_, ?_, ?_, ?_⟩, hkeys, hchildren⟩
  · show (copy_bytes (List.replicate 16 0) 0 x.keys 0 4).length = 16
    rw [copy_bytes_length]; simp
  · show (copy_slots (List.replicate 16 art_ref.null) 0 x.children 0 4).length = 16
    rw [copy_slots_length]; simp
  · rw [hnum]; omega
  · intro i hi
    rw [hnum] at hi
    rw [hkeys i (by omega), hchildren i (by omega)]
    exact hby i hi
  · intro i hi j hj heq
    rw [hnum] at hi hj
    rw [hkeys i (by omega), hkeys j (by omega)] at heq
    exact hinj i hi j hj heq

theorem find_child_48 (x : inner_node) (c : Nat) (ht : x.n.type = NODE48) :
    find_child x c = if byte_at x.keys c ≠ 0 then some (byte_at x.keys c - 1) else none := by
  unfold find_child
  rw [ht]

theorem child_of_48 (x : inner_node) (c : Nat) (ht : x.n.type = NODE48) :
    child_of x c =
      if byte_at x.keys c ≠ 0 then slot_at x.children (byte_at x.keys c - 1)
      else art_ref.null := by
  unfold child_of
  rw [find_child_48 x c ht]
  by_cases h : byte_at x.keys c ≠ 0
  · rw [if_pos h, if_pos h]
  · rw [if_neg h, if_neg h]

theorem find_child_256 (x : inner_node) (c : Nat) (ht : x.n.type = NODE256) :
    find_child x c = if (slot_at x.children c).is_null then none else some c := by
  unfold find_child
  rw [ht]

theorem child_of_256 (x : inner_node) (c : Nat) (ht : x.n.type = NODE256) :
    child_of x c = slot_at x.children c := by
  unfold child_of
  rw [find_child_256 x c ht]
  by_cases h : (slot_at x.children c).is_null = true
  · rw [if_pos h]
    cases hs : slot_at x.children c with
    | null => rfl
    | leaf l => rw [hs] at h; cases h
    | inner n k ch me => rw [hs] at h; cases h
  · rw [if_neg h]

theorem grow16_keys_length (x : inner_node) (cnt i : Nat) (acc : List Nat) :
    (grow16_keys x cnt i acc).length = acc.length := by
  induction cnt generalizing i acc with
  | zero => rfl
  | succ cnt ih => rw [grow16_keys, ih, List.length_set]

theorem grow16_keys_other (x : inner_node) (cnt i : Nat) (acc : List Nat) (b : Nat)
    (h : ∀ j, i ≤ j → j < i + cnt → byte_at x.keys j ≠ b) :
    byte_at (grow16_keys x cnt i acc) b = byte_at acc b := by
  induction cnt generalizing i acc with
  | zero => rfl
  | succ cnt ih =>
    rw [grow16_keys, ih (i + 1) _ (fun j h1 h2 => h j (by omega) (by omega)), byte_at_set,
      if_neg]
    intro hh
    exact h i (Nat.le_refl _) (by omega) hh.1

theorem grow16_keys_at (x : inner_node) (cnt i : Nat) (acc : List Nat) (j : Nat)
    (hj1 : i ≤ j) (hj2 : j < i + cnt) (hlen : byte_at x.keys j < acc.length)
    (hinj : ∀ k, i ≤ k → k < i + cnt → byte_at x.keys k = byte_at x.keys j → k = j) :
    byte_at (grow16_keys x cnt i acc) (byte_at x.keys j) = j + 1 := by
  induction cnt generalizing i acc with
  | zero => omega
  | succ cnt ih =>
    rw [grow16_keys]
    by_cases hij : i = j
    · subst hij
      rw [grow16_keys_other x cnt (i + 1) _ _ (fun k h1 h2 hk => by
        have := hinj k (by omega) (by omega) hk
        omega), byte_at_set, if_pos ⟨rfl, hlen⟩]
    · exact ih (i + 1) _ (by omega) (by omega) (by rw [List.length_set]; exact hlen)
        (fun k h1 h2 hk => hinj k (by omega) (by omega) hk)

theorem filter_range_lt (n m : Nat) (h : m ≤ n) (p : Nat → Bool)
    (hp : ∀ s < n, p s = decide (s < m)) :
    ((List.range n).filter p).length = m := by
  apply filter_range_image n m p (fun j => j)
  · intro j hj
    exact ⟨by omega, by rw [hp j (by omega)]; simpa using hj⟩
  · intro i _ j _ hij; exact hij
  · intro b hb hpb
    rw [hp b hb] at hpb
    exact ⟨b, by simpa using hpb, rfl⟩

theorem alloc48_keys : (alloc_node NODE48).keys = List.replicate 256 0 := rfl

theorem alloc48_children :
    (alloc_node NODE48).children = List.replicate 48 art_ref.null := rfl

theorem alloc256_children :
    (alloc_node NODE256).children = List.replicate 256 art_ref.null := rfl

theorem grow16_keys_def (x : inner_node) :
    (grow16 x).keys = grow16_keys x 16 0 (List.replicate 256 0) := by
  simp only [grow16, alloc48_keys]

theorem grow16_children_def (x : inner_node) :
    (grow16 x).children = copy_slots (List.replicate 48 art_ref.null) 0 x.children 0 16 := by
  simp only [grow16, alloc48_children]

theorem grow16_spec (x : inner_node) (hx : flat_ok 16 x) (hn : x.n.num_children = 16) :
    (grow16 x).n.type = NODE48 ∧ (grow16 x).n.num_children = 16 ∧
    (grow16 x).me = x.me ∧ (grow16 x).n.partial_len = x.n.partial_len ∧
    node48_ok (grow16 x) ∧
    (∀ i < 16, byte_at (grow16 x).keys (byte_at x.keys i) = i + 1) ∧
    (∀ b, (∀ i < 16, byte_at x.keys i ≠ b) → byte_at (grow16 x).keys b = 0) ∧
    (∀ s, slot_at (grow16 x).children s = if s < 16 then slot_at x.children s
      else art_ref.null) := by
  obtain ⟨hk, hch, hle, hby, hinj⟩ := hx
  rw [hn] at hby hinj
  have hkeys : ∀ i < 16, byte_at (grow16 x).keys (byte_at x.keys i) = i + 1 := by
    intro i hi
    rw [grow16_keys_def]
    apply grow16_keys_at x 16 0 _ i (Nat.zero_le _) (by omega)
    · rw [List.length_replicate]; exact (hby i hi).1
    · intro k _ hk2 hkk
      exact hinj k (by omega) i hi hkk
  have hother : ∀ b, (∀ i < 16, byte_at x.keys i ≠ b) → byte_at (grow16 x).keys b = 0 := by
    intro b hb
    rw [grow16_keys_def]
    rw [grow16_keys_other x 16 0 _ b (fun j _ h2 => hb j (by omega)), byte_at_replicate_zero]
  have hchildren : ∀ s, slot_at (grow16 x).children s =
      if s < 16 then slot_at x.children s else art_ref.null := by
    intro s
    rw [grow16_children_def, slot_at_copy_slots, List.length_replicate]
    by_cases hs : s < 16
    · rw [if_pos (by omega), if_pos hs, Nat.sub_zero, Nat.zero_add]
    · rw [if_neg (by omega), if_neg hs, slot_at_replicate_null]
  have hnz : ∀ b, byte_at (grow16 x).keys b ≠ 0 → ∃ i < 16, byte_at x.keys i = b := by
    intro b hb
    by_contra hcon
    exact hb (hother b (fun i hi h => hcon ⟨i, hi, h⟩))
  refine ⟨rfl, hn, rfl, rfl, ⟨?_, ?_, ?_, ?_, ?_, ?_⟩, hkeys, hother, hchildren⟩
  · rw [grow16_keys_def, grow16_keys_length, List.length_replicate]
  · rw [grow16_children_def, copy_slots_length, List.length_replicate]
  · show x.n.num_children = _
    rw [hn]
    symm
    apply filter_range_image 256 16 _ (fun i => byte_at x.keys i)
    · intro j hj
      refine ⟨(hby j hj).1, ?_⟩
      simp only [bne_iff_ne, ne_eq]
      rw [hkeys j hj]; omega
    · intro i hi j hj h; exact hinj i hi j hj h
    · intro b _ hb
      exact hnz b (by simpa using hb)
  · show x.n.num_children = _
    rw [hn]
    symm
    apply filter_range_lt 48 16 (by omega)
    intro s _
    rw [hchildren s]
    by_cases hs : s < 16
    · rw [if_pos hs, (hby s hs).2]; simp [hs]
    · rw [if_neg hs]; simp [hs, art_ref.is_null]
  · intro b _ hb
    obtain ⟨i, hi, hib⟩ := hnz b hb
    rw [← hib, hkeys i hi]
    refine ⟨by omega, ?_⟩
    rw [hchildren, Nat.add_sub_cancel, if_pos hi]
    exact (hby i hi).2
  · intro b _ b' _ hb heq
    obtain ⟨i, hi, hib⟩ := hnz b hb
    obtain ⟨i', hi', hib'⟩ := hnz b' (by rw [← heq]; exact hb)
    rw [← hib, ← hib', hkeys i hi, hkeys i' hi'] at heq
    have : i = i' := by omega
    rw [← hib, ← hib', this]

theorem grow4_child_of (x : inner_node) (hx : flat_ok 4 x) (ht : x.n.type = NODE4) (c : Nat) :
    find_child (grow4 x) c = find_child x c ∧ child_of (grow4 x) c = child_of x c := by
  obtain ⟨h1, h2, _, _, _, h6, h7⟩ := grow4_spec x hx
  have hle : x.n.num_children ≤ 4 := hx.2.2.1
  exact child_of_flat_congr x (grow4 x) c (Or.inl ht) (Or.inr h1) h2
    (fun i hi => h6 i (by omega)) (fun i hi => h7 i (by omega))

theorem grow16_child_of (x : inner_node) (hx : flat_ok 16 x) (ht : x.n.type = NODE16)
    (hn : x.n.num_children = 16) (c : Nat) :
    child_of (grow16 x) c = child_of x c ∧
    ((find_child (grow16 x) c).isSome = (find_child x c).isSome) := by
  obtain ⟨h1, h2, _, _, _, h6, h7, h8⟩ := grow16_spec x hx hn
  rw [child_of_48 _ _ h1, find_child_48 _ _ h1]
  by_cases hex : ∃ i < 16, byte_at x.keys i = c
  · obtain ⟨i, hi, hic⟩ := hex
    have h0 := child_of_flat_at (Or.inr ht) hx (i := i) (by omega)
    have hs : (find_child x c).isSome = true :=
      (find_child_flat_isSome x c (Or.inr ht)).2 ⟨i, by omega, hic⟩
    rw [hic] at h0
    have hk := h6 i hi
    rw [hic] at hk
    rw [hk, if_pos (by omega), if_pos (by omega), h8, Nat.add_sub_cancel, if_pos hi, h0, hs]
    exact ⟨rfl, rfl⟩
  · have hz := h7 c (fun i hi h => hex ⟨i, hi, h⟩)
    have h0 : child_of x c = art_ref.null :=
      child_of_flat_absent (Or.inr ht) (fun i hi h => hex ⟨i, by omega, h⟩)
    have hs : find_child x c = none := by
      cases hf : find_child x c with
      | none => rfl
      | some i =>
        obtain ⟨a, b⟩ := find_child_flat_some (Or.inr ht) hf
        exact absurd ⟨i, by omega, b⟩ hex
    rw [hz, if_neg (by omega), if_neg (by omega), h0, hs]
    exact ⟨rfl, rfl⟩

theorem filter_range_all (n : Nat) (p : Nat → Bool) (h : ∀ s < n, p s = true) :
    ((List.range n).filter p).length = n := by
  rw [List.filter_eq_self.2 (fun a ha => h a (List.mem_range.mp ha)), List.length_range]

theorem node48_free_slot (x : inner_node) (hx : node48_ok x) (hn : x.n.num_children < 48) :
    ∃ pos, first_index (fun p => (slot_at x.children p).is_null) 48 0 = some pos ∧
      pos < 48 ∧ (slot_at x.children pos).is_null = true := by
  cases hf : first_index (fun p => (slot_at x.children p).is_null) 48 0 with
  | some pos =>
    obtain ⟨_, h2, h3, _⟩ := first_index_some hf
    exact ⟨pos, rfl, by omega, h3⟩
  | none =>
    exfalso
    have hall := first_index_none hf
    have := filter_range_all 48 (fun s => !(slot_at x.children s).is_null)
      (fun s hs => by
        have := hall s (Nat.zero_le _) (by omega)
        simp only at this
        simp [this])
    have h4 := hx.2.2.2.1
    omega

theorem add_child48_in_place (x : inner_node) (c : Nat) (child : art_ref)
    (ht : x.n.type = NODE48) (hx : node48_ok x) (hn : x.n.num_children < 48)
    (hc : c < 256) (habs : byte_at x.keys c = 0) (hchild : child.is_null = false) :
    (add_child48 x c child).n.type = NODE48 ∧
    (add_child48 x c child).n.num_children = x.n.num_children + 1 ∧
    node48_ok (add_child48 x c child) ∧
    ∀ c', child_of (add_child48 x c child) c' = if c' = c then child else child_of x c' := by
  obtain ⟨pos, hpos, hp48, hnull⟩ := node48_free_slot x hx hn
  obtain ⟨hk, hch, hcnt1, hcnt2, hval, hinj⟩ := hx
  have hy : add_child48 x c child =
      { x with
        children := x.children.set pos child,
        keys := x.keys.set c (pos + 1),
        n := { x.n with num_children := (x.n.num_children + 1) % 256 } } := by
    unfold add_child48
    rw [if_pos hn]
    simp only [hpos, Option.getD_some]
  have hkeys : ∀ b, byte_at (add_child48 x c child).keys b =
      if b = c then pos + 1 else byte_at x.keys b := by
    intro b
    rw [hy]
    show byte_at (x.keys.set c (pos + 1)) b = _
    rw [byte_at_set]
    by_cases hb : b = c
    · rw [if_pos ⟨hb.symm, by omega⟩, if_pos hb]
    · rw [if_neg (fun h => hb h.1.symm), if_neg hb]
  have hchildren : ∀ s, slot_at (add_child48 x c child).children s =
      if s = pos then child else slot_at x.children s := by
    intro s
    rw [hy]
    show slot_at (x.children.set pos child) s = _
    rw [slot_at_set]
    by_cases hs : s = pos
    · rw [if_pos ⟨hs.symm, by omega⟩, if_pos hs]
    · rw [if_neg (fun h => hs h.1.symm), if_neg hs]
  have hnum : (add_child48 x c child).n.num_children = x.n.num_children + 1 := by
    rw [hy]
    show (x.n.num_children + 1) % 256 = _
    omega
  have hty : (add_child48 x c child).n.type = NODE48 := by rw [hy]; exact ht
  have hne : ∀ b < 256, byte_at x.keys b ≠ 0 → byte_at x.keys b - 1 ≠ pos := by
    intro b hb hb0 heq
    have := (hval b hb hb0).2
    rw [heq, hnull] at this
    cases this
  refine ⟨hty, hnum, ⟨?_, ?_, ?_, ?_, ?_, ?_⟩, ?_⟩
  · rw [hy]; show (x.keys.set c (pos + 1)).length = 256
    rw [List.length_set, hk]
  · rw [hy]; show (x.children.set pos child).length = 48
    rw [List.length_set, hch]
  · rw [hnum, hcnt1]
    symm
    apply filter_range_insert 256 _ _ c hc
    · intro a _
      rw [hkeys a]
      by_cases hac : a = c
      · simp [hac]
      · have : (a == c) = false := by simpa using hac
        simp [hac, this]
    · simp [habs]
  · rw [hnum, hcnt2]
    symm
    apply filter_range_insert 48 _ _ pos hp48
    · intro a _
      rw [hchildren a]
      by_cases hac : a = pos
      · simp [hac, hchild]
      · have : (a == pos) = false := by simpa using hac
        simp [hac, this]
    · simp [hnull]
  · intro b hb hb0
    rw [hkeys b] at hb0 ⊢
    by_cases hbc : b = c
    · rw [if_pos hbc]
      refine ⟨by omega, ?_⟩
      rw [hchildren, Nat.add_sub_cancel, if_pos rfl]
      exact hchild
    · rw [if_neg hbc] at hb0 ⊢
      refine ⟨(hval b hb hb0).1, ?_⟩
      rw [hchildren, if_neg (hne b hb hb0)]
      exact (hval b hb hb0).2
  · intro b hb b' hb' hb0 heq
    rw [hkeys b] at hb0
    rw [hkeys b, hkeys b'] at heq
    by_cases hbc : b = c
    · by_cases hbc' : b' = c
      · rw [hbc, hbc']
      · exfalso
        rw [if_pos hbc, if_neg hbc'] at heq
        have h0 : byte_at x.keys b' ≠ 0 := by omega
        exact hne b' hb' h0 (by omega)
    · rw [if_neg hbc] at hb0 heq
      by_cases hbc' : b' = c
      · exfalso
        rw [if_pos hbc'] at heq
        exact hne b hb hb0 (by omega)
      · rw [if_neg hbc'] at heq
        exact hinj b hb b' hb' hb0 heq
  · intro c'
    rw [child_of_48 _ _ hty, child_of_48 _ _ ht, hkeys c']
    by_cases hcc : c' = c
    · rw [if_pos hcc, if_pos (by omega), if_pos hcc, hchildren, Nat.add_sub_cancel, if_pos rfl]
    · rw [if_neg hcc, if_neg hcc]
      by_cases h0 : byte_at x.keys c' ≠ 0
      · rw [if_pos h0, if_pos h0, hchildren]
        by_cases hlt : c' < 256
        · rw [if_neg (hne c' hlt h0)]
        · exfalso
          apply h0
          unfold byte_at
          rw [List.getD_eq_getElem?_getD, List.getElem?_eq_none (by omega)]
          rfl
      · rw [if_neg h0, if_neg h0]

theorem grow48_children_length (x : inner_node) (cnt i : Nat) (acc : List art_ref) :
    (grow48_children x cnt i acc).length = acc.length := by
  induction cnt generalizing i acc with
  | zero => rfl
  | succ cnt ih =>
    rw [grow48_children, ih]
    split
    · rw [List.length_set]
    · rfl

theorem grow48_children_spec (x : inner_node) (cnt i : Nat) (acc : List art_ref) (b : Nat)
    (hlen : i + cnt ≤ acc.length) :
    slot_at (grow48_children x cnt i acc) b =
      if i ≤ b ∧ b < i + cnt ∧ byte_at x.keys b ≠ 0 then
        slot_at x.children (byte_at x.keys b - 1)
      else slot_at acc b := by
  induction cnt generalizing i acc with
  | zero =>
    rw [if_neg (by omega)]
    rfl
  | succ cnt ih =>
    rw [grow48_children]
    by_cases hk : byte_at x.keys i ≠ 0
    · rw [if_pos hk, ih (i + 1) _ (by rw [List.length_set]; omega)]
      by_cases hbi : b = i
      · subst hbi
        rw [if_neg (by omega), if_pos ⟨Nat.le_refl _, by omega, hk⟩, slot_at_set,
          if_pos ⟨rfl, by omega⟩]
      · by_cases h1 : i + 1 ≤ b ∧ b < i + 1 + cnt ∧ byte_at x.keys b ≠ 0
        · rw [if_pos h1, if_pos ⟨by omega, by omega, h1.2.2⟩]
        · rw [if_neg h1, if_neg (by omega), slot_at_set, if_neg (by omega)]
    · rw [if_neg hk, ih (i + 1) _ (by omega)]
      by_cases hbi : b = i
      · subst hbi
        rw [if_neg (by omega), if_neg (fun h => hk h.2.2)]
      · by_cases h1 : i + 1 ≤ b ∧ b < i + 1 + cnt ∧ byte_at x.keys b ≠ 0
        · rw [if_pos h1, if_pos ⟨by omega, by omega, h1.2.2⟩]
        · rw [if_neg h1, if_neg (by omega)]

theorem byte_at_beyond (l : List Nat) (i : Nat) (h : l.length ≤ i) : byte_at l i = 0 := by
  unfold byte_at
  rw [List.getD_eq_getElem?_getD, List.getElem?_eq_none h]
  rfl

theorem slot_at_beyond (l : List art_ref) (i : Nat) (h : l.length ≤ i) :
    slot_at l i = art_ref.null := by
  unfold slot_at
  rw [List.getD_eq_getElem?_getD, List.getElem?_eq_none h]
  rfl

theorem grow48_children_def (x : inner_node) :
    (grow48 x).children = grow48_children x 256 0 (List.replicate 256 art_ref.null) := by
  simp only [grow48, alloc256_children]

theorem is_null_iff (r : art_ref) : r.is_null = true ↔ r = art_ref.null := by
  cases r <;> simp [art_ref.is_null]

theorem grow48_spec (x : inner_node) (hx : node48_ok x) :
    (grow48 x).n.type = NODE256 ∧ (grow48 x).n.num_children = x.n.num_children ∧
    (grow48 x).me = x.me ∧ (grow48 x).n.partial_len = x.n.partial_len ∧
    node256_ok (grow48 x) ∧
    (∀ b, slot_at (grow48 x).children b =
      if byte_at x.keys b ≠ 0 then slot_at x.children (byte_at x.keys b - 1)
      else art_ref.null) := by
  obtain ⟨hk, hch, hcnt1, hcnt2, hval, hinj⟩ := hx
  have hchildren : ∀ b, slot_at (grow48 x).children b =
      if byte_at x.keys b ≠ 0 then slot_at x.children (byte_at x.keys b - 1)
      else art_ref.null := by
    intro b
    rw [grow48_children_def, grow48_children_spec x 256 0 _ b
      (by rw [List.length_replicate]), slot_at_replicate_null]
    by_cases hb : b < 256
    · by_cases h0 : byte_at x.keys b ≠ 0
      · rw [if_pos ⟨Nat.zero_le _, by omega, h0⟩, if_pos h0]
      · rw [if_neg (fun h => h0 h.2.2), if_neg h0]
    · have : byte_at x.keys b = 0 := byte_at_beyond _ _ (by omega)
      rw [if_neg (fun h => h.2.2 this), if_neg (fun h => h this)]
  have hle : x.n.num_children ≤ 48 := by
    rw [hcnt2]
    calc _ ≤ (List.range 48).length := List.length_filter_le _ _
      _ = 48 := List.length_range 48
  refine ⟨rfl, rfl, rfl, rfl, ⟨?_, ?_⟩, hchildren⟩
  · rw [grow48_children_def, grow48_children_length, List.length_replicate]
  · show x.n.num_children = _
    have : (List.range 256).filter (fun c => !(slot_at (grow48 x).children c).is_null)
        = (List.range 256).filter (fun b => byte_at x.keys b != 0) := by
      apply filter_range_congr
      intro a ha
      rw [hchildren a]
      by_cases h0 : byte_at x.keys a ≠ 0
      · rw [if_pos h0, (hval a ha h0).2]
        simp [h0]
      · rw [if_neg h0]
        have : byte_at x.keys a = 0 := by omega
        simp [this, art_ref.is_null]
    rw [this, ← hcnt1]
    omega

theorem grow48_child_of (x : inner_node) (hx : node48_ok x) (ht : x.n.type = NODE48)
    (c : Nat) : child_of (grow48 x) c = child_of x c := by
  obtain ⟨h1, _, _, _, _, h6⟩ := grow48_spec x hx
  rw [child_of_256 _ _ h1, child_of_48 _ _ ht, h6]

theorem add_child256_spec (x : inner_node) (c : Nat) (child : art_ref)
    (ht : x.n.type = NODE256) (hx : node256_ok x) (hc : c < 256)
    (habs : (slot_at x.children c).is_null = true) (hchild : child.is_null = false) :
    (add_child256 x c child).n.type = NODE256 ∧
    (add_child256 x c child).n.num_children = (x.n.num_children + 1) % 256 ∧
    node256_ok (add_child256 x c child) ∧
    ∀ c', child_of (add_child256 x c child) c' = if c' = c then child else child_of x c' := by
  obtain ⟨hch, hcnt⟩ := hx
  have hty : (add_child256 x c child).n.type = NODE256 := ht
  have hchildren : ∀ s, slot_at (add_child256 x c child).children s =
      if s = c then child else slot_at x.children s := by
    intro s
    show slot_at (x.children.set c child) s = _
    rw [slot_at_set]
    by_cases hs : s = c
    · rw [if_pos ⟨hs.symm, by omega⟩, if_pos hs]
    · rw [if_neg (fun h => hs h.1.symm), if_neg hs]
  refine ⟨hty, rfl, ⟨?_, ?_⟩, ?_⟩
  · show (x.children.set c child).length = 256
    rw [List.length_set, hch]
  · show (x.n.num_children + 1) % 256 = _
    have := filter_range_insert 256 (fun s => !(slot_at x.children s).is_null)
      (fun s => !(slot_at (add_child256 x c child).children s).is_null) c hc
      (fun a _ => by
        simp only
        rw [hchildren a]
        by_cases hac : a = c
        · simp [hac, hchild]
        · have : (a == c) = false := by simpa using hac
          simp [hac, this])
      (by simp [habs])
    rw [this, hcnt]
    omega
  · intro c'
    rw [child_of_256 _ _ hty, child_of_256 _ _ ht, hchildren]

theorem node_ok_cases (x : inner_node) (hx : node_ok x) :
    (x.n.type = NODE4 ∧ flat_ok 4 x) ∨ (x.n.type = NODE16 ∧ flat_ok 16 x) ∨
    (x.n.type = NODE48 ∧ node48_ok x) ∨ (x.n.type = NODE256 ∧ node256_ok x) := by
  unfold node_ok at hx
  cases ht : x.n.type <;> rw [ht] at hx
  · exact Or.inl ⟨rfl, hx⟩
  · exact Or.inr (Or.inl ⟨rfl, hx⟩)
  · exact Or.inr (Or.inr (Or.inl ⟨rfl, hx⟩))
  · exact Or.inr (Or.inr (Or.inr ⟨rfl, hx⟩))

theorem node_ok_of_flat4 (x : inner_node) (ht : x.n.type = NODE4) (h : flat_ok 4 x) :
    node_ok x := by
  unfold node_ok; rw [ht]; exact h

theorem node_ok_of_flat16 (x : inner_node) (ht : x.n.type = NODE16) (h : flat_ok 16 x) :
    node_ok x := by
  unfold node_ok; rw [ht]; exact h

theorem node_ok_of_48 (x : inner_node) (ht : x.n.type = NODE48) (h : node48_ok x) :
    node_ok x := by
  unfold node_ok; rw [ht]; exact h

theorem node_ok_of_256 (x : inner_node) (ht : x.n.type = NODE256) (h : node256_ok x) :
    node_ok x := by
  unfold node_ok; rw [ht]; exact h

theorem isSome_flat {cap : Nat} (x : inner_node)
    (ht : x.n.type = NODE4 ∨ x.n.type = NODE16) (hx : flat_ok cap x) (c : Nat) :
    (find_child x c).isSome = !(child_of x c).is_null := by
  cases hf : find_child x c with
  | none =>
    unfold child_of
    rw [hf]
    rfl
  | some i =>
    obtain ⟨h1, _⟩ := find_child_flat_some ht hf
    unfold child_of
    rw [hf]
    show true = !(slot_at x.children i).is_null
    rw [(hx.2.2.2.1 i h1).2]
    rfl

theorem isSome_48 (x : inner_node) (ht : x.n.type = NODE48) (hx : node48_ok x) (c : Nat) :
    (find_child x c).isSome = (byte_at x.keys c != 0) ∧
    (find_child x c).isSome = !(child_of x c).is_null := by
  rw [child_of_48 x c ht, find_child_48 x c ht]
  by_cases h0 : byte_at x.keys c ≠ 0
  · have hc : c < 256 := by
      by_contra hge
      exact h0 (byte_at_beyond _ _ (by rw [hx.1]; omega))
    rw [if_pos h0, if_pos h0, (hx.2.2.2.2.1 c hc h0).2]
    simp [h0]
  · rw [if_neg h0, if_neg h0]
    have : byte_at x.keys c = 0 := by omega
    simp [this, art_ref.is_null]

theorem isSome_256 (x : inner_node) (ht : x.n.type = NODE256) (c : Nat) :
    (find_child x c).isSome = !(slot_at x.children c).is_null ∧
    (find_child x c).isSome = !(child_of x c).is_null := by
  rw [child_of_256 x c ht, find_child_256 x c ht]
  cases h : (slot_at x.children c).is_null <;> simp

/-- In a well-formed node find_child finds a slot for `c` exactly when the
child stored for `c` is not `NULL`. -/
theorem isSome_eq_child_of (x : inner_node) (hx : node_ok x) (c : Nat) :
    (find_child x c).isSome = !(child_of x c).is_null := by
  rcases node_ok_cases x hx with ⟨ht, h⟩ | ⟨ht, h⟩ | ⟨ht, h⟩ | ⟨ht, h⟩
  · exact isSome_flat x (Or.inl ht) h c
  · exact isSome_flat x (Or.inr ht) h c
  · exact (isSome_48 x ht h c).2
  · exact (isSome_256 x ht c).2

theorem populated_flat {cap : Nat} (x : inner_node)
    (ht : x.n.type = NODE4 ∨ x.n.type = NODE16) (hx : flat_ok cap x) :
    populated x = x.n.num_children := by
  unfold populated
  apply filter_range_image 256 x.n.num_children _ (fun i => byte_at x.keys i)
  · intro j hj
    exact ⟨(hx.2.2.2.1 j hj).1, (find_child_flat_isSome x _ ht).2 ⟨j, hj, rfl⟩⟩
  · exact hx.2.2.2.2
  · intro b _ hb
    exact (find_child_flat_isSome x b ht).1 hb

theorem populated_48 (x : inner_node) (ht : x.n.type = NODE48) (hx : node48_ok x) :
    populated x = x.n.num_children ∧ x.n.num_children ≤ 48 := by
  constructor
  · unfold populated
    rw [hx.2.2.1]
    congr 1
    apply filter_range_congr
    intro a _
    exact (isSome_48 x ht hx a).1
  · rw [hx.2.2.2.1]
    calc _ ≤ (List.range 48).length := List.length_filter_le _ _
      _ = 48 := List.length_range 48

theorem populated_256 (x : inner_node) (ht : x.n.type = NODE256) (hx : node256_ok x) :
    x.n.num_children = populated x % 256 := by
  unfold populated
  rw [hx.2]
  congr 2
  apply filter_range_congr
  intro a _
  exact ((isSome_256 x ht a).1).symm

/-- In a well-formed node the 8-bit `num_children` is the number of bytes with
a child, modulo 256. -/
theorem node_ok_count (x : inner_node) (hx : node_ok x) :
    x.n.num_children = populated x % 256 := by
  rcases node_ok_cases x hx with ⟨ht, h⟩ | ⟨ht, h⟩ | ⟨ht, h⟩ | ⟨ht, h⟩
  · rw [populated_flat x (Or.inl ht) h]
    have := h.2.2.1
    omega
  · rw [populated_flat x (Or.inr ht) h]
    have := h.2.2.1
    omega
  · obtain ⟨h1, h2⟩ := populated_48 x ht h
    rw [h1]
    omega
  · exact populated_256 x ht h

theorem populated_le (x : inner_node) : populated x ≤ 256 := by
  unfold populated
  calc _ ≤ (List.range 256).length := List.length_filter_le _ _
    _ = 256 := List.length_range 256

/-- One more byte has a child after a child was stored for a byte that had
none. -/
theorem populated_insert (x y : inner_node) (c : Nat) (child : art_ref)
    (hx : node_ok x) (hy : node_ok y) (hc : c < 256)
    (habs : child_of x c = art_ref.null) (hchild : child.is_null = false)
    (h : ∀ c', child_of y c' = if c' = c then child else child_of x c') :
    populated y = populated x + 1 := by
  unfold populated
  apply filter_range_insert 256 _ _ c hc
  · intro a _
    rw [isSome_eq_child_of y hy, isSome_eq_child_of x hx, h a]
    by_cases hac : a = c
    · simp [hac, hchild]
    · have : (a == c) = false := by simpa using hac
      rw [if_neg hac, this]
      rfl
  · rw [isSome_eq_child_of x hx, habs]
    rfl

/-! ## add_child on a well-formed node -/

theorem flat_add_spec (cap : Nat) (x : inner_node) (p c : Nat) (child : art_ref)
    (ht : x.n.type = NODE4 ∨ x.n.type = NODE16)
    (hx : flat_ok cap x) (hcap : cap ≤ 16) (hn : x.n.num_children < cap)
    (hp : p ≤ x.n.num_children) (hc : c < 256)
    (habs : find_child x c = none) (hchild : child.is_null = false) :
    (flat_insert x p c child).n.type = x.n.type ∧
    flat_ok cap (flat_insert x p c child) ∧
    ∀ c', child_of (flat_insert x p c child) c' = if c' = c then child else child_of x c' :=
  ⟨rfl, flat_insert_ok cap x p c child hx hcap hn hp hc (find_child_flat_none ht habs) hchild,
    flat_insert_child_of cap x p c child ht hx hcap hn hp hc (find_child_flat_none ht habs)
      hchild⟩

theorem add_child4_spec (b : build) (x : inner_node) (c : Nat) (child : art_ref)
    (ht : x.n.type = NODE4) (hx : flat_ok 4 x) (hc : c < 256)
    (habs : find_child x c = none) (hchild : child.is_null = false) :
    node_ok (add_child4 b x c child) ∧
    ∀ c', child_of (add_child4 b x c child) c' = if c' = c then child else child_of x c' := by
  by_cases hn : x.n.num_children < 4
  · obtain ⟨p, hp, he⟩ := add_child4_in_place b x c child hn
    obtain ⟨h1, h2, h3⟩ :=
      flat_add_spec 4 x p c child (Or.inl ht) hx (by omega) hn hp hc habs hchild
    rw [he]
    exact ⟨node_ok_of_flat4 _ (h1.trans ht) h2, h3⟩
  · obtain ⟨g1, g2, _, _, g5, _, _⟩ := grow4_spec x hx
    have hle := hx.2.2.1
    obtain ⟨f1, f2⟩ := grow4_child_of x hx ht c
    rw [habs] at f1
    obtain ⟨p, hp, he⟩ := add_child16_in_place b (grow4 x) c child (by omega)
    obtain ⟨h1, h2, h3⟩ :=
      flat_add_spec 16 (grow4 x) p c child (Or.inr g1) g5 (by omega) (by omega) hp hc f1 hchild
    rw [add_child4_grow b x c child hn, he]
    refine ⟨node_ok_of_flat16 _ (h1.trans g1) h2, ?_⟩
    intro c'
    rw [h3 c', (grow4_child_of x hx ht c').2]

theorem add_child48_spec (x : inner_node) (c : Nat) (child : art_ref)
    (ht : x.n.type = NODE48) (hx : node48_ok x) (hc : c < 256)
    (habs : find_child x c = none) (hchild : child.is_null = false) :
    node_ok (add_child48 x c child) ∧
    ∀ c', child_of (add_child48 x c child) c' = if c' = c then child else child_of x c' := by
  have hk0 : byte_at x.keys c = 0 := by
    rw [find_child_48 x c ht] at habs
    by_contra h
    rw [if_pos h] at habs
    cases habs
  by_cases hn : x.n.num_children < 48
  · obtain ⟨h1, _, h3, h4⟩ := add_child48_in_place x c child ht hx hn hc hk0 hchild
    exact ⟨node_ok_of_48 _ h1 h3, h4⟩
  · obtain ⟨g1, _, _, _, g5, g6⟩ := grow48_spec x hx
    have hnull : (slot_at (grow48 x).children c).is_null = true := by
      rw [g6 c, if_neg (fun h => h hk0)]
      rfl
    obtain ⟨h1, _, h3, h4⟩ := add_child256_spec (grow48 x) c child g1 g5 hc hnull hchild
    rw [add_child48_grow x c child hn]
    refine ⟨node_ok_of_256 _ h1 h3, ?_⟩
    intro c'
    rw [h4 c', grow48_child_of x hx ht c']

theorem add_child16_spec (b : build) (x : inner_node) (c : Nat) (child : art_ref)
    (ht : x.n.type = NODE16) (hx : flat_ok 16 x) (hc : c < 256)
    (habs : find_child x c = none) (hchild : child.is_null = false) :
    node_ok (add_child16 b x c child) ∧
    ∀ c', child_of (add_child16 b x c child) c' = if c' = c then child else child_of x c' := by
  by_cases hn : x.n.num_children < 16
  · obtain ⟨p, hp, he⟩ := add_child16_in_place b x c child hn
    obtain ⟨h1, h2, h3⟩ :=
      flat_add_spec 16 x p c child (Or.inr ht) hx (by omega) hn hp hc habs hchild
    rw [he]
    exact ⟨node_ok_of_flat16 _ (h1.trans ht) h2, h3⟩
  · have hle := hx.2.2.1
    have h16 : x.n.num_children = 16 := by omega
    obtain ⟨g1, _, _, _, g5, _, _, _⟩ := grow16_spec x hx h16
    have f1 : find_child (grow16 x) c = none := by
      have := (grow16_child_of x hx ht h16 c).2
      rw [habs] at this
      cases hf : find_child (grow16 x) c with
      | none => rfl
      | some i => rw [hf] at this; cases this
    obtain ⟨h1, h2⟩ := add_child48_spec (grow16 x) c child g1 g5 hc f1 hchild
    rw [add_child16_grow b x c child hn]
    refine ⟨h1, ?_⟩
    intro c'
    rw [h2 c', (grow16_child_of x hx ht h16 c').1]

theorem add_child256_ok (x : inner_node) (c : Nat) (child : art_ref)
    (ht : x.n.type = NODE256) (hx : node256_ok x) (hc : c < 256)
    (habs : find_child x c = none) (hchild : child.is_null = false) :
    node_ok (add_child256 x c child) ∧
    ∀ c', child_of (add_child256 x c child) c' = if c' = c then child else child_of x c' := by
  have hnull : (slot_at x.children c).is_null = true := by
    rw [find_child_256 x c ht] at habs
    by_contra h
    rw [if_neg h] at habs
    cases habs
  obtain ⟨h1, _, h3, h4⟩ := add_child256_spec x c child ht hx hc hnull hchild
  exact ⟨node_ok_of_256 _ h1 h3, h4⟩

/-- The function add_child on a well-formed node and a byte without a child: the
node afterwards is well formed, holds `child` for `c` and for every other byte
what it held before. -/
theorem add_child_spec (b : build) (x : inner_node) (c : Nat) (child : art_ref)
    (hx : node_ok x) (hc : c < 256)
    (habs : find_child x c = none) (hchild : child.is_null = false) :
    node_ok (add_child b x c child) ∧
    ∀ c', child_of (add_child b x c child) c' = if c' = c then child else child_of x c' := by
  unfold add_child
  rcases node_ok_cases x hx with ⟨ht, h⟩ | ⟨ht, h⟩ | ⟨ht, h⟩ | ⟨ht, h⟩ <;> rw [ht]
  · exact add_child4_spec b x c child ht h hc habs hchild
  · exact add_child16_spec b x c child ht h hc habs hchild
  · exact add_child48_spec x c child ht h hc habs hchild
  · exact add_child256_ok x c child ht h hc habs hchild

theorem child_of_none (x : inner_node) (c : Nat) (h : find_child x c = none) :
    child_of x c = art_ref.null := by
  unfold child_of
  rw [h]

theorem add_child_count (b : build) (x : inner_node) (c : Nat) (child : art_ref)
    (hx : node_ok x) (hc : c < 256)
    (habs : find_child x c = none) (hchild : child.is_null = false) :
    node_ok (add_child b x c child) ∧
    populated (add_child b x c child) = populated x + 1 ∧
    (add_child b x c child).n.num_children = populated (add_child b x c child) % 256 := by
  obtain ⟨h1, h2⟩ := add_child_spec b x c child hx hc habs hchild
  exact ⟨h1, populated_insert x _ c child hx h1 hc (child_of_none x c habs) hchild h2,
    node_ok_count _ h1⟩


/-! ## Removing a child -/

theorem remove_child16_eq (x : inner_node) (pos : Nat) :
    remove_child16 x pos =
      if (flat_remove x pos).n.num_children = 3 then shrink16 (flat_remove x pos)
      else flat_remove x pos := rfl

theorem remove_child48_eq (x : inner_node) (c : Nat) :
    remove_child48 x c =
      if (clear48 x c).n.num_children = 12 then shrink48 (clear48 x c) else clear48 x c := rfl

theorem remove_child256_eq (x : inner_node) (c : Nat) :
    remove_child256 x c =
      if (clear256 x c).n.num_children = 37 then shrink256 (clear256 x c)
      else clear256 x c := rfl

theorem flat_remove_keys (x : inner_node) (pos j : Nat) (hpos : pos < x.n.num_children)
    (hlen : x.n.num_children ≤ x.keys.length) :
    byte_at (flat_remove x pos).keys j =
      if pos ≤ j ∧ j + 1 < x.n.num_children then byte_at x.keys (j + 1)
      else byte_at x.keys j := by
  show byte_at (copy_bytes x.keys pos x.keys (pos + 1) (x.n.num_children - 1 - pos)) j = _
  rw [byte_at_copy_bytes]
  by_cases h : pos ≤ j ∧ j + 1 < x.n.num_children
  · rw [if_pos (by omega), if_pos h]
    congr 1
    omega
  · rw [if_neg (by omega), if_neg h]

theorem flat_remove_children (x : inner_node) (pos j : Nat) (hpos : pos < x.n.num_children)
    (hlen : x.n.num_children ≤ x.children.length) :
    slot_at (flat_remove x pos).children j =
      if pos ≤ j ∧ j + 1 < x.n.num_children then slot_at x.children (j + 1)
      else slot_at x.children j := by
  show slot_at (copy_slots x.children pos x.children (pos + 1) (x.n.num_children - 1 - pos)) j
    = _
  rw [slot_at_copy_slots]
  by_cases h : pos ≤ j ∧ j + 1 < x.n.num_children
  · rw [if_pos (by omega), if_pos h]
    congr 1
    omega
  · rw [if_neg (by omega), if_neg h]

theorem flat_remove_at (x : inner_node) (pos j : Nat) (hpos : pos < x.n.num_children)
    (hk : x.n.num_children ≤ x.keys.length) (hch : x.n.num_children ≤ x.children.length)
    (hj : j + 1 < x.n.num_children) :
    byte_at (flat_remove x pos).keys j = byte_at x.keys (if j < pos then j else j + 1) ∧
    slot_at (flat_remove x pos).children j =
      slot_at x.children (if j < pos then j else j + 1) := by
  rw [flat_remove_keys x pos j hpos hk, flat_remove_children x pos j hpos hch]
  by_cases h : j < pos
  · have a : ¬ (pos ≤ j ∧ j + 1 < x.n.num_children) := by omega
    simp only [if_neg a, if_pos h]
    exact ⟨trivial, trivial⟩
  · have a : pos ≤ j ∧ j + 1 < x.n.num_children := by omega
    simp only [if_pos a, if_neg h]
    exact ⟨trivial, trivial⟩

theorem flat_remove_num (cap : Nat) (x : inner_node) (pos : Nat) (hx : flat_ok cap x)
    (hcap : cap ≤ 16) (hpos : pos < x.n.num_children) :
    (flat_remove x pos).n.num_children + 1 = x.n.num_children := by
  have := hx.2.2.1
  show (x.n.num_children + 255) % 256 + 1 = _
  omega

theorem flat_remove_ok (cap : Nat) (x : inner_node) (pos : Nat) (hx : flat_ok cap x)
    (hcap : cap ≤ 16) (hpos : pos < x.n.num_children) :
    flat_ok cap (flat_remove x pos) := by
  have hnum := flat_remove_num cap x pos hx hcap hpos
  obtain ⟨hk, hch, hle, hby, hinj⟩ := hx
  have hkeys : ∀ j, j + 1 < x.n.num_children →
      byte_at (flat_remove x pos).keys j = byte_at x.keys (if j < pos then j else j + 1) ∧
      slot_at (flat_remove x pos).children j =
        slot_at x.children (if j < pos then j else j + 1) :=
    fun j hj => flat_remove_at x pos j hpos (by omega) (by omega) hj
  refine ⟨?_, ?_, by omega, ?_, ?_⟩
  · show (copy_bytes _ _ _ _ _).length = cap
    rw [copy_bytes_length, hk]
  · show (copy_slots _ _ _ _ _).length = cap
    rw [copy_slots_length, hch]
  · intro i hi
    obtain ⟨h1, h2⟩ := hkeys i (by omega)
    rw [h1, h2]
    exact hby _ (by split <;> omega)
  · intro i hi j hj hij
    rw [(hkeys i (by omega)).1, (hkeys j (by omega)).1] at hij
    have := hinj _ (by split <;> omega) _ (by split <;> omega) hij
    split at this <;> split at this <;> omega

theorem flat_remove_child_of (cap : Nat) (x : inner_node) (pos : Nat)
    (ht : x.n.type = NODE4 ∨ x.n.type = NODE16) (hx : flat_ok cap x)
    (hcap : cap ≤ 16) (hpos : pos < x.n.num_children) (c' : Nat) :
    child_of (flat_remove x pos) c' =
      if c' = byte_at x.keys pos then art_ref.null else child_of x c' := by
  have hnum := flat_remove_num cap x pos hx hcap hpos
  have hy := flat_remove_ok cap x pos hx hcap hpos
  have hty : (flat_remove x pos).n.type = NODE4 ∨ (flat_remove x pos).n.type = NODE16 := ht
  have hle := hx.2.2.1
  have hk := hx.1
  have hch := hx.2.1
  have hinj := hx.2.2.2.2
  have hkeys : ∀ j, j + 1 < x.n.num_children →
      byte_at (flat_remove x pos).keys j = byte_at x.keys (if j < pos then j else j + 1) ∧
      slot_at (flat_remove x pos).children j =
        slot_at x.children (if j < pos then j else j + 1) :=
    fun j hj => flat_remove_at x pos j hpos (by omega) (by omega) hj
  by_cases hc : c' = byte_at x.keys pos
  · rw [if_pos hc]
    apply child_of_flat_absent hty
    intro i hi h
    rw [(hkeys i (by omega)).1, hc] at h
    have := hinj _ (by split <;> omega) pos hpos h
    split at this <;> omega
  · rw [if_neg hc]
    by_cases hex : ∃ i < x.n.num_children, byte_at x.keys i = c'
    · obtain ⟨i, hi, hic⟩ := hex
      have hip : i ≠ pos := fun h => hc (by rw [← hic, h])
      have h0 := child_of_flat_at ht hx hi
      rw [hic] at h0
      rw [h0]
      by_cases hlt : i < pos
      · obtain ⟨a1, a2⟩ := hkeys i (by omega)
        rw [if_pos hlt] at a1 a2
        have h1 := child_of_flat_at hty hy (i := i) (by omega)
        rw [a1, hic, a2] at h1
        exact h1
      · obtain ⟨a1, a2⟩ := hkeys (i - 1) (by omega)
        rw [if_neg (by omega)] at a1 a2
        have e : i - 1 + 1 = i := by omega
        rw [e] at a1 a2
        have h1 := child_of_flat_at hty hy (i := i - 1) (by omega)
        rw [a1, hic, a2] at h1
        exact h1
    · rw [child_of_flat_absent ht (fun i hi h => hex ⟨i, hi, h⟩)]
      apply child_of_flat_absent hty
      intro i hi h
      rw [(hkeys i (by omega)).1] at h
      exact hex ⟨_, by split <;> omega, h⟩

theorem shrink16_spec (x : inner_node) (hx : flat_ok 16 x) (hn : x.n.num_children ≤ 4) :
    (shrink16 x).n.type = NODE4 ∧ (shrink16 x).n.num_children = x.n.num_children ∧
    flat_ok 4 (shrink16 x) ∧
    (∀ i < 4, byte_at (shrink16 x).keys i = byte_at x.keys i) ∧
    (∀ i < 4, slot_at (shrink16 x).children i = slot_at x.children i) := by
  obtain ⟨hk, hch, hle, hby, hinj⟩ := hx
  have hkeys : ∀ i < 4, byte_at (shrink16 x).keys i = byte_at x.keys i := by
    intro i hi
    show byte_at (copy_bytes (List.replicate 4 0) 0 x.keys 0 4) i = _
    rw [byte_at_copy_bytes, if_pos (by simp; omega)]
    simp
  have hchildren : ∀ i < 4, slot_at (shrink16 x).children i = slot_at x.children i := by
    intro i hi
    show slot_at (copy_slots (List.replicate 4 art_ref.null) 0 x.children 0 4) i = _
    rw [slot_at_copy_slots, if_pos (by simp; omega)]
    simp
  have hnum : (shrink16 x).n.num_children = x.n.num_children := rfl
  refine ⟨rfl, rfl, ⟨?_, ?_, ?_, ?_, ?_⟩, hkeys, hchildren⟩
  · show (copy_bytes (List.replicate 4 0) 0 x.keys 0 4).length = 4
    rw [copy_bytes_length]; simp
  · show (copy_slots (List.replicate 4 art_ref.null) 0 x.children 0 4).length = 4
    rw [copy_slots_length]; simp
  · rw [hnum]; omega
  · intro i hi
    rw [hnum] at hi
    rw [hkeys i (by omega), hchildren i (by omega)]
    exact hby i hi
  · intro i hi j hj heq
    rw [hnum] at hi hj
    rw [hkeys i (by omega), hkeys j (by omega)] at heq
    exact hinj i hi j hj heq

theorem remove_child16_spec (x : inner_node) (c pos : Nat)
    (ht : x.n.type = NODE16) (hx : flat_ok 16 x) (hf : find_child x c = some pos) :
    node_ok (remove_child16 x pos) ∧
    ∀ c', child_of (remove_child16 x pos) c' =
      if c' = c then art_ref.null else child_of x c' := by
  obtain ⟨hpos, hkc⟩ := find_child_flat_some (Or.inr ht) hf
  have h1 := flat_remove_ok 16 x pos hx (by omega) hpos
  have h2 := flat_remove_child_of 16 x pos (Or.inr ht) hx (by omega) hpos
  rw [hkc] at h2
  have hty : (flat_remove x pos).n.type = NODE16 := ht
  rw [remove_child16_eq]
  by_cases h3 : (flat_remove x pos).n.num_children = 3
  · rw [if_pos h3]
    obtain ⟨g1, g2, g3, g4, g5⟩ := shrink16_spec (flat_remove x pos) h1 (by omega)
    refine ⟨node_ok_of_flat4 _ g1 g3, ?_⟩
    intro c'
    rw [← h2 c']
    exact (child_of_flat_congr (flat_remove x pos) (shrink16 (flat_remove x pos)) c'
      (Or.inr hty) (Or.inl g1) g2 (fun i hi => g4 i (by omega))
      (fun i hi => g5 i (by omega))).2
  · rw [if_neg h3]
    exact ⟨node_ok_of_flat16 _ hty h1, h2⟩

theorem remove_child4_eq (x : inner_node) (pos : Nat) (hpos : pos < x.n.num_children) :
    remove_child4 x pos =
      if (flat_remove x pos).n.num_children = 1 then collapse4 (flat_remove x pos)
      else (flat_remove x pos).to_ref := by
  unfold remove_child4
  simp only [if_pos hpos, Option.isNone_none, true_and]
  rfl

theorem as_inner_to_ref (x : inner_node) : as_inner x.to_ref = some x := rfl

/-- What collapse4 returns, when an inner node, is the only child with another
header prefix: type, `num_children`, keys and children are those of the child. -/
theorem collapse4_inner (x y : inner_node) (h : as_inner (collapse4 x) = some y) :
    ∃ z, as_inner (slot_at x.children 0) = some z ∧ y.n.type = z.n.type ∧
      y.n.num_children = z.n.num_children ∧ y.keys = z.keys ∧ y.children = z.children := by
  unfold collapse4 at h
  cases hs : slot_at x.children 0 with
  | null => rw [hs] at h; cases h
  | leaf l => rw [hs] at h; cases h
  | inner cn ck cc cme =>
    rw [hs] at h
    refine ⟨⟨cn, ck, cc, cme⟩, rfl, ?_⟩
    simp only [as_inner, Option.some.injEq] at h
    subst h
    exact ⟨rfl, rfl, rfl, rfl⟩

theorem find_child_same (y z : inner_node) (c : Nat) (h1 : y.n.type = z.n.type)
    (h2 : y.n.num_children = z.n.num_children) (h3 : y.keys = z.keys)
    (h4 : y.children = z.children) : find_child y c = find_child z c := by
  unfold find_child
  rw [h1, h2, h3, h4]

theorem node_ok_same (y z : inner_node) (h1 : y.n.type = z.n.type)
    (h2 : y.n.num_children = z.n.num_children) (h3 : y.keys = z.keys)
    (h4 : y.children = z.children) (hz : node_ok z) : node_ok y := by
  unfold node_ok flat_ok node48_ok node256_ok at *
  rw [h1, h2, h3, h4]
  exact hz

theorem remove_child4_spec (x : inner_node) (c pos : Nat)
    (ht : x.n.type = NODE4) (hx : flat_ok 4 x) (hf : find_child x c = some pos)
    (y : inner_node) (hy : as_inner (remove_child4 x pos) = some y) :
    (node_ok y ∧ ∀ c', child_of y c' = if c' = c then art_ref.null else child_of x c') ∨
    (∃ c' z, as_inner (child_of x c') = some z ∧ y.n.type = z.n.type ∧
      y.n.num_children = z.n.num_children ∧ y.keys = z.keys ∧ y.children = z.children) := by
  obtain ⟨hpos, hkc⟩ := find_child_flat_some (Or.inl ht) hf
  have h1 := flat_remove_ok 4 x pos hx (by omega) hpos
  have h2 := flat_remove_child_of 4 x pos (Or.inl ht) hx (by omega) hpos
  rw [hkc] at h2
  have hty : (flat_remove x pos).n.type = NODE4 := ht
  rw [remove_child4_eq x pos hpos] at hy
  by_cases h3 : (flat_remove x pos).n.num_children = 1
  · rw [if_pos h3] at hy
    obtain ⟨z, hz, e⟩ := collapse4_inner _ _ hy
    right
    have h0 := child_of_flat_at (Or.inl hty) h1 (i := 0) (by omega)
    refine ⟨byte_at (flat_remove x pos).keys 0, z, ?_, e⟩
    have h5 := h2 (byte_at (flat_remove x pos).keys 0)
    rw [h0] at h5
    by_cases h6 : byte_at (flat_remove x pos).keys 0 = c
    · rw [if_pos h6] at h5
      rw [h5] at hz
      cases hz
    · rw [if_neg h6] at h5
      rw [← h5]
      exact hz
  · rw [if_neg h3, as_inner_to_ref] at hy
    left
    cases hy
    exact ⟨node_ok_of_flat4 _ hty h1, h2⟩

theorem count_below_succ (p : Nat → Bool) (n : Nat) :
    count_below p (n + 1) = count_below p n + (if p n = true then 1 else 0) := by
  unfold count_below
  rw [List.range_succ, List.filter_append, List.length_append]
  by_cases h : p n = true
  · rw [if_pos h, List.filter_cons_of_pos h]
    rfl
  · rw [if_neg h, List.filter_cons_of_neg h]
    rfl

theorem count_below_mono (p : Nat → Bool) (m n : Nat) (h : m ≤ n) :
    count_below p m ≤ count_below p n := by
  induction n with
  | zero =>
    have : m = 0 := by omega
    rw [this]
  | succ n ih =>
    by_cases hm : m = n + 1
    · rw [hm]
    · have := ih (by omega)
      rw [count_below_succ]
      omega

theorem count_below_lt (p : Nat → Bool) (m n : Nat) (h : m < n) (hp : p m = true) :
    count_below p m < count_below p n := by
  have h1 := count_below_mono p (m + 1) n h
  rw [count_below_succ, if_pos hp] at h1
  omega

theorem count_below_inj (p : Nat → Bool) (a b : Nat) (ha : p a = true) (hb : p b = true)
    (h : count_below p a = count_below p b) : a = b := by
  rcases Nat.lt_trichotomy a b with hlt | heq | hgt
  · have := count_below_lt p a b hlt ha
    omega
  · exact heq
  · have := count_below_lt p b a hgt hb
    omega

theorem count_below_surj (p : Nat → Bool) (n s : Nat) (h : s < count_below p n) :
    ∃ b < n, p b = true ∧ count_below p b = s := by
  induction n with
  | zero => exact absurd h (by simp [count_below])
  | succ n ih =>
    rw [count_below_succ] at h
    by_cases hs : s < count_below p n
    · obtain ⟨b, hb, h1, h2⟩ := ih hs
      exact ⟨b, by omega, h1, h2⟩
    · by_cases hp : p n = true
      · rw [if_pos hp] at h
        exact ⟨n, by omega, hp, by omega⟩
      · rw [if_neg hp] at h
        omega

theorem count_below_le (p : Nat → Bool) (n : Nat) : count_below p n ≤ n := by
  unfold count_below
  calc _ ≤ (List.range n).length := List.length_filter_le _ _
    _ = n := List.length_range n

/-! ### NODE48 -/

theorem clear48_spec (x : inner_node) (c : Nat) (ht : x.n.type = NODE48)
    (hx : node48_ok x) (hc : c < 256) (hkc : byte_at x.keys c ≠ 0) :
    (clear48 x c).n.type = NODE48 ∧
    (clear48 x c).n.num_children + 1 = x.n.num_children ∧
    node48_ok (clear48 x c) ∧
    ∀ c', child_of (clear48 x c) c' = if c' = c then art_ref.null else child_of x c' := by
  obtain ⟨hk, hch, hcnt1, hcnt2, hval, hinj⟩ := hx
  have hty : (clear48 x c).n.type = NODE48 := ht
  have hkeys : ∀ b, byte_at (clear48 x c).keys b = if b = c then 0 else byte_at x.keys b := by
    intro b
    show byte_at (x.keys.set c 0) b = _
    rw [byte_at_set]
    by_cases hb : b = c
    · rw [if_pos ⟨hb.symm, by omega⟩, if_pos hb]
    · rw [if_neg (fun h => hb h.1.symm), if_neg hb]
  have hchildren : ∀ s, slot_at (clear48 x c).children s =
      if s = byte_at x.keys c - 1 then art_ref.null else slot_at x.children s := by
    intro s
    show slot_at (if byte_at x.keys c = 0 then x.children
      else x.children.set (byte_at x.keys c - 1) art_ref.null) s = _
    rw [if_neg hkc, slot_at_set]
    have := (hval c hc hkc).1
    by_cases hs : s = byte_at x.keys c - 1
    · rw [if_pos ⟨hs.symm, by omega⟩, if_pos hs]
    · rw [if_neg (fun h => hs h.1.symm), if_neg hs]
  have hc1 := filter_range_insert 256 (fun b => byte_at (clear48 x c).keys b != 0)
    (fun b => byte_at x.keys b != 0) c hc
    (fun a _ => by
      simp only
      rw [hkeys a]
      by_cases hac : a = c
      · simp [hac, hkc]
      · have : (a == c) = false := by simpa using hac
        simp [hac, this])
    (by simp [hkeys c])
  have hp48 := (hval c hc hkc).1
  have hc2 := filter_range_insert 48 (fun s => !(slot_at (clear48 x c).children s).is_null)
    (fun s => !(slot_at x.children s).is_null) (byte_at x.keys c - 1) (by omega)
    (fun a _ => by
      simp only
      rw [hchildren a]
      by_cases hac : a = byte_at x.keys c - 1
      · rw [hac, (hval c hc hkc).2]
        simp
      · have : (a == byte_at x.keys c - 1) = false := by simpa using hac
        simp [hac, this])
    (by simp [hchildren (byte_at x.keys c - 1), art_ref.is_null])
  have hle : x.n.num_children ≤ 48 := by
    rw [hcnt2]
    calc _ ≤ (List.range 48).length := List.length_filter_le _ _
      _ = 48 := List.length_range 48
  have hnum : (clear48 x c).n.num_children + 1 = x.n.num_children := by
    show (x.n.num_children + 255) % 256 + 1 = _
    omega
  refine ⟨hty, hnum, ⟨?_, ?_, ?_, ?_, ?_, ?_⟩, ?_⟩
  · show (x.keys.set c 0).length = 256
    rw [List.length_set, hk]
  · show (if byte_at x.keys c = 0 then x.children
      else x.children.set (byte_at x.keys c - 1) art_ref.null).length = 48
    rw [if_neg hkc, List.length_set, hch]
  · omega
  · omega
  · intro b hb hb0
    rw [hkeys b] at hb0 ⊢
    by_cases hbc : b = c
    · rw [if_pos hbc] at hb0
      exact absurd rfl hb0
    · rw [if_neg hbc] at hb0 ⊢
      obtain ⟨v1, v2⟩ := hval b hb hb0
      refine ⟨v1, ?_⟩
      rw [hchildren, if_neg, v2]
      intro h
      have : byte_at x.keys b = byte_at x.keys c := by omega
      exact hbc (hinj b hb c hc hb0 this)
  · intro b hb b' hb' hb0 heq
    rw [hkeys b] at hb0
    rw [hkeys b, hkeys b'] at heq
    by_cases hbc : b = c
    · rw [if_pos hbc] at hb0
      exact absurd rfl hb0
    · rw [if_neg hbc] at hb0 heq
      by_cases hbc' : b' = c
      · rw [if_pos hbc'] at heq
        exact absurd heq hb0
      · rw [if_neg hbc'] at heq
        exact hinj b hb b' hb' hb0 heq
  · intro c'
    rw [child_of_48 _ _ hty, child_of_48 _ _ ht, hkeys c']
    by_cases hcc : c' = c
    · rw [if_pos hcc, if_pos hcc, if_neg (fun h => h rfl)]
    · rw [if_neg hcc, if_neg hcc]
      by_cases h0 : byte_at x.keys c' ≠ 0
      · rw [if_pos h0, if_pos h0, hchildren, if_neg]
        intro h
        have hc' : c' < 256 := by
          by_contra hge
          exact h0 (byte_at_beyond _ _ (by omega))
        have : byte_at x.keys c' = byte_at x.keys c := by omega
        exact hcc (hinj c' hc' c hc h0 this)
      · rw [if_neg h0, if_neg h0]

theorem shrink48_loop_spec (x : inner_node) (cnt i : Nat)
    (acc : List Nat × List art_ref × Nat)
    (h1 : acc.1.length = 16) (h2 : acc.2.1.length = 16)
    (h3 : acc.2.2 = count_below (fun b => byte_at x.keys b != 0) i)
    (h4 : ∀ b < i, byte_at x.keys b ≠ 0 →
      byte_at acc.1 (count_below (fun b => byte_at x.keys b != 0) b) = b ∧
      slot_at acc.2.1 (count_below (fun b => byte_at x.keys b != 0) b) =
        slot_at x.children (byte_at x.keys b - 1))
    (hb : count_below (fun b => byte_at x.keys b != 0) (i + cnt) ≤ 16) :
    (shrink48_loop x cnt i acc).1.length = 16 ∧
    (shrink48_loop x cnt i acc).2.1.length = 16 ∧
    ∀ b < i + cnt, byte_at x.keys b ≠ 0 →
      byte_at (shrink48_loop x cnt i acc).1
        (count_below (fun b => byte_at x.keys b != 0) b) = b ∧
      slot_at (shrink48_loop x cnt i acc).2.1
        (count_below (fun b => byte_at x.keys b != 0) b) =
        slot_at x.children (byte_at x.keys b - 1) := by
  induction cnt generalizing i acc with
  | zero => exact ⟨h1, h2, h4⟩
  | succ cnt ih =>
    have e : i + (cnt + 1) = i + 1 + cnt := by omega
    rw [shrink48_loop, e]
    rw [e] at hb
    have hs := count_below_succ (fun b => byte_at x.keys b != 0) i
    have hm := count_below_mono (fun b => byte_at x.keys b != 0) (i + 1) (i + 1 + cnt)
      (by omega)
    by_cases hk : byte_at x.keys i ≠ 0
    · have hpi : (fun b => byte_at x.keys b != 0) i = true := by simpa using hk
      rw [if_pos hpi] at hs
      rw [if_pos hk]
      apply ih (i + 1)
      · show (acc.1.set _ _).length = 16
        rw [List.length_set, h1]
      · show (acc.2.1.set _ _).length = 16
        rw [List.length_set, h2]
      · show acc.2.2 + 1 = _
        omega
      · intro b hb1 hb0
        show byte_at (acc.1.set acc.2.2 i) _ = b ∧ slot_at (acc.2.1.set acc.2.2 _) _ = _
        rw [byte_at_set, slot_at_set]
        by_cases hbi : b = i
        · subst hbi
          rw [if_pos ⟨h3, by omega⟩, if_pos ⟨h3, by omega⟩]
          exact ⟨rfl, rfl⟩
        · have hpb : (fun b => byte_at x.keys b != 0) b = true := by simpa using hb0
          have := count_below_lt (fun b => byte_at x.keys b != 0) b i (by omega) hpb
          rw [if_neg (by omega), if_neg (by omega)]
          exact h4 b (by omega) hb0
      · exact hb
    · have hpi : ¬ ((fun b => byte_at x.keys b != 0) i = true) := by simpa using hk
      rw [if_neg hpi] at hs
      rw [if_neg hk]
      apply ih (i + 1) acc h1 h2 (by omega)
      · intro b hb1 hb0
        by_cases hbi : b = i
        · subst hbi
          exact absurd hb0 hk
        · exact h4 b (by omega) hb0
      · exact hb

theorem alloc16_keys : (alloc_node NODE16).keys = List.replicate 16 0 := rfl

theorem alloc16_children :
    (alloc_node NODE16).children = List.replicate 16 art_ref.null := rfl

theorem shrink48_spec (x : inner_node) (ht : x.n.type = NODE48) (hx : node48_ok x)
    (hn : x.n.num_children ≤ 16) :
    (shrink48 x).n.type = NODE16 ∧ (shrink48 x).n.num_children = x.n.num_children ∧
    flat_ok 16 (shrink48 x) ∧ ∀ c', child_of (shrink48 x) c' = child_of x c' := by
  obtain ⟨hk, hch, hcnt1, hcnt2, hval, hinj⟩ := hx
  have hcb : count_below (fun b => byte_at x.keys b != 0) 256 = x.n.num_children := hcnt1.symm
  obtain ⟨l1, l2, l3⟩ := shrink48_loop_spec x 256 0
    ((alloc_node NODE16).keys, (alloc_node NODE16).children, 0) rfl rfl rfl
    (fun b hb => absurd hb (by omega)) (by rw [Nat.zero_add, hcb]; exact hn)
  rw [Nat.zero_add] at l3
  have hty : (shrink48 x).n.type = NODE16 := rfl
  have hnum : (shrink48 x).n.num_children = x.n.num_children := rfl
  have hp : ∀ b, (fun b => byte_at x.keys b != 0) b = true ↔ byte_at x.keys b ≠ 0 := by
    intro b
    simp
  have hat : ∀ k < x.n.num_children, ∃ b < 256, byte_at x.keys b ≠ 0 ∧
      count_below (fun b => byte_at x.keys b != 0) b = k ∧
      byte_at (shrink48 x).keys k = b ∧
      slot_at (shrink48 x).children k = slot_at x.children (byte_at x.keys b - 1) := by
    intro k hk1
    rw [← hcb] at hk1
    obtain ⟨b, hb, hb1, hb2⟩ := count_below_surj _ _ _ hk1
    have hb0 := (hp b).1 hb1
    obtain ⟨a1, a2⟩ := l3 b hb hb0
    rw [hb2] at a1 a2
    exact ⟨b, hb, hb0, hb2, a1, a2⟩
  have hok : flat_ok 16 (shrink48 x) := by
    refine ⟨l1, l2, by rw [hnum]; exact hn, ?_, ?_⟩
    · intro i hi
      obtain ⟨b, hb, hb0, _, a1, a2⟩ := hat i hi
      rw [a1, a2]
      exact ⟨hb, (hval b hb hb0).2⟩
    · intro i hi j hj hij
      obtain ⟨b, _, _, hb2, a1, _⟩ := hat i hi
      obtain ⟨b', _, _, hb2', a1', _⟩ := hat j hj
      rw [a1, a1'] at hij
      rw [← hb2, ← hb2', hij]
  refine ⟨hty, hnum, hok, ?_⟩
  intro c'
  rw [child_of_48 x c' ht]
  by_cases h0 : byte_at x.keys c' ≠ 0
  · rw [if_pos h0]
    have hc' : c' < 256 := by
      by_contra hge
      exact h0 (byte_at_beyond _ _ (by omega))
    obtain ⟨a1, a2⟩ := l3 c' hc' h0
    have hlt : count_below (fun b => byte_at x.keys b != 0) c' < x.n.num_children := by
      rw [← hcb]
      exact count_below_lt _ _ _ hc' ((hp c').2 h0)
    have b1 : byte_at (shrink48 x).keys (count_below (fun b => byte_at x.keys b != 0) c')
        = c' := a1
    have b2 : slot_at (shrink48 x).children (count_below (fun b => byte_at x.keys b != 0) c')
        = slot_at x.children (byte_at x.keys c' - 1) := a2
    have := child_of_flat_at (Or.inr hty) hok (i := count_below _ c') hlt
    rw [b1, b2] at this
    exact this
  · rw [if_neg h0]
    apply child_of_flat_absent (Or.inr hty)
    intro i hi h
    obtain ⟨b, _, hb0, _, a1, _⟩ := hat i hi
    rw [a1] at h
    rw [h] at hb0
    exact h0 hb0

theorem remove_child48_spec (x : inner_node) (c pos : Nat)
    (ht : x.n.type = NODE48) (hx : node48_ok x) (hf : find_child x c = some pos) :
    node_ok (remove_child48 x c) ∧
    ∀ c', child_of (remove_child48 x c) c' =
      if c' = c then art_ref.null else child_of x c' := by
  have hkc : byte_at x.keys c ≠ 0 := by
    rw [find_child_48 x c ht] at hf
    intro h
    rw [if_neg (fun h' => h' h)] at hf
    cases hf
  have hc : c < 256 := by
    by_contra hge
    exact hkc (byte_at_beyond _ _ (by rw [hx.1]; omega))
  obtain ⟨h1, h2, h3, h4⟩ := clear48_spec x c ht hx hc hkc
  rw [remove_child48_eq]
  by_cases h12 : (clear48 x c).n.num_children = 12
  · rw [if_pos h12]
    obtain ⟨g1, _, g3, g4⟩ := shrink48_spec (clear48 x c) h1 h3 (by omega)
    refine ⟨node_ok_of_flat16 _ g1 g3, ?_⟩
    intro c'
    rw [g4 c', h4 c']
  · rw [if_neg h12]
    exact ⟨node_ok_of_48 _ h1 h3, h4⟩

/-! ### NODE256 -/

theorem clear256_spec (x : inner_node) (c : Nat) (ht : x.n.type = NODE256)
    (hx : node256_ok x) (hc : c < 256) (hs : (slot_at x.children c).is_null = false) :
    (clear256 x c).n.type = NODE256 ∧
    node256_ok (clear256 x c) ∧
    (clear256 x c).n.num_children =
      count_below (fun b => !(slot_at (clear256 x c).children b).is_null) 256 ∧
    ∀ c', child_of (clear256 x c) c' = if c' = c then art_ref.null else child_of x c' := by
  obtain ⟨hch, hcnt⟩ := hx
  have hty : (clear256 x c).n.type = NODE256 := ht
  have hchildren : ∀ s, slot_at (clear256 x c).children s =
      if s = c then art_ref.null else slot_at x.children s := by
    intro s
    show slot_at (x.children.set c art_ref.null) s = _
    rw [slot_at_set]
    by_cases hsc : s = c
    · rw [if_pos ⟨hsc.symm, by omega⟩, if_pos hsc]
    · rw [if_neg (fun h => hsc h.1.symm), if_neg hsc]
  have h1 := filter_range_insert 256 (fun s => !(slot_at (clear256 x c).children s).is_null)
    (fun s => !(slot_at x.children s).is_null) c hc
    (fun a _ => by
      simp only
      rw [hchildren a]
      by_cases hac : a = c
      · simp [hac, hs]
      · have : (a == c) = false := by simpa using hac
        simp [hac, this])
    (by simp [hchildren c, art_ref.is_null])
  have h2 := count_below_le (fun s => !(slot_at x.children s).is_null) 256
  unfold count_below at h2 ⊢
  have hnum : (clear256 x c).n.num_children = (x.n.num_children + 255) % 256 := rfl
  refine ⟨hty, ⟨?_, ?_⟩, ?_, ?_⟩
  · show (x.children.set c art_ref.null).length = 256
    rw [List.length_set, hch]
  · rw [hnum, hcnt]
    omega
  · rw [hnum, hcnt]
    omega
  · intro c'
    rw [child_of_256 _ _ hty, child_of_256 _ _ ht, hchildren]

theorem shrink256_loop_spec (x : inner_node) (cnt i : Nat)
    (acc : List Nat × List art_ref × Nat)
    (h1 : acc.1.length = 256) (h2 : acc.2.1.length = 48)
    (h3 : acc.2.2 = count_below (fun b => !(slot_at x.children b).is_null) i)
    (hK : ∀ b, byte_at acc.1 b =
      if b < i ∧ (slot_at x.children b).is_null = false then
        count_below (fun b => !(slot_at x.children b).is_null) b + 1
      else 0)
    (hC : ∀ b < i, (slot_at x.children b).is_null = false →
      slot_at acc.2.1 (count_below (fun b => !(slot_at x.children b).is_null) b) =
        slot_at x.children b)
    (hN : ∀ s, count_below (fun b => !(slot_at x.children b).is_null) i ≤ s →
      slot_at acc.2.1 s = art_ref.null)
    (hb : count_below (fun b => !(slot_at x.children b).is_null) (i + cnt) ≤ 48)
    (hi : i + cnt ≤ 256) :
    (shrink256_loop x cnt i acc).1.length = 256 ∧
    (shrink256_loop x cnt i acc).2.1.length = 48 ∧
    (∀ b, byte_at (shrink256_loop x cnt i acc).1 b =
      if b < i + cnt ∧ (slot_at x.children b).is_null = false then
        count_below (fun b => !(slot_at x.children b).is_null) b + 1
      else 0) ∧
    (∀ b < i + cnt, (slot_at x.children b).is_null = false →
      slot_at (shrink256_loop x cnt i acc).2.1
        (count_below (fun b => !(slot_at x.children b).is_null) b) = slot_at x.children b) ∧
    (∀ s, count_below (fun b => !(slot_at x.children b).is_null) (i + cnt) ≤ s →
      slot_at (shrink256_loop x cnt i acc).2.1 s = art_ref.null) := by
  induction cnt generalizing i acc with
  | zero => exact ⟨h1, h2, hK, hC, hN⟩
  | succ cnt ih =>
    have e : i + (cnt + 1) = i + 1 + cnt := by omega
    rw [shrink256_loop, e]
    rw [e] at hb hi
    have hs := count_below_succ (fun b => !(slot_at x.children b).is_null) i
    have hm := count_below_mono (fun b => !(slot_at x.children b).is_null) (i + 1)
      (i + 1 + cnt) (by omega)
    by_cases hk : (slot_at x.children i).is_null = true
    · have hpi : ¬ ((fun b => !(slot_at x.children b).is_null) i = true) := by simp [hk]
      rw [if_neg hpi] at hs
      rw [if_pos hk]
      apply ih (i + 1) acc h1 h2 (by omega)
      · intro b
        rw [hK b]
        by_cases hbi : b = i
        · subst hbi
          rw [if_neg (by omega), if_neg (fun h => by rw [hk] at h; cases h.2)]
        · by_cases hc : b < i ∧ (slot_at x.children b).is_null = false
          · rw [if_pos hc, if_pos ⟨by omega, hc.2⟩]
          · rw [if_neg hc, if_neg (fun h => hc ⟨by omega, h.2⟩)]
      · intro b hb1 hb0
        by_cases hbi : b = i
        · subst hbi
          rw [hk] at hb0
          cases hb0
        · exact hC b (by omega) hb0
      · intro s hs1
        exact hN s (by omega)
      · exact hb
      · exact hi
    · have hk0 : (slot_at x.children i).is_null = false := by
        cases h : (slot_at x.children i).is_null
        · rfl
        · exact absurd h hk
      have hpi : (fun b => !(slot_at x.children b).is_null) i = true := by simp [hk0]
      rw [if_pos hpi] at hs
      rw [if_neg hk]
      apply ih (i + 1)
      · show (acc.1.set _ _).length = 256
        rw [List.length_set, h1]
      · show (acc.2.1.set _ _).length = 48
        rw [List.length_set, h2]
      · show acc.2.2 + 1 = _
        omega
      · intro b
        show byte_at (acc.1.set i (acc.2.2 + 1)) b = _
        rw [byte_at_set, hK b]
        by_cases hbi : b = i
        · subst hbi
          rw [if_pos ⟨rfl, by omega⟩, if_pos ⟨by omega, hk0⟩, h3]
        · rw [if_neg (fun h => hbi h.1.symm)]
          by_cases hc : b < i ∧ (slot_at x.children b).is_null = false
          · rw [if_pos hc, if_pos ⟨by omega, hc.2⟩]
          · rw [if_neg hc, if_neg (fun h => hc ⟨by omega, h.2⟩)]
      · intro b hb1 hb0
        show slot_at (acc.2.1.set acc.2.2 (slot_at x.children i)) _ = _
        rw [slot_at_set]
        by_cases hbi : b = i
        · subst hbi
          rw [if_pos ⟨h3, by omega⟩]
        · have hpb : (fun b => !(slot_at x.children b).is_null) b = true := by simp [hb0]
          have := count_below_lt (fun b => !(slot_at x.children b).is_null) b i (by omega) hpb
          rw [if_neg (by omega)]
          exact hC b (by omega) hb0
      · intro s hs1
        show slot_at (acc.2.1.set acc.2.2 (slot_at x.children i)) s = _
        rw [slot_at_set, if_neg (by omega)]
        exact hN s (by omega)
      · exact hb
      · exact hi

theorem is_null_false_iff (r : art_ref) : r.is_null = false ↔ r ≠ art_ref.null := by
  cases r <;> simp [art_ref.is_null]

theorem shrink256_keys_def (x : inner_node) :
    (shrink256 x).keys =
      (shrink256_loop x 256 0 (List.replicate 256 0, List.replicate 48 art_ref.null, 0)).1 := by
  simp only [shrink256, alloc48_keys, alloc48_children]

theorem shrink256_children_def (x : inner_node) :
    (shrink256 x).children =
      (shrink256_loop x 256 0 (List.replicate 256 0, List.replicate 48 art_ref.null, 0)).2.1 := by
  simp only [shrink256, alloc48_keys, alloc48_children]

theorem shrink256_spec (x : inner_node) (ht : x.n.type = NODE256)
    (hlen : x.children.length = 256)
    (hcb : x.n.num_children = count_below (fun b => !(slot_at x.children b).is_null) 256)
    (hn : x.n.num_children ≤ 48) :
    (shrink256 x).n.type = NODE48 ∧ (shrink256 x).n.num_children = x.n.num_children ∧
    node48_ok (shrink256 x) ∧ ∀ c', child_of (shrink256 x) c' = child_of x c' := by
  obtain ⟨l1, l2, l3, l4, l5⟩ := shrink256_loop_spec x 256 0
    (List.replicate 256 0, List.replicate 48 art_ref.null, 0)
    (List.length_replicate 256 0) (List.length_replicate 48 art_ref.null) rfl
    (fun b => by
      rw [if_neg (by omega)]
      exact byte_at_replicate_zero 256 b)
    (fun b hb => absurd hb (by omega))
    (fun s _ => slot_at_replicate_null 48 s)
    (by rw [Nat.zero_add, ← hcb]; exact hn) (by omega)
  rw [Nat.zero_add] at l3 l4 l5
  rw [← shrink256_keys_def] at l1 l3
  rw [← shrink256_children_def] at l2 l4 l5
  have hty : (shrink256 x).n.type = NODE48 := rfl
  have hnum : (shrink256 x).n.num_children = x.n.num_children := rfl
  have k1 : (shrink256 x).keys.length = 256 := l1
  have k2 : (shrink256 x).children.length = 48 := l2
  have k3 : ∀ b, byte_at (shrink256 x).keys b =
      if b < 256 ∧ (slot_at x.children b).is_null = false then
        count_below (fun b => !(slot_at x.children b).is_null) b + 1
      else 0 := l3
  have k4 : ∀ b < 256, (slot_at x.children b).is_null = false →
      slot_at (shrink256 x).children
        (count_below (fun b => !(slot_at x.children b).is_null) b) = slot_at x.children b := l4
  have k5 : ∀ s, x.n.num_children ≤ s → slot_at (shrink256 x).children s = art_ref.null := by
    intro s hs
    exact l5 s (by rw [← hcb]; exact hs)
  have hp : ∀ b, (fun b => !(slot_at x.children b).is_null) b = true ↔
      (slot_at x.children b).is_null = false := by
    intro b
    simp
  have hkey : ∀ b, byte_at (shrink256 x).keys b ≠ 0 →
      b < 256 ∧ (slot_at x.children b).is_null = false ∧
      byte_at (shrink256 x).keys b =
        count_below (fun b => !(slot_at x.children b).is_null) b + 1 := by
    intro b hb
    rw [k3 b] at hb ⊢
    by_cases hc : b < 256 ∧ (slot_at x.children b).is_null = false
    · rw [if_pos hc]
      exact ⟨hc.1, hc.2, rfl⟩
    · rw [if_neg hc] at hb
      exact absurd rfl hb
  have hok : node48_ok (shrink256 x) := by
    refine ⟨k1, k2, ?_, ?_, ?_, ?_⟩
    · rw [hnum, hcb]
      unfold count_below
      congr 1
      apply filter_range_congr
      intro a ha
      rw [k3 a]
      cases h : (slot_at x.children a).is_null
      · rw [if_pos ⟨ha, rfl⟩]
        simp
      · rw [if_neg (fun h' => by cases h'.2)]
        simp
    · rw [hnum]
      symm
      apply filter_range_lt 48 _ hn
      intro s _
      by_cases hs : s < x.n.num_children
      · rw [hcb] at hs
        obtain ⟨b, hb, hb1, hb2⟩ := count_below_surj _ _ _ hs
        have := k4 b hb ((hp b).1 hb1)
        rw [hb2] at this
        rw [this, (hp b).1 hb1]
        rw [← hcb] at hs
        simp [hs]
      · rw [k5 s (by omega)]
        simp [hs, art_ref.is_null]
    · intro b hb hb0
      obtain ⟨_, a2, a3⟩ := hkey b hb0
      have := count_below_lt (fun b => !(slot_at x.children b).is_null) b 256 hb
        ((hp b).2 a2)
      rw [← hcb] at this
      rw [a3, Nat.add_sub_cancel, k4 b hb a2]
      exact ⟨by omega, a2⟩
    · intro b hb b' hb' hb0 heq
      obtain ⟨_, a2, a3⟩ := hkey b hb0
      rw [heq] at hb0
      obtain ⟨_, a2', a3'⟩ := hkey b' hb0
      rw [a3, a3'] at heq
      exact count_below_inj (fun b => !(slot_at x.children b).is_null) b b' ((hp b).2 a2)
        ((hp b').2 a2') (by omega)
  refine ⟨hty, hnum, hok, ?_⟩
  intro c'
  rw [child_of_48 _ _ hty, child_of_256 _ _ ht]
  by_cases h0 : byte_at (shrink256 x).keys c' ≠ 0
  · obtain ⟨a1, a2, a3⟩ := hkey c' h0
    rw [if_pos h0, a3, Nat.add_sub_cancel, k4 c' a1 a2]
  · rw [if_neg h0]
    rw [k3 c'] at h0
    by_cases hc : c' < 256
    · have : (slot_at x.children c').is_null = true := by
        cases h : (slot_at x.children c').is_null
        · rw [if_pos ⟨hc, h⟩] at h0
          exact absurd (Nat.succ_ne_zero _) h0
        · rfl
      exact ((is_null_iff _).1 this).symm
    · exact (slot_at_beyond _ _ (by omega)).symm

theorem remove_child256_spec (x : inner_node) (c pos : Nat)
    (ht : x.n.type = NODE256) (hx : node256_ok x) (hf : find_child x c = some pos) :
    node_ok (remove_child256 x c) ∧
    ∀ c', child_of (remove_child256 x c) c' =
      if c' = c then art_ref.null else child_of x c' := by
  have hs : (slot_at x.children c).is_null = false := by
    rw [find_child_256 x c ht] at hf
    cases h : (slot_at x.children c).is_null
    · rfl
    · rw [h, if_pos rfl] at hf
      cases hf
  have hc : c < 256 := by
    by_contra hge
    rw [slot_at_beyond _ _ (by rw [hx.1]; omega)] at hs
    cases hs
  obtain ⟨h1, h2, h3, h4⟩ := clear256_spec x c ht hx hc hs
  rw [remove_child256_eq]
  by_cases h37 : (clear256 x c).n.num_children = 37
  · rw [if_pos h37]
    obtain ⟨g1, _, g3, g4⟩ := shrink256_spec (clear256 x c) h1 h2.1 h3 (by omega)
    refine ⟨node_ok_of_48 _ g1 g3, ?_⟩
    intro c'
    rw [g4 c', h4 c']
  · rw [if_neg h37]
    exact ⟨node_ok_of_256 _ h1 h2, h4⟩

/-- One byte fewer has a child after the child of a byte was taken away. -/
theorem populated_remove (x y : inner_node) (c : Nat)
    (hx : node_ok x) (hy : node_ok y) (hc : c < 256)
    (hpre : (child_of x c).is_null = false)
    (h : ∀ c', child_of y c' = if c' = c then art_ref.null else child_of x c') :
    populated y + 1 = populated x := by
  unfold populated
  symm
  apply filter_range_insert 256 _ _ c hc
  · intro a _
    rw [isSome_eq_child_of y hy, isSome_eq_child_of x hx, h a]
    by_cases hac : a = c
    · simp [hac, hpre]
    · have : (a == c) = false := by simpa using hac
      rw [if_neg hac, this]
      rfl
  · rw [isSome_eq_child_of y hy, h c, if_pos rfl]
    rfl

theorem find_child_some_lt (x : inner_node) (hx : node_ok x) (c pos : Nat)
    (hf : find_child x c = some pos) : c < 256 ∧ (child_of x c).is_null = false := by
  have h1 : (child_of x c).is_null = false := by
    have := isSome_eq_child_of x hx c
    rw [hf] at this
    cases h : (child_of x c).is_null
    · rfl
    · rw [h] at this
      cases this
  refine ⟨?_, h1⟩
  rcases node_ok_cases x hx with ⟨ht, h⟩ | ⟨ht, h⟩ | ⟨ht, h⟩ | ⟨ht, h⟩
  · obtain ⟨a, b⟩ := find_child_flat_some (Or.inl ht) hf
    rw [← b]
    exact (h.2.2.2.1 pos a).1
  · obtain ⟨a, b⟩ := find_child_flat_some (Or.inr ht) hf
    rw [← b]
    exact (h.2.2.2.1 pos a).1
  · by_contra hge
    rw [child_of_48 x c ht, byte_at_beyond _ _ (by rw [h.1]; omega)] at h1
    cases h1
  · by_contra hge
    rw [child_of_256 x c ht, slot_at_beyond _ _ (by rw [h.1]; omega)] at h1
    cases h1

/-- The function remove_child on a well-formed node and a byte with a child at
slot `pos`: when an inner node is left in `*ref` it is either the node (or its
smaller replacement), well formed and without the child for `c`, or the only
remaining child of a NODE4, with its type, count, keys and children. -/
theorem remove_child_spec (x : inner_node) (c pos : Nat) (hx : node_ok x)
    (hf : find_child x c = some pos) (y : inner_node)
    (hy : as_inner (remove_child x c pos) = some y) :
    (node_ok y ∧ populated y + 1 = populated x) ∨
    (∃ c' z, as_inner (child_of x c') = some z ∧ y.n.type = z.n.type ∧
      y.n.num_children = z.n.num_children ∧ y.keys = z.keys ∧ y.children = z.children) := by
  obtain ⟨hc, hpre⟩ := find_child_some_lt x hx c pos hf
  unfold remove_child at hy
  rcases node_ok_cases x hx with ⟨ht, h⟩ | ⟨ht, h⟩ | ⟨ht, h⟩ | ⟨ht, h⟩ <;> rw [ht] at hy
  · rcases remove_child4_spec x c pos ht h hf y hy with ⟨a1, a2⟩ | hcol
    · exact Or.inl ⟨a1, populated_remove x y c hx a1 hc hpre a2⟩
    · exact Or.inr hcol
  · simp only [as_inner_to_ref, Option.some.injEq] at hy
    subst hy
    obtain ⟨a1, a2⟩ := remove_child16_spec x c pos ht h hf
    exact Or.inl ⟨a1, populated_remove x _ c hx a1 hc hpre a2⟩
  · simp only [as_inner_to_ref, Option.some.injEq] at hy
    subst hy
    obtain ⟨a1, a2⟩ := remove_child48_spec x c pos ht h hf
    exact Or.inl ⟨a1, populated_remove x _ c hx a1 hc hpre a2⟩
  · simp only [as_inner_to_ref, Option.some.injEq] at hy
    subst hy
    obtain ⟨a1, a2⟩ := remove_child256_spec x c pos ht h hf
    exact Or.inl ⟨a1, populated_remove x _ c hx a1 hc hpre a2⟩

theorem remove_child_count (x : inner_node) (c pos : Nat) (hx : node_ok x)
    (hf : find_child x c = some pos)
    (hkids : ∀ c' z, as_inner (child_of x c') = some z → node_ok z)
    (y : inner_node) (hy : as_inner (remove_child x c pos) = some y) :
    node_ok y ∧ y.n.num_children = populated y % 256 := by
  have hok : node_ok y := by
    rcases remove_child_spec x c pos hx hf y hy with ⟨a1, _⟩ | ⟨c', z, hz, e1, e2, e3, e4⟩
    · exact a1
    · exact node_ok_same y z e1 e2 e3 e4 (hkids c' z hz)
  exact ⟨hok, node_ok_count y hok⟩

theorem child_of_beyond (x : inner_node) (hx : node_ok x) (c : Nat) (hc : 256 ≤ c) :
    child_of x c = art_ref.null := by
  cases hf : find_child x c with
  | none => exact child_of_none x c hf
  | some pos =>
    have := (find_child_some_lt x hx c pos hf).1
    omega

theorem children_ok_all (x : inner_node) (hx : node_ok x) (hk : children_ok x) (c : Nat)
    (z : inner_node) (hz : as_inner (child_of x c) = some z) : node_ok z := by
  by_cases hc : c < 256
  · exact hk c hc z hz
  · rw [child_of_beyond x hx c (by omega)] at hz
    cases hz


/-! ## Type and header after add_child -/

theorem same_header_refl (x : inner_node) : same_header x x :=
  ⟨rfl, rfl, fun _ _ => rfl⟩

theorem same_header_trans (z y x : inner_node) (h1 : same_header z y)
    (h2 : same_header y x) : same_header z x := by
  obtain ⟨a1, a2, a3⟩ := h1
  obtain ⟨b1, b2, b3⟩ := h2
  refine ⟨a1.trans b1, a2.trans b2, ?_⟩
  intro i hi
  rw [a3 i (by rw [b1]; exact hi), b3 i hi]

theorem copy_header_spec (dest src : art_node) (hd : dest.partial_bytes.length = MAX_PREFIX_LEN) :
    (copy_header dest src).type = dest.type ∧
    (copy_header dest src).num_children = src.num_children ∧
    (copy_header dest src).partial_len = src.partial_len ∧
    ∀ i < min MAX_PREFIX_LEN src.partial_len,
      byte_at (copy_header dest src).partial_bytes i = byte_at src.partial_bytes i := by
  refine ⟨rfl, rfl, rfl, ?_⟩
  intro i hi
  show byte_at (copy_bytes dest.partial_bytes 0 src.partial_bytes 0
    (min MAX_PREFIX_LEN src.partial_len)) i = _
  rw [byte_at_copy_bytes]
  have hlt : i < MAX_PREFIX_LEN := lt_of_lt_of_le hi (Nat.min_le_left _ _)
  have a : 0 ≤ i ∧ i < 0 + min MAX_PREFIX_LEN src.partial_len ∧ i < dest.partial_bytes.length := by
    refine ⟨Nat.zero_le _, by omega, by omega⟩
  rw [if_pos a]
  simp

theorem flat_insert_header (x : inner_node) (p c : Nat) (child : art_ref) :
    (flat_insert x p c child).n.type = x.n.type ∧ same_header (flat_insert x p c child) x :=
  ⟨rfl, rfl, rfl, fun _ _ => rfl⟩

theorem grow4_header (x : inner_node) :
    (grow4 x).n.type = NODE16 ∧ (grow4 x).n.num_children = x.n.num_children ∧
    same_header (grow4 x) x :=
  ⟨rfl, rfl, rfl, rfl, (copy_header_spec (alloc_node NODE16).n x.n rfl).2.2.2⟩

theorem grow16_header (x : inner_node) :
    (grow16 x).n.type = NODE48 ∧ (grow16 x).n.num_children = x.n.num_children ∧
    same_header (grow16 x) x :=
  ⟨rfl, rfl, rfl, rfl, (copy_header_spec (alloc_node NODE48).n x.n rfl).2.2.2⟩

theorem grow48_header (x : inner_node) :
    (grow48 x).n.type = NODE256 ∧ (grow48 x).n.num_children = x.n.num_children ∧
    same_header (grow48 x) x :=
  ⟨rfl, rfl, rfl, rfl, (copy_header_spec (alloc_node NODE256).n x.n rfl).2.2.2⟩

theorem add_child256_header (x : inner_node) (c : Nat) (child : art_ref) :
    (add_child256 x c child).n.type = x.n.type ∧ same_header (add_child256 x c child) x :=
  ⟨rfl, rfl, rfl, fun _ _ => rfl⟩

theorem add_child48_header (x : inner_node) (c : Nat) (child : art_ref)
    (ht : x.n.type = NODE48) (hle : x.n.num_children ≤ 48) :
    (add_child48 x c child).n.type =
      (if x.n.num_children = 48 then NODE256 else NODE48) ∧
    same_header (add_child48 x c child) x := by
  by_cases hn : x.n.num_children < 48
  · have h48 : x.n.num_children ≠ 48 := by omega
    rw [if_neg h48]
    unfold add_child48
    rw [if_pos hn]
    exact ⟨ht, rfl, rfl, fun _ _ => rfl⟩
  · have h48 : x.n.num_children = 48 := by omega
    rw [if_pos h48, add_child48_grow x c child hn]
    obtain ⟨g1, _, g3⟩ := grow48_header x
    obtain ⟨a1, a2⟩ := add_child256_header (grow48 x) c child
    exact ⟨a1.trans g1, same_header_trans _ _ _ a2 g3⟩

theorem add_child16_header (b : build) (x : inner_node) (c : Nat) (child : art_ref)
    (ht : x.n.type = NODE16) (hle : x.n.num_children ≤ 16) :
    (add_child16 b x c child).n.type =
      (if x.n.num_children = 16 then NODE48 else NODE16) ∧
    same_header (add_child16 b x c child) x := by
  by_cases hn : x.n.num_children < 16
  · have h16 : x.n.num_children ≠ 16 := by omega
    obtain ⟨p, _, he⟩ := add_child16_in_place b x c child hn
    obtain ⟨a1, a2⟩ := flat_insert_header x p c child
    rw [if_neg h16, he]
    exact ⟨a1.trans ht, a2⟩
  · have h16 : x.n.num_children = 16 := by omega
    rw [if_pos h16, add_child16_grow b x c child hn]
    obtain ⟨g1, g2, g3⟩ := grow16_header x
    obtain ⟨a1, a2⟩ := add_child48_header (grow16 x) c child g1 (by omega)
    rw [if_neg (by omega)] at a1
    exact ⟨a1, same_header_trans _ _ _ a2 g3⟩

theorem add_child4_header (b : build) (x : inner_node) (c : Nat) (child : art_ref)
    (ht : x.n.type = NODE4) (hle : x.n.num_children ≤ 4) :
    (add_child4 b x c child).n.type =
      (if x.n.num_children = 4 then NODE16 else NODE4) ∧
    same_header (add_child4 b x c child) x := by
  by_cases hn : x.n.num_children < 4
  · have h4 : x.n.num_children ≠ 4 := by omega
    obtain ⟨p, _, he⟩ := add_child4_in_place b x c child hn
    obtain ⟨a1, a2⟩ := flat_insert_header x p c child
    rw [if_neg h4, he]
    exact ⟨a1.trans ht, a2⟩
  · have h4 : x.n.num_children = 4 := by omega
    rw [if_pos h4, add_child4_grow b x c child hn]
    obtain ⟨g1, g2, g3⟩ := grow4_header x
    obtain ⟨a1, a2⟩ := add_child16_header b (grow4 x) c child g1 (by omega)
    rw [if_neg (by omega)] at a1
    exact ⟨a1, same_header_trans _ _ _ a2 g3⟩

theorem node_ok_capacity (x : inner_node) (hx : node_ok x) :
    (x.n.type = NODE4 → x.n.num_children ≤ 4) ∧
    (x.n.type = NODE16 → x.n.num_children ≤ 16) ∧
    (x.n.type = NODE48 → x.n.num_children ≤ 48) := by
  rcases node_ok_cases x hx with ⟨ht, h⟩ | ⟨ht, h⟩ | ⟨ht, h⟩ | ⟨ht, h⟩ <;> rw [ht] <;>
    refine ⟨?_, ?_, ?_⟩ <;> intro h' <;>
    first
    | exact h.2.2.1
    | exact (populated_48 x ht h).2
    | cases h'

/-- The function add_child on a node within its capacity: the variant changes
exactly at capacity and the header is taken over. -/
theorem add_child_header (b : build) (x : inner_node) (c : Nat) (child : art_ref)
    (hx : node_ok x) :
    (add_child b x c child).n.type = variant_after_add x ∧
    same_header (add_child b x c child) x := by
  obtain ⟨c4, c16, c48⟩ := node_ok_capacity x hx
  unfold add_child variant_after_add
  cases ht : x.n.type
  · exact add_child4_header b x c child ht (c4 ht)
  · exact add_child16_header b x c child ht (c16 ht)
  · exact add_child48_header x c child ht (c48 ht)
  · have := add_child256_header x c child
    exact ⟨this.1.trans ht, this.2⟩

/-! ## Type, header and slots after remove_child -/

theorem flat_remove_header (x : inner_node) (pos : Nat) :
    (flat_remove x pos).n.type = x.n.type ∧ same_header (flat_remove x pos) x :=
  ⟨rfl, rfl, rfl, fun _ _ => rfl⟩

theorem clear48_header (x : inner_node) (c : Nat) :
    (clear48 x c).n.type = x.n.type ∧ same_header (clear48 x c) x :=
  ⟨rfl, rfl, rfl, fun _ _ => rfl⟩

theorem clear256_header (x : inner_node) (c : Nat) :
    (clear256 x c).n.type = x.n.type ∧ same_header (clear256 x c) x :=
  ⟨rfl, rfl, rfl, fun _ _ => rfl⟩

theorem shrink16_header (x : inner_node) :
    (shrink16 x).n.type = NODE4 ∧ (shrink16 x).n.num_children = x.n.num_children ∧
    same_header (shrink16 x) x :=
  ⟨rfl, rfl, rfl, rfl, (copy_header_spec (alloc_node NODE4).n x.n rfl).2.2.2⟩

theorem shrink48_header (x : inner_node) :
    (shrink48 x).n.type = NODE16 ∧ (shrink48 x).n.num_children = x.n.num_children ∧
    same_header (shrink48 x) x :=
  ⟨rfl, rfl, rfl, rfl, (copy_header_spec (alloc_node NODE16).n x.n rfl).2.2.2⟩

theorem shrink256_header (x : inner_node) :
    (shrink256 x).n.type = NODE48 ∧ (shrink256 x).n.num_children = x.n.num_children ∧
    same_header (shrink256 x) x :=
  ⟨rfl, rfl, rfl, rfl, (copy_header_spec (alloc_node NODE48).n x.n rfl).2.2.2⟩

theorem slots_in_use_eq (x : inner_node) (n m : Nat) (hlen : x.children.length = n)
    (hm : m ≤ n) (h1 : ∀ s < m, (slot_at x.children s).is_null = false)
    (h2 : ∀ s, m ≤ s → slot_at x.children s = art_ref.null) : slots_in_use x = m := by
  unfold slots_in_use
  rw [hlen]
  apply filter_range_lt n m hm
  intro s _
  by_cases hs : s < m
  · rw [h1 s hs]
    simp [hs]
  · rw [h2 s (by omega)]
    simp [hs, art_ref.is_null]

theorem remove_child16_shape (x : inner_node) (pos : Nat) (ht : x.n.type = NODE16)
    (hx : flat_ok 16 x) (hpos : pos < x.n.num_children) :
    (remove_child16 x pos).n.type = (if x.n.num_children = 4 then NODE4 else NODE16) ∧
    (remove_child16 x pos).n.num_children + 1 = x.n.num_children ∧
    same_header (remove_child16 x pos) x ∧
    (x.n.num_children = 4 → slots_in_use (remove_child16 x pos) = 4 ∧
      slot_at (remove_child16 x pos).children 3 = slot_at x.children 3) := by
  have hnum := flat_remove_num 16 x pos hx (by omega) hpos
  have hok := flat_remove_ok 16 x pos hx (by omega) hpos
  obtain ⟨f1, f2⟩ := flat_remove_header x pos
  rw [remove_child16_eq]
  by_cases h3 : (flat_remove x pos).n.num_children = 3
  · have h4 : x.n.num_children = 4 := by omega
    rw [if_pos h3, if_pos h4]
    obtain ⟨s1, s2, s3⟩ := shrink16_header (flat_remove x pos)
    obtain ⟨_, _, g3, _, g5⟩ := shrink16_spec (flat_remove x pos) hok (by omega)
    have h33 : slot_at (flat_remove x pos).children 3 = slot_at x.children 3 := by
      rw [flat_remove_children x pos 3 hpos (by rw [hx.2.1]; omega)]
      have a : ¬ (pos ≤ 3 ∧ 3 + 1 < x.n.num_children) := by omega
      rw [if_neg a]
    refine ⟨s1, by omega, same_header_trans _ _ _ s3 f2, fun _ => ⟨?_, ?_⟩⟩
    · apply slots_in_use_eq _ 4 4 g3.2.1 (Nat.le_refl _)
      · intro s hs
        rw [g5 s hs]
        by_cases hs3 : s < 3
        · exact (hok.2.2.2.1 s (by omega)).2
        · have : s = 3 := by omega
          rw [this, h33]
          exact (hx.2.2.2.1 3 (by omega)).2
      · intro s hs
        exact slot_at_beyond _ _ (by rw [g3.2.1]; exact hs)
    · rw [g5 3 (by omega), h33]
  · have h4 : x.n.num_children ≠ 4 := by omega
    rw [if_neg h3, if_neg h4]
    exact ⟨f1.trans ht, hnum, f2, fun h => absurd h h4⟩

theorem shrink48_loop_null (x : inner_node) (cnt i : Nat)
    (acc : List Nat × List art_ref × Nat)
    (h3 : acc.2.2 = count_below (fun b => byte_at x.keys b != 0) i)
    (hN : ∀ s, count_below (fun b => byte_at x.keys b != 0) i ≤ s →
      slot_at acc.2.1 s = art_ref.null) :
    ∀ s, count_below (fun b => byte_at x.keys b != 0) (i + cnt) ≤ s →
      slot_at (shrink48_loop x cnt i acc).2.1 s = art_ref.null := by
  induction cnt generalizing i acc with
  | zero => exact hN
  | succ cnt ih =>
    have e : i + (cnt + 1) = i + 1 + cnt := by omega
    rw [shrink48_loop, e]
    have hs := count_below_succ (fun b => byte_at x.keys b != 0) i
    by_cases hk : byte_at x.keys i ≠ 0
    · have hpi : (fun b => byte_at x.keys b != 0) i = true := by simpa using hk
      rw [if_pos hpi] at hs
      rw [if_pos hk]
      apply ih (i + 1)
      · show acc.2.2 + 1 = _
        omega
      · intro s hs1
        show slot_at (acc.2.1.set acc.2.2 _) s = _
        rw [slot_at_set]
        have a : ¬ (acc.2.2 = s ∧ s < acc.2.1.length) := by omega
        rw [if_neg a]
        exact hN s (by omega)
    · have hpi : ¬ ((fun b => byte_at x.keys b != 0) i = true) := by simpa using hk
      rw [if_neg hpi] at hs
      rw [if_neg hk]
      exact ih (i + 1) acc (by omega) (fun s hs1 => hN s (by omega))

theorem shrink48_null (x : inner_node) (hx : node48_ok x) (s : Nat)
    (hs : x.n.num_children ≤ s) : slot_at (shrink48 x).children s = art_ref.null := by
  have h := shrink48_loop_null x 256 0
    (List.replicate 16 0, List.replicate 16 art_ref.null, 0) rfl
    (fun s _ => slot_at_replicate_null 16 s) s
    (by
      rw [Nat.zero_add]
      have : count_below (fun b => byte_at x.keys b != 0) 256 = x.n.num_children :=
        hx.2.2.1.symm
      rw [this]
      exact hs)
  exact h

theorem remove_child48_shape (x : inner_node) (c : Nat) (ht : x.n.type = NODE48)
    (hx : node48_ok x) (hc : c < 256) (hkc : byte_at x.keys c ≠ 0) :
    (remove_child48 x c).n.type = (if x.n.num_children = 13 then NODE16 else NODE48) ∧
    (remove_child48 x c).n.num_children + 1 = x.n.num_children ∧
    same_header (remove_child48 x c) x ∧
    (x.n.num_children = 13 →
      slots_in_use (remove_child48 x c) = (remove_child48 x c).n.num_children) := by
  obtain ⟨h1, h2, h3, _⟩ := clear48_spec x c ht hx hc hkc
  obtain ⟨f1, f2⟩ := clear48_header x c
  rw [remove_child48_eq]
  by_cases h12 : (clear48 x c).n.num_children = 12
  · have h13 : x.n.num_children = 13 := by omega
    rw [if_pos h12, if_pos h13]
    obtain ⟨s1, s2, s3⟩ := shrink48_header (clear48 x c)
    obtain ⟨_, _, g3, _⟩ := shrink48_spec (clear48 x c) h1 h3 (by omega)
    refine ⟨s1, by omega, same_header_trans _ _ _ s3 f2, fun _ => ?_⟩
    apply slots_in_use_eq _ 16 _ g3.2.1 g3.2.2.1
    · intro s hs
      exact (g3.2.2.2.1 s hs).2
    · intro s hs
      rw [s2] at hs
      exact shrink48_null _ h3 s hs
  · have h13 : x.n.num_children ≠ 13 := by omega
    rw [if_neg h12, if_neg h13]
    exact ⟨f1.trans ht, h2, f2, fun h => absurd h h13⟩

theorem slots_in_use_48 (x : inner_node) (hx : node48_ok x) :
    slots_in_use x = x.n.num_children := by
  unfold slots_in_use
  rw [hx.2.1]
  exact hx.2.2.2.1.symm

theorem remove_child256_shape (x : inner_node) (c : Nat) (ht : x.n.type = NODE256)
    (hx : node256_ok x) (hc : c < 256) (hs : (slot_at x.children c).is_null = false) :
    (remove_child256 x c).n.type =
      (if (x.n.num_children + 255) % 256 = 37 then NODE48 else NODE256) ∧
    (remove_child256 x c).n.num_children = (x.n.num_children + 255) % 256 ∧
    same_header (remove_child256 x c) x ∧
    ((x.n.num_children + 255) % 256 = 37 →
      slots_in_use (remove_child256 x c) = (remove_child256 x c).n.num_children) := by
  obtain ⟨h1, h2, h3, _⟩ := clear256_spec x c ht hx hc hs
  obtain ⟨f1, f2⟩ := clear256_header x c
  have hnum : (clear256 x c).n.num_children = (x.n.num_children + 255) % 256 := rfl
  rw [remove_child256_eq]
  by_cases h37 : (clear256 x c).n.num_children = 37
  · have h37' : (x.n.num_children + 255) % 256 = 37 := by rw [← hnum]; exact h37
    rw [if_pos h37, if_pos h37']
    obtain ⟨s1, s2, s3⟩ := shrink256_header (clear256 x c)
    obtain ⟨_, _, g3, _⟩ := shrink256_spec (clear256 x c) h1 h2.1 h3 (by omega)
    exact ⟨s1, by rw [s2, hnum], same_header_trans _ _ _ s3 f2,
      fun _ => slots_in_use_48 _ g3⟩
  · have h37' : ¬ (x.n.num_children + 255) % 256 = 37 := by rw [← hnum]; exact h37
    rw [if_neg h37, if_neg h37']
    exact ⟨f1.trans ht, hnum, f2, fun h => absurd h h37'⟩

/-- The function remove_child on a well-formed NODE16, NODE48 or NODE256 and a
byte with a child at slot `pos`: the node `*ref` holds afterwards. -/
theorem remove_child_shape (x : inner_node) (c pos : Nat) (hx : node_ok x)
    (ht : x.n.type ≠ NODE4) (hf : find_child x c = some pos) :
    ∃ y, remove_child x c pos = y.to_ref ∧ node_ok y ∧
      (∀ d, child_of y d = if d = c then art_ref.null else child_of x d) ∧
      populated y + 1 = populated x ∧
      y.n.num_children = populated x - 1 ∧
      y.n.type = variant_after_remove x ∧
      same_header y x ∧
      (y.n.type ≠ x.n.type →
        slots_in_use y = if y.n.type = NODE4 then 4 else y.n.num_children) ∧
      (y.n.type ≠ x.n.type → y.n.type = NODE4 →
        slot_at y.children 3 = slot_at x.children 3) := by
  obtain ⟨hc, hpre⟩ := find_child_some_lt x hx c pos hf
  have hple := populated_le x
  have key : ∀ y, node_ok y →
      (∀ d, child_of y d = if d = c then art_ref.null else child_of x d) →
      populated y + 1 = populated x ∧ y.n.num_children = populated x - 1 := by
    intro y hy hco
    have h1 := populated_remove x y c hx hy hc hpre hco
    have h2 := node_ok_count y hy
    exact ⟨h1, by omega⟩
  unfold remove_child variant_after_remove
  rcases node_ok_cases x hx with ⟨ht', h⟩ | ⟨ht', h⟩ | ⟨ht', h⟩ | ⟨ht', h⟩
  · exact absurd ht' ht
  · obtain ⟨hpos, _⟩ := find_child_flat_some (Or.inr ht') hf
    obtain ⟨a1, a2⟩ := remove_child16_spec x c pos ht' h hf
    obtain ⟨b1, b2, b3, b4⟩ := remove_child16_shape x pos ht' h hpos
    obtain ⟨k1, k2⟩ := key _ a1 a2
    have hp := populated_flat x (Or.inr ht') h
    rw [ht']
    dsimp only
    refine ⟨remove_child16 x pos, rfl, a1, a2, k1, k2, ?_, b3, ?_, ?_⟩
    · rw [b1, hp]
      by_cases h4 : x.n.num_children = 4
      · rw [if_pos h4, if_pos (by omega)]
      · rw [if_neg h4, if_neg (by omega)]
    · intro hne
      by_cases h4 : x.n.num_children = 4
      · rw [if_pos h4] at b1
        rw [if_pos b1]
        exact (b4 h4).1
      · rw [if_neg h4] at b1
        exact absurd b1 hne
    · intro hne _
      by_cases h4 : x.n.num_children = 4
      · exact (b4 h4).2
      · rw [if_neg h4] at b1
        exact absurd b1 hne
  · have hkc : byte_at x.keys c ≠ 0 := by
      rw [find_child_48 x c ht'] at hf
      intro h0
      rw [if_neg (fun h' => h' h0)] at hf
      cases hf
    obtain ⟨a1, a2⟩ := remove_child48_spec x c pos ht' h hf
    obtain ⟨b1, b2, b3, b4⟩ := remove_child48_shape x c ht' h hc hkc
    obtain ⟨k1, k2⟩ := key _ a1 a2
    have hp := (populated_48 x ht' h).1
    rw [ht']
    dsimp only
    refine ⟨remove_child48 x c, rfl, a1, a2, k1, k2, ?_, b3, ?_, ?_⟩
    · rw [b1, hp]
      by_cases h13 : x.n.num_children = 13
      · rw [if_pos h13, if_pos (by omega)]
      · rw [if_neg h13, if_neg (by omega)]
    · intro hne
      by_cases h13 : x.n.num_children = 13
      · rw [if_pos h13] at b1
        rw [b1, if_neg (by decide)]
        exact b4 h13
      · rw [if_neg h13] at b1
        exact absurd b1 hne
    · intro hne h4
      by_cases h13 : x.n.num_children = 13
      · rw [if_pos h13] at b1
        rw [b1] at h4
        cases h4
      · rw [if_neg h13] at b1
        exact absurd b1 hne
  · have hs : (slot_at x.children c).is_null = false := by
      rw [child_of_256 x c ht'] at hpre
      exact hpre
    obtain ⟨a1, a2⟩ := remove_child256_spec x c pos ht' h hf
    obtain ⟨b1, b2, b3, b4⟩ := remove_child256_shape x c ht' h hc hs
    obtain ⟨k1, k2⟩ := key _ a1 a2
    have hp := populated_256 x ht' h
    rw [ht']
    dsimp only
    refine ⟨remove_child256 x c, rfl, a1, a2, k1, k2, ?_, b3, ?_, ?_⟩
    · rw [b1]
      by_cases h37 : (x.n.num_children + 255) % 256 = 37
      · rw [if_pos h37, if_pos (by omega)]
      · rw [if_neg h37, if_neg (by omega)]
    · intro hne
      by_cases h37 : (x.n.num_children + 255) % 256 = 37
      · rw [if_pos h37] at b1
        rw [b1, if_neg (by decide)]
        exact b4 h37
      · rw [if_neg h37] at b1
        exact absurd b1 hne
    · intro hne h4
      by_cases h37 : (x.n.num_children + 255) % 256 = 37
      · rw [if_pos h37] at b1
        rw [b1] at h4
        cases h4
      · rw [if_neg h37] at b1
        exact absurd b1 hne

/-! ## Collapse of a NODE4 into its remaining child -/

theorem byte_at_append (l1 l2 : List Nat) (i : Nat) :
    byte_at (l1 ++ l2) i = if i < l1.length then byte_at l1 i else byte_at l2 (i - l1.length) := by
  unfold byte_at
  rw [List.getD_eq_getElem?_getD, List.getD_eq_getElem?_getD, List.getD_eq_getElem?_getD]
  by_cases h : i < l1.length
  · rw [if_pos h, List.getElem?_append_left h]
  · rw [if_neg h, List.getElem?_append_right (by omega)]

theorem byte_at_take (l : List Nat) (n i : Nat) :
    byte_at (l.take n) i = if i < n then byte_at l i else 0 := by
  unfold byte_at
  rw [List.getD_eq_getElem?_getD, List.getD_eq_getElem?_getD]
  by_cases h : i < n
  · rw [if_pos h, List.getElem?_take_of_lt h]
  · rw [if_neg h, List.getElem?_eq_none (by rw [List.length_take]; omega)]
    rfl

theorem byte_at_singleton (b i : Nat) : byte_at [b] i = if i = 0 then b else 0 := by
  cases i <;> simp [byte_at]

/-- The inline prefix that remove_child4 stores in the remaining inner child:
the bytes of the node's prefix, the edge byte and the child's prefix, as far as
they fit. -/
theorem collapse4_spec (x : inner_node) (cn : art_node) (ck : List Nat)
    (cc : List art_ref) (cme : Option art_leaf)
    (hP : x.n.partial_bytes.length = MAX_PREFIX_LEN)
    (hC : cn.partial_bytes.length = MAX_PREFIX_LEN)
    (hchild : slot_at x.children 0 = art_ref.inner cn ck cc cme) :
    ∃ cn', collapse4 x = art_ref.inner cn' ck cc cme ∧
      cn'.type = cn.type ∧ cn'.num_children = cn.num_children ∧
      cn'.partial_len = cn.partial_len + x.n.partial_len + 1 ∧
      ∀ i < min MAX_PREFIX_LEN cn'.partial_len,
        byte_at cn'.partial_bytes i =
          byte_at (x.n.partial_bytes.take x.n.partial_len ++ [byte_at x.keys 0] ++
            cn.partial_bytes.take cn.partial_len) i := by
  unfold collapse4
  rw [hchild]
  refine ⟨_, rfl, rfl, rfl, rfl, ?_⟩
  intro i hi
  simp only [MAX_PREFIX_LEN] at hi hP hC ⊢
  have hi10 : i < 10 := by omega
  rw [byte_at_copy_bytes, byte_at_append, byte_at_append, byte_at_take, byte_at_take,
    byte_at_singleton]
  simp only [List.length_append, List.length_take, List.length_singleton, hP, hC]
  by_cases hp : x.n.partial_len < 10
  · simp only [if_pos hp]
    by_cases hp1 : x.n.partial_len + 1 < 10
    · simp only [if_pos hp1]
      have a : 0 ≤ i ∧ i < 0 + min (x.n.partial_len + 1 +
          min cn.partial_len (10 - (x.n.partial_len + 1))) 10 ∧ i < 10 := by omega
      rw [if_pos a, byte_at_copy_bytes, List.length_set, hP, byte_at_set, hP]
      by_cases h1 : i < x.n.partial_len
      · have b1 : ¬ (x.n.partial_len + 1 ≤ i ∧
            i < x.n.partial_len + 1 + min cn.partial_len (10 - (x.n.partial_len + 1)) ∧
            i < 10) := by omega
        have b2 : ¬ (x.n.partial_len = i ∧ i < 10) := by omega
        have b3 : i < min x.n.partial_len 10 + 1 := by omega
        have b4 : i < min x.n.partial_len 10 := by omega
        simp only [if_neg b1, if_neg b2, if_pos b3, if_pos b4, if_pos h1, Nat.add_zero, Nat.zero_add, Nat.sub_zero]
      · by_cases h2 : i = x.n.partial_len
        · have b1 : ¬ (x.n.partial_len + 1 ≤ i ∧
              i < x.n.partial_len + 1 + min cn.partial_len (10 - (x.n.partial_len + 1)) ∧
              i < 10) := by omega
          have b2 : x.n.partial_len = i ∧ i < 10 := by omega
          have b3 : i < min x.n.partial_len 10 + 1 := by omega
          have b4 : ¬ i < min x.n.partial_len 10 := by omega
          have b5 : i - min x.n.partial_len 10 = 0 := by omega
          simp only [if_neg b1, if_pos b2, if_pos b3, if_neg b4, if_pos b5, Nat.add_zero, Nat.zero_add, Nat.sub_zero]
        · have b1 : x.n.partial_len + 1 ≤ i ∧
              i < x.n.partial_len + 1 + min cn.partial_len (10 - (x.n.partial_len + 1)) ∧
              i < 10 := by omega
          have b3 : ¬ i < min x.n.partial_len 10 + 1 := by omega
          have b6 : i - (min x.n.partial_len 10 + 1) < cn.partial_len := by omega
          have b7 : 0 + (i - (x.n.partial_len + 1)) = i - (min x.n.partial_len 10 + 1) := by
            omega
          simp only [if_pos b1, if_neg b3, if_pos b6, b7, Nat.add_zero, Nat.zero_add, Nat.sub_zero]
    · simp only [if_neg hp1]
      have a : 0 ≤ i ∧ i < 0 + min (x.n.partial_len + 1) 10 ∧ i < 10 := by omega
      rw [if_pos a, byte_at_set, hP]
      by_cases h2 : i = x.n.partial_len
      · have b2 : x.n.partial_len = i ∧ i < 10 := by omega
        have b3 : i < min x.n.partial_len 10 + 1 := by omega
        have b4 : ¬ i < min x.n.partial_len 10 := by omega
        have b5 : i - min x.n.partial_len 10 = 0 := by omega
        simp only [if_pos b2, if_pos b3, if_neg b4, if_pos b5, Nat.add_zero, Nat.zero_add, Nat.sub_zero]
      · have b2 : ¬ (x.n.partial_len = i ∧ i < 10) := by omega
        have b3 : i < min x.n.partial_len 10 + 1 := by omega
        have b4 : i < min x.n.partial_len 10 := by omega
        have h1 : i < x.n.partial_len := by omega
        simp only [if_neg b2, if_pos b3, if_pos b4, if_pos h1, Nat.add_zero, Nat.zero_add, Nat.sub_zero]
  · simp only [if_neg hp]
    have a : 0 ≤ i ∧ i < min x.n.partial_len 10 ∧ i < 10 := by omega
    have b3 : i < min x.n.partial_len 10 + 1 := by omega
    have b4 : i < min x.n.partial_len 10 := by omega
    have h1 : i < x.n.partial_len := by omega
    simp only [if_pos a, if_pos b3, if_pos b4, if_pos h1, Nat.add_zero, Nat.zero_add, Nat.sub_zero]

/-! ## The split of an inner node on a prefix mismatch -/

theorem first_diff_spec (f : Nat → Bool) (cnt i j : Nat) (h1 : i ≤ j) (h2 : j ≤ i + cnt)
    (h3 : ∀ k, i ≤ k → k < j → f k = false) (h4 : j < i + cnt → f j = true) :
    first_diff f cnt i = j := by
  induction cnt generalizing i with
  | zero =>
    rw [first_diff]
    omega
  | succ cnt ih =>
    rw [first_diff]
    by_cases hij : i = j
    · subst hij
      rw [if_pos (h4 (by omega))]
    · have hf : f i = false := h3 i (Nat.le_refl _) (by omega)
      rw [hf]
      simp only [Bool.false_eq_true, if_false]
      exact ih (i + 1) (by omega) (by omega) (fun k hk1 hk2 => h3 k (by omega) hk2)
        (fun h => h4 (by omega))

theorem check_prefix_full (n : art_node) (k : List Nat) (D : Nat)
    (hlen : D + min MAX_PREFIX_LEN n.partial_len ≤ k.length)
    (h : ∀ i < min MAX_PREFIX_LEN n.partial_len,
      byte_at n.partial_bytes i = byte_at k (D + i)) :
    check_prefix n k D = min MAX_PREFIX_LEN n.partial_len := by
  unfold check_prefix
  apply first_diff_spec
  · exact Nat.zero_le _
  · simp only [Nat.zero_add]
    rw [Nat.min_comm n.partial_len]
    exact Nat.le_min.2 ⟨Nat.le_refl _, by omega⟩
  · intro i _ hi
    have := h i hi
    simp [this]
  · intro hlt
    simp only [Nat.zero_add] at hlt
    rw [Nat.min_comm n.partial_len] at hlt
    have := Nat.min_le_left (min MAX_PREFIX_LEN n.partial_len) (k.length - D)
    omega

theorem art_search_at_eq (cs : List art_ref) (i : Nat) (k : List Nat) (D : Nat) :
    art_search_at cs i k D = art_search_loop (slot_at cs i) k D := by
  induction cs generalizing i with
  | nil =>
    rw [art_search_at]
    have : slot_at [] i = art_ref.null := by simp [slot_at]
    rw [this, art_search_loop]
  | cons c cs ih =>
    cases i with
    | zero =>
      rw [art_search_at]
      rfl
    | succ i =>
      rw [art_search_at, ih i]
      rfl

/-- One round of the loop of art_search at an inner node whose inline prefix
matches the key. -/
theorem search_step (y : inner_node) (k : List Nat) (D : Nat)
    (hok : y.n.partial_len = 0 ∨
      check_prefix y.n k D = min MAX_PREFIX_LEN y.n.partial_len) :
    art_search_loop y.to_ref k D =
      if D + y.n.partial_len = k.length then
        (match y.me with
         | some l => l.value
         | none => none)
      else art_search_loop (child_of y (byte_at k (D + y.n.partial_len))) k
        (D + y.n.partial_len + 1) := by
  have hc : ¬ (y.n.partial_len ≠ 0 ∧
      check_prefix y.n k D ≠ min MAX_PREFIX_LEN y.n.partial_len) := by
    rintro ⟨h1, h2⟩
    rcases hok with h | h
    · exact h1 h
    · exact h2 h
  show art_search_loop (art_ref.inner y.n y.keys y.children y.me) k D = _
  rw [art_search_loop, if_neg hc]
  by_cases hd : D + y.n.partial_len = k.length
  · simp only [if_pos hd]
    rfl
  · simp only [if_neg hd]
    unfold child_of
    cases hf : find_child y (byte_at k (D + y.n.partial_len)) with
    | none =>
      show none = art_search_loop art_ref.null k (D + y.n.partial_len + 1)
      rw [art_search_loop]
    | some i =>
      show art_search_at y.children i k (D + y.n.partial_len + 1) = _
      rw [art_search_at_eq]

theorem child_of_same (y z : inner_node) (c : Nat) (h1 : y.n.type = z.n.type)
    (h2 : y.n.num_children = z.n.num_children) (h3 : y.keys = z.keys)
    (h4 : y.children = z.children) : child_of y c = child_of z c := by
  unfold child_of
  rw [find_child_same y z c h1 h2 h3 h4, h4]

theorem split_node_eq (b : build) (x : inner_node) (key : List Nat) (value : Option Nat)
    (depth d : Nat) :
    split_node b x key value depth d =
      if depth + d < key.length then
        (add_child4 b
          (add_child4 b (split_parent x d) (split_byte x depth d)
            (split_child x depth d).to_ref)
          (byte_at key (depth + d)) (art_ref.leaf (make_leaf key value))).to_ref
      else
        (node_set_own_leaf
          (add_child4 b (split_parent x d) (split_byte x depth d)
            (split_child x depth d).to_ref)
          (some (make_leaf key value))).to_ref := by
  unfold split_node split_byte split_child split_parent
  by_cases h : x.n.partial_len ≤ MAX_PREFIX_LEN
  · simp only [if_pos h]
  · simp only [if_neg h]

/-- The function prefix_mismatch returns the first index `d` at which the key
leaves the true prefix `P` of the node (or ends). -/
theorem prefix_mismatch_spec (x : inner_node) (key : List Nat) (D d : Nat) (P : List Nat)
    (hd : d < x.n.partial_len)
    (hin : ∀ i < min MAX_PREFIX_LEN x.n.partial_len,
      byte_at x.n.partial_bytes i = byte_at P i)
    (hmin : MAX_PREFIX_LEN < x.n.partial_len →
      ∃ l, minimum x.to_ref = some l ∧ D + x.n.partial_len ≤ l.key.length ∧
        ∀ i < x.n.partial_len, byte_at l.key (D + i) = byte_at P i)
    (hpre : ∀ i < d, byte_at key (D + i) = byte_at P i)
    (hend : D + d ≤ key.length)
    (hdiff : D + d < key.length → byte_at key (D + d) ≠ byte_at P d) :
    prefix_mismatch x key D = d := by
  simp only [MAX_PREFIX_LEN] at hin hmin
  have hidx : first_diff
      (fun idx => byte_at x.n.partial_bytes idx != byte_at key (D + idx))
      (min (min 10 x.n.partial_len) (key.length - D)) 0 =
      min d (min (min 10 x.n.partial_len) (key.length - D)) := by
    apply first_diff_spec
    · exact Nat.zero_le _
    · omega
    · intro k _ hk
      have h1 := hin k (by omega)
      have h2 := hpre k (by omega)
      simp [h1, h2]
    · intro hlt
      have hdm : d < min (min 10 x.n.partial_len) (key.length - D) := by omega
      have e : min d (min (min 10 x.n.partial_len) (key.length - D)) = d := by omega
      rw [e]
      have h1 := hin d (by omega)
      have h2 := hdiff (by omega)
      rw [h1]
      simpa using fun h => h2 h.symm
  unfold prefix_mismatch
  simp only [MAX_PREFIX_LEN]
  rw [hidx]
  by_cases hdm : d < min (min 10 x.n.partial_len) (key.length - D)
  · have e : min d (min (min 10 x.n.partial_len) (key.length - D)) = d := by omega
    rw [e, if_pos hdm]
  · have e : min d (min (min 10 x.n.partial_len) (key.length - D)) =
        min (min 10 x.n.partial_len) (key.length - D) := by omega
    rw [e, if_neg (Nat.lt_irrefl _)]
    by_cases hL : x.n.partial_len > 10
    · rw [if_pos hL]
      obtain ⟨l, hl1, hl2, hl3⟩ := hmin hL
      rw [hl1]
      have hlo : leaf_of (some l) = l := rfl
      rw [hlo]
      apply first_diff_spec
      · omega
      · omega
      · intro k _ hk
        have h1 := hl3 k (by omega)
        have h2 := hpre k hk
        rw [Nat.add_comm k D]
        simp [h1, h2]
      · intro hlt
        have h1 := hl3 d hd
        have h2 := hdiff (by omega)
        rw [Nat.add_comm d D, h1]
        simpa using fun h => h2 h.symm
    · rw [if_neg hL]
      omega

theorem add_child4_below (b : build) (x : inner_node) (c : Nat) (child : art_ref)
    (ht : x.n.type = NODE4) (hx : flat_ok 4 x) (hn : x.n.num_children < 4) (hc : c < 256)
    (habs : find_child x c = none) (hchild : child.is_null = false) :
    (add_child4 b x c child).n.type = NODE4 ∧ flat_ok 4 (add_child4 b x c child) ∧
    (add_child4 b x c child).n.num_children = x.n.num_children + 1 ∧
    same_header (add_child4 b x c child) x ∧
    ∀ c', child_of (add_child4 b x c child) c' = if c' = c then child else child_of x c' := by
  obtain ⟨p, hp, he⟩ := add_child4_in_place b x c child hn
  obtain ⟨h1, h2, h3⟩ :=
    flat_add_spec 4 x p c child (Or.inl ht) hx (by omega) hn hp hc habs hchild
  rw [he]
  refine ⟨h1.trans ht, h2, ?_, (flat_insert_header x p c child).2, h3⟩
  show (x.n.num_children + 1) % 256 = _
  omega

theorem find_child_none_of_child_of (y : inner_node) (hy : node_ok y) (c : Nat)
    (h : child_of y c = art_ref.null) : find_child y c = none := by
  have := isSome_eq_child_of y hy c
  rw [h] at this
  cases hf : find_child y c with
  | none => rfl
  | some i =>
    rw [hf] at this
    cases this

theorem split_parent_spec (x : inner_node) (d : Nat) :
    (split_parent x d).n.type = NODE4 ∧ (split_parent x d).n.num_children = 0 ∧
    (split_parent x d).n.partial_len = d ∧ (split_parent x d).me = none ∧
    flat_ok 4 (split_parent x d) ∧
    (∀ c, child_of (split_parent x d) c = art_ref.null) ∧
    ∀ i < min MAX_PREFIX_LEN d,
      byte_at (split_parent x d).n.partial_bytes i = byte_at x.n.partial_bytes i := by
  have hnum : (split_parent x d).n.num_children = 0 := rfl
  have hty : (split_parent x d).n.type = NODE4 := rfl
  have hflat : flat_ok 4 (split_parent x d) :=
    ⟨rfl, rfl, by rw [hnum]; omega, fun i hi => by rw [hnum] at hi; omega,
      fun i hi => by rw [hnum] at hi; omega⟩
  refine ⟨hty, hnum, rfl, rfl, hflat, ?_, ?_⟩
  · intro c
    apply child_of_flat_absent (Or.inl hty)
    intro i hi
    rw [hnum] at hi
    omega
  · intro i hi
    show byte_at (copy_bytes (List.replicate MAX_PREFIX_LEN 0) 0 x.n.partial_bytes 0
      (min MAX_PREFIX_LEN d)) i = _
    rw [byte_at_copy_bytes, List.length_replicate]
    have hlt : i < MAX_PREFIX_LEN := lt_of_lt_of_le hi (Nat.min_le_left _ _)
    have a : 0 ≤ i ∧ i < 0 + min MAX_PREFIX_LEN d ∧ i < MAX_PREFIX_LEN := by
      refine ⟨Nat.zero_le _, by omega, hlt⟩
    rw [if_pos a]
    simp

theorem split_child_spec (x : inner_node) (D d : Nat) (P : List Nat)
    (hd : d < x.n.partial_len)
    (hPlen : x.n.partial_bytes.length = MAX_PREFIX_LEN)
    (hin : ∀ i < min MAX_PREFIX_LEN x.n.partial_len,
      byte_at x.n.partial_bytes i = byte_at P i)
    (hmin : MAX_PREFIX_LEN < x.n.partial_len →
      ∃ l, minimum x.to_ref = some l ∧ D + x.n.partial_len ≤ l.key.length ∧
        ∀ i < x.n.partial_len, byte_at l.key (D + i) = byte_at P i) :
    split_byte x D d = byte_at P d ∧
    (split_child x D d).n.partial_len = x.n.partial_len - d - 1 ∧
    ∀ i < min MAX_PREFIX_LEN (x.n.partial_len - d - 1),
      byte_at (split_child x D d).n.partial_bytes i = byte_at P (d + 1 + i) := by
  simp only [MAX_PREFIX_LEN] at hin hmin hPlen ⊢
  have e : x.n.partial_len - (d + 1) = x.n.partial_len - d - 1 := by omega
  by_cases hL : x.n.partial_len ≤ 10
  · refine ⟨?_, e, ?_⟩
    · unfold split_byte
      simp only [MAX_PREFIX_LEN]
      rw [if_pos hL]
      exact hin d (by omega)
    · intro i hi
      show byte_at (if x.n.partial_len ≤ MAX_PREFIX_LEN then _ else _) i = _
      simp only [MAX_PREFIX_LEN]
      rw [if_pos hL, byte_at_copy_bytes, e, hPlen]
      have a : 0 ≤ i ∧ i < 0 + min 10 (x.n.partial_len - d - 1) ∧ i < 10 := by omega
      rw [if_pos a]
      have e2 : d + 1 + (i - 0) = d + 1 + i := by omega
      rw [e2]
      exact hin (d + 1 + i) (by omega)
  · obtain ⟨l, hl1, hl2, hl3⟩ := hmin (by omega)
    have hlo : leaf_of (minimum x.to_ref) = l := by rw [hl1]; rfl
    refine ⟨?_, e, ?_⟩
    · unfold split_byte
      simp only [MAX_PREFIX_LEN]
      rw [if_neg hL, hlo]
      exact hl3 d hd
    · intro i hi
      show byte_at (if x.n.partial_len ≤ MAX_PREFIX_LEN then _ else _) i = _
      simp only [MAX_PREFIX_LEN]
      rw [if_neg hL, byte_at_copy_bytes, e, hPlen, hlo]
      have a : 0 ≤ i ∧ i < 0 + min 10 (x.n.partial_len - d - 1) ∧ i < 10 := by omega
      rw [if_pos a]
      have e2 : D + d + 1 + (i - 0) = D + (d + 1 + i) := by omega
      rw [e2]
      exact hl3 (d + 1 + i) (by omega)

theorem split_search_old (x c1 N : inner_node) (P k : List Nat) (D d : Nat)
    (hd : d < x.n.partial_len)
    (hin : ∀ i < min MAX_PREFIX_LEN x.n.partial_len,
      byte_at x.n.partial_bytes i = byte_at P i)
    (hNlen : N.n.partial_len = d)
    (hNbytes : ∀ i < min MAX_PREFIX_LEN d, byte_at N.n.partial_bytes i = byte_at P i)
    (hNchild : child_of N (byte_at P d) = c1.to_ref)
    (h1 : c1.n.type = x.n.type) (h2 : c1.n.num_children = x.n.num_children)
    (h3 : c1.keys = x.keys) (h4 : c1.children = x.children) (h5 : c1.me = x.me)
    (h6 : c1.n.partial_len = x.n.partial_len - d - 1)
    (h7 : ∀ i < min MAX_PREFIX_LEN (x.n.partial_len - d - 1),
      byte_at c1.n.partial_bytes i = byte_at P (d + 1 + i))
    (hk : D + x.n.partial_len ≤ k.length)
    (hkP : ∀ i < x.n.partial_len, byte_at k (D + i) = byte_at P i) :
    art_search_loop N.to_ref k D = art_search_loop x.to_ref k D := by
  simp only [MAX_PREFIX_LEN] at hin hNbytes h7
  have sx := search_step x k D (Or.inr (check_prefix_full x.n k D
    (by simp only [MAX_PREFIX_LEN]; omega)
    (fun i hi => by
      simp only [MAX_PREFIX_LEN] at hi
      rw [hin i hi, hkP i (by omega)])))
  have sN := search_step N k D (Or.inr (check_prefix_full N.n k D
    (by simp only [MAX_PREFIX_LEN]; omega)
    (fun i hi => by
      simp only [MAX_PREFIX_LEN] at hi
      rw [hNlen] at hi
      rw [hNbytes i hi, hkP i (by omega)])))
  have sc := search_step c1 k (D + d + 1) (Or.inr (check_prefix_full c1.n k (D + d + 1)
    (by simp only [MAX_PREFIX_LEN]; omega)
    (fun i hi => by
      simp only [MAX_PREFIX_LEN] at hi
      rw [h6] at hi
      have e : D + d + 1 + i = D + (d + 1 + i) := by omega
      rw [h7 i hi, e, hkP (d + 1 + i) (by omega)])))
  have e1 : D + d + 1 + c1.n.partial_len = D + x.n.partial_len := by omega
  rw [sN, sx, hNlen, if_neg (by omega), hkP d hd, hNchild, sc, e1, h5,
    child_of_same c1 x _ h1 h2 h3 h4]

theorem split_search_new (N : inner_node) (P key : List Nat) (value : Option Nat)
    (D d : Nat)
    (hNlen : N.n.partial_len = d)
    (hNbytes : ∀ i < min MAX_PREFIX_LEN d, byte_at N.n.partial_bytes i = byte_at P i)
    (hpre : ∀ i < d, byte_at key (D + i) = byte_at P i)
    (hend : D + d ≤ key.length)
    (hleaf : D + d < key.length →
      child_of N (byte_at key (D + d)) = art_ref.leaf (make_leaf key value))
    (hown : D + d = key.length → N.me = some (make_leaf key value)) :
    art_search_loop N.to_ref key D = value := by
  simp only [MAX_PREFIX_LEN] at hNbytes
  have sN := search_step N key D (Or.inr (check_prefix_full N.n key D
    (by simp only [MAX_PREFIX_LEN]; omega)
    (fun i hi => by
      simp only [MAX_PREFIX_LEN] at hi
      rw [hNlen] at hi
      rw [hNbytes i hi, hpre i (by omega)])))
  rw [sN, hNlen]
  by_cases hlt : D + d < key.length
  · rw [if_neg (by omega), hleaf hlt, art_search_loop]
    simp [leaf_matches, make_leaf]
  · have he : D + d = key.length := by omega
    rw [if_pos he, hown he]
    rfl

/-- The value split_node stores to `*ref`, for a node `x` with true prefix `P`
that the key leaves at index `d`. -/
theorem split_node_spec (b : build) (x : inner_node) (key : List Nat) (value : Option Nat)
    (D d : Nat) (P : List Nat)
    (hd : d < x.n.partial_len)
    (hPlen : x.n.partial_bytes.length = MAX_PREFIX_LEN)
    (hin : ∀ i < min MAX_PREFIX_LEN x.n.partial_len,
      byte_at x.n.partial_bytes i = byte_at P i)
    (hmin : MAX_PREFIX_LEN < x.n.partial_len →
      ∃ l, minimum x.to_ref = some l ∧ D + x.n.partial_len ≤ l.key.length ∧
        ∀ i < x.n.partial_len, byte_at l.key (D + i) = byte_at P i)
    (hpre : ∀ i < d, byte_at key (D + i) = byte_at P i)
    (hend : D + d ≤ key.length)
    (hdiff : D + d < key.length → byte_at key (D + d) ≠ byte_at P d)
    (hb1 : byte_at P d < 256)
    (hb2 : D + d < key.length → byte_at key (D + d) < 256) :
    ∃ N c1 : inner_node, split_node b x key value D d = N.to_ref ∧
      N.n.type = NODE4 ∧ N.n.partial_len = d ∧
      (∀ i < min MAX_PREFIX_LEN d, byte_at N.n.partial_bytes i = byte_at P i) ∧
      child_of N (byte_at P d) = c1.to_ref ∧
      c1.n.type = x.n.type ∧ c1.n.num_children = x.n.num_children ∧
      c1.keys = x.keys ∧ c1.children = x.children ∧ c1.me = x.me ∧
      c1.n.partial_len = x.n.partial_len - d - 1 ∧
      (∀ i < min MAX_PREFIX_LEN (x.n.partial_len - d - 1),
        byte_at c1.n.partial_bytes i = byte_at P (d + 1 + i)) ∧
      (D + d < key.length →
        child_of N (byte_at key (D + d)) = art_ref.leaf (make_leaf key value) ∧
        N.me = none ∧ N.n.num_children = 2) ∧
      (D + d = key.length → N.me = some (make_leaf key value) ∧ N.n.num_children = 1) ∧
      art_search_loop N.to_ref key D = value ∧
      ∀ k, D + x.n.partial_len ≤ k.length →
        (∀ i < x.n.partial_len, byte_at k (D + i) = byte_at P i) →
        art_search_loop N.to_ref k D = art_search_loop x.to_ref k D := by
  obtain ⟨p1, p2, p3, p4, p5, p6, p7⟩ := split_parent_spec x d
  obtain ⟨s1, s2, s3⟩ := split_child_spec x D d P hd hPlen hin hmin
  have hc1 : (split_child x D d).to_ref.is_null = false := rfl
  obtain ⟨a1, a2, a3, ⟨a4, a5, a6⟩, a7⟩ := add_child4_below b (split_parent x d)
    (split_byte x D d) (split_child x D d).to_ref p1 p5 (by rw [p2]; omega)
    (by rw [s1]; exact hb1)
    (find_child_none_of_child_of _ (node_ok_of_flat4 _ p1 p5) _ (p6 _)) hc1
  rw [p2] at a3
  rw [p3] at a4 a6
  rw [p4] at a5
  have hN1bytes : ∀ i < min MAX_PREFIX_LEN d,
      byte_at (add_child4 b (split_parent x d) (split_byte x D d)
        (split_child x D d).to_ref).n.partial_bytes i = byte_at P i := by
    intro i hi
    rw [a6 i hi, p7 i hi]
    apply hin
    simp only [MAX_PREFIX_LEN] at hi ⊢
    omega
  have hN1child : child_of (add_child4 b (split_parent x d) (split_byte x D d)
      (split_child x D d).to_ref) (byte_at P d) = (split_child x D d).to_ref := by
    rw [a7, s1, if_pos rfl]
  rw [split_node_eq]
  by_cases hlt : D + d < key.length
  · rw [if_pos hlt]
    have hne := hdiff hlt
    have habs2 : find_child (add_child4 b (split_parent x d) (split_byte x D d)
        (split_child x D d).to_ref) (byte_at key (D + d)) = none := by
      apply find_child_none_of_child_of _ (node_ok_of_flat4 _ a1 a2)
      rw [a7, s1, if_neg hne, p6]
    obtain ⟨b1, b2, b3, ⟨b4, b5, b6⟩, b7⟩ := add_child4_below b
      (add_child4 b (split_parent x d) (split_byte x D d) (split_child x D d).to_ref)
      (byte_at key (D + d)) (art_ref.leaf (make_leaf key value)) a1 a2
      (by rw [a3]; omega) (hb2 hlt) habs2 rfl
    rw [a4] at b4 b6
    have hNbytes : ∀ i < min MAX_PREFIX_LEN d,
        byte_at (add_child4 b (add_child4 b (split_parent x d) (split_byte x D d)
          (split_child x D d).to_ref) (byte_at key (D + d))
          (art_ref.leaf (make_leaf key value))).n.partial_bytes i = byte_at P i := by
      intro i hi
      rw [b6 i hi, hN1bytes i hi]
    have hNchild : child_of (add_child4 b (add_child4 b (split_parent x d)
        (split_byte x D d) (split_child x D d).to_ref) (byte_at key (D + d))
        (art_ref.leaf (make_leaf key value))) (byte_at P d) =
        (split_child x D d).to_ref := by
      rw [b7, if_neg (fun h => hne h.symm), hN1child]
    have hleaf : child_of (add_child4 b (add_child4 b (split_parent x d)
        (split_byte x D d) (split_child x D d).to_ref) (byte_at key (D + d))
        (art_ref.leaf (make_leaf key value))) (byte_at key (D + d)) =
        art_ref.leaf (make_leaf key value) := by
      rw [b7, if_pos rfl]
    refine ⟨_, split_child x D d, rfl, b1, b4, hNbytes, hNchild, rfl, rfl, rfl, rfl, rfl,
      s2, s3, fun _ => ⟨hleaf, by rw [b5, a5], by rw [b3, a3]⟩,
      fun h => absurd h (by omega), ?_, ?_⟩
    · exact split_search_new _ P key value D d b4 hNbytes hpre hend (fun _ => hleaf)
        (fun h => absurd h (by omega))
    · intro k hk hkP
      exact split_search_old x (split_child x D d) _ P k D d hd hin b4 hNbytes hNchild
        rfl rfl rfl rfl rfl s2 s3 hk hkP
  · rw [if_neg hlt]
    have he : D + d = key.length := by omega
    have hNchild : child_of (node_set_own_leaf (add_child4 b (split_parent x d)
        (split_byte x D d) (split_child x D d).to_ref) (some (make_leaf key value)))
        (byte_at P d) = (split_child x D d).to_ref := by
      exact (child_of_same (node_set_own_leaf (add_child4 b (split_parent x d)
        (split_byte x D d) (split_child x D d).to_ref) (some (make_leaf key value)))
        (add_child4 b (split_parent x d) (split_byte x D d) (split_child x D d).to_ref)
        (byte_at P d) rfl rfl rfl rfl).trans hN1child
    refine ⟨_, split_child x D d, rfl, a1, a4, hN1bytes, hNchild, rfl, rfl, rfl, rfl, rfl,
      s2, s3, fun h => absurd h hlt, fun _ => ⟨rfl, a3⟩, ?_, ?_⟩
    · exact split_search_new _ P key value D d a4 hN1bytes hpre hend
        (fun h => absurd h hlt) (fun _ => rfl)
    · intro k hk hkP
      exact split_search_old x (split_child x D d) _ P k D d hd hin a4 hN1bytes hNchild
        rfl rfl rfl rfl rfl s2 s3 hk hkP

/-! ## The word-packed NODE4 lookup -/

/-- Bitwise xor acts separately on the low byte and on the rest. -/
theorem lane_xor (a b c d : Nat) (hb : b < 256) (hd : d < 256) :
    (256 * a + b) ^^^ (256 * c + d) = 256 * (a ^^^ c) + (b ^^^ d) := by
  have e : (256 : Nat) = 2 ^ 8 := by norm_num
  have hbd : b ^^^ d < 2 ^ 8 := Nat.xor_lt_two_pow (by omega) (by omega)
  rw [e]
  apply Nat.eq_of_testBit_eq
  intro i
  rw [Nat.testBit_xor, Nat.testBit_mul_pow_two_add a (by omega), Nat.testBit_mul_pow_two_add c (by omega),
    Nat.testBit_mul_pow_two_add _ hbd]
  by_cases h : i < 8 <;> simp [h]

theorem lane_or (a b c d : Nat) (hb : b < 256) (hd : d < 256) :
    (256 * a + b) ||| (256 * c + d) = 256 * (a ||| c) + (b ||| d) := by
  have e : (256 : Nat) = 2 ^ 8 := by norm_num
  have hbd : b ||| d < 2 ^ 8 := Nat.or_lt_two_pow (by omega) (by omega)
  rw [e]
  apply Nat.eq_of_testBit_eq
  intro i
  rw [Nat.testBit_or, Nat.testBit_mul_pow_two_add a (by omega), Nat.testBit_mul_pow_two_add c (by omega),
    Nat.testBit_mul_pow_two_add _ hbd]
  by_cases h : i < 8 <;> simp [h]

theorem lane_and (a b c d : Nat) (hb : b < 256) (hd : d < 256) :
    (256 * a + b) &&& (256 * c + d) = 256 * (a &&& c) + (b &&& d) := by
  have e : (256 : Nat) = 2 ^ 8 := by norm_num
  have hbd : b &&& d < 2 ^ 8 := Nat.and_lt_two_pow b (by omega)
  rw [e]
  apply Nat.eq_of_testBit_eq
  intro i
  rw [Nat.testBit_and, Nat.testBit_mul_pow_two_add a (by omega), Nat.testBit_mul_pow_two_add c (by omega),
    Nat.testBit_mul_pow_two_add _ hbd]
  by_cases h : i < 8 <;> simp [h]

theorem pack4_xor (a0 a1 a2 a3 b0 b1 b2 b3 : Nat)
    (ha0 : a0 < 256) (ha1 : a1 < 256) (ha2 : a2 < 256)
    (hb0 : b0 < 256) (hb1 : b1 < 256) (hb2 : b2 < 256) :
    pack4 a0 a1 a2 a3 ^^^ pack4 b0 b1 b2 b3 =
      pack4 (a0 ^^^ b0) (a1 ^^^ b1) (a2 ^^^ b2) (a3 ^^^ b3) := by
  unfold pack4
  rw [lane_xor _ _ _ _ ha0 hb0, lane_xor _ _ _ _ ha1 hb1, lane_xor _ _ _ _ ha2 hb2]

theorem pack4_or (a0 a1 a2 a3 b0 b1 b2 b3 : Nat)
    (ha0 : a0 < 256) (ha1 : a1 < 256) (ha2 : a2 < 256)
    (hb0 : b0 < 256) (hb1 : b1 < 256) (hb2 : b2 < 256) :
    pack4 a0 a1 a2 a3 ||| pack4 b0 b1 b2 b3 =
      pack4 (a0 ||| b0) (a1 ||| b1) (a2 ||| b2) (a3 ||| b3) := by
  unfold pack4
  rw [lane_or _ _ _ _ ha0 hb0, lane_or _ _ _ _ ha1 hb1, lane_or _ _ _ _ ha2 hb2]

theorem pack4_and (a0 a1 a2 a3 b0 b1 b2 b3 : Nat)
    (ha0 : a0 < 256) (ha1 : a1 < 256) (ha2 : a2 < 256)
    (hb0 : b0 < 256) (hb1 : b1 < 256) (hb2 : b2 < 256) :
    pack4 a0 a1 a2 a3 &&& pack4 b0 b1 b2 b3 =
      pack4 (a0 &&& b0) (a1 &&& b1) (a2 &&& b2) (a3 &&& b3) := by
  unfold pack4
  rw [lane_and _ _ _ _ ha0 hb0, lane_and _ _ _ _ ha1 hb1, lane_and _ _ _ _ ha2 hb2]

/-- The bytes of a number below 2^32. -/
theorem pack4_bytes (n : Nat) (h : n < 2 ^ 32) :
    n = pack4 (n % 256) (n / 256 % 256) (n / 65536 % 256) (n / 16777216) := by
  unfold pack4
  omega

theorem or_mod_pow (a b n : Nat) : (a ||| b) % 2 ^ n = a % 2 ^ n ||| b % 2 ^ n := by
  apply Nat.eq_of_testBit_eq
  intro i
  simp only [Nat.testBit_mod_two_pow, Nat.testBit_or]
  by_cases h : i < n <;> simp [h]

theorem and_mod_of_lt (a b n : Nat) (hb : b < 2 ^ n) : a &&& b = a % 2 ^ n &&& b := by
  apply Nat.eq_of_testBit_eq
  intro i
  simp only [Nat.testBit_mod_two_pow, Nat.testBit_and]
  by_cases h : i < n
  · simp [h]
  · have : b.testBit i = false :=
      Nat.testBit_lt_two_pow (lt_of_lt_of_le hb (Nat.pow_le_pow_right (by norm_num) (by omega)))
    simp [h, this]

theorem xor_eq_zero_iff (a b : Nat) : a ^^^ b = 0 ↔ a = b := by
  constructor
  · intro h
    have : (a ^^^ b) ^^^ b = a := by rw [Nat.xor_assoc, Nat.xor_self, Nat.xor_zero]
    rw [h, Nat.zero_xor] at this
    exact this.symm
  · intro h
    rw [h, Nat.xor_self]

set_option maxRecDepth 100000 in
theorem byte_or_255 : ∀ x < 256, x ||| 255 = 255 := by
  decide

set_option maxRecDepth 100000 in
theorem byte_and_128 : ∀ x < 256, x &&& 128 = if 128 ≤ x then 128 else 0 := by
  decide

theorem borrow_lane0 (w0 r : Nat) :
    (256 * r + w0 + 4278124287) % 4294967296 % 256 = (w0 + 255) % 256 := by
  omega

theorem borrow_lane1 (w0 w1 r : Nat) (h0 : w0 < 256) (a : w0 ≠ 0) :
    (256 * (256 * r + w1) + w0 + 4278124287) % 4294967296 / 256 % 256 = (w1 + 255) % 256 := by
  omega

theorem borrow_lane2 (w0 w1 w2 r : Nat) (h0 : w0 < 256) (h1 : w1 < 256)
    (a : w0 ≠ 0) (b : w1 ≠ 0) :
    (256 * (256 * (256 * r + w2) + w1) + w0 + 4278124287) % 4294967296 / 65536 % 256
      = (w2 + 255) % 256 := by
  omega

theorem borrow_lane3 (w0 w1 w2 w3 : Nat) (h0 : w0 < 256) (h1 : w1 < 256) (h2 : w2 < 256)
    (a : w0 ≠ 0) (b : w1 ≠ 0) (c : w2 ≠ 0) :
    (256 * (256 * (256 * w3 + w2) + w1) + w0 + 4278124287) % 4294967296 / 16777216
      = (w3 + 255) % 256 := by
  omega

theorem not_lanes (w0 w1 w2 w3 : Nat) (h0 : w0 < 256) (h1 : w1 < 256) (h2 : w2 < 256)
    (h3 : w3 < 256) :
    (4294967296 - 1 - (256 * (256 * (256 * w3 + w2) + w1) + w0)) % 256 = 255 - w0 ∧
    (4294967296 - 1 - (256 * (256 * (256 * w3 + w2) + w1) + w0)) / 256 % 256 = 255 - w1 ∧
    (4294967296 - 1 - (256 * (256 * (256 * w3 + w2) + w1) + w0)) / 65536 % 256 = 255 - w2 ∧
    (4294967296 - 1 - (256 * (256 * (256 * w3 + w2) + w1) + w0)) / 16777216 = 255 - w3 := by
  omega

theorem flag_iff (w x y : Nat) (hw : w < 256) (hx : x = (w + 255) % 256) (hy : y = 255 - w) :
    (if 128 ≤ x ∧ 128 ≤ y then 128 else 0) = 128 ↔ w = 0 := by
  by_cases c : 128 ≤ x ∧ 128 ≤ y
  · rw [if_pos c]
    constructor
    · intro _
      omega
    · intro _
      rfl
  · rw [if_neg c]
    constructor
    · intro a
      cases a
    · intro a
      omega

theorem flag_cases (p : Prop) [Decidable p] :
    (if p then 128 else 0) = 0 ∨ (if p then 128 else 0) = 128 := by
  by_cases c : p
  · right
    rw [if_pos c]
  · left
    rw [if_neg c]

theorem byte_and_and_128 (x y : Nat) (hx : x < 256) (hy : y < 256) :
    x &&& y &&& 128 = if 128 ≤ x ∧ 128 ≤ y then 128 else 0 := by
  rw [Nat.and_assoc, byte_and_128 y hy]
  by_cases c : 128 ≤ y
  · rw [if_pos c, byte_and_128 x hx]
    by_cases d : 128 ≤ x
    · rw [if_pos d, if_pos ⟨d, c⟩]
    · rw [if_neg d, if_neg (fun a => d a.1)]
  · rw [if_neg c, if_neg (fun a => c a.2), Nat.and_zero]

theorem pack4_lt (b0 b1 b2 b3 : Nat) (h0 : b0 < 256) (h1 : b1 < 256) (h2 : b2 < 256)
    (h3 : b3 < 256) : pack4 b0 b1 b2 b3 < 4294967296 := by
  unfold pack4
  omega

/-- The second line of word_has_byte on a word given by its bytes: every byte
of the result is 0 or 0x80, and the lowest byte that is 0x80 is at the first
zero byte of the word. -/
theorem haszero_lanes (w0 w1 w2 w3 : Nat) (h0 : w0 < 256) (h1 : w1 < 256) (h2 : w2 < 256)
    (h3 : w3 < 256) :
    ∃ g0 g1 g2 g3,
      ((((pack4 w0 w1 w2 w3 + 18446744073709551616 - 16843009) % 18446744073709551616) &&&
          (4294967296 - 1 - pack4 w0 w1 w2 w3)) &&& 2155905152) % 4294967296
        = pack4 g0 g1 g2 g3 ∧
      (g0 = 0 ∨ g0 = 128) ∧ (g1 = 0 ∨ g1 = 128) ∧ (g2 = 0 ∨ g2 = 128) ∧ (g3 = 0 ∨ g3 = 128) ∧
      (g0 = 128 ↔ w0 = 0) ∧
      (w0 ≠ 0 → (g1 = 128 ↔ w1 = 0)) ∧
      (w0 ≠ 0 → w1 ≠ 0 → (g2 = 128 ↔ w2 = 0)) ∧
      (w0 ≠ 0 → w1 ≠ 0 → w2 ≠ 0 → (g3 = 128 ↔ w3 = 0)) := by
  have hvd : pack4 w0 w1 w2 w3 = 256 * (256 * (256 * w3 + w2) + w1) + w0 := rfl
  have hXm : (pack4 w0 w1 w2 w3 + 18446744073709551616 - 16843009) % 18446744073709551616
      % 2 ^ 32 = (pack4 w0 w1 w2 w3 + 4278124287) % 4294967296 := by
    rw [hvd]
    norm_num
    omega
  have hYlt : 4294967296 - 1 - pack4 w0 w1 w2 w3 < 2 ^ 32 := by
    norm_num
    omega
  have hXlt : (pack4 w0 w1 w2 w3 + 4278124287) % 4294967296 < 2 ^ 32 := by
    norm_num
    omega
  have hM : (2155905152 : Nat) = pack4 128 128 128 128 := by decide
  obtain ⟨n0, n1, n2, n3⟩ := not_lanes w0 w1 w2 w3 h0 h1 h2 h3
  have hXb := pack4_bytes _ hXlt
  have hYb := pack4_bytes _ hYlt
  have l0 := borrow_lane0 w0 (256 * (256 * w3 + w2) + w1)
  rw [← hvd] at n0 n1 n2 n3 l0
  rw [n0, n1, n2, n3] at hYb
  generalize hx0 : (pack4 w0 w1 w2 w3 + 4278124287) % 4294967296 % 256 = x0 at hXb l0
  generalize hx1 : (pack4 w0 w1 w2 w3 + 4278124287) % 4294967296 / 256 % 256 = x1 at hXb
  generalize hx2 : (pack4 w0 w1 w2 w3 + 4278124287) % 4294967296 / 65536 % 256 = x2 at hXb
  generalize hx3 : (pack4 w0 w1 w2 w3 + 4278124287) % 4294967296 / 16777216 = x3 at hXb
  have bx0 : x0 < 256 := by omega
  have bx1 : x1 < 256 := by omega
  have bx2 : x2 < 256 := by omega
  have bx3 : x3 < 256 := by
    rw [← hx3]
    omega
  have e : ((pack4 w0 w1 w2 w3 + 18446744073709551616 - 16843009) % 18446744073709551616 &&&
      (4294967296 - 1 - pack4 w0 w1 w2 w3)) &&& 2155905152 =
      pack4 (x0 &&& (255 - w0) &&& 128) (x1 &&& (255 - w1) &&& 128) (x2 &&& (255 - w2) &&& 128)
        (x3 &&& (255 - w3) &&& 128) := by
    rw [and_mod_of_lt _ _ 32 hYlt, hXm, hXb, hYb, hM,
      pack4_and _ _ _ _ _ _ _ _ bx0 bx1 bx2 (by omega) (by omega) (by omega),
      pack4_and _ _ _ _ _ _ _ _ (Nat.lt_of_le_of_lt Nat.and_le_left bx0)
        (Nat.lt_of_le_of_lt Nat.and_le_left bx1) (Nat.lt_of_le_of_lt Nat.and_le_left bx2)
        (by norm_num) (by norm_num) (by norm_num)]
  rw [e, byte_and_and_128 x0 _ bx0 (by omega), byte_and_and_128 x1 _ bx1 (by omega),
    byte_and_and_128 x2 _ bx2 (by omega), byte_and_and_128 x3 _ bx3 (by omega)]
  refine ⟨_, _, _, _, Nat.mod_eq_of_lt (pack4_lt _ _ _ _ (by split <;> omega)
    (by split <;> omega) (by split <;> omega) (by split <;> omega)),
    flag_cases _, flag_cases _, flag_cases _, flag_cases _,
    flag_iff w0 x0 _ h0 l0 rfl, ?_, ?_, ?_⟩
  · intro a
    refine flag_iff w1 x1 _ h1 ?_ rfl
    rw [← hx1, hvd]
    exact borrow_lane1 w0 w1 _ h0 a
  · intro a b
    refine flag_iff w2 x2 _ h2 ?_ rfl
    rw [← hx2, hvd]
    exact borrow_lane2 w0 w1 w2 _ h0 h1 a b
  · intro a b c
    refine flag_iff w3 x3 _ h3 ?_ rfl
    rw [← hx3, hvd]
    exact borrow_lane3 w0 w1 w2 w3 h0 h1 h2 a b c

theorem mask_lanes (num : Nat) (hn : num ≤ 4) :
    ((2 ^ 64 - 1) <<< ((num <<< 3) % 2 ^ 32)) % 2 ^ 64 % 2 ^ 32 =
      pack4 (if 0 < num then 0 else 255) (if 1 < num then 0 else 255)
        (if 2 < num then 0 else 255) (if 3 < num then 0 else 255) := by
  interval_cases num <;> decide

/-- The first line of word_has_byte on a word given by its bytes: byte `i` of
the new `v` is `keys[i] ^ c` below `num` and 0xFF from `num` on. -/
theorem first_line_lanes (k0 k1 k2 k3 c num : Nat) (h0 : k0 < 256) (h1 : k1 < 256)
    (h2 : k2 < 256) (h3 : k3 < 256) (hc : c < 256) (hn : num ≤ 4) :
    ((pack4 k0 k1 k2 k3 ^^^ ((0x01010101 * c) % 2 ^ 64)) |||
      (((2 ^ 64 - 1) <<< ((num <<< 3) % 2 ^ 32)) % 2 ^ 64)) % 2 ^ 32 =
      pack4 ((k0 ^^^ c) ||| (if 0 < num then 0 else 255))
        ((k1 ^^^ c) ||| (if 1 < num then 0 else 255))
        ((k2 ^^^ c) ||| (if 2 < num then 0 else 255))
        ((k3 ^^^ c) ||| (if 3 < num then 0 else 255)) := by
  have hcc : (0x01010101 * c) % 2 ^ 64 = pack4 c c c c := by
    unfold pack4
    norm_num
    omega
  have hx : ∀ k, k < 256 → k ^^^ c < 256 := fun k hk =>
    @Nat.xor_lt_two_pow k c 8 (by norm_num; omega) (by norm_num; omega)
  have hm : ∀ p : Prop, [Decidable p] → (if p then 0 else 255) < 256 := by
    intro p _
    split <;> omega
  rw [or_mod_pow, mask_lanes num hn, hcc, pack4_xor _ _ _ _ _ _ _ _ h0 h1 h2 hc hc hc,
    Nat.mod_eq_of_lt (by
      have := pack4_lt _ _ _ _ (hx k0 h0) (hx k1 h1) (hx k2 h2) (hx k3 h3)
      norm_num
      exact this),
    pack4_or _ _ _ _ _ _ _ _ (hx k0 h0) (hx k1 h1) (hx k2 h2) (hm _) (hm _) (hm _)]

theorem masked_lane (k c : Nat) (p : Prop) [Decidable p] (hk : k < 256) (hc : c < 256) :
    (k ^^^ c) ||| (if p then 0 else 255) < 256 ∧
    ((k ^^^ c) ||| (if p then 0 else 255) = 0 ↔ p ∧ k = c) := by
  have hx : k ^^^ c < 256 := @Nat.xor_lt_two_pow k c 8 (by norm_num; omega) (by norm_num; omega)
  by_cases h : p
  · rw [if_pos h, Nat.or_zero, xor_eq_zero_iff]
    exact ⟨hx, fun a => ⟨h, a⟩, fun a => a.2⟩
  · rw [if_neg h, byte_or_255 _ hx]
    exact ⟨by omega, fun a => by omega, fun a => absurd a.1 h⟩

theorem word_has_byte_lanes (k0 k1 k2 k3 c num : Nat) (h0 : k0 < 256) (h1 : k1 < 256)
    (h2 : k2 < 256) (h3 : k3 < 256) (hc : c < 256) (hn : num ≤ 4) :
    ∃ g0 g1 g2 g3, word_has_byte (pack4 k0 k1 k2 k3) c num = pack4 g0 g1 g2 g3 ∧
      (g0 = 0 ∨ g0 = 128) ∧ (g1 = 0 ∨ g1 = 128) ∧ (g2 = 0 ∨ g2 = 128) ∧ (g3 = 0 ∨ g3 = 128) ∧
      (g0 = 128 ↔ (0 < num ∧ k0 = c)) ∧
      (¬(0 < num ∧ k0 = c) → (g1 = 128 ↔ (1 < num ∧ k1 = c))) ∧
      (¬(0 < num ∧ k0 = c) → ¬(1 < num ∧ k1 = c) → (g2 = 128 ↔ (2 < num ∧ k2 = c))) ∧
      (¬(0 < num ∧ k0 = c) → ¬(1 < num ∧ k1 = c) → ¬(2 < num ∧ k2 = c) →
        (g3 = 128 ↔ (3 < num ∧ k3 = c))) := by
  have hB := first_line_lanes k0 k1 k2 k3 c num h0 h1 h2 h3 hc hn
  obtain ⟨b0, z0⟩ := masked_lane k0 c (0 < num) h0 hc
  obtain ⟨b1, z1⟩ := masked_lane k1 c (1 < num) h1 hc
  obtain ⟨b2, z2⟩ := masked_lane k2 c (2 < num) h2 hc
  obtain ⟨b3, z3⟩ := masked_lane k3 c (3 < num) h3 hc
  obtain ⟨g0, g1, g2, g3, hg, c0, c1, c2, c3, f0, f1, f2, f3⟩ := haszero_lanes _ _ _ _ b0 b1 b2 b3
  refine ⟨g0, g1, g2, g3, ?_, c0, c1, c2, c3, ?_, ?_, ?_, ?_⟩
  · unfold word_has_byte
    dsimp only
    rw [hB]
    exact hg
  · rw [f0, z0]
  · intro a
    rw [f1 (fun e => a (z0.1 e)), z1]
  · intro a b
    rw [f2 (fun e => a (z0.1 e)) (fun e => b (z1.1 e)), z2]
  · intro a b d
    rw [f3 (fun e => a (z0.1 e)) (fun e => b (z1.1 e)) (fun e => d (z2.1 e)), z3]

theorem ctz_lanes (g0 g1 g2 g3 : Nat) (c0 : g0 = 0 ∨ g0 = 128) (c1 : g1 = 0 ∨ g1 = 128)
    (c2 : g2 = 0 ∨ g2 = 128) (c3 : g3 = 0 ∨ g3 = 128) :
    (if pack4 g0 g1 g2 g3 ≠ 0 then some (ctz (pack4 g0 g1 g2 g3) >>> 3) else none) =
      if g0 = 128 then some 0 else if g1 = 128 then some 1
        else if g2 = 128 then some 2 else if g3 = 128 then some 3 else none := by
  rcases c0 with h | h <;> rcases c1 with h' | h' <;> rcases c2 with h'' | h'' <;>
    rcases c3 with h''' | h''' <;> subst h <;> subst h' <;> subst h'' <;> subst h''' <;> decide

theorem scan4 (hit : Nat → Bool) (num : Nat) (hn : num ≤ 4) :
    first_index hit num 0 =
      if 0 < num ∧ hit 0 = true then some 0 else if 1 < num ∧ hit 1 = true then some 1
        else if 2 < num ∧ hit 2 = true then some 2
        else if 3 < num ∧ hit 3 = true then some 3 else none := by
  interval_cases num <;> simp only [first_index] <;> 
    cases hit 0 <;> cases hit 1 <;> cases hit 2 <;> cases hit 3 <;> simp

theorem word_of_keys_eq (keys : List Nat) :
    word_of_keys keys = pack4 (byte_at keys 0) (byte_at keys 1) (byte_at keys 2)
      (byte_at keys 3) := by
  unfold word_of_keys pack4
  omega

/-- The word-packed NODE4 lookup returns what the scalar loop of find_child
returns. -/
theorem find_child4_word_eq (keys : List Nat) (c num : Nat)
    (hb : ∀ i < 4, byte_at keys i < 256) (hc : c < 256) (hn : num ≤ 4) :
    find_child4_word keys c num = first_index (fun i => byte_at keys i == c) num 0 := by
  obtain ⟨g0, g1, g2, g3, hg, c0, c1, c2, c3, f0, f1, f2, f3⟩ :=
    word_has_byte_lanes _ _ _ _ c num (hb 0 (by omega)) (hb 1 (by omega)) (hb 2 (by omega))
      (hb 3 (by omega)) hc hn
  unfold find_child4_word
  dsimp only
  rw [word_of_keys_eq, hg, ctz_lanes g0 g1 g2 g3 c0 c1 c2 c3, scan4 _ num hn]
  simp only [beq_iff_eq]
  by_cases a0 : 0 < num ∧ byte_at keys 0 = c
  · rw [if_pos (f0.2 a0), if_pos a0]
  · rw [if_neg (fun e => a0 (f0.1 e)), if_neg a0]
    by_cases a1 : 1 < num ∧ byte_at keys 1 = c
    · rw [if_pos ((f1 a0).2 a1), if_pos a1]
    · rw [if_neg (fun e => a1 ((f1 a0).1 e)), if_neg a1]
      by_cases a2 : 2 < num ∧ byte_at keys 2 = c
      · rw [if_pos ((f2 a0 a1).2 a2), if_pos a2]
      · rw [if_neg (fun e => a2 ((f2 a0 a1).1 e)), if_neg a2]
        by_cases a3 : 3 < num ∧ byte_at keys 3 = c
        · rw [if_pos ((f3 a0 a1 a2).2 a3), if_pos a3]
        · rw [if_neg (fun e => a3 ((f3 a0 a1 a2).1 e)), if_neg a3]

/-! ## Trees over keys none of which is a prefix of another -/

theorem has_leaf_null (l : art_leaf) : ¬ has_leaf art_ref.null l := by
  intro h
  cases h

theorem has_leaf_leaf (l l' : art_leaf) : has_leaf (art_ref.leaf l) l' ↔ l' = l := by
  constructor
  · intro h
    cases h
    rfl
  · intro h
    rw [h]
    exact has_leaf.here l

theorem has_leaf_inner (x : inner_node) (l : art_leaf) :
    has_leaf x.to_ref l ↔ ∃ c, has_leaf (child_of x c) l := by
  constructor
  · intro h
    cases h with
    | under n keys children me c l h => exact ⟨c, h⟩
  · rintro ⟨c, h⟩
    exact has_leaf.under x.n x.keys x.children x.me c l h

theorem has_leaf_not_null (r : art_ref) (l : art_leaf) (h : has_leaf r l) :
    r.is_null = false := by
  cases h <;> rfl

theorem radix_ok_not_null (d : Nat) (r : art_ref) (h : radix_ok d r) : r.is_null = false := by
  cases h <;> rfl

/-- What radix_ok says of an inner node, by fields. -/
theorem radix_ok_inner (d : Nat) (x : inner_node) (h : radix_ok d x.to_ref) :
    ∃ P : List Nat, node_ok x ∧ x.me = none ∧ x.n.partial_bytes.length = MAX_PREFIX_LEN ∧
      min_children x.n.type ≤ populated x ∧ P.length = x.n.partial_len ∧
      (∀ i < min MAX_PREFIX_LEN x.n.partial_len, byte_at x.n.partial_bytes i = byte_at P i) ∧
      (∀ c, (child_of x c).is_null = false → radix_ok (d + x.n.partial_len + 1) (child_of x c)) ∧
      (∀ c l, has_leaf (child_of x c) l →
        byte_at l.key (d + x.n.partial_len) = c ∧
        ∀ i < x.n.partial_len, byte_at l.key (d + i) = byte_at P i) := by
  cases h with
  | inner d n keys children me P h1 h2 h3 h4 h5 h6 h7 h8 => exact ⟨P, h1, h2, h3, h4, h5, h6, h7, h8⟩

theorem radix_ok_mk (d : Nat) (x : inner_node) (P : List Nat)
    (h1 : node_ok x) (h2 : x.me = none) (h3 : x.n.partial_bytes.length = MAX_PREFIX_LEN)
    (h4 : min_children x.n.type ≤ populated x) (h5 : P.length = x.n.partial_len)
    (h6 : ∀ i < min MAX_PREFIX_LEN x.n.partial_len, byte_at x.n.partial_bytes i = byte_at P i)
    (h7 : ∀ c, (child_of x c).is_null = false →
      radix_ok (d + x.n.partial_len + 1) (child_of x c))
    (h8 : ∀ c l, has_leaf (child_of x c) l →
        byte_at l.key (d + x.n.partial_len) = c ∧
        ∀ i < x.n.partial_len, byte_at l.key (d + i) = byte_at P i) :
    radix_ok d x.to_ref :=
  radix_ok.inner d x.n x.keys x.children x.me P h1 h2 h3 h4 h5 h6 h7 h8

theorem radix_leaf_len (d : Nat) (r : art_ref) (h : radix_ok d r) :
    ∀ l, has_leaf r l → d ≤ l.key.length := by
  induction h with
  | leaf d l0 h =>
    intro l hl
    rw [(has_leaf_leaf l0 l).1 hl]
    exact h
  | inner d n keys children me P h1 h2 h3 h4 h5 h6 h7 h8 ih =>
    intro l hl
    obtain ⟨c, hc⟩ := (has_leaf_inner ⟨n, keys, children, me⟩ l).1 hl
    have := ih c (has_leaf_not_null _ _ hc) l hc
    omega

theorem populated_pos_child (x : inner_node) (hx : node_ok x) (h : 0 < populated x) :
    ∃ c, c < 256 ∧ (child_of x c).is_null = false := by
  unfold populated at h
  obtain ⟨c, hc⟩ := List.exists_mem_of_length_pos h
  rw [List.mem_filter, List.mem_range] at hc
  refine ⟨c, hc.1, ?_⟩
  have := isSome_eq_child_of x hx c
  rw [hc.2] at this
  cases hn : (child_of x c).is_null
  · rfl
  · rw [hn] at this
    cases this

theorem min_children_pos (t : node_type) : 2 ≤ min_children t := by
  cases t <;> decide

theorem radix_exists_leaf (d : Nat) (r : art_ref) (h : radix_ok d r) : ∃ l, has_leaf r l := by
  induction h with
  | leaf d l0 h => exact ⟨l0, has_leaf.here l0⟩
  | inner d n keys children me P h1 h2 h3 h4 h5 h6 h7 h8 ih =>
    have := min_children_pos n.type
    obtain ⟨c, _, hc⟩ := populated_pos_child ⟨n, keys, children, me⟩ h1 (by omega)
    obtain ⟨l, hl⟩ := ih c hc
    exact ⟨l, has_leaf.under n keys children me c l hl⟩

theorem minimum_at_eq (cs : List art_ref) (i : Nat) :
    minimum_at cs i = minimum (slot_at cs i) := by
  induction cs generalizing i with
  | nil =>
    rw [minimum_at]
    have : slot_at [] i = art_ref.null := by simp [slot_at]
    rw [this, minimum]
  | cons c cs ih =>
    cases i with
    | zero =>
      rw [minimum_at]
      rfl
    | succ i =>
      rw [minimum_at, ih i]
      rfl

/-- The function minimum on an inner node without own leaf and with at least
one child continues in one of the children. -/
theorem minimum_inner (x : inner_node) (hx : node_ok x) (hme : x.me = none)
    (hpop : 0 < populated x) :
    ∃ c, (child_of x c).is_null = false ∧ minimum x.to_ref = minimum (child_of x c) := by
  obtain ⟨c0, hc0, hn0⟩ := populated_pos_child x hx hpop
  have hsome : (find_child x c0).isSome = true := by
    rw [isSome_eq_child_of x hx c0, hn0]
    rfl
  show ∃ c, _ ∧ minimum (art_ref.inner x.n x.keys x.children x.me) = _
  rw [minimum]
  simp only [node_get_own_leaf, hme]
  rcases node_ok_cases x hx with ⟨ht, hf⟩ | ⟨ht, hf⟩ | ⟨ht, hf⟩ | ⟨ht, hf⟩
  · rw [ht]
    dsimp only
    have hnum : 0 < x.n.num_children := by
      rw [← populated_flat x (Or.inl ht) hf]
      exact hpop
    refine ⟨byte_at x.keys 0, ?_, ?_⟩
    · rw [child_of_flat_at (Or.inl ht) hf hnum]
      exact (hf.2.2.2.1 0 hnum).2
    · rw [minimum_at_eq, child_of_flat_at (Or.inl ht) hf hnum]
  · rw [ht]
    dsimp only
    have hnum : 0 < x.n.num_children := by
      rw [← populated_flat x (Or.inr ht) hf]
      exact hpop
    refine ⟨byte_at x.keys 0, ?_, ?_⟩
    · rw [child_of_flat_at (Or.inr ht) hf hnum]
      exact (hf.2.2.2.1 0 hnum).2
    · rw [minimum_at_eq, child_of_flat_at (Or.inr ht) hf hnum]
  · rw [ht]
    dsimp only
    have hk : byte_at x.keys c0 ≠ 0 := by
      intro e
      unfold find_child at hsome
      rw [ht] at hsome
      simp [e] at hsome
    obtain ⟨j, hj⟩ := @first_index_exists (fun idx => byte_at x.keys idx != 0) 256 0 c0
      (Nat.zero_le _) (by omega) (by simpa using hk)
    rw [hj]
    dsimp only
    have s := first_index_some hj
    have hkj : byte_at x.keys j ≠ 0 := by simpa using s.2.2.1
    have hco : child_of x j = slot_at x.children (byte_at x.keys j - 1) := by
      unfold child_of find_child
      rw [ht]
      simp [hkj]
    refine ⟨j, ?_, ?_⟩
    · rw [hco]
      exact (hf.2.2.2.2.1 j (by omega) hkj).2
    · rw [minimum_at_eq, hco]
  · rw [ht]
    dsimp only
    have hk : (slot_at x.children c0).is_null = false := by
      unfold find_child at hsome
      rw [ht] at hsome
      cases hn : (slot_at x.children c0).is_null
      · rfl
      · simp [hn] at hsome
    obtain ⟨j, hj⟩ := @first_index_exists (fun idx => !(slot_at x.children idx).is_null) 256 0 c0
      (Nat.zero_le _) (by omega) (by simp [hk])
    rw [hj]
    dsimp only
    have s := first_index_some hj
    have hkj : (slot_at x.children j).is_null = false := by simpa using s.2.2.1
    have hco : child_of x j = slot_at x.children j := by
      unfold child_of find_child
      rw [ht]
      simp [hkj]
    refine ⟨j, ?_, ?_⟩
    · rw [hco]
      exact hkj
    · rw [minimum_at_eq, hco]

theorem radix_minimum (d : Nat) (r : art_ref) (h : radix_ok d r) :
    ∃ l, minimum r = some l ∧ has_leaf r l := by
  induction h with
  | leaf d l0 h => exact ⟨l0, by rw [minimum], has_leaf.here l0⟩
  | inner d n keys children me P h1 h2 h3 h4 h5 h6 h7 h8 ih =>
    have := min_children_pos n.type
    obtain ⟨c, hc, hm⟩ := minimum_inner ⟨n, keys, children, me⟩ h1 h2 (by omega)
    obtain ⟨l, hl1, hl2⟩ := ih c hc
    exact ⟨l, hm.trans hl1, has_leaf.under n keys children me c l hl2⟩

/-- In a radix tree art_search finds every leaf below the slot it starts at. -/
theorem radix_search_present (d : Nat) (r : art_ref) (h : radix_ok d r) :
    ∀ l, has_leaf r l → art_search_loop r l.key d = l.value := by
  induction h with
  | leaf d l0 h =>
    intro l hl
    rw [(has_leaf_leaf l0 l).1 hl, art_search_loop]
    simp [leaf_matches]
  | inner d n keys children me P h1 h2 h3 h4 h5 h6 h7 h8 ih =>
    intro l hl
    obtain ⟨c, hc⟩ := (has_leaf_inner ⟨n, keys, children, me⟩ l).1 hl
    have hnn := has_leaf_not_null _ _ hc
    have hlen := radix_leaf_len _ _ (h7 c hnn) l hc
    obtain ⟨hb, hP⟩ := h8 c l hc
    have hcp : check_prefix n l.key d = min MAX_PREFIX_LEN n.partial_len := by
      apply check_prefix_full
      · simp only [MAX_PREFIX_LEN] at *
        omega
      · intro i hi
        rw [h6 i hi, hP i (by omega)]
    have hs := search_step ⟨n, keys, children, me⟩ l.key d (Or.inr hcp)
    have hne : ¬ d + n.partial_len = l.key.length := by omega
    rw [if_neg hne] at hs
    show art_search_loop (inner_node.to_ref ⟨n, keys, children, me⟩) l.key d = l.value
    rw [hs]
    dsimp only
    rw [hb]
    exact ih c hnn l hc

/-- In a radix tree art_search returns only values of leaves of the tree, and
only for their own key. -/
theorem radix_search_sound (d : Nat) (r : art_ref) (h : radix_ok d r) :
    ∀ k v, art_search_loop r k d = some v → ∃ l, has_leaf r l ∧ l.key = k ∧ l.value = some v := by
  induction h with
  | leaf d l0 h =>
    intro k v hs
    rw [art_search_loop] at hs
    by_cases hm : leaf_matches l0 k d = 0
    · rw [if_pos hm] at hs
      refine ⟨l0, has_leaf.here l0, ?_, hs⟩
      unfold leaf_matches at hm
      by_cases h1 : l0.key.length ≠ k.length
      · rw [if_pos h1] at hm
        cases hm
      · rw [if_neg h1] at hm
        by_cases h2 : l0.key = k
        · exact h2
        · rw [if_neg h2] at hm
          cases hm
    · rw [if_neg hm] at hs
      cases hs
  | inner d n keys children me P h1 h2 h3 h4 h5 h6 h7 h8 ih =>
    intro k v hs
    by_cases hc : n.partial_len ≠ 0 ∧ check_prefix n k d ≠ min MAX_PREFIX_LEN n.partial_len
    · rw [art_search_loop, if_pos hc] at hs
      cases hs
    · have hok : n.partial_len = 0 ∨ check_prefix n k d = min MAX_PREFIX_LEN n.partial_len := by
        by_cases h0 : n.partial_len = 0
        · exact Or.inl h0
        · right
          by_contra h'
          exact hc ⟨h0, h'⟩
      have hst := search_step ⟨n, keys, children, me⟩ k d hok
      change art_search_loop (art_ref.inner n keys children me) k d = _ at hst
      rw [hst] at hs
      dsimp only at hs
      by_cases he : d + n.partial_len = k.length
      · rw [if_pos he, h2] at hs
        cases hs
      · rw [if_neg he] at hs
        have hnn : (child_of ⟨n, keys, children, me⟩ (byte_at k (d + n.partial_len))).is_null
            = false := by
          cases hcn : child_of ⟨n, keys, children, me⟩ (byte_at k (d + n.partial_len)) with
          | null =>
            rw [hcn, art_search_loop] at hs
            cases hs
          | leaf _ => rfl
          | inner _ _ _ _ => rfl
        obtain ⟨l, hl1, hl2, hl3⟩ := ih _ hnn k v hs
        exact ⟨l, has_leaf.under n keys children me _ l hl1, hl2, hl3⟩

/-- The node `x` after a store to `children[i]`. -/
theorem find_child_index (x : inner_node) (hx : node_ok x) (c i : Nat)
    (hf : find_child x c = some i) :
    i < x.children.length ∧ slot_at x.children i = child_of x c := by
  refine ⟨?_, by unfold child_of; rw [hf]⟩
  rcases node_ok_cases x hx with ⟨ht, h⟩ | ⟨ht, h⟩ | ⟨ht, h⟩ | ⟨ht, h⟩
  · obtain ⟨a, _⟩ := find_child_flat_some (Or.inl ht) hf
    rw [h.2.1]
    exact Nat.lt_of_lt_of_le a h.2.2.1
  · obtain ⟨a, _⟩ := find_child_flat_some (Or.inr ht) hf
    rw [h.2.1]
    exact Nat.lt_of_lt_of_le a h.2.2.1
  · have hc := (find_child_some_lt x hx c i hf).1
    rw [find_child_48 x c ht] at hf
    by_cases hk : byte_at x.keys c ≠ 0
    · rw [if_pos hk] at hf
      have := (h.2.2.2.2.1 c hc hk).1
      rw [h.2.1]
      cases hf
      omega
    · rw [if_neg hk] at hf
      cases hf
  · have hc := (find_child_some_lt x hx c i hf).1
    rw [find_child_256 x c ht] at hf
    by_cases hk : (slot_at x.children c).is_null = true
    · rw [if_pos hk] at hf
      cases hf
    · rw [if_neg hk] at hf
      cases hf
      rw [h.1]
      exact hc

theorem set_child_flat (cap : Nat) (x : inner_node) (c i : Nat) (r : art_ref)
    (ht : x.n.type = NODE4 ∨ x.n.type = NODE16) (hx : flat_ok cap x)
    (hf : find_child x c = some i) (hr : r.is_null = false) :
    flat_ok cap { x with children := x.children.set i r } ∧
    (∀ c', find_child { x with children := x.children.set i r } c' = find_child x c') ∧
    ∀ c', child_of { x with children := x.children.set i r } c' =
      if c' = c then r else child_of x c' := by
  obtain ⟨hi, hk⟩ := find_child_flat_some ht hf
  obtain ⟨f1, f2, f3, f4, f5⟩ := hx
  have hfc : ∀ c', find_child { x with children := x.children.set i r } c' = find_child x c' := by
    intro c'
    exact (find_child_flat { x with children := x.children.set i r } c' ht).trans
      (find_child_flat x c' ht).symm
  refine ⟨⟨f1, by simp [f2], f3, ?_, f5⟩, hfc, ?_⟩
  · intro j hj
    refine ⟨(f4 j hj).1, ?_⟩
    show (slot_at (x.children.set i r) j).is_null = false
    rw [slot_at_set]
    by_cases e : i = j ∧ j < x.children.length
    · rw [if_pos e]
      exact hr
    · rw [if_neg e]
      exact (f4 j hj).2
  · intro c'
    unfold child_of
    rw [hfc c']
    by_cases e : c' = c
    · rw [if_pos e, e, hf]
      show slot_at (x.children.set i r) i = r
      rw [slot_at_set, if_pos ⟨rfl, by omega⟩]
    · rw [if_neg e]
      cases hf' : find_child x c' with
      | none => rfl
      | some j =>
        obtain ⟨hj, hkj⟩ := find_child_flat_some ht hf'
        show slot_at (x.children.set i r) j = slot_at x.children j
        rw [slot_at_set, if_neg]
        rintro ⟨rfl, _⟩
        exact e (hkj.symm.trans hk)

theorem set_child_48 (x : inner_node) (c i : Nat) (r : art_ref)
    (ht : x.n.type = NODE48) (hx : node48_ok x)
    (hf : find_child x c = some i) (hr : r.is_null = false) :
    node48_ok { x with children := x.children.set i r } ∧
    (∀ c', find_child { x with children := x.children.set i r } c' = find_child x c') ∧
    ∀ c', child_of { x with children := x.children.set i r } c' =
      if c' = c then r else child_of x c' := by
  have hc := (find_child_some_lt x (node_ok_of_48 x ht hx) c i hf).1
  obtain ⟨f1, f2, f3, f4, f5, f6⟩ := hx
  have hk : byte_at x.keys c ≠ 0 ∧ i = byte_at x.keys c - 1 := by
    rw [find_child_48 x c ht] at hf
    by_cases hk : byte_at x.keys c ≠ 0
    · rw [if_pos hk] at hf
      cases hf
      exact ⟨hk, rfl⟩
    · rw [if_neg hk] at hf
      cases hf
  have hi : i < x.children.length := by
    have := (f5 c hc hk.1).1
    omega
  have hold : (slot_at x.children i).is_null = false := by
    rw [hk.2]
    exact (f5 c hc hk.1).2
  have hnull : ∀ s, (slot_at (x.children.set i r) s).is_null = (slot_at x.children s).is_null := by
    intro s
    rw [slot_at_set]
    by_cases e : i = s ∧ s < x.children.length
    · rw [if_pos e, hr, ← e.1, hold]
    · rw [if_neg e]
  have hfc : ∀ c', find_child { x with children := x.children.set i r } c' = find_child x c' := by
    intro c'
    exact (find_child_48 { x with children := x.children.set i r } c' ht).trans
      (find_child_48 x c' ht).symm
  refine ⟨⟨f1, by simp [f2], f3, ?_, ?_, f6⟩, hfc, ?_⟩
  · show x.n.num_children = _
    rw [f4]
    congr 1
    apply filter_range_congr
    intro s _
    show (!(slot_at x.children s).is_null) = !(slot_at (x.children.set i r) s).is_null
    rw [hnull s]
  · intro b hb hkb
    refine ⟨(f5 b hb hkb).1, ?_⟩
    show (slot_at (x.children.set i r) (byte_at x.keys b - 1)).is_null = false
    rw [hnull]
    exact (f5 b hb hkb).2
  · intro c'
    rw [child_of_48 { x with children := x.children.set i r } c' ht, child_of_48 x c' ht]
    show (if byte_at x.keys c' ≠ 0 then slot_at (x.children.set i r) (byte_at x.keys c' - 1)
      else art_ref.null) = _
    by_cases e : c' = c
    · rw [if_pos e, e, if_pos hk.1, ← hk.2, slot_at_set, if_pos ⟨rfl, hi⟩]
    · rw [if_neg e]
      by_cases hk' : byte_at x.keys c' ≠ 0
      · rw [if_pos hk', if_pos hk', slot_at_set, if_neg]
        rintro ⟨e', _⟩
        have hc' : c' < 256 := by
          by_contra hge
          exact hk' (byte_at_beyond _ _ (by rw [f1]; omega))
        apply e
        apply (f6 c hc c' hc' hk.1 _).symm
        have := (f5 c' hc' hk').1
        omega
      · rw [if_neg hk', if_neg hk']

theorem set_child_256 (x : inner_node) (c i : Nat) (r : art_ref)
    (ht : x.n.type = NODE256) (hx : node256_ok x)
    (hf : find_child x c = some i) (hr : r.is_null = false) :
    node256_ok { x with children := x.children.set i r } ∧
    (∀ c', find_child { x with children := x.children.set i r } c' = find_child x c') ∧
    ∀ c', child_of { x with children := x.children.set i r } c' =
      if c' = c then r else child_of x c' := by
  have hc := (find_child_some_lt x (node_ok_of_256 x ht hx) c i hf).1
  obtain ⟨f1, f2⟩ := hx
  have hk : (slot_at x.children c).is_null = false ∧ i = c := by
    rw [find_child_256 x c ht] at hf
    by_cases hk : (slot_at x.children c).is_null = true
    · rw [if_pos hk] at hf
      cases hf
    · rw [if_neg hk] at hf
      cases hf
      exact ⟨by simpa using hk, rfl⟩
  rw [hk.2]
  have hnull : ∀ s, (slot_at (x.children.set c r) s).is_null = (slot_at x.children s).is_null := by
    intro s
    rw [slot_at_set]
    by_cases e : c = s ∧ s < x.children.length
    · rw [if_pos e, hr, ← e.1, hk.1]
    · rw [if_neg e]
  have hfc : ∀ c', find_child { x with children := x.children.set c r } c' = find_child x c' := by
    intro c'
    rw [find_child_256 { x with children := x.children.set c r } c' ht, find_child_256 x c' ht]
    show (if (slot_at (x.children.set c r) c').is_null = true then none else some c') = _
    rw [hnull]
  refine ⟨⟨by simp [f1], ?_⟩, hfc, ?_⟩
  · show x.n.num_children = _
    rw [f2]
    congr 2
    apply filter_range_congr
    intro s _
    show (!(slot_at x.children s).is_null) = !(slot_at (x.children.set c r) s).is_null
    rw [hnull s]
  · intro c'
    rw [child_of_256 { x with children := x.children.set c r } c' ht, child_of_256 x c' ht]
    show slot_at (x.children.set c r) c' = _
    rw [slot_at_set]
    by_cases e : c' = c
    · rw [if_pos e, if_pos ⟨e.symm, by rw [e, f1]; exact hc⟩]
    · rw [if_neg e, if_neg (fun a => e a.1.symm)]

/-- A store of a slot value that is not `NULL` to the slot find_child returned
for `c` replaces the child for `c` and leaves the rest of the node as it was. -/
theorem set_child_spec (x : inner_node) (c i : Nat) (r : art_ref) (hx : node_ok x)
    (hf : find_child x c = some i) (hr : r.is_null = false) :
    node_ok { x with children := x.children.set i r } ∧
    populated { x with children := x.children.set i r } = populated x ∧
    ∀ c', child_of { x with children := x.children.set i r } c' =
      if c' = c then r else child_of x c' := by
  have key : node_ok { x with children := x.children.set i r } ∧
      (∀ c', find_child { x with children := x.children.set i r } c' = find_child x c') ∧
      ∀ c', child_of { x with children := x.children.set i r } c' =
        if c' = c then r else child_of x c' := by
    rcases node_ok_cases x hx with ⟨ht, h⟩ | ⟨ht, h⟩ | ⟨ht, h⟩ | ⟨ht, h⟩
    · obtain ⟨a, b, d⟩ := set_child_flat 4 x c i r (Or.inl ht) h hf hr
      exact ⟨node_ok_of_flat4 _ ht a, b, d⟩
    · obtain ⟨a, b, d⟩ := set_child_flat 16 x c i r (Or.inr ht) h hf hr
      exact ⟨node_ok_of_flat16 _ ht a, b, d⟩
    · obtain ⟨a, b, d⟩ := set_child_48 x c i r ht h hf hr
      exact ⟨node_ok_of_48 _ ht a, b, d⟩
    · obtain ⟨a, b, d⟩ := set_child_256 x c i r ht h hf hr
      exact ⟨node_ok_of_256 _ ht a, b, d⟩
  refine ⟨key.1, ?_, key.2.2⟩
  unfold populated
  congr 1
  apply filter_range_congr
  intro a _
  rw [key.2.1 a]

theorem recursive_insert_at_eq (b : build) (cs : List art_ref) (i : Nat) (key : List Nat)
    (value : Option Nat) (depth : Nat) (replace : Bool) (hi : i < cs.length) :
    recursive_insert_at b cs i key value depth replace =
      (cs.set i (recursive_insert b (slot_at cs i) key value depth replace).ref,
       (recursive_insert b (slot_at cs i) key value depth replace).ret,
       (recursive_insert b (slot_at cs i) key value depth replace).old) := by
  induction cs generalizing i with
  | nil => cases hi
  | cons c cs ih =>
    cases i with
    | zero =>
      rw [recursive_insert_at]
      rfl
    | succ i =>
      rw [recursive_insert_at, ih i (by simpa using hi)]
      rfl

theorem recursive_delete_at_eq (cs : List art_ref) (i : Nat) (key : List Nat) (depth : Nat)
    (hi : i < cs.length) :
    recursive_delete_at cs i key depth =
      (cs.set i (recursive_delete (slot_at cs i) key depth).1,
       (recursive_delete (slot_at cs i) key depth).2) := by
  induction cs generalizing i with
  | nil => cases hi
  | cons c cs ih =>
    cases i with
    | zero =>
      rw [recursive_delete_at]
      rfl
    | succ i =>
      rw [recursive_delete_at, ih i (by simpa using hi)]
      rfl

/-- Replacing the child for `c` of a node of a radix tree by a radix tree whose
leaves continue the node's prefix with `c` gives a radix tree again, with the
leaves of the new child and those of the other children. -/
theorem radix_set_child (d : Nat) (x : inner_node) (c i : Nat) (r : art_ref)
    (h : radix_ok d x.to_ref) (hf : find_child x c = some i)
    (hr : radix_ok (d + x.n.partial_len + 1) r)
    (hl : ∀ l, has_leaf r l → byte_at l.key (d + x.n.partial_len) = c ∧
      ∀ l0, has_leaf x.to_ref l0 → ∀ j < x.n.partial_len,
        byte_at l.key (d + j) = byte_at l0.key (d + j)) :
    radix_ok d (inner_node.to_ref { x with children := x.children.set i r }) ∧
    ∀ l, has_leaf (inner_node.to_ref { x with children := x.children.set i r }) l ↔
      (has_leaf r l ∨ ∃ c', c' ≠ c ∧ has_leaf (child_of x c') l) := by
  obtain ⟨P, h1, h2, h3, h4, h5, h6, h7, h8⟩ := radix_ok_inner d x h
  obtain ⟨s1, s2, s3⟩ := set_child_spec x c i r h1 hf (radix_ok_not_null _ _ hr)
  obtain ⟨l0, hl0⟩ := radix_exists_leaf _ _ h
  obtain ⟨c0, hc0⟩ := (has_leaf_inner x l0).1 hl0
  refine ⟨radix_ok_mk d _ P s1 h2 h3 (by rw [s2]; exact h4) h5 h6 ?_ ?_, ?_⟩
  · intro c' hc'
    rw [s3 c'] at hc' ⊢
    by_cases e : c' = c
    · rw [if_pos e]
      exact hr
    · rw [if_neg e] at hc' ⊢
      exact h7 c' hc'
  · intro c' l hcl
    rw [s3 c'] at hcl
    by_cases e : c' = c
    · rw [if_pos e] at hcl
      obtain ⟨a, b⟩ := hl l hcl
      refine ⟨by rw [e]; exact a, ?_⟩
      intro j hj
      show byte_at l.key (d + j) = byte_at P j
      rw [b l0 hl0 j hj]
      exact (h8 c0 l0 hc0).2 j hj
    · rw [if_neg e] at hcl
      exact h8 c' l hcl
  · intro l
    rw [has_leaf_inner]
    constructor
    · rintro ⟨c', hc'⟩
      rw [s3 c'] at hc'
      by_cases e : c' = c
      · rw [if_pos e] at hc'
        exact Or.inl hc'
      · rw [if_neg e] at hc'
        exact Or.inr ⟨c', e, hc'⟩
    · rintro (hr' | ⟨c', e, hc'⟩)
      · exact ⟨c, by rw [s3 c, if_pos rfl]; exact hr'⟩
      · exact ⟨c', by rw [s3 c', if_neg e]; exact hc'⟩

theorem split_leaf_eq (b : build) (l : art_leaf) (key : List Nat) (value : Option Nat)
    (d m : Nat) (hm : longest_common_prefix l (make_leaf key value) d = m)
    (h1 : d + m < l.key.length) (h2 : d + m < key.length) :
    split_leaf b l key value d =
      (add_child4 b (add_child4 b (split_leaf_parent key d m) (byte_at l.key (d + m))
        (art_ref.leaf l)) (byte_at key (d + m)) (art_ref.leaf (make_leaf key value))).to_ref := by
  unfold split_leaf
  simp only [hm]
  by_cases h0 : m = 0
  · subst h0
    have a : ¬ l.key.length = d := by omega
    have c : ¬ (make_leaf key value).key.length = d := by
      show ¬ key.length = d
      omega
    simp only [ne_eq, not_true_eq_false, if_false, if_neg a, if_neg c]
    rfl
  · simp only [ne_eq, h0, not_false_eq_true, if_true]
    rfl

theorem split_leaf_parent_spec (key : List Nat) (d m : Nat) :
    (split_leaf_parent key d m).n.type = NODE4 ∧
    (split_leaf_parent key d m).n.num_children = 0 ∧
    (split_leaf_parent key d m).n.partial_len = m ∧ (split_leaf_parent key d m).me = none ∧
    (split_leaf_parent key d m).n.partial_bytes.length = MAX_PREFIX_LEN ∧
    flat_ok 4 (split_leaf_parent key d m) ∧
    (∀ c, child_of (split_leaf_parent key d m) c = art_ref.null) ∧
    ∀ i < min MAX_PREFIX_LEN m,
      byte_at (split_leaf_parent key d m).n.partial_bytes i = byte_at key (d + i) := by
  have hnum : (split_leaf_parent key d m).n.num_children = 0 := rfl
  have hty : (split_leaf_parent key d m).n.type = NODE4 := rfl
  have hflat : flat_ok 4 (split_leaf_parent key d m) :=
    ⟨rfl, rfl, by rw [hnum]; omega, fun i hi => by rw [hnum] at hi; omega,
      fun i hi => by rw [hnum] at hi; omega⟩
  refine ⟨hty, hnum, rfl, rfl, ?_, hflat, ?_, ?_⟩
  · show (copy_bytes (List.replicate MAX_PREFIX_LEN 0) 0 key d (min MAX_PREFIX_LEN m)).length = _
    rw [copy_bytes_length, List.length_replicate]
  · intro c
    apply child_of_flat_absent (Or.inl hty)
    intro i hi
    rw [hnum] at hi
    omega
  · intro i hi
    show byte_at (copy_bytes (List.replicate MAX_PREFIX_LEN 0) 0 key d
      (min MAX_PREFIX_LEN m)) i = _
    rw [byte_at_copy_bytes, List.length_replicate]
    have hlt : i < MAX_PREFIX_LEN := lt_of_lt_of_le hi (Nat.min_le_left _ _)
    have a : 0 ≤ i ∧ i < 0 + min MAX_PREFIX_LEN m ∧ i < MAX_PREFIX_LEN := by
      refine ⟨Nat.zero_le _, by omega, hlt⟩
    rw [if_pos a]
    simp

theorem first_difference (a b : List Nat) (d : Nat) (h : keys_differ a b)
    (hpre : ∀ i < d, byte_at a i = byte_at b i) :
    ∃ m, d + m < a.length ∧ d + m < b.length ∧ byte_at a (d + m) ≠ byte_at b (d + m) ∧
      ∀ i < m, byte_at a (d + i) = byte_at b (d + i) := by
  obtain ⟨j, hja, hjb, hj⟩ := h
  have hex : ∃ j, byte_at a j ≠ byte_at b j := ⟨j, hj⟩
  have hle : Nat.find hex ≤ j := Nat.find_min' hex hj
  have hd : d ≤ Nat.find hex := by
    by_contra hlt
    exact Nat.find_spec hex (hpre _ (by omega))
  refine ⟨Nat.find hex - d, by omega, by omega, ?_, ?_⟩
  · have e : d + (Nat.find hex - d) = Nat.find hex := by omega
    rw [e]
    exact Nat.find_spec hex
  · intro i hi
    by_contra hne
    have := Nat.find_min' hex hne
    omega

theorem longest_common_prefix_eq (l1 l2 : art_leaf) (d m : Nat)
    (h1 : d + m < l1.key.length) (h2 : d + m < l2.key.length)
    (hne : byte_at l1.key (d + m) ≠ byte_at l2.key (d + m))
    (heq : ∀ i < m, byte_at l1.key (d + i) = byte_at l2.key (d + i)) :
    longest_common_prefix l1 l2 d = m := by
  unfold longest_common_prefix
  apply first_diff_spec
  · exact Nat.zero_le _
  · omega
  · intro k _ hk
    simp [heq k hk]
  · intro _
    simp [hne]

theorem copy_header_length (dest src : art_node) :
    (copy_header dest src).partial_bytes.length = dest.partial_bytes.length := by
  show (copy_bytes dest.partial_bytes 0 src.partial_bytes 0 _).length = _
  rw [copy_bytes_length]

theorem alloc_node_partial_length (t : node_type) :
    (alloc_node t).n.partial_bytes.length = MAX_PREFIX_LEN := by
  show (List.replicate MAX_PREFIX_LEN 0).length = _
  rw [List.length_replicate]

/-- The inline prefix array keeps its 10 bytes through add_child. -/
theorem add_child_partial_length (b : build) (x : inner_node) (c : Nat) (child : art_ref)
    (h : x.n.partial_bytes.length = MAX_PREFIX_LEN) :
    (add_child b x c child).n.partial_bytes.length = MAX_PREFIX_LEN := by
  have g4 : (grow4 x).n.partial_bytes.length = MAX_PREFIX_LEN :=
    (copy_header_length _ _).trans (alloc_node_partial_length NODE16)
  have g16 : ∀ y : inner_node, (grow16 y).n.partial_bytes.length = MAX_PREFIX_LEN := fun y =>
    (copy_header_length _ _).trans (alloc_node_partial_length NODE48)
  have g48 : ∀ y : inner_node, (grow48 y).n.partial_bytes.length = MAX_PREFIX_LEN := fun y =>
    (copy_header_length _ _).trans (alloc_node_partial_length NODE256)
  have a48 : ∀ y : inner_node, y.n.partial_bytes.length = MAX_PREFIX_LEN →
      (add_child48 y c child).n.partial_bytes.length = MAX_PREFIX_LEN := by
    intro y hy
    by_cases hn : y.n.num_children < 48
    · unfold add_child48
      rw [if_pos hn]
      exact hy
    · rw [add_child48_grow y c child hn]
      exact g48 y
  have a16 : ∀ y : inner_node, y.n.partial_bytes.length = MAX_PREFIX_LEN →
      (add_child16 b y c child).n.partial_bytes.length = MAX_PREFIX_LEN := by
    intro y hy
    by_cases hn : y.n.num_children < 16
    · obtain ⟨p, _, he⟩ := add_child16_in_place b y c child hn
      rw [he]
      exact hy
    · rw [add_child16_grow b y c child hn]
      exact a48 _ (g16 y)
  unfold add_child
  cases x.n.type
  · show (add_child4 b x c child).n.partial_bytes.length = _
    by_cases hn : x.n.num_children < 4
    · obtain ⟨p, _, he⟩ := add_child4_in_place b x c child hn
      rw [he]
      exact h
    · rw [add_child4_grow b x c child hn]
      exact a16 _ g4
  · exact a16 x h
  · exact a48 x h
  · exact h

/-- The inline prefix array keeps its 10 bytes through remove_child16,
remove_child48 and remove_child256. -/
theorem remove_child_partial_length (x : inner_node) (c pos : Nat)
    (h : x.n.partial_bytes.length = MAX_PREFIX_LEN) :
    (remove_child16 x pos).n.partial_bytes.length = MAX_PREFIX_LEN ∧
    (remove_child48 x c).n.partial_bytes.length = MAX_PREFIX_LEN ∧
    (remove_child256 x c).n.partial_bytes.length = MAX_PREFIX_LEN := by
  refine ⟨?_, ?_, ?_⟩
  · rw [remove_child16_eq]
    split
    · exact (copy_header_length _ _).trans (alloc_node_partial_length NODE4)
    · exact h
  · rw [remove_child48_eq]
    split
    · exact (copy_header_length _ _).trans (alloc_node_partial_length NODE16)
    · exact h
  · rw [remove_child256_eq]
    split
    · exact (copy_header_length _ _).trans (alloc_node_partial_length NODE48)
    · exact h

theorem byte_at_drop (l : List Nat) (d i : Nat) : byte_at (l.drop d) i = byte_at l (d + i) := by
  simp [byte_at, List.getD_eq_getElem?_getD, List.getElem?_drop]

theorem add_child_node4 (b : build) (x : inner_node) (c : Nat) (child : art_ref)
    (ht : x.n.type = NODE4) : add_child b x c child = add_child4 b x c child := by
  unfold add_child
  rw [ht]

/-- Two children added to an empty NODE4: the node, its header and its child
map. -/
theorem node4_pair (b : build) (x : inner_node) (c1 c2 : Nat) (r1 r2 : art_ref)
    (ht : x.n.type = NODE4) (hx : flat_ok 4 x) (hn : x.n.num_children = 0)
    (hnull : ∀ c, child_of x c = art_ref.null)
    (hlen : x.n.partial_bytes.length = MAX_PREFIX_LEN)
    (h1 : c1 < 256) (h2 : c2 < 256) (hne : c1 ≠ c2)
    (hr1 : r1.is_null = false) (hr2 : r2.is_null = false) :
    node_ok (add_child4 b (add_child4 b x c1 r1) c2 r2) ∧
    (add_child4 b (add_child4 b x c1 r1) c2 r2).n.type = NODE4 ∧
    populated (add_child4 b (add_child4 b x c1 r1) c2 r2) = 2 ∧
    same_header (add_child4 b (add_child4 b x c1 r1) c2 r2) x ∧
    (add_child4 b (add_child4 b x c1 r1) c2 r2).n.partial_bytes.length = MAX_PREFIX_LEN ∧
    ∀ c, child_of (add_child4 b (add_child4 b x c1 r1) c2 r2) c =
      if c = c2 then r2 else if c = c1 then r1 else art_ref.null := by
  obtain ⟨a1, a2, a3, a4, a5⟩ := add_child4_below b x c1 r1 ht hx (by omega) h1
    (find_child_none_of_child_of _ (node_ok_of_flat4 _ ht hx) _ (hnull _)) hr1
  have habs : find_child (add_child4 b x c1 r1) c2 = none := by
    apply find_child_none_of_child_of _ (node_ok_of_flat4 _ a1 a2)
    rw [a5, if_neg (fun e => hne e.symm), hnull]
  obtain ⟨b1, b2, b3, b4, b5⟩ := add_child4_below b (add_child4 b x c1 r1) c2 r2 a1 a2
    (by omega) h2 habs hr2
  refine ⟨node_ok_of_flat4 _ b1 b2, b1, ?_, same_header_trans _ _ _ b4 a4, ?_, ?_⟩
  · rw [populated_flat _ (Or.inl b1) b2, b3, a3, hn]
  · have e1 := add_child_partial_length b x c1 r1 hlen
    rw [add_child_node4 b x c1 r1 ht] at e1
    have e2 := add_child_partial_length b (add_child4 b x c1 r1) c2 r2 e1
    rw [add_child_node4 b _ c2 r2 a1] at e2
    exact e2
  · intro c
    rw [b5 c]
    by_cases e : c = c2
    · rw [if_pos e, if_pos e]
    · rw [if_neg e, if_neg e, a5 c]
      by_cases e' : c = c1
      · rw [if_pos e', if_pos e']
      · rw [if_neg e', if_neg e', hnull]

/-- The split of a leaf by a key that differs from the leaf's key at an index
both have: the NODE4 holds the two leaves below their common prefix. -/
theorem radix_split_leaf (b : build) (l : art_leaf) (key : List Nat) (value : Option Nat)
    (d : Nat) (hdiff : keys_differ l.key key)
    (hpre : ∀ i < d, byte_at l.key i = byte_at key i)
    (hkb : ∀ i, byte_at key i < 256) (hlb : ∀ i, byte_at l.key i < 256) :
    radix_ok d (split_leaf b l key value d) ∧
    ∀ l', has_leaf (split_leaf b l key value d) l' ↔ (l' = l ∨ l' = make_leaf key value) := by
  obtain ⟨m, h1, h2, hne, heq⟩ := first_difference l.key key d hdiff hpre
  have lcp := longest_common_prefix_eq l (make_leaf key value) d m h1 h2 hne heq
  rw [split_leaf_eq b l key value d m lcp h1 h2]
  obtain ⟨p1, p2, p3, p4, p5, p6, p7, p8⟩ := split_leaf_parent_spec key d m
  obtain ⟨n1, n2, n3, n4, n5, n6⟩ := node4_pair b (split_leaf_parent key d m)
    (byte_at l.key (d + m)) (byte_at key (d + m)) (art_ref.leaf l)
    (art_ref.leaf (make_leaf key value)) p1 p6 p2 p7 p5 (hlb _) (hkb _) hne rfl rfl
  generalize add_child4 b (add_child4 b (split_leaf_parent key d m) (byte_at l.key (d + m))
    (art_ref.leaf l)) (byte_at key (d + m)) (art_ref.leaf (make_leaf key value)) = N
    at n1 n2 n3 n4 n5 n6
  obtain ⟨s1, s2, s3⟩ := n4
  rw [p3] at s1 s3
  have hPi : ∀ i < m, byte_at ((key.drop d).take m) i = byte_at key (d + i) := by
    intro i hi
    rw [byte_at_take, if_pos hi, byte_at_drop]
  have hleaf : ∀ c l', has_leaf (child_of N c) l' →
      (c = byte_at key (d + m) ∧ l' = make_leaf key value) ∨
      (c = byte_at l.key (d + m) ∧ l' = l) := by
    intro c l' hl'
    rw [n6 c] at hl'
    by_cases e : c = byte_at key (d + m)
    · rw [if_pos e] at hl'
      exact Or.inl ⟨e, (has_leaf_leaf _ _).1 hl'⟩
    · rw [if_neg e] at hl'
      by_cases e' : c = byte_at l.key (d + m)
      · rw [if_pos e'] at hl'
        exact Or.inr ⟨e', (has_leaf_leaf _ _).1 hl'⟩
      · rw [if_neg e'] at hl'
        exact absurd hl' (has_leaf_null _)
  refine ⟨radix_ok_mk d N ((key.drop d).take m) n1 (s2.trans p4) n5 ?_ ?_ ?_ ?_ ?_, ?_⟩
  · rw [n2, n3]
    decide
  · rw [s1, List.length_take, List.length_drop]
    omega
  · intro i hi
    rw [s1] at hi
    rw [s3 i hi, p8 i hi, hPi i (by omega)]
  · intro c hc
    rw [s1]
    rw [n6 c] at hc ⊢
    by_cases e : c = byte_at key (d + m)
    · rw [if_pos e]
      exact radix_ok.leaf _ _ (by show d + m + 1 ≤ key.length; omega)
    · rw [if_neg e] at hc ⊢
      by_cases e' : c = byte_at l.key (d + m)
      · rw [if_pos e']
        exact radix_ok.leaf _ _ (by omega)
      · rw [if_neg e'] at hc
        cases hc
  · intro c l' hl'
    rw [s1]
    rcases hleaf c l' hl' with ⟨e1, e2⟩ | ⟨e1, e2⟩
    · rw [e1, e2]
      exact ⟨rfl, fun i hi => (hPi i hi).symm⟩
    · rw [e1, e2]
      exact ⟨rfl, fun i hi => (heq i hi).trans (hPi i hi).symm⟩
  · intro l'
    rw [has_leaf_inner]
    constructor
    · rintro ⟨c, hc⟩
      rcases hleaf c l' hc with ⟨_, e2⟩ | ⟨_, e2⟩
      · exact Or.inr e2
      · exact Or.inl e2
    · rintro (e | e)
      · refine ⟨byte_at l.key (d + m), ?_⟩
        rw [n6, if_neg hne, if_pos rfl, e]
        exact has_leaf.here l
      · refine ⟨byte_at key (d + m), ?_⟩
        rw [n6, if_pos rfl, e]
        exact has_leaf.here _

theorem prefix_cases (key P : List Nat) (d L : Nat) (hd : d ≤ key.length) :
    (d + L ≤ key.length ∧ ∀ i < L, byte_at key (d + i) = byte_at P i) ∨
    (∃ dd, dd < L ∧ (∀ i < dd, byte_at key (d + i) = byte_at P i) ∧ d + dd ≤ key.length ∧
      (d + dd < key.length → byte_at key (d + dd) ≠ byte_at P dd)) := by
  induction L with
  | zero => exact Or.inl ⟨hd, fun i hi => absurd hi (Nat.not_lt_zero i)⟩
  | succ L ih =>
    rcases ih with ⟨h1, h2⟩ | ⟨dd, h1, h2⟩
    · by_cases h : d + L < key.length ∧ byte_at key (d + L) = byte_at P L
      · left
        refine ⟨by omega, ?_⟩
        intro i hi
        by_cases e : i = L
        · rw [e]
          exact h.2
        · exact h2 i (by omega)
      · right
        refine ⟨L, Nat.lt_succ_self L, h2, h1, ?_⟩
        intro hlt hb
        exact h ⟨hlt, hb⟩
    · right
      exact ⟨dd, by omega, h2⟩

theorem first_diff_ge_start (f : Nat → Bool) (cnt i : Nat) : i ≤ first_diff f cnt i := by
  induction cnt generalizing i with
  | zero =>
    rw [first_diff]
  | succ cnt ih =>
    rw [first_diff]
    split
    · exact Nat.le_refl i
    · exact Nat.le_trans (Nat.le_succ i) (ih (i + 1))

theorem first_diff_ge (f : Nat → Bool) (cnt i j : Nat) (h1 : i ≤ j) (h2 : j ≤ i + cnt)
    (h3 : ∀ k, i ≤ k → k < j → f k = false) : j ≤ first_diff f cnt i := by
  induction cnt generalizing i with
  | zero =>
    rw [first_diff]
    omega
  | succ cnt ih =>
    rw [first_diff]
    by_cases e : i = j
    · rw [← e]
      split
      · exact Nat.le_refl i
      · exact Nat.le_trans (Nat.le_succ i) (first_diff_ge_start f cnt (i + 1))
    · rw [h3 i (Nat.le_refl i) (by omega)]
      simp only [Bool.false_eq_true, if_false]
      exact ih (i + 1) (by omega) (by omega) (fun k hk hk' => h3 k (by omega) hk')

/-- When the key continues through the whole compressed prefix of `x`,
prefix_mismatch returns at least `partial_len`. -/
theorem prefix_mismatch_full (x : inner_node) (key : List Nat) (D : Nat) (P : List Nat)
    (hin : ∀ i < min MAX_PREFIX_LEN x.n.partial_len,
      byte_at x.n.partial_bytes i = byte_at P i)
    (hmin : MAX_PREFIX_LEN < x.n.partial_len →
      ∃ l, minimum x.to_ref = some l ∧ D + x.n.partial_len ≤ l.key.length ∧
        ∀ i < x.n.partial_len, byte_at l.key (D + i) = byte_at P i)
    (hlen : D + x.n.partial_len ≤ key.length)
    (hpre : ∀ i < x.n.partial_len, byte_at key (D + i) = byte_at P i) :
    x.n.partial_len ≤ prefix_mismatch x key D := by
  unfold prefix_mismatch
  have hmax : min (min MAX_PREFIX_LEN x.n.partial_len) (key.length - D) =
      min MAX_PREFIX_LEN x.n.partial_len := by
    simp only [MAX_PREFIX_LEN]
    omega
  have hidx : first_diff
      (fun idx => byte_at x.n.partial_bytes idx != byte_at key (D + idx))
      (min MAX_PREFIX_LEN x.n.partial_len) 0 = min MAX_PREFIX_LEN x.n.partial_len := by
    apply first_diff_spec
    · exact Nat.zero_le _
    · omega
    · intro k _ hk
      have : byte_at x.n.partial_bytes k = byte_at key (D + k) := by
        rw [hin k hk, hpre k (lt_of_lt_of_le hk (Nat.min_le_right _ _))]
      simp [this]
    · intro h
      omega
  simp only [hmax, hidx, lt_irrefl, if_false]
  by_cases hL : x.n.partial_len > MAX_PREFIX_LEN
  · rw [if_pos hL]
    obtain ⟨l, hl1, hl2, hl3⟩ := hmin hL
    rw [hl1]
    have hlo : leaf_of (some l) = l := rfl
    rw [hlo]
    apply first_diff_ge
    · exact Nat.min_le_right _ _
    · have : min MAX_PREFIX_LEN x.n.partial_len ≤ x.n.partial_len := Nat.min_le_right _ _
      omega
    · intro k _ hk
      have : byte_at l.key (k + D) = byte_at key (D + k) := by
        rw [Nat.add_comm k D, hl3 k hk, hpre k hk]
      simp [this]
  · rw [if_neg hL]
    simp only [MAX_PREFIX_LEN] at *
    omega

theorem populated_same (y z : inner_node) (h1 : y.n.type = z.n.type)
    (h2 : y.n.num_children = z.n.num_children) (h3 : y.keys = z.keys)
    (h4 : y.children = z.children) : populated y = populated z := by
  unfold populated
  congr 1
  apply filter_range_congr
  intro a _
  rw [find_child_same y z a h1 h2 h3 h4]

theorem has_leaf_same (y z : inner_node) (h1 : y.n.type = z.n.type)
    (h2 : y.n.num_children = z.n.num_children) (h3 : y.keys = z.keys)
    (h4 : y.children = z.children) (l : art_leaf) :
    has_leaf y.to_ref l ↔ has_leaf z.to_ref l := by
  rw [has_leaf_inner, has_leaf_inner]
  constructor
  · rintro ⟨c, hc⟩
    exact ⟨c, by rw [← child_of_same y z c h1 h2 h3 h4]; exact hc⟩
  · rintro ⟨c, hc⟩
    exact ⟨c, by rw [child_of_same y z c h1 h2 h3 h4]; exact hc⟩

/-- A node of a radix tree with another header: with a prefix `Q` that the
leaves continue from depth `e` and that ends where the prefix of `x` ends, the
node `y` with the type, count, keys and children of `x` is a radix tree at
depth `e`. -/
theorem radix_reheader (d e : Nat) (x y : inner_node) (Q : List Nat)
    (h : radix_ok d x.to_ref)
    (h1 : y.n.type = x.n.type) (h2 : y.n.num_children = x.n.num_children)
    (h3 : y.keys = x.keys) (h4 : y.children = x.children) (h5 : y.me = x.me)
    (hlen : y.n.partial_bytes.length = MAX_PREFIX_LEN)
    (hQ : Q.length = y.n.partial_len)
    (hend : e + y.n.partial_len = d + x.n.partial_len)
    (hin : ∀ i < min MAX_PREFIX_LEN y.n.partial_len, byte_at y.n.partial_bytes i = byte_at Q i)
    (hl : ∀ l, has_leaf x.to_ref l → ∀ i < y.n.partial_len,
      byte_at l.key (e + i) = byte_at Q i) :
    radix_ok e y.to_ref := by
  obtain ⟨P, p1, p2, p3, p4, p5, p6, p7, p8⟩ := radix_ok_inner d x h
  refine radix_ok_mk e y Q (node_ok_same y x h1 h2 h3 h4 p1) (h5.trans p2) hlen ?_ hQ hin ?_ ?_
  · rw [h1, populated_same y x h1 h2 h3 h4]
    exact p4
  · intro c hc
    rw [child_of_same y x c h1 h2 h3 h4] at hc ⊢
    rw [hend]
    exact p7 c hc
  · intro c l hcl
    rw [child_of_same y x c h1 h2 h3 h4] at hcl
    rw [hend]
    exact ⟨(p8 c l hcl).1, hl l ((has_leaf_inner x l).2 ⟨c, hcl⟩)⟩

theorem radix_leaf_deep (d : Nat) (x : inner_node) (h : radix_ok d x.to_ref) (l : art_leaf)
    (hl : has_leaf x.to_ref l) : d + x.n.partial_len + 1 ≤ l.key.length := by
  obtain ⟨P, p1, p2, p3, p4, p5, p6, p7, p8⟩ := radix_ok_inner d x h
  obtain ⟨c, hc⟩ := (has_leaf_inner x l).1 hl
  exact radix_leaf_len _ _ (p7 c (has_leaf_not_null _ _ hc)) l hc

theorem radix_hmin (d : Nat) (x : inner_node) (h : radix_ok d x.to_ref) (P : List Nat)
    (hP : ∀ l, has_leaf x.to_ref l → ∀ i < x.n.partial_len,
      byte_at l.key (d + i) = byte_at P i) :
    ∃ l, minimum x.to_ref = some l ∧ d + x.n.partial_len ≤ l.key.length ∧
      ∀ i < x.n.partial_len, byte_at l.key (d + i) = byte_at P i := by
  obtain ⟨l, hl1, hl2⟩ := radix_minimum d _ h
  have := radix_leaf_deep d x h l hl2
  exact ⟨l, hl1, by omega, hP l hl2⟩

/-- The split of an inner node of a radix tree by a key that leaves the
compressed prefix at `dd`, before the key ends: the new NODE4 holds the old
node, with the rest of the prefix, and the new leaf. -/
theorem radix_split_node (b : build) (x : inner_node) (key : List Nat) (value : Option Nat)
    (d dd : Nat) (P : List Nat) (h : radix_ok d x.to_ref)
    (hin : ∀ i < min MAX_PREFIX_LEN x.n.partial_len,
      byte_at x.n.partial_bytes i = byte_at P i)
    (hP : ∀ l, has_leaf x.to_ref l → ∀ i < x.n.partial_len,
      byte_at l.key (d + i) = byte_at P i)
    (hPlen : P.length = x.n.partial_len)
    (hdd : dd < x.n.partial_len)
    (hpre : ∀ i < dd, byte_at key (d + i) = byte_at P i)
    (hlt : d + dd < key.length)
    (hne : byte_at key (d + dd) ≠ byte_at P dd)
    (hkb : ∀ i, byte_at key i < 256) (hlb : ∀ l, has_leaf x.to_ref l → ∀ i, byte_at l.key i < 256) :
    radix_ok d (split_node b x key value d dd) ∧
    ∀ l, has_leaf (split_node b x key value d dd) l ↔
      (has_leaf x.to_ref l ∨ l = make_leaf key value) := by
  obtain ⟨P', p1, p2, p3, p4, p5, p6, p7, p8⟩ := radix_ok_inner d x h
  have hmin := fun (_ : MAX_PREFIX_LEN < x.n.partial_len) => radix_hmin d x h P hP
  obtain ⟨l0, hl0⟩ := radix_exists_leaf _ _ h
  have hPb : byte_at P dd < 256 := by
    rw [← hP l0 hl0 dd hdd]
    exact hlb l0 hl0 _
  obtain ⟨q1, q2, q3, q4, q5, q6, q7⟩ := split_parent_spec x dd
  obtain ⟨s1, s2, s3⟩ := split_child_spec x d dd P hdd p3 hin hmin
  have hqlen : (split_parent x dd).n.partial_bytes.length = MAX_PREFIX_LEN := by
    show (copy_bytes (List.replicate MAX_PREFIX_LEN 0) 0 x.n.partial_bytes 0 _).length = _
    rw [copy_bytes_length, List.length_replicate]
  have hclen : (split_child x d dd).n.partial_bytes.length = MAX_PREFIX_LEN := by
    show (if x.n.partial_len ≤ MAX_PREFIX_LEN then _ else _ : List Nat).length = _
    split <;> rw [copy_bytes_length] <;> exact p3
  have hchild : radix_ok (d + dd + 1) (split_child x d dd).to_ref := by
    apply radix_reheader d (d + dd + 1) x (split_child x d dd) (P.drop (dd + 1)) h
      rfl rfl rfl rfl rfl hclen
    · rw [s2, List.length_drop]
      omega
    · rw [s2]
      omega
    · intro i hi
      rw [s2] at hi
      rw [s3 i hi, byte_at_drop]
    · intro l hl i hi
      rw [s2] at hi
      rw [byte_at_drop, ← hP l hl (dd + 1 + i) (by omega)]
      congr 1
      omega
  rw [split_node_eq, if_pos hlt]
  obtain ⟨n1, n2, n3, n4, n5, n6⟩ := node4_pair b (split_parent x dd)
    (split_byte x d dd) (byte_at key (d + dd)) (split_child x d dd).to_ref
    (art_ref.leaf (make_leaf key value)) q1 q5 q2 q6 hqlen (by rw [s1]; exact hPb) (hkb _)
    (by rw [s1]; exact fun e => hne e.symm) rfl rfl
  generalize add_child4 b (add_child4 b (split_parent x dd) (split_byte x d dd)
    (split_child x d dd).to_ref) (byte_at key (d + dd)) (art_ref.leaf (make_leaf key value)) = N
    at n1 n2 n3 n4 n5 n6
  obtain ⟨t1, t2, t3⟩ := n4
  rw [q3] at t1 t3
  rw [s1] at n6
  have hleaf : ∀ c l, has_leaf (child_of N c) l →
      (c = byte_at key (d + dd) ∧ l = make_leaf key value) ∨
      (c = byte_at P dd ∧ has_leaf x.to_ref l) := by
    intro c l hl
    rw [n6 c] at hl
    by_cases e : c = byte_at key (d + dd)
    · rw [if_pos e] at hl
      exact Or.inl ⟨e, (has_leaf_leaf _ _).1 hl⟩
    · rw [if_neg e] at hl
      by_cases e' : c = byte_at P dd
      · rw [if_pos e'] at hl
        exact Or.inr ⟨e', (has_leaf_same (split_child x d dd) x rfl rfl rfl rfl l).1 hl⟩
      · rw [if_neg e'] at hl
        exact absurd hl (has_leaf_null _)
  refine ⟨radix_ok_mk d N (P.take dd) n1 (t2.trans q4) n5 ?_ ?_ ?_ ?_ ?_, ?_⟩
  · rw [n2, n3]
    decide
  · rw [t1, List.length_take]
    omega
  · intro i hi
    rw [t1] at hi
    rw [t3 i hi, q7 i hi, byte_at_take, if_pos (by omega)]
    apply hin
    simp only [MAX_PREFIX_LEN] at hi ⊢
    omega
  · intro c hc
    rw [t1]
    rw [n6 c] at hc ⊢
    by_cases e : c = byte_at key (d + dd)
    · rw [if_pos e]
      exact radix_ok.leaf _ _ (by show d + dd + 1 ≤ key.length; omega)
    · rw [if_neg e] at hc ⊢
      by_cases e' : c = byte_at P dd
      · rw [if_pos e']
        exact hchild
      · rw [if_neg e'] at hc
        cases hc
  · intro c l hl
    rw [t1]
    rcases hleaf c l hl with ⟨e1, e2⟩ | ⟨e1, e2⟩
    · rw [e1, e2]
      refine ⟨rfl, fun i hi => ?_⟩
      rw [byte_at_take, if_pos hi]
      exact hpre i hi
    · rw [e1]
      refine ⟨hP l e2 dd hdd, fun i hi => ?_⟩
      rw [byte_at_take, if_pos hi]
      exact hP l e2 i (by omega)
  · intro l
    rw [has_leaf_inner]
    constructor
    · rintro ⟨c, hc⟩
      rcases hleaf c l hc with ⟨_, e2⟩ | ⟨_, e2⟩
      · exact Or.inr e2
      · exact Or.inl e2
    · rintro (e | e)
      · refine ⟨byte_at P dd, ?_⟩
        rw [n6, if_neg (fun a => hne a.symm), if_pos rfl]
        exact (has_leaf_same (split_child x d dd) x rfl rfl rfl rfl l).2 e
      · refine ⟨byte_at key (d + dd), ?_⟩
        rw [n6, if_pos rfl, e]
        exact has_leaf.here _

theorem min_children_add (x : inner_node) (hx : node_ok x)
    (h : min_children x.n.type ≤ populated x) :
    min_children (variant_after_add x) ≤ populated x + 1 := by
  unfold variant_after_add
  rcases node_ok_cases x hx with ⟨ht, hf⟩ | ⟨ht, hf⟩ | ⟨ht, hf⟩ | ⟨ht, hf⟩
  · rw [ht] at h ⊢
    dsimp only
    rw [populated_flat x (Or.inl ht) hf] at h ⊢
    split
    · simp only [min_children]
      omega
    · simp only [min_children] at h ⊢
      omega
  · rw [ht] at h ⊢
    dsimp only
    rw [populated_flat x (Or.inr ht) hf] at h ⊢
    split
    · simp only [min_children]
      omega
    · simp only [min_children] at h ⊢
      omega
  · rw [ht] at h ⊢
    dsimp only
    rw [(populated_48 x ht hf).1] at h ⊢
    split
    · simp only [min_children]
      omega
    · simp only [min_children] at h ⊢
      omega
  · rw [ht] at h ⊢
    dsimp only
    omega

/-- A leaf added by add_child to a node of a radix tree, under a byte that has
no child, for a key that continues the prefix of the node. -/
theorem radix_add_leaf (b : build) (x : inner_node) (key : List Nat) (value : Option Nat)
    (d : Nat) (h : radix_ok d x.to_ref)
    (habs : find_child x (byte_at key (d + x.n.partial_len)) = none)
    (hlt : d + x.n.partial_len < key.length)
    (hkb : ∀ i, byte_at key i < 256)
    (hpre : ∀ l, has_leaf x.to_ref l → ∀ i < x.n.partial_len,
      byte_at key (d + i) = byte_at l.key (d + i)) :
    radix_ok d (add_child b x (byte_at key (d + x.n.partial_len))
      (art_ref.leaf (make_leaf key value))).to_ref ∧
    ∀ l, has_leaf (add_child b x (byte_at key (d + x.n.partial_len))
      (art_ref.leaf (make_leaf key value))).to_ref l ↔
      (has_leaf x.to_ref l ∨ l = make_leaf key value) := by
  obtain ⟨P, p1, p2, p3, p4, p5, p6, p7, p8⟩ := radix_ok_inner d x h
  obtain ⟨l0, hl0⟩ := radix_exists_leaf _ _ h
  obtain ⟨c0, hc0⟩ := (has_leaf_inner x l0).1 hl0
  obtain ⟨a1, a2⟩ := add_child_spec b x _ (art_ref.leaf (make_leaf key value)) p1 (hkb _)
    habs rfl
  obtain ⟨_, a3, _⟩ := add_child_count b x _ (art_ref.leaf (make_leaf key value)) p1 (hkb _)
    habs rfl
  obtain ⟨a4, a5, a6, a7⟩ := add_child_header b x (byte_at key (d + x.n.partial_len))
    (art_ref.leaf (make_leaf key value)) p1
  have a8 := add_child_partial_length b x (byte_at key (d + x.n.partial_len))
    (art_ref.leaf (make_leaf key value)) p3
  generalize add_child b x (byte_at key (d + x.n.partial_len))
    (art_ref.leaf (make_leaf key value)) = y at a1 a2 a3 a4 a5 a6 a7 a8
  refine ⟨radix_ok_mk d y P a1 (a6.trans p2) a8 ?_ (by rw [a5]; exact p5) ?_ ?_ ?_, ?_⟩
  · rw [a4, a3]
    exact min_children_add x p1 p4
  · intro i hi
    rw [a5] at hi
    rw [a7 i hi, p6 i hi]
  · intro c hc
    rw [a5]
    rw [a2 c] at hc ⊢
    by_cases e : c = byte_at key (d + x.n.partial_len)
    · rw [if_pos e]
      exact radix_ok.leaf _ _ (by show d + x.n.partial_len + 1 ≤ key.length; omega)
    · rw [if_neg e] at hc ⊢
      exact p7 c hc
  · intro c l hl
    rw [a5]
    rw [a2 c] at hl
    by_cases e : c = byte_at key (d + x.n.partial_len)
    · rw [if_pos e] at hl
      rw [(has_leaf_leaf _ _).1 hl, e]
      refine ⟨rfl, fun i hi => ?_⟩
      show byte_at key (d + i) = _
      rw [hpre l0 hl0 i hi]
      exact (p8 c0 l0 hc0).2 i hi
    · rw [if_neg e] at hl
      exact p8 c l hl
  · intro l
    rw [has_leaf_inner, has_leaf_inner]
    constructor
    · rintro ⟨c, hc⟩
      rw [a2 c] at hc
      by_cases e : c = byte_at key (d + x.n.partial_len)
      · rw [if_pos e] at hc
        exact Or.inr ((has_leaf_leaf _ _).1 hc)
      · rw [if_neg e] at hc
        exact Or.inl ⟨c, hc⟩
    · rintro (⟨c, hc⟩ | e)
      · refine ⟨c, ?_⟩
        rw [a2 c, if_neg]
        · exact hc
        · intro e
          rw [e, child_of_none x _ habs] at hc
          exact has_leaf_null _ hc
      · refine ⟨byte_at key (d + x.n.partial_len), ?_⟩
        rw [a2, if_pos rfl, e]
        exact has_leaf.here _

theorem differ_beyond (a b : List Nat) (e : Nat) (h : keys_differ a b)
    (hpre : ∀ i < e, byte_at a i = byte_at b i) : e < a.length ∧ e < b.length := by
  obtain ⟨j, ja, jb, hj⟩ := h
  have : e ≤ j := by
    by_contra hlt
    exact hj (hpre j (by omega))
  omega

theorem recursive_insert_inner (b : build) (x : inner_node) (key : List Nat)
    (value : Option Nat) (depth : Nat) (replace : Bool) :
    recursive_insert b x.to_ref key value depth replace =
      if x.n.partial_len ≠ 0 ∧ prefix_mismatch x key depth < x.n.partial_len then
        { ref := split_node b x key value depth ( prefix_mismatch x key depth),
          ret := none, old := false }
      else if x.n.partial_len = 0 ∧ depth = key.length then
        update_node_own_leaf x key value replace
      else
        match find_child x (byte_at key (depth + x.n.partial_len)) with
        | some i =>
          { ref := art_ref.inner x.n x.keys
              (recursive_insert_at b x.children i key value
                (depth + x.n.partial_len + 1) replace).1 x.me,
            ret := (recursive_insert_at b x.children i key value
                (depth + x.n.partial_len + 1) replace).2.1,
            old := (recursive_insert_at b x.children i key value
                (depth + x.n.partial_len + 1) replace).2.2 }
        | none =>
          if depth + x.n.partial_len < key.length then
            { ref := (add_child b x (byte_at key (depth + x.n.partial_len))
                       (art_ref.leaf (make_leaf key value))).to_ref,
              ret := none, old := false }
          else
            update_node_own_leaf x key value replace := by
  show recursive_insert b (art_ref.inner x.n x.keys x.children x.me) key value depth replace = _
  rw [recursive_insert]

/-- The function recursive_insert on a radix tree and a key that differs from
every key of the tree at an index both have: the key is new (`*old` stays 0),
the result is a radix tree, and its leaves are those of the tree and the new
leaf. -/
theorem radix_insert (b : build) (key : List Nat) (value : Option Nat) (replace : Bool)
    (hkb : ∀ i, byte_at key i < 256) (d : Nat) (r : art_ref) (h : radix_ok d r) :
    d ≤ key.length →
    (∀ l, has_leaf r l → ∀ i < d, byte_at l.key i = byte_at key i) →
    (∀ l, has_leaf r l → keys_differ l.key key) →
    (∀ l, has_leaf r l → ∀ i, byte_at l.key i < 256) →
    (recursive_insert b r key value d replace).old = false ∧
    radix_ok d (recursive_insert b r key value d replace).ref ∧
    ∀ l, has_leaf (recursive_insert b r key value d replace).ref l ↔
      (has_leaf r l ∨ l = make_leaf key value) := by
  induction h with
  | leaf d l0 hl0 =>
    intro hd hpre hdiff hlb
    have hne : ¬ leaf_matches l0 key d = 0 := by
      intro hm
      obtain ⟨j, _, _, hj⟩ := hdiff l0 (has_leaf.here l0)
      unfold leaf_matches at hm
      by_cases h1 : l0.key.length ≠ key.length
      · rw [if_pos h1] at hm
        cases hm
      · rw [if_neg h1] at hm
        by_cases h2 : l0.key = key
        · exact hj (by rw [h2])
        · rw [if_neg h2] at hm
          cases hm
    rw [recursive_insert, if_neg hne]
    obtain ⟨s1, s2⟩ := radix_split_leaf b l0 key value d (hdiff l0 (has_leaf.here l0))
      (hpre l0 (has_leaf.here l0)) hkb (hlb l0 (has_leaf.here l0))
    refine ⟨rfl, s1, fun l => ?_⟩
    rw [has_leaf_leaf]
    exact s2 l
  | inner d n keys children me P h1 h2 h3 h4 h5 h6 h7 h8 ih =>
    intro hd hpre hdiff hlb
    have hrad : radix_ok d (inner_node.to_ref ⟨n, keys, children, me⟩) :=
      radix_ok.inner d n keys children me P h1 h2 h3 h4 h5 h6 h7 h8
    have hP : ∀ l, has_leaf (inner_node.to_ref ⟨n, keys, children, me⟩) l →
        ∀ i < n.partial_len, byte_at l.key (d + i) = byte_at P i := by
      intro l hl
      obtain ⟨c, hc⟩ := (has_leaf_inner ⟨n, keys, children, me⟩ l).1 hl
      exact (h8 c l hc).2
    obtain ⟨l0, hl0⟩ := radix_exists_leaf _ _ hrad
    have hmin := fun (_ : MAX_PREFIX_LEN < n.partial_len) =>
      radix_hmin d ⟨n, keys, children, me⟩ hrad P hP
    have hri := recursive_insert_inner b ⟨n, keys, children, me⟩ key value d replace
    change recursive_insert b (art_ref.inner n keys children me) key value d replace = _ at hri
    rw [hri]
    dsimp only
    rcases prefix_cases key P d n.partial_len hd with ⟨hfull, hagree⟩ | ⟨dd, hdd, hagree, hend, hdne⟩
    · -- the key runs through the whole prefix
      have hpm := prefix_mismatch_full ⟨n, keys, children, me⟩ key d P h6 hmin hfull hagree
      have hlong := (differ_beyond l0.key key (d + n.partial_len) (hdiff l0 hl0) (by
        intro i hi
        by_cases hid : i < d
        · exact hpre l0 hl0 i hid
        · have e : i = d + (i - d) := by omega
          rw [e, hP l0 hl0 (i - d) (by omega), hagree (i - d) (by omega)])).2
      rw [if_neg (fun a => absurd a.2 (by dsimp only at hpm; omega)),
        if_neg (fun a => by omega)]
      cases hf : find_child ⟨n, keys, children, me⟩ (byte_at key (d + n.partial_len)) with
      | none =>
        dsimp only
        rw [if_pos hlong]
        obtain ⟨s1, s2⟩ := radix_add_leaf b ⟨n, keys, children, me⟩ key value d hrad hf hlong hkb
          (fun l hl i hi => (hagree i hi).trans (hP l hl i hi).symm)
        exact ⟨rfl, s1, s2⟩
      | some i =>
        dsimp only
        obtain ⟨hi, hslot⟩ := find_child_index ⟨n, keys, children, me⟩ h1 _ i hf
        rw [recursive_insert_at_eq b children i key value _ replace hi]
        dsimp only at hslot ⊢
        rw [hslot]
        have hnn := (find_child_some_lt ⟨n, keys, children, me⟩ h1 _ i hf).2
        have hsub : ∀ l, has_leaf (child_of ⟨n, keys, children, me⟩
            (byte_at key (d + n.partial_len))) l →
            has_leaf (inner_node.to_ref ⟨n, keys, children, me⟩) l :=
          fun l hl => (has_leaf_inner ⟨n, keys, children, me⟩ l).2 ⟨_, hl⟩
        obtain ⟨r1, r2, r3⟩ := ih _ hnn (by omega)
          (by
            intro l hl j hj
            by_cases hjd : j < d
            · exact hpre l (hsub l hl) j hjd
            · by_cases hjl : j < d + n.partial_len
              · have e : j = d + (j - d) := by omega
                rw [e, hP l (hsub l hl) (j - d) (by omega), hagree (j - d) (by omega)]
              · have e : j = d + n.partial_len := by omega
                rw [e]
                exact (h8 _ l hl).1)
          (fun l hl => hdiff l (hsub l hl))
          (fun l hl => hlb l (hsub l hl))
        obtain ⟨s1, s2⟩ := radix_set_child d ⟨n, keys, children, me⟩ _ i _ hrad hf r2 (by
          intro l hl
          rcases (r3 l).1 hl with hl' | hl'
          · exact ⟨(h8 _ l hl').1, fun l1 hl1 j hj =>
              ((h8 _ l hl').2 j hj).trans (hP l1 hl1 j hj).symm⟩
          · rw [hl']
            exact ⟨rfl, fun l1 hl1 j hj => (hagree j hj).trans (hP l1 hl1 j hj).symm⟩)
        refine ⟨r1, s1, fun l => (s2 l).trans ?_⟩
        rw [r3 l]
        constructor
        · rintro ((a | a) | ⟨c', _, a⟩)
          · exact Or.inl (hsub l a)
          · exact Or.inr a
          · exact Or.inl ((has_leaf_inner ⟨n, keys, children, me⟩ l).2 ⟨c', a⟩)
        · rintro (a | a)
          · obtain ⟨c', a⟩ := (has_leaf_inner ⟨n, keys, children, me⟩ l).1 a
            by_cases e : c' = byte_at key (d + n.partial_len)
            · rw [e] at a
              exact Or.inl (Or.inl a)
            · exact Or.inr ⟨c', e, a⟩
          · exact Or.inl (Or.inr a)
    · -- the key leaves the prefix at `dd`
      have hlt := (differ_beyond l0.key key (d + dd) (hdiff l0 hl0) (by
        intro i hi
        by_cases hid : i < d
        · exact hpre l0 hl0 i hid
        · have e : i = d + (i - d) := by omega
          rw [e, hP l0 hl0 (i - d) (by omega), hagree (i - d) (by omega)])).2
      have hpm := prefix_mismatch_spec ⟨n, keys, children, me⟩ key d dd P hdd h6 hmin hagree
        hend hdne
      rw [if_pos ⟨by omega, by rw [hpm]; exact hdd⟩, hpm]
      obtain ⟨s1, s2⟩ := radix_split_node b ⟨n, keys, children, me⟩ key value d dd P hrad h6 hP
        h5 hdd hagree hlt (hdne hlt) hkb hlb
      exact ⟨rfl, s1, s2⟩

theorem to_ref_inj (y z : inner_node) (h : y.to_ref = z.to_ref) : y = z := by
  cases y
  cases z
  cases h
  rfl

theorem min_children_remove (x : inner_node) (ht : x.n.type ≠ NODE4)
    (h : min_children x.n.type ≤ populated x) :
    min_children (variant_after_remove x) ≤ populated x - 1 := by
  unfold variant_after_remove
  cases hty : x.n.type
  · exact absurd hty ht
  · rw [hty] at h
    dsimp only
    split <;> simp only [min_children] at h ⊢ <;> omega
  · rw [hty] at h
    dsimp only
    split <;> simp only [min_children] at h ⊢ <;> omega
  · rw [hty] at h
    dsimp only
    split <;> simp only [min_children] at h ⊢ <;> omega

theorem collapse4_length (x : inner_node) (cn cn' : art_node) (ck ck' : List Nat)
    (cc cc' : List art_ref) (cme cme' : Option art_leaf)
    (hchild : slot_at x.children 0 = art_ref.inner cn ck cc cme)
    (h : collapse4 x = art_ref.inner cn' ck' cc' cme') :
    cn'.partial_bytes.length = cn.partial_bytes.length := by
  unfold collapse4 at h
  rw [hchild] at h
  dsimp only at h
  cases h
  show (copy_bytes cn.partial_bytes 0 _ 0 _).length = _
  rw [copy_bytes_length]

theorem collapse4_leaf (x : inner_node) (l : art_leaf)
    (hchild : slot_at x.children 0 = art_ref.leaf l) : collapse4 x = art_ref.leaf l := by
  unfold collapse4
  rw [hchild]

theorem concat_byte (xp zp : List Nat) (L Lz c i : Nat) (hx : xp.length = 10)
    (hi : i < 10) :
    byte_at (xp.take L ++ [c] ++ zp.take Lz) i =
      if i < L then byte_at xp i else if i = L then c
        else if i - (L + 1) < Lz then byte_at zp (i - (L + 1)) else 0 := by
  simp only [byte_at_append, List.length_append, List.length_take, List.length_singleton,
    hx, byte_at_take, byte_at_singleton]
  by_cases a1 : i < L
  · have a2 : i < min L 10 + 1 := by omega
    have a3 : i < min L 10 := by omega
    simp only [a1, a2, a3, if_true]
  · have hm : min L 10 = L := by omega
    rw [hm]
    by_cases a2 : i = L
    · subst a2
      simp
    · have a3 : ¬ i < L + 1 := by omega
      simp only [a1, a2, a3, if_false]

/-- The branch of remove_child4 that replaces a NODE4 left with one child by
that child: in a radix tree the result is a radix tree at the depth of the
node, with the leaves of the child. -/
theorem radix_collapse (d : Nat) (x : inner_node) (P : List Nat)
    (hplen : x.n.partial_bytes.length = MAX_PREFIX_LEN)
    (hPlen : P.length = x.n.partial_len)
    (hin : ∀ i < min MAX_PREFIX_LEN x.n.partial_len, byte_at x.n.partial_bytes i = byte_at P i)
    (hkid : radix_ok (d + x.n.partial_len + 1) (slot_at x.children 0))
    (hleaves : ∀ l, has_leaf (slot_at x.children 0) l →
      byte_at l.key (d + x.n.partial_len) = byte_at x.keys 0 ∧
      ∀ i < x.n.partial_len, byte_at l.key (d + i) = byte_at P i) :
    radix_ok d (collapse4 x) ∧
    ∀ l, has_leaf (collapse4 x) l ↔ has_leaf (slot_at x.children 0) l := by
  cases hs : slot_at x.children 0 with
  | null =>
    rw [hs] at hkid
    cases hkid
  | leaf l1 =>
    rw [collapse4_leaf x l1 hs]
    rw [hs] at hkid
    have := radix_leaf_len _ _ hkid l1 (has_leaf.here l1)
    exact ⟨radix_ok.leaf d l1 (by omega), fun l => Iff.rfl⟩
  | inner cn ck cc cme =>
    rw [hs] at hkid hleaves
    have hz : radix_ok (d + x.n.partial_len + 1) (inner_node.to_ref ⟨cn, ck, cc, cme⟩) := hkid
    obtain ⟨Pz, z1, z2, z3, z4, z5, z6, z7, z8⟩ := radix_ok_inner _ ⟨cn, ck, cc, cme⟩ hz
    dsimp only at z3 z5 z6 z8
    obtain ⟨cn', e, c1, c2, c3, c4⟩ := collapse4_spec x cn ck cc cme hplen z3 hs
    have hlen := collapse4_length x cn cn' ck ck cc cc cme cme hs e
    rw [e]
    have hy : radix_ok d (inner_node.to_ref ⟨cn', ck, cc, cme⟩) := by
      apply radix_reheader (d + x.n.partial_len + 1) d ⟨cn, ck, cc, cme⟩ ⟨cn', ck, cc, cme⟩
        (P ++ [byte_at x.keys 0] ++ Pz) hz c1 c2 rfl rfl rfl (hlen.trans z3)
      · show _ = cn'.partial_len
        rw [c3]
        simp only [List.length_append, List.length_singleton, hPlen, z5]
        omega
      · show d + cn'.partial_len = d + x.n.partial_len + 1 + cn.partial_len
        rw [c3]
        omega
      · intro i hi
        dsimp only at hi ⊢
        rw [c4 i hi]
        rw [c3] at hi
        have hi10 : i < 10 := lt_of_lt_of_le hi (Nat.min_le_left _ _)
        have hi2 : i < cn.partial_len + x.n.partial_len + 1 :=
          lt_of_lt_of_le hi (Nat.min_le_right _ _)
        rw [concat_byte _ _ _ _ _ i hplen hi10]
        simp only [byte_at_append, List.length_append, List.length_singleton, hPlen,
          byte_at_singleton]
        by_cases a1 : i < x.n.partial_len
        · rw [if_pos a1, if_pos (by omega), if_pos a1]
          apply hin
          simp only [MAX_PREFIX_LEN]
          omega
        · rw [if_neg a1]
          by_cases a2 : i = x.n.partial_len
          · rw [if_pos a2, if_pos (by omega), if_neg a1, if_pos (by omega)]
          · rw [if_neg a2, if_pos (by omega), if_neg (by omega)]
            exact z6 (i - (x.n.partial_len + 1)) (by simp only [MAX_PREFIX_LEN]; omega)
      · intro l hl i hi
        dsimp only at hi ⊢
        rw [c3] at hi
        obtain ⟨cz, hcz⟩ := (has_leaf_inner ⟨cn, ck, cc, cme⟩ l).1 hl
        simp only [byte_at_append, List.length_append, List.length_singleton, hPlen]
        by_cases a1 : i < x.n.partial_len
        · rw [if_pos (by omega), if_pos a1]
          exact (hleaves l hl).2 i a1
        · by_cases a2 : i = x.n.partial_len
          · rw [if_pos (by omega), if_neg (by omega), byte_at_singleton, if_pos (by omega), a2]
            exact (hleaves l hl).1
          · rw [if_neg (by omega)]
            have := (z8 cz l hcz).2 (i - (x.n.partial_len + 1)) (by omega)
            rw [← this]
            congr 1
            omega
    exact ⟨hy, fun l => has_leaf_same ⟨cn', ck, cc, cme⟩ ⟨cn, ck, cc, cme⟩ c1 c2 rfl rfl l⟩

theorem remove_child_length (x : inner_node) (c pos : Nat) (y : inner_node)
    (ht : x.n.type ≠ NODE4) (h : x.n.partial_bytes.length = MAX_PREFIX_LEN)
    (hy : remove_child x c pos = y.to_ref) :
    y.n.partial_bytes.length = MAX_PREFIX_LEN := by
  obtain ⟨r1, r2, r3⟩ := remove_child_partial_length x c pos h
  unfold remove_child at hy
  cases hty : x.n.type
  · exact absurd hty ht
  · rw [hty] at hy
    rw [← to_ref_inj _ _ hy]
    exact r1
  · rw [hty] at hy
    rw [← to_ref_inj _ _ hy]
    exact r2
  · rw [hty] at hy
    rw [← to_ref_inj _ _ hy]
    exact r3

/-- The function remove_child on a node of a radix tree, for a child that is a
leaf: the value left in `*ref` is a radix tree at the depth of the node, with
the leaves of the other children. -/
theorem radix_remove_leaf (d : Nat) (x : inner_node) (c i : Nat) (l0 : art_leaf)
    (h : radix_ok d x.to_ref) (hf : find_child x c = some i)
    (hleaf : child_of x c = art_ref.leaf l0) :
    radix_ok d (remove_child x c i) ∧
    ∀ l, has_leaf (remove_child x c i) l ↔ (has_leaf x.to_ref l ∧ l ≠ l0) := by
  obtain ⟨P, p1, p2, p3, p4, p5, p6, p7, p8⟩ := radix_ok_inner d x h
  have hother : ∀ l, (∃ c', c' ≠ c ∧ has_leaf (child_of x c') l) ↔
      (has_leaf x.to_ref l ∧ l ≠ l0) := by
    intro l
    constructor
    · rintro ⟨c', hne, hl⟩
      refine ⟨(has_leaf_inner x l).2 ⟨c', hl⟩, ?_⟩
      intro e
      have a := (p8 c' l hl).1
      have b := (p8 c l0 (by rw [hleaf]; exact has_leaf.here l0)).1
      rw [e, b] at a
      exact hne a.symm
    · rintro ⟨hl, hne⟩
      obtain ⟨c', hc'⟩ := (has_leaf_inner x l).1 hl
      refine ⟨c', ?_, hc'⟩
      intro e
      rw [e, hleaf] at hc'
      exact hne ((has_leaf_leaf _ _).1 hc')
  by_cases ht : x.n.type = NODE4
  · have hflat : flat_ok 4 x := by
      unfold node_ok at p1
      rw [ht] at p1
      exact p1
    obtain ⟨hi, hk⟩ := find_child_flat_some (Or.inl ht) hf
    have e : remove_child x c i = remove_child4 x i := by
      unfold remove_child
      rw [ht]
    rw [e, remove_child4_eq x i hi]
    have f1 := flat_remove_ok 4 x i hflat (by omega) hi
    have f2 := flat_remove_num 4 x i hflat (by omega) hi
    have f3 := flat_remove_child_of 4 x i (Or.inl ht) hflat (by omega) hi
    rw [hk] at f3
    have f4 : (flat_remove x i).n.type = NODE4 := ht
    have hpop : populated x = x.n.num_children := populated_flat x (Or.inl ht) hflat
    by_cases h1 : (flat_remove x i).n.num_children = 1
    · rw [if_pos h1]
      have hs : slot_at (flat_remove x i).children 0 =
          child_of (flat_remove x i) (byte_at (flat_remove x i).keys 0) :=
        (child_of_flat_at (Or.inl f4) f1 (by omega)).symm
      have hnn : (slot_at (flat_remove x i).children 0).is_null = false :=
        (f1.2.2.2.1 0 (by omega)).2
      have hc1 : byte_at (flat_remove x i).keys 0 ≠ c := by
        intro e1
        rw [hs, f3, if_pos e1] at hnn
        cases hnn
      have hs' : slot_at (flat_remove x i).children 0 =
          child_of x (byte_at (flat_remove x i).keys 0) := by
        rw [hs, f3, if_neg hc1]
      obtain ⟨s1, s2⟩ := radix_collapse d (flat_remove x i) P p3 p5 p6
        (by rw [hs']; exact p7 _ (by rw [← hs']; exact hnn))
        (by
          intro l hl
          rw [hs'] at hl
          exact p8 _ l hl)
      refine ⟨s1, fun l => (s2 l).trans (Iff.trans ?_ (hother l))⟩
      rw [hs']
      constructor
      · intro hl
        exact ⟨_, hc1, hl⟩
      · rintro ⟨c', hne, hl⟩
        have hnn' : (child_of (flat_remove x i) c').is_null = false := by
          rw [f3, if_neg hne]
          exact has_leaf_not_null _ _ hl
        have hsome : (find_child (flat_remove x i) c').isSome = true := by
          rw [isSome_eq_child_of _ (node_ok_of_flat4 _ f4 f1), hnn']
          rfl
        obtain ⟨j, hj⟩ := Option.isSome_iff_exists.1 hsome
        obtain ⟨hj1, hj2⟩ := find_child_flat_some (Or.inl f4) hj
        have : j = 0 := by omega
        rw [this] at hj2
        rw [hj2]
        exact hl
    · rw [if_neg h1]
      have hnum : 2 ≤ (flat_remove x i).n.num_children := by
        have : min_children x.n.type = 2 := by rw [ht]; rfl
        omega
      refine ⟨radix_ok_mk d (flat_remove x i) P (node_ok_of_flat4 _ f4 f1) p2 p3 ?_ p5 p6 ?_ ?_,
        fun l => Iff.trans ?_ (hother l)⟩
      · rw [populated_flat _ (Or.inl f4) f1, f4]
        exact hnum
      · intro c' hc'
        rw [f3] at hc' ⊢
        by_cases e1 : c' = c
        · rw [if_pos e1] at hc'
          cases hc'
        · rw [if_neg e1] at hc' ⊢
          exact p7 c' hc'
      · intro c' l hl
        rw [f3] at hl
        by_cases e1 : c' = c
        · rw [if_pos e1] at hl
          exact absurd hl (has_leaf_null _)
        · rw [if_neg e1] at hl
          exact p8 c' l hl
      · rw [has_leaf_inner]
        constructor
        · rintro ⟨c', hl⟩
          rw [f3] at hl
          by_cases e1 : c' = c
          · rw [if_pos e1] at hl
            exact absurd hl (has_leaf_null _)
          · rw [if_neg e1] at hl
            exact ⟨c', e1, hl⟩
        · rintro ⟨c', hne, hl⟩
          exact ⟨c', by rw [f3, if_neg hne]; exact hl⟩
  · obtain ⟨y, y1, y2, y3, y4, _, y6, ⟨y7, y8, y9⟩, _, _⟩ := remove_child_shape x c i p1 ht hf
    have ylen := remove_child_length x c i y ht p3 y1
    rw [y1]
    refine ⟨radix_ok_mk d y P y2 (y8.trans p2) ylen ?_ (by rw [y7]; exact p5) ?_ ?_ ?_,
      fun l => Iff.trans ?_ (hother l)⟩
    · rw [y6]
      have := min_children_remove x ht p4
      omega
    · intro j hj
      rw [y7] at hj
      rw [y9 j hj, p6 j hj]
    · intro c' hc'
      rw [y7]
      rw [y3] at hc' ⊢
      by_cases e1 : c' = c
      · rw [if_pos e1] at hc'
        cases hc'
      · rw [if_neg e1] at hc' ⊢
        exact p7 c' hc'
    · intro c' l hl
      rw [y7]
      rw [y3] at hl
      by_cases e1 : c' = c
      · rw [if_pos e1] at hl
        exact absurd hl (has_leaf_null _)
      · rw [if_neg e1] at hl
        exact p8 c' l hl
    · rw [has_leaf_inner]
      constructor
      · rintro ⟨c', hl⟩
        rw [y3] at hl
        by_cases e1 : c' = c
        · rw [if_pos e1] at hl
          exact absurd hl (has_leaf_null _)
        · rw [if_neg e1] at hl
          exact ⟨c', e1, hl⟩
      · rintro ⟨c', hne, hl⟩
        exact ⟨c', by rw [y3, if_neg hne]; exact hl⟩

theorem recursive_delete_inner (x : inner_node) (key : List Nat) (depth : Nat) :
    recursive_delete x.to_ref key depth =
      if x.n.partial_len ≠ 0 ∧
          check_prefix x.n key depth ≠ min MAX_PREFIX_LEN x.n.partial_len then
        (x.to_ref, none)
      else if depth + x.n.partial_len = key.length then
        match node_get_own_leaf x with
        | some l => ((node_set_own_leaf x none).to_ref, some l)
        | none => (x.to_ref, none)
      else
        match find_child x (byte_at key (depth + x.n.partial_len)) with
        | none => (x.to_ref, none)
        | some i =>
          match slot_at x.children i with
          | art_ref.leaf l =>
            if leaf_matches l key (depth + x.n.partial_len) = 0 then
              (remove_child x (byte_at key (depth + x.n.partial_len)) i, some l)
            else (x.to_ref, none)
          | _ =>
            (art_ref.inner x.n x.keys
               (recursive_delete_at x.children i key (depth + x.n.partial_len + 1)).1 x.me,
             (recursive_delete_at x.children i key (depth + x.n.partial_len + 1)).2) := by
  show recursive_delete (art_ref.inner x.n x.keys x.children x.me) key depth = _
  rw [recursive_delete]
  rfl

theorem leaf_matches_self (l : art_leaf) (d : Nat) : leaf_matches l l.key d = 0 := by
  simp [leaf_matches]

/-- The function recursive_delete on a radix tree and the key of one of its
leaves: that leaf is returned, and what is left in `*ref` is `NULL` when the
tree was that leaf, and otherwise a radix tree with the other leaves. -/
theorem radix_delete (d : Nat) (r : art_ref) (h : radix_ok d r) :
    ∀ l0, has_leaf r l0 →
      (recursive_delete r l0.key d).2 = some l0 ∧
      ((r = art_ref.leaf l0 ∧ (recursive_delete r l0.key d).1 = art_ref.null) ∨
       (radix_ok d (recursive_delete r l0.key d).1 ∧
        ∀ l, has_leaf (recursive_delete r l0.key d).1 l ↔ (has_leaf r l ∧ l ≠ l0))) := by
  induction h with
  | leaf d l1 hl1 =>
    intro l0 hl0
    rw [(has_leaf_leaf l1 l0).1 hl0, recursive_delete, if_pos (leaf_matches_self l1 d)]
    exact ⟨rfl, Or.inl ⟨rfl, rfl⟩⟩
  | inner d n keys children me P h1 h2 h3 h4 h5 h6 h7 h8 ih =>
    intro l0 hl0
    have hrad : radix_ok d (inner_node.to_ref ⟨n, keys, children, me⟩) :=
      radix_ok.inner d n keys children me P h1 h2 h3 h4 h5 h6 h7 h8
    obtain ⟨c, hc⟩ := (has_leaf_inner ⟨n, keys, children, me⟩ l0).1 hl0
    have hnn := has_leaf_not_null _ _ hc
    have hlen := radix_leaf_len _ _ (h7 c hnn) l0 hc
    obtain ⟨hb, hP⟩ := h8 c l0 hc
    have hcp : check_prefix n l0.key d = min MAX_PREFIX_LEN n.partial_len := by
      apply check_prefix_full
      · simp only [MAX_PREFIX_LEN] at *
        omega
      · intro i hi
        rw [h6 i hi, hP i (by omega)]
    have hrd := recursive_delete_inner ⟨n, keys, children, me⟩ l0.key d
    change recursive_delete (art_ref.inner n keys children me) l0.key d = _ at hrd
    rw [hrd]
    dsimp only
    rw [if_neg (fun a => a.2 hcp), if_neg (by omega), hb]
    have hother : ∀ c' l, c' ≠ c → has_leaf (child_of ⟨n, keys, children, me⟩ c') l → l ≠ l0 := by
      intro c' l hne hl e
      have a := (h8 c' l hl).1
      rw [e, hb] at a
      exact hne a.symm
    cases hf : find_child ⟨n, keys, children, me⟩ c with
    | none =>
      rw [child_of_none _ _ hf] at hc
      exact absurd hc (has_leaf_null _)
    | some i =>
      dsimp only
      obtain ⟨hi, hslot⟩ := find_child_index ⟨n, keys, children, me⟩ h1 c i hf
      dsimp only at hslot hi
      cases hs : child_of ⟨n, keys, children, me⟩ c with
      | null =>
        rw [hs] at hc
        exact absurd hc (has_leaf_null _)
      | leaf l1 =>
        rw [hslot, hs]
        dsimp only
        have e : l1 = l0 := by
          rw [hs] at hc
          exact ((has_leaf_leaf _ _).1 hc).symm
        rw [e, if_pos (leaf_matches_self l0 _)]
        rw [e] at hs
        obtain ⟨s1, s2⟩ := radix_remove_leaf d ⟨n, keys, children, me⟩ c i l0 hrad hf hs
        exact ⟨rfl, Or.inr ⟨s1, s2⟩⟩
      | inner cn ck cc cme =>
        rw [hslot, hs]
        dsimp only
        rw [recursive_delete_at_eq children i l0.key _ hi, hslot]
        dsimp only
        obtain ⟨r1, r2⟩ := ih c hnn l0 hc
        rcases r2 with ⟨r2, _⟩ | ⟨r2, r3⟩
        · rw [hs] at r2
          cases r2
        · obtain ⟨s1, s2⟩ := radix_set_child d ⟨n, keys, children, me⟩ c i _ hrad hf r2 (by
            intro l hl
            have hl' := ((r3 l).1 hl).1
            exact ⟨(h8 c l hl').1, fun l1 hl1 j hj => ((h8 c l hl').2 j hj).trans (by
              obtain ⟨c1, hc1⟩ := (has_leaf_inner ⟨n, keys, children, me⟩ l1).1 hl1
              exact ((h8 c1 l1 hc1).2 j hj).symm)⟩)
          refine ⟨r1, Or.inr ⟨s1, fun l => (s2 l).trans ?_⟩⟩
          rw [r3 l]
          constructor
          · rintro (⟨a, b⟩ | ⟨c', hne, a⟩)
            · exact ⟨(has_leaf_inner ⟨n, keys, children, me⟩ l).2 ⟨c, a⟩, b⟩
            · exact ⟨(has_leaf_inner ⟨n, keys, children, me⟩ l).2 ⟨c', a⟩, hother c' l hne a⟩
          · rintro ⟨a, b⟩
            obtain ⟨c', a⟩ := (has_leaf_inner ⟨n, keys, children, me⟩ l).1 a
            by_cases e : c' = c
            · rw [e] at a
              exact Or.inl ⟨a, b⟩
            · exact Or.inr ⟨c', e, a⟩

theorem keys_differ_symm (a b : List Nat) (h : keys_differ a b) : keys_differ b a := by
  obtain ⟨j, h1, h2, h3⟩ := h
  exact ⟨j, h2, h1, fun e => h3 e.symm⟩

theorem byte_at_eq_getElem (a : List Nat) (j : Nat) (h : j < a.length) : byte_at a j = a[j] := by
  simp [byte_at, List.getD_eq_getElem?_getD, List.getElem?_eq_getElem h]

theorem prefix_of_agree (a b : List Nat) (hlen : a.length ≤ b.length)
    (h : ∀ j, j < a.length → byte_at a j = byte_at b j) : a <+: b := by
  rw [List.prefix_iff_eq_take]
  apply List.ext_getElem
  · rw [List.length_take]
    omega
  · intro j h1 h2
    rw [List.getElem_take]
    have := h j h1
    rw [byte_at_eq_getElem a j h1, byte_at_eq_getElem b j (by omega)] at this
    exact this

/-- Two keys neither of which is a prefix of the other differ at an index that
both have. -/
theorem keys_differ_of_neither_prefixes (a b : List Nat) (h1 : ¬ a <+: b) (h2 : ¬ b <+: a) :
    keys_differ a b := by
  by_contra hn
  have hall : ∀ j, j < a.length → j < b.length → byte_at a j = byte_at b j := by
    intro j ja jb
    by_contra hne
    exact hn ⟨j, ja, jb, hne⟩
  by_cases hle : a.length ≤ b.length
  · exact h1 (prefix_of_agree a b hle (fun j hj => hall j hj (by omega)))
  · exact h2 (prefix_of_agree b a (by omega) (fun j hj => (hall j (by omega) hj).symm))

theorem byte_at_lt_of_mem (a : List Nat) (h : ∀ c ∈ a, c < 256) (i : Nat) : byte_at a i < 256 := by
  by_cases hi : i < a.length
  · rw [byte_at_eq_getElem a i hi]
    exact h _ (List.getElem_mem _)
  · rw [byte_at_beyond a i (by omega)]
    omega

theorem tree_holds_init : tree_holds art_tree_init [] := by
  refine ⟨rfl, Or.inl rfl, fun l => ?_⟩
  constructor
  · intro h
    exact absurd h (has_leaf_null l)
  · intro h
    cases h

/-- One `art_insert` of a key that differs from every key of the tree at an
index both have. -/
theorem tree_holds_insert (b : build) (t : art_tree) (m : List (List Nat × Option Nat))
    (key : List Nat) (value : Option Nat) (h : tree_holds t m)
    (hkb : ∀ i, byte_at key i < 256)
    (hmb : ∀ kv ∈ m, ∀ i, byte_at kv.1 i < 256)
    (hdiff : ∀ kv ∈ m, keys_differ kv.1 key) :
    tree_holds (art_insert b t key value).1 ((key, value) :: m) := by
  obtain ⟨h1, h2, h3⟩ := h
  unfold art_insert
  dsimp only
  rcases h2 with h2 | h2
  · rw [h2, recursive_insert]
    dsimp only
    have hm : m = [] := by
      cases m with
      | nil => rfl
      | cons kv m =>
        have := (h3 ⟨kv.2, kv.1⟩).2 (List.mem_cons_self _ _)
        rw [h2] at this
        exact absurd this (has_leaf_null _)
    rw [hm] at h1 ⊢
    refine ⟨by simp [h1], Or.inr (radix_ok.leaf 0 _ (Nat.zero_le _)), fun l => ?_⟩
    rw [has_leaf_leaf]
    constructor
    · intro e
      rw [e]
      exact List.mem_cons_self _ _
    · intro e
      rw [List.mem_singleton] at e
      cases l
      cases e
      rfl
  · obtain ⟨r1, r2, r3⟩ := radix_insert b key value true hkb 0 t.root h2 (Nat.zero_le _)
      (fun l _ i hi => absurd hi (Nat.not_lt_zero i))
      (fun l hl => hdiff _ ((h3 l).1 hl))
      (fun l hl => hmb _ ((h3 l).1 hl))
    refine ⟨?_, Or.inr r2, fun l => ?_⟩
    · rw [r1]
      simp [h1]
    · show has_leaf (recursive_insert b t.root key value 0 true).ref l ↔ _
      rw [r3 l, h3 l, List.mem_cons]
      constructor
      · rintro (a | a)
        · exact Or.inr a
        · rw [a]
          exact Or.inl rfl
      · rintro (a | a)
        · right
          cases l
          cases a
          rfl
        · exact Or.inl a

/-- One `art_delete` of a key of the tree. -/
theorem tree_holds_delete (t : art_tree) (m : List (List Nat × Option Nat))
    (key : List Nat) (value : Option Nat) (h : tree_holds t m)
    (hnd : (m.map Prod.fst).Nodup) (hmem : (key, value) ∈ m) :
    tree_holds (art_delete t key).1 (m.erase (key, value)) := by
  obtain ⟨h1, h2, h3⟩ := h
  have hm : m.Nodup := List.Nodup.of_map _ hnd
  have hl0 : has_leaf t.root ⟨value, key⟩ := (h3 ⟨value, key⟩).2 hmem
  have hrad : radix_ok 0 t.root := by
    rcases h2 with h2 | h2
    · rw [h2] at hl0
      exact absurd hl0 (has_leaf_null _)
    · exact h2
  obtain ⟨r1, r2⟩ := radix_delete 0 t.root hrad ⟨value, key⟩ hl0
  dsimp only at r1 r2
  have hsz : (art_delete t key).1.size = t.size - 1 ∧
      (art_delete t key).1.root = (recursive_delete t.root key 0).1 := by
    unfold art_delete
    cases hr : recursive_delete t.root key 0 with
    | mk a b =>
      rw [hr] at r1
      dsimp only at r1
      rw [r1]
      exact ⟨rfl, rfl⟩
  have hiff : ∀ l : art_leaf, (l.key, l.value) ∈ m.erase (key, value) ↔
      ((l.key, l.value) ∈ m ∧ l ≠ ⟨value, key⟩) := by
    intro l
    rw [List.Nodup.mem_erase_iff hm]
    constructor
    · rintro ⟨a, b⟩
      refine ⟨b, fun e => a ?_⟩
      rw [e]
    · rintro ⟨a, b⟩
      refine ⟨fun e => b ?_, a⟩
      cases l
      cases e
      rfl
  refine ⟨?_, ?_, ?_⟩
  · rw [hsz.1, h1, List.length_erase_of_mem hmem]
  · rw [hsz.2]
    rcases r2 with ⟨_, r2⟩ | ⟨r2, _⟩
    · exact Or.inl r2
    · exact Or.inr r2
  · intro l
    rw [hsz.2, hiff l]
    rcases r2 with ⟨r2, r3⟩ | ⟨_, r3⟩
    · rw [r3]
      constructor
      · intro a
        exact absurd a (has_leaf_null _)
      · rintro ⟨a, b⟩
        have := (h3 l).2 a
        rw [r2] at this
        exact absurd ((has_leaf_leaf _ _).1 this) b
    · rw [r3 l, h3 l]

theorem insert_fold_holds (b : build) :
    ∀ (ins : List (List Nat × Option Nat)) (t : art_tree) (m : List (List Nat × Option Nat)),
      tree_holds t m →
      ins.Pairwise (fun a c => keys_differ a.1 c.1) →
      (∀ a ∈ ins, ∀ kv ∈ m, keys_differ kv.1 a.1) →
      (∀ a ∈ ins, ∀ i, byte_at a.1 i < 256) →
      (∀ kv ∈ m, ∀ i, byte_at kv.1 i < 256) →
      tree_holds (ins.foldl (fun t kv => (art_insert b t kv.1 kv.2).1) t) (ins.reverse ++ m) := by
  intro ins
  induction ins with
  | nil =>
    intro t m h _ _ _ _
    exact h
  | cons a ins ih =>
    intro t m h hp hd hb hmb
    rw [List.foldl_cons, List.reverse_cons, List.append_assoc]
    rw [List.pairwise_cons] at hp
    apply ih _ (a :: m) (tree_holds_insert b t m a.1 a.2 h (hb a (List.mem_cons_self _ _)) hmb
      (hd a (List.mem_cons_self _ _))) hp.2
    · intro c hc kv hkv
      rcases List.mem_cons.1 hkv with e | e
      · rw [e]
        exact hp.1 c hc
      · exact hd c (List.mem_cons_of_mem _ hc) kv e
    · intro c hc
      exact hb c (List.mem_cons_of_mem _ hc)
    · intro kv hkv
      rcases List.mem_cons.1 hkv with e | e
      · rw [e]
        exact hb a (List.mem_cons_self _ _)
      · exact hmb kv e

theorem delete_fold_holds :
    ∀ (del : List (List Nat)) (t : art_tree) (m : List (List Nat × Option Nat)),
      tree_holds t m → (m.map Prod.fst).Nodup → del.Nodup →
      (∀ k ∈ del, k ∈ m.map Prod.fst) →
      ∃ m', tree_holds (del.foldl (fun t k => (art_delete t k).1) t) m' ∧
        m'.length + del.length = m.length ∧
        ∀ kv, kv ∈ m' ↔ (kv ∈ m ∧ kv.1 ∉ del) := by
  intro del
  induction del with
  | nil =>
    intro t m h _ _ _
    exact ⟨m, h, rfl, fun kv => ⟨fun a => ⟨a, List.not_mem_nil _⟩, fun a => a.1⟩⟩
  | cons k del ih =>
    intro t m h hnd hdel hsub
    rw [List.foldl_cons]
    rw [List.nodup_cons] at hdel
    obtain ⟨⟨k', v⟩, hkv, hk⟩ := List.mem_map.1 (hsub k (List.mem_cons_self _ _))
    dsimp only at hk
    rw [hk] at hkv
    have hinj : ∀ kv ∈ m, kv.1 = k → kv = (k, v) := by
      intro kv hm e
      exact List.inj_on_of_nodup_map hnd hm hkv e
    have h1 := tree_holds_delete t m k v h hnd hkv
    have hnd1 : ((m.erase (k, v)).map Prod.fst).Nodup :=
      List.Nodup.sublist ((List.erase_sublist _ _).map _) hnd
    have hsub1 : ∀ k1 ∈ del, k1 ∈ (m.erase (k, v)).map Prod.fst := by
      intro k1 hk1
      obtain ⟨kv1, hm1, e1⟩ := List.mem_map.1 (hsub k1 (List.mem_cons_of_mem _ hk1))
      refine List.mem_map.2 ⟨kv1, ?_, e1⟩
      apply (List.mem_erase_of_ne _).2 hm1
      intro e
      rw [e] at e1
      dsimp only at e1
      rw [← e1] at hk1
      exact hdel.1 hk1
    obtain ⟨m', a1, a2, a3⟩ := ih _ _ h1 hnd1 hdel.2 hsub1
    refine ⟨m', a1, ?_, fun kv => ?_⟩
    · rw [List.length_erase_of_mem hkv] at a2
      have : 0 < m.length := List.length_pos_of_mem hkv
      rw [List.length_cons]
      omega
    · rw [a3 kv, List.Nodup.mem_erase_iff (List.Nodup.of_map _ hnd), List.mem_cons, not_or]
      constructor
      · rintro ⟨⟨b1, b2⟩, b3⟩
        exact ⟨b2, fun e => b1 (hinj kv b2 e), b3⟩
      · rintro ⟨b1, b2, b3⟩
        refine ⟨⟨fun e => b2 ?_, b1⟩, b3⟩
        rw [e]

/-! ## Trees reached by any calls with keys none of which is a proper prefix of another -/

theorem has_inner_not_null (r : art_ref) (x : inner_node) (h : has_inner r x) :
    r.is_null = false := by
  cases h <;> rfl

/-- Every inner node of a radix tree is well formed for its type. -/
theorem radix_inner_ok (d : Nat) (r : art_ref) (h : radix_ok d r) :
    ∀ x, has_inner r x → node_ok x := by
  induction h with
  | leaf d l hl =>
    intro x hx
    cases hx
  | inner d n keys children me P h1 h2 h3 h4 h5 h6 h7 h8 ih =>
    intro x hx
    cases hx with
    | here => exact h1
    | under _ _ _ _ c y hy => exact ih c (has_inner_not_null _ _ hy) x hy

theorem list_set_slot (cs : List art_ref) (i : Nat) : cs.set i (slot_at cs i) = cs := by
  induction cs generalizing i with
  | nil => rfl
  | cons c cs ih =>
    cases i with
    | zero => rfl
    | succ i =>
      show c :: cs.set i (slot_at cs i) = c :: cs
      rw [ih i]

theorem leaf_matches_ne (l : art_leaf) (key : List Nat) (d : Nat) (h : l.key ≠ key) :
    ¬ leaf_matches l key d = 0 := by
  unfold leaf_matches
  by_cases h1 : l.key.length ≠ key.length
  · rw [if_pos h1]
    decide
  · rw [if_neg h1, if_neg h]
    decide

/-- The function recursive_delete on a radix tree and a key that no leaf of the
tree has: nothing is returned and `*ref` is left as it was. -/
theorem radix_delete_absent (key : List Nat) (d : Nat) (r : art_ref) (h : radix_ok d r) :
    (∀ l, has_leaf r l → l.key ≠ key) → recursive_delete r key d = (r, none) := by
  induction h with
  | leaf d l1 hl1 =>
    intro habs
    rw [recursive_delete, if_neg (leaf_matches_ne l1 key d (habs l1 (has_leaf.here l1)))]
  | inner d n keys children me P h1 h2 h3 h4 h5 h6 h7 h8 ih =>
    intro habs
    have hrd := recursive_delete_inner ⟨n, keys, children, me⟩ key d
    change recursive_delete (art_ref.inner n keys children me) key d = _ at hrd
    rw [hrd]
    dsimp only
    by_cases c1 : n.partial_len ≠ 0 ∧ check_prefix n key d ≠ min MAX_PREFIX_LEN n.partial_len
    · rw [if_pos c1]
      rfl
    · rw [if_neg c1]
      by_cases c2 : d + n.partial_len = key.length
      · rw [if_pos c2]
        simp only [node_get_own_leaf, h2]
        rfl
      · rw [if_neg c2]
        cases hf : find_child ⟨n, keys, children, me⟩ (byte_at key (d + n.partial_len)) with
        | none => rfl
        | some i =>
          dsimp only
          obtain ⟨hi, hslot⟩ := find_child_index ⟨n, keys, children, me⟩ h1 _ i hf
          dsimp only at hslot hi
          have hnn := (find_child_some_lt ⟨n, keys, children, me⟩ h1 _ i hf).2
          have hsub : ∀ l, has_leaf (child_of ⟨n, keys, children, me⟩
              (byte_at key (d + n.partial_len))) l → l.key ≠ key :=
            fun l hl => habs l ((has_leaf_inner ⟨n, keys, children, me⟩ l).2 ⟨_, hl⟩)
          have hih := ih _ hnn hsub
          cases hs : child_of ⟨n, keys, children, me⟩ (byte_at key (d + n.partial_len)) with
          | null =>
            rw [hs] at hnn
            cases hnn
          | leaf l1 =>
            rw [hslot, hs]
            dsimp only
            rw [if_neg (leaf_matches_ne l1 key _ (hsub l1 (by rw [hs]; exact has_leaf.here l1)))]
            rfl
          | inner cn ck cc cme =>
            rw [hslot, hs]
            dsimp only
            rw [recursive_delete_at_eq children i key _ hi, hslot, hih]
            dsimp only
            rw [← hslot, list_set_slot]

/-- The function recursive_insert on a radix tree and the key of one of its
leaves: the result is a radix tree again, and every leaf of it has the key of a
leaf of the tree. -/
theorem radix_update (b : build) (value : Option Nat) (replace : Bool) (d : Nat) (r : art_ref)
    (h : radix_ok d r) :
    ∀ l0, has_leaf r l0 →
      radix_ok d (recursive_insert b r l0.key value d replace).ref ∧
      ∀ l, has_leaf (recursive_insert b r l0.key value d replace).ref l →
        ∃ l', has_leaf r l' ∧ l'.key = l.key := by
  induction h with
  | leaf d l1 hl1 =>
    intro l0 hl0
    rw [(has_leaf_leaf l1 l0).1 hl0, recursive_insert, if_pos (leaf_matches_self l1 d)]
    dsimp only
    refine ⟨radix_ok.leaf d _ (by split <;> exact hl1), fun l hl => ⟨l1, has_leaf.here l1, ?_⟩⟩
    rw [(has_leaf_leaf _ _).1 hl]
    split <;> rfl
  | inner d n keys children me P h1 h2 h3 h4 h5 h6 h7 h8 ih =>
    intro l0 hl0
    have hrad : radix_ok d (inner_node.to_ref ⟨n, keys, children, me⟩) :=
      radix_ok.inner d n keys children me P h1 h2 h3 h4 h5 h6 h7 h8
    have hP : ∀ l, has_leaf (inner_node.to_ref ⟨n, keys, children, me⟩) l →
        ∀ i < n.partial_len, byte_at l.key (d + i) = byte_at P i := by
      intro l hl
      obtain ⟨c, hc⟩ := (has_leaf_inner ⟨n, keys, children, me⟩ l).1 hl
      exact (h8 c l hc).2
    have hmin := fun (_ : MAX_PREFIX_LEN < n.partial_len) =>
      radix_hmin d ⟨n, keys, children, me⟩ hrad P hP
    obtain ⟨c, hc⟩ := (has_leaf_inner ⟨n, keys, children, me⟩ l0).1 hl0
    have hnn := has_leaf_not_null _ _ hc
    have hlen := radix_leaf_len _ _ (h7 c hnn) l0 hc
    obtain ⟨hb, hPl⟩ := h8 c l0 hc
    have hpm := prefix_mismatch_full ⟨n, keys, children, me⟩ l0.key d P h6 hmin
      (by show d + n.partial_len ≤ l0.key.length; omega) hPl
    have hri := recursive_insert_inner b ⟨n, keys, children, me⟩ l0.key value d replace
    change recursive_insert b (art_ref.inner n keys children me) l0.key value d replace = _ at hri
    rw [hri]
    dsimp only
    rw [if_neg (fun a => absurd a.2 (by dsimp only at hpm; omega)),
      if_neg (fun a => by omega), hb]
    cases hf : find_child ⟨n, keys, children, me⟩ c with
    | none =>
      rw [child_of_none _ _ hf] at hc
      exact absurd hc (has_leaf_null _)
    | some i =>
      dsimp only
      obtain ⟨hi, hslot⟩ := find_child_index ⟨n, keys, children, me⟩ h1 c i hf
      dsimp only at hslot hi
      rw [recursive_insert_at_eq b children i l0.key value _ replace hi]
      dsimp only
      rw [hslot]
      obtain ⟨r2, r3⟩ := ih c hnn l0 hc
      obtain ⟨s1, s2⟩ := radix_set_child d ⟨n, keys, children, me⟩ c i _ hrad hf r2 (by
        intro l hl
        obtain ⟨l', hl', e⟩ := r3 l hl
        rw [← e]
        exact ⟨(h8 c l' hl').1, fun l1 hl1 j hj => ((h8 c l' hl').2 j hj).trans
          (hP l1 hl1 j hj).symm⟩)
      refine ⟨s1, fun l hl => ?_⟩
      rcases (s2 l).1 hl with a | ⟨c', _, a⟩
      · obtain ⟨l', hl', e⟩ := r3 l a
        exact ⟨l', (has_leaf_inner ⟨n, keys, children, me⟩ l').2 ⟨c, hl'⟩, e⟩
      · exact ⟨l, (has_leaf_inner ⟨n, keys, children, me⟩ l).2 ⟨c', a⟩, rfl⟩

theorem art_delete_root (t : art_tree) (key : List Nat) :
    (art_delete t key).1.root = (recursive_delete t.root key 0).1 := by
  unfold art_delete
  cases hr : recursive_delete t.root key 0 with
  | mk a b => cases b <;> rfl

/-- One call of recursive_insert at the root, for a key of a set of byte
strings none of which is a proper prefix of another, on a tree that is empty or
a radix tree with keys of that set. -/
theorem reached_insert (b : build) (ks : List (List Nat)) (t : art_ref) (key : List Nat)
    (value : Option Nat) (replace : Bool)
    (h1 : t = art_ref.null ∨ radix_ok 0 t)
    (h2 : ∀ l, has_leaf t l → l.key ∈ ks) (hk : key ∈ ks)
    (hb : ∀ k ∈ ks, ∀ i, byte_at k i < 256)
    (hfree : ∀ k ∈ ks, ∀ k' ∈ ks, k <+: k' → k = k') :
    radix_ok 0 (recursive_insert b t key value 0 replace).ref ∧
    ∀ l, has_leaf (recursive_insert b t key value 0 replace).ref l → l.key ∈ ks := by
  rcases h1 with h1 | h1
  · rw [h1, recursive_insert]
    dsimp only
    refine ⟨radix_ok.leaf 0 _ (Nat.zero_le _), fun l hl => ?_⟩
    rw [(has_leaf_leaf _ _).1 hl]
    exact hk
  · by_cases hex : ∃ l0, has_leaf t l0 ∧ l0.key = key
    · obtain ⟨l0, hl0, e⟩ := hex
      obtain ⟨r1, r2⟩ := radix_update b value replace 0 t h1 l0 hl0
      rw [e] at r1 r2
      refine ⟨r1, fun l hl => ?_⟩
      obtain ⟨l', hl', e'⟩ := r2 l hl
      rw [← e']
      exact h2 l' hl'
    · have hdiff : ∀ l, has_leaf t l → keys_differ l.key key := by
        intro l hl
        apply keys_differ_of_neither_prefixes
        · intro hp
          exact hex ⟨l, hl, hfree _ (h2 l hl) _ hk hp⟩
        · intro hp
          exact hex ⟨l, hl, (hfree _ hk _ (h2 l hl) hp).symm⟩
      obtain ⟨_, r2, r3⟩ := radix_insert b key value replace (hb key hk) 0 t h1 (Nat.zero_le _)
        (fun l _ i hi => absurd hi (Nat.not_lt_zero i)) hdiff
        (fun l hl => hb _ (h2 l hl))
      refine ⟨r2, fun l hl => ?_⟩
      rcases (r3 l).1 hl with a | a
      · exact h2 l a
      · rw [a]
        exact hk

/-- One call of recursive_delete at the root of a tree that is empty or a
radix tree. -/
theorem reached_delete (ks : List (List Nat)) (t : art_ref) (key : List Nat)
    (h1 : t = art_ref.null ∨ radix_ok 0 t)
    (h2 : ∀ l, has_leaf t l → l.key ∈ ks) :
    ((recursive_delete t key 0).1 = art_ref.null ∨ radix_ok 0 (recursive_delete t key 0).1) ∧
    ∀ l, has_leaf (recursive_delete t key 0).1 l → l.key ∈ ks := by
  rcases h1 with h1 | h1
  · rw [h1, recursive_delete]
    exact ⟨Or.inl rfl, fun l hl => absurd hl (has_leaf_null l)⟩
  · by_cases hex : ∃ l0, has_leaf t l0 ∧ l0.key = key
    · obtain ⟨l0, hl0, e⟩ := hex
      obtain ⟨_, r2⟩ := radix_delete 0 t h1 l0 hl0
      rw [e] at r2
      rcases r2 with ⟨_, r2⟩ | ⟨r2, r3⟩
      · rw [r2]
        exact ⟨Or.inl rfl, fun l hl => absurd hl (has_leaf_null l)⟩
      · exact ⟨Or.inr r2, fun l hl => h2 l ((r3 l).1 hl).1⟩
    · rw [radix_delete_absent key 0 t h1 (fun l hl e => hex ⟨l, hl, e⟩)]
      exact ⟨Or.inr h1, h2⟩

/-- Every tree reached from the empty tree by calls whose keys are byte strings
none of which is a proper prefix of another is empty or a radix tree. -/
theorem reached_radix (b : build) (ops : List art_op)
    (hbytes : ∀ a ∈ ops, ∀ c ∈ a.key, c < 256)
    (hfree : ∀ a ∈ ops, ∀ c ∈ ops, a.key <+: c.key → a.key = c.key) :
    (run_ops b ops).root = art_ref.null ∨ radix_ok 0 (run_ops b ops).root := by
  have hb : ∀ k ∈ ops.map art_op.key, ∀ i, byte_at k i < 256 := by
    intro k hk i
    obtain ⟨a, ha, e⟩ := List.mem_map.1 hk
    rw [← e]
    exact byte_at_lt_of_mem _ (hbytes a ha) i
  have hf : ∀ k ∈ ops.map art_op.key, ∀ k' ∈ ops.map art_op.key, k <+: k' → k = k' := by
    intro k hk k' hk'
    obtain ⟨a, ha, e⟩ := List.mem_map.1 hk
    obtain ⟨c, hc, e'⟩ := List.mem_map.1 hk'
    rw [← e, ← e']
    exact hfree a ha c hc
  have key : ∀ (l : List art_op) (t : art_tree),
      (∀ a ∈ l, a.key ∈ ops.map art_op.key) →
      (t.root = art_ref.null ∨ radix_ok 0 t.root) →
      (∀ lf, has_leaf t.root lf → lf.key ∈ ops.map art_op.key) →
      ((l.foldl (apply_op b) t).root = art_ref.null ∨
        radix_ok 0 (l.foldl (apply_op b) t).root) := by
    intro l
    induction l with
    | nil =>
      intro t _ h1 _
      exact h1
    | cons a l ih =>
      intro t hl h1 h2
      rw [List.foldl_cons]
      have hk := hl a (List.mem_cons_self _ _)
      have step : ((apply_op b t a).root = art_ref.null ∨ radix_ok 0 (apply_op b t a).root) ∧
          ∀ lf, has_leaf (apply_op b t a).root lf → lf.key ∈ ops.map art_op.key := by
        cases a with
        | insert k v =>
          obtain ⟨s1, s2⟩ := reached_insert b _ t.root k v true h1 h2 hk hb hf
          exact ⟨Or.inr s1, s2⟩
        | insert_no_replace k v =>
          obtain ⟨s1, s2⟩ := reached_insert b _ t.root k v false h1 h2 hk hb hf
          exact ⟨Or.inr s1, s2⟩
        | delete k =>
          show ((art_delete t k).1.root = art_ref.null ∨ radix_ok 0 (art_delete t k).1.root) ∧
            ∀ lf, has_leaf (art_delete t k).1.root lf → lf.key ∈ ops.map art_op.key
          rw [art_delete_root]
          exact reached_delete _ t.root k h1 h2
      exact ih _ (fun c hc => hl c (List.mem_cons_of_mem _ hc)) step.1 step.2
  exact key ops art_tree_init (fun a ha => List.mem_map.2 ⟨a, ha, rfl⟩) (Or.inl rfl)
    (fun lf hlf => absurd hlf (has_leaf_null lf))

/-! ## The claims -/

/-- C1 (fails on the code): after `art_insert` of "abc" -> 1 and then
"abcd" -> 2 into an empty tree, `art_search("abc")` returns `NULL` although the
key was inserted; the leaf split with a non-empty common prefix attaches the
shorter key as a child under the byte read past its end instead of as the own
leaf. -/
theorem C1_search_loses_prefix_key :
    art_search (insert_all scalar_build
        [([97, 98, 99], some 1), ([97, 98, 99, 100], some 2)]) [97, 98, 99] = none ∧
    art_search (insert_all sse2_build
        [([97, 98, 99], some 1), ([97, 98, 99, 100], some 2)]) [97, 98, 99] = none := by
  decide

/-- C2 (fails on the code): with "abc" a proper prefix of "abcd", in either
insertion order the leaf split leaves a NODE4 with prefix "abc", no own leaf,
"abc" as the child under byte 0 and "abcd" as the child under 'd'; with
"abcd" inserted first `art_search("abcd")` returns 2 and `art_search("abc")`
returns `NULL`. -/
theorem C2_split_leaf_sets_no_own_leaf :
    insert_all scalar_build [([97, 98, 99], some 1), ([97, 98, 99, 100], some 2)] =
      { root := art_ref.inner
          { partial_len := 3, type := NODE4, num_children := 2,
            partial_bytes := [97, 98, 99, 0, 0, 0, 0, 0, 0, 0] }
          [0, 100, 0, 0]
          [art_ref.leaf { value := some 1, key := [97, 98, 99] },
           art_ref.leaf { value := some 2, key := [97, 98, 99, 100] },
           art_ref.null, art_ref.null]
          none,
        size := 2 } ∧
    insert_all scalar_build [([97, 98, 99, 100], some 2), ([97, 98, 99], some 1)] =
      insert_all scalar_build [([97, 98, 99], some 1), ([97, 98, 99, 100], some 2)] ∧
    own_leaf_of (insert_all scalar_build
        [([97, 98, 99, 100], some 2), ([97, 98, 99], some 1)]).root = none ∧
    art_search (insert_all scalar_build
        [([97, 98, 99, 100], some 2), ([97, 98, 99], some 1)]) [97, 98, 99] = none ∧
    art_search (insert_all scalar_build
        [([97, 98, 99, 100], some 2), ([97, 98, 99], some 1)]) [97, 98, 99, 100] = some 2 := by
  decide

/-- C3 (fails on the code): in the tree built by inserting 13 `a`s + "b" -> 1,
13 `a`s + "c" -> 2 and 12 `a`s -> 3, `art_search` of the key 10 `a`s + "xx",
which was never inserted, returns the value 3 of the own leaf 12 `a`s: the own
leaf of a node is returned without comparing its key. -/
theorem C3_search_returns_value_of_other_key :
    (List.replicate 10 97 ++ [120, 120]) ∉
      [List.replicate 13 97 ++ [98], List.replicate 13 97 ++ [99], List.replicate 12 97] ∧
    art_search (insert_all scalar_build
        [(List.replicate 13 97 ++ [98], some 1), (List.replicate 13 97 ++ [99], some 2),
         (List.replicate 12 97, some 3)])
      (List.replicate 10 97 ++ [120, 120]) = some 3 := by
  decide

/-- C4 (fails on the code): inserting the six distinct keys "ab", "ac",
"a\0xy1", "a\0xy2", "a", "a\0" leaves `size` at 5; the last `art_insert`
returns the value 5 of "a" as if the key "a\0" had been there. -/
theorem C4_size_below_number_of_keys :
    ([[97, 98], [97, 99], [97, 0, 120, 121, 49], [97, 0, 120, 121, 50], [97], [97, 0]] :
      List (List Nat)).Nodup ∧
    (insert_all scalar_build
        [([97, 98], some 1), ([97, 99], some 2), ([97, 0, 120, 121, 49], some 3),
         ([97, 0, 120, 121, 50], some 4), ([97], some 5), ([97, 0], some 6)]).size = 5 ∧
    (art_insert scalar_build (insert_all scalar_build
        [([97, 98], some 1), ([97, 99], some 2), ([97, 0, 120, 121, 49], some 3),
         ([97, 0, 120, 121, 50], some 4), ([97], some 5)]) [97, 0] (some 6)).2 = some 5 := by
  decide

/-- C5 (fails on the code): after inserting "abc" -> 1 and "abcd" -> 2,
`art_delete("abc")` returns `NULL` and `size` stays 2. -/
theorem C5_delete_misses_prefix_key :
    (art_delete (insert_all scalar_build
        [([97, 98, 99], some 1), ([97, 98, 99, 100], some 2)]) [97, 98, 99]).2 = none ∧
    (art_delete (insert_all scalar_build
        [([97, 98, 99], some 1), ([97, 98, 99, 100], some 2)]) [97, 98, 99]).1.size = 2 := by
  decide

/-- C6 (fails on the code): in the tree holding 13 `a`s + "b", 13 `a`s + "c"
and 12 `a`s -> 3, `art_delete` of the key 10 `a`s + "xx", which is not stored,
returns 3, lowers `size` to 2 and removes the key 12 `a`s. -/
theorem C6_delete_of_absent_key_removes_other_key :
    art_search (insert_all scalar_build
        [(List.replicate 13 97 ++ [98], some 1), (List.replicate 13 97 ++ [99], some 2),
         (List.replicate 12 97, some 3)]) (List.replicate 12 97) = some 3 ∧
    (art_delete (insert_all scalar_build
        [(List.replicate 13 97 ++ [98], some 1), (List.replicate 13 97 ++ [99], some 2),
         (List.replicate 12 97, some 3)]) (List.replicate 10 97 ++ [120, 120])).2 = some 3 ∧
    (art_delete (insert_all scalar_build
        [(List.replicate 13 97 ++ [98], some 1), (List.replicate 13 97 ++ [99], some 2),
         (List.replicate 12 97, some 3)]) (List.replicate 10 97 ++ [120, 120])).1.size = 2 ∧
    art_search (art_delete (insert_all scalar_build
        [(List.replicate 13 97 ++ [98], some 1), (List.replicate 13 97 ++ [99], some 2),
         (List.replicate 12 97, some 3)]) (List.replicate 10 97 ++ [120, 120])).1
      (List.replicate 12 97) = none := by
  decide

/-- C7 (fails on the code): after inserting "a" -> 1, "b" -> 2, "ab" -> 3 the
key "a" is the own leaf of the node under 'a' and is found by `art_search`, but
`art_iter` calls the callback for "ab" and "b" only. -/
theorem C7_iter_skips_own_leaf :
    art_search (insert_all scalar_build
        [([97], some 1), ([98], some 2), ([97, 98], some 3)]) [97] = some 1 ∧
    (art_iter (insert_all scalar_build
        [([97], some 1), ([98], some 2), ([97, 98], some 3)]) record_cb []).2
      = [([97, 98], some 3), ([98], some 2)] := by
  decide

/-- C8 (fails on the code): in the `__SSE2__` build the keys [1], [2], [3],
[4], [128] are iterated with [128] first (the NODE16 insertion index compares
signed bytes); in the portable build "abc\0" inserted before "abc" is
iterated before it. -/
theorem C8_iter_not_ascending :
    (art_iter (insert_all sse2_build
        [([1], some 1), ([2], some 2), ([3], some 3), ([4], some 4), ([128], some 5)])
      record_cb []).2
      = [([128], some 5), ([1], some 1), ([2], some 2), ([3], some 3), ([4], some 4)] ∧
    (art_iter (insert_all scalar_build
        [([97, 98, 99, 0], some 1), ([97, 98, 99], some 2)]) record_cb []).2
      = [([97, 98, 99, 0], some 1), ([97, 98, 99], some 2)] := by
  decide

/-- C9: under any callback, `art_iter` and `art_iter_prefix` on any tree return
the same result and `data` whether or not the calls are logged, and the logged
results of the callback's calls are zeros followed, exactly when the returned
result `r` is not 0, by `r` as the last call: a non-zero callback result ends
the iteration and is returned, and with only zero results 0 is returned. -/
theorem C9_iter_stops_at_first_nonzero {σ : Type} (t : art_tree) (pfx : List Nat)
    (cb : art_callback σ) (data : σ) :
    ((art_iter t (logged cb) (data, [])).1 = (art_iter t cb data).1 ∧
     (art_iter t (logged cb) (data, [])).2.1 = (art_iter t cb data).2 ∧
     ∃ k, (art_iter t (logged cb) (data, [])).2.2 =
        List.replicate k 0 ++
          if (art_iter t cb data).1 = 0 then [] else [(art_iter t cb data).1]) ∧
    (( art_iter_prefix t pfx (logged cb) (data, [])).1 = ( art_iter_prefix t pfx cb data).1 ∧
     ( art_iter_prefix t pfx (logged cb) (data, [])).2.1 = ( art_iter_prefix t pfx cb data).2 ∧
     ∃ k, ( art_iter_prefix t pfx (logged cb) (data, [])).2.2 =
        List.replicate k 0 ++
          if ( art_iter_prefix t pfx cb data).1 = 0 then []
          else [( art_iter_prefix t pfx cb data).1]) := by
  constructor
  · simpa [art_iter] using stops_early_recursive_iter cb t.root data []
  · simpa [ art_iter_prefix] using stops_early_iter_prefix_loop cb pfx t.root 0 data []

/-- C10 (fails on the code): in the tree holding "abcdXpq1" -> 1,
"abcdXpq2" -> 2 and "abcdY" -> 3, `art_iter_prefix("abZdXp")` passes
"abcdXpq1" and "abcdXpq2" to the callback although neither starts with
"abZdXp": after a mismatch inside a node's compressed prefix the descent goes
on as if the whole prefix had matched. -/
theorem C10_iter_prefix_passes_keys_without_the_prefix :
    ( art_iter_prefix (insert_all scalar_build
        [([97, 98, 99, 100, 88, 112, 113, 49], some 1),
         ([97, 98, 99, 100, 88, 112, 113, 50], some 2),
         ([97, 98, 99, 100, 89], some 3)])
      [97, 98, 90, 100, 88, 112] record_cb []).2
      = [([97, 98, 99, 100, 88, 112, 113, 49], some 1),
         ([97, 98, 99, 100, 88, 112, 113, 50], some 2)] ∧
    List.isPrefixOf [97, 98, 90, 100, 88, 112] [97, 98, 99, 100, 88, 112, 113, 49] = false ∧
    List.isPrefixOf [97, 98, 90, 100, 88, 112] [97, 98, 99, 100, 88, 112, 113, 50] = false := by
  decide

/-- C11 (fails on the code): after inserting "a" -> 1, "b" -> 2, "ab" -> 3,
`art_iter_prefix("a")` with a callback returning 0 passes only "ab" to the
callback; the stored key "a" starts with "a" but is the own leaf of the node
that `recursive_iter` walks, and is never passed. -/
theorem C11_iter_prefix_misses_own_leaf :
    art_search (insert_all scalar_build
        [([97], some 1), ([98], some 2), ([97, 98], some 3)]) [97] = some 1 ∧
    List.isPrefixOf [97] [97] = true ∧
    ( art_iter_prefix (insert_all scalar_build
        [([97], some 1), ([98], some 2), ([97, 98], some 3)]) [97] record_cb []).2
      = [([97, 98], some 3)] := by
  decide

/-- C12 (fails on the code): in the `__SSE2__` build, after inserting the keys
[1], [2], [3], [4], [128], `art_minimum` returns the leaf of [128]; in any
build, after inserting "a", "b", "ab" and deleting "ab" and "a", `art_minimum`
returns the freed leaf of "ab", still held by slot 0 of a node with no
children, while the only key left is "b". -/
theorem C12_minimum_not_smallest_key :
    art_minimum (insert_all sse2_build
        [([1], some 1), ([2], some 2), ([3], some 3), ([4], some 4), ([128], some 5)])
      = some { value := some 5, key := [128] } ∧
    art_search (delete_all (insert_all scalar_build
        [([97], some 1), ([98], some 2), ([97, 98], some 3)]) [[97, 98], [97]]) [98]
      = some 2 ∧
    art_search (delete_all (insert_all scalar_build
        [([97], some 1), ([98], some 2), ([97, 98], some 3)]) [[97, 98], [97]]) [97, 98]
      = none ∧
    art_minimum (delete_all (insert_all scalar_build
        [([97], some 1), ([98], some 2), ([97, 98], some 3)]) [[97, 98], [97]])
      = some { value := some 3, key := [97, 98] } := by
  decide

/-- C13 (fails on the code): in the `__SSE2__` build, after inserting the keys
[1], [2], [3], [4], [128], `art_maximum` returns the leaf of [4]; in any build,
after inserting "a", "b", "bc" and deleting "bc", the largest key "b" is the
own leaf of a node without children, which `maximum` never looks at: it does
not return the leaf of "b". -/
theorem C13_maximum_not_largest_key :
    art_maximum (insert_all sse2_build
        [([1], some 1), ([2], some 2), ([3], some 3), ([4], some 4), ([128], some 5)])
      = some { value := some 4, key := [4] } ∧
    art_search (insert_all sse2_build
        [([1], some 1), ([2], some 2), ([3], some 3), ([4], some 4), ([128], some 5)]) [128]
      = some 5 ∧
    art_search (delete_all (insert_all scalar_build
        [([97], some 1), ([98], some 2), ([98, 99], some 3)]) [[98, 99]]) [98] = some 2 ∧
    art_search (delete_all (insert_all scalar_build
        [([97], some 1), ([98], some 2), ([98, 99], some 3)]) [[98, 99]]) [98, 99] = none ∧
    art_maximum (delete_all (insert_all scalar_build
        [([97], some 1), ([98], some 2), ([98, 99], some 3)]) [[98, 99]]) = none := by
  decide

/-- C14 (fails on the code): inserting "a", "b", "ab" and deleting "ab", "a",
"b" leaves `size` 0 but a root that is not `NULL`: a NODE4 without children and
without own leaf. -/
theorem C14_round_trip_leaves_a_node :
    delete_all (insert_all scalar_build
        [([97], some 1), ([98], some 2), ([97, 98], some 3)]) [[97, 98], [97], [98]] =
      { root := art_ref.inner
          { partial_len := 1, type := NODE4, num_children := 0,
            partial_bytes := [97, 0, 0, 0, 0, 0, 0, 0, 0, 0] }
          [98, 0, 0, 0]
          [art_ref.leaf { value := some 3, key := [97, 98] },
           art_ref.null, art_ref.null, art_ref.null]
          none,
        size := 0 } ∧
    delete_all (insert_all scalar_build
        [([97], some 1), ([98], some 2), ([97, 98], some 3)]) [[97, 98], [97], [98]]
      ≠ art_tree_init := by
  decide

/-- C15 (fails on the code): in the tree built by inserting "abc" -> 1 and
"abcd" -> 2, `art_insert("abc", 9)` returns 1 and leaves `size` 2, but
`art_search("abc")` returns `NULL` afterwards, not 9. -/
theorem C15_replaced_value_not_found :
    (art_insert scalar_build (insert_all scalar_build
        [([97, 98, 99], some 1), ([97, 98, 99, 100], some 2)]) [97, 98, 99] (some 9)).2
      = some 1 ∧
    (art_insert scalar_build (insert_all scalar_build
        [([97, 98, 99], some 1), ([97, 98, 99, 100], some 2)]) [97, 98, 99] (some 9)).1.size
      = 2 ∧
    art_search (art_insert scalar_build (insert_all scalar_build
        [([97, 98, 99], some 1), ([97, 98, 99, 100], some 2)]) [97, 98, 99] (some 9)).1
      [97, 98, 99] = none := by
  decide

/-- C16 (fails on the code): in the tree built by inserting "abc" -> 1 and
"abcd" -> 2, `art_insert_no_replace("abc", 9)` returns 1 and leaves the tree as
it was, but `art_search("abc")` returns `NULL`, not 1; and in the tree built
from "ab", "ac", "a\0xy1", "a\0xy2", "a" -> 5 the key "a\0", which was not
inserted, is treated differently: both calls return 5, `art_insert` overwrites
the value of "a" and `art_insert_no_replace` does not. -/
theorem C16_no_replace_value_not_found :
    (art_insert_no_replace scalar_build (insert_all scalar_build
        [([97, 98, 99], some 1), ([97, 98, 99, 100], some 2)]) [97, 98, 99] (some 9))
      = (insert_all scalar_build
          [([97, 98, 99], some 1), ([97, 98, 99, 100], some 2)], some 1) ∧
    art_search (art_insert_no_replace scalar_build (insert_all scalar_build
        [([97, 98, 99], some 1), ([97, 98, 99, 100], some 2)]) [97, 98, 99] (some 9)).1
      [97, 98, 99] = none ∧
    (art_insert_no_replace scalar_build (insert_all scalar_build
        [([97, 98], some 1), ([97, 99], some 2), ([97, 0, 120, 121, 49], some 3),
         ([97, 0, 120, 121, 50], some 4), ([97], some 5)]) [97, 0] (some 6)).2 = some 5 ∧
    (art_insert_no_replace scalar_build (insert_all scalar_build
        [([97, 98], some 1), ([97, 99], some 2), ([97, 0, 120, 121, 49], some 3),
         ([97, 0, 120, 121, 50], some 4), ([97], some 5)]) [97, 0] (some 6)).1 ≠
    (art_insert scalar_build (insert_all scalar_build
        [([97, 98], some 1), ([97, 99], some 2), ([97, 0, 120, 121, 49], some 3),
         ([97, 0, 120, 121, 50], some 4), ([97], some 5)]) [97, 0] (some 6)).1 := by
  decide

/-- C17 (fails on the code): after inserting "a", "b", "ab", "ac" and deleting
"ab", `size` is 3 but only the two leaves "ac" and "b" are reachable from the
root: the NODE4 holding the own leaf "a" was replaced by its remaining child. -/
theorem C17_size_above_reachable_leaves :
    (delete_all (insert_all scalar_build
        [([97], some 1), ([98], some 2), ([97, 98], some 3), ([97, 99], some 4)])
      [[97, 98]]).size = 3 ∧
    destroy_node (delete_all (insert_all scalar_build
        [([97], some 1), ([98], some 2), ([97, 98], some 3), ([97, 99], some 4)])
      [[97, 98]]).root
      = [{ value := some 4, key := [97, 99] }, { value := some 2, key := [98] }] := by
  decide

set_option maxRecDepth 100000 in
/-- C18 as stated fails: after inserting the 256 one-byte keys [0], .., [255]
the root is a NODE256 whose 256 child slots are all populated, and its 8-bit
`num_children` field holds 0. -/
theorem C18_full_node256_stores_zero :
    (as_inner (insert_all scalar_build all_single_byte_keys).root).map
      (fun x => (x.n.type, x.n.num_children, populated x)) = some (NODE256, 0, 256) := by
  decide!

/-- C18 (amended): in every tree reached from an empty tree by calls of
`art_insert`, `art_insert_no_replace` and `art_delete` whose keys are byte
strings none of which is a proper prefix of another, for both builds, the
stored 8-bit `num_children` of every inner node is the number of populated
child slots of that node modulo 256; that number is at most 256, so the field
equals it up to 255 children and is 0 for a NODE256 holding all 256. -/
theorem C18_reached_tree_counts_modulo_256 (b : build) (ops : List art_op)
    (hbytes : ∀ a ∈ ops, ∀ c ∈ a.key, c < 256)
    (hfree : ∀ a ∈ ops, ∀ c ∈ ops, a.key <+: c.key → a.key = c.key)
    (x : inner_node) (hx : has_inner (run_ops b ops).root x) :
    x.n.num_children = populated x % 256 ∧ populated x ≤ 256 := by
  rcases reached_radix b ops hbytes hfree with h | h
  · rw [h] at hx
    cases hx
  · exact ⟨node_ok_count x (radix_inner_ok 0 _ h x hx), populated_le x⟩

/-- C18 (amended) at the NODE4 under byte 'a' of the tree reached by the calls
of `reached_ops` in the scalar build. -/
theorem C18_reached_tree_counts_modulo_256_witness :
    (∀ a ∈ reached_ops, ∀ c ∈ a.key, c < 256) ∧
    (∀ a ∈ reached_ops, ∀ c ∈ reached_ops, a.key <+: c.key → a.key = c.key) ∧
    (as_inner (run_ops scalar_build reached_ops).root).map (fun r => child_of r 97)
      = some reached_node.to_ref ∧
    has_inner (run_ops scalar_build reached_ops).root reached_node ∧
    reached_node.n.num_children = populated reached_node % 256 ∧
    populated reached_node ≤ 256 :=
  have hx : has_inner (run_ops scalar_build reached_ops).root reached_node :=
    has_inner.under _ _ _ _ 97 reached_node (has_inner.here _ _ _ _)
  ⟨by decide, by decide, by decide, hx,
   C18_reached_tree_counts_modulo_256 scalar_build reached_ops (by decide) (by decide)
     reached_node hx⟩

/-- C19 (fails on the code): in the `__SSE2__` build the root NODE16 built from
the keys [1], [2], [3], [4], [128] has `keys[0..5)` = 128, 1, 2, 3, 4; in the
portable build the root NODE4 built from "abc\0" and "abc" has `keys[0..2)` =
0, 0. -/
theorem C19_keys_not_increasing :
    (as_inner (insert_all sse2_build
        [([1], some 1), ([2], some 2), ([3], some 3), ([4], some 4), ([128], some 5)]).root).map
      (fun x => (x.n.type, x.keys.take x.n.num_children, decide (keys_increasing x)))
      = some (NODE16, [128, 1, 2, 3, 4], false) ∧
    (as_inner (insert_all scalar_build
        [([97, 98, 99, 0], some 1), ([97, 98, 99], some 2)]).root).map
      (fun x => (x.n.type, x.keys.take x.n.num_children, decide (keys_increasing x)))
      = some (NODE4, [0, 0], false) := by
  decide

set_option maxRecDepth 100000 in
/-- C20 (fails on the code): after inserting the 17 distinct keys "abc\0",
"abc", "abc\x01", .., "abc\x0f" the root is a NODE48 with 17 children whose
slot `children[0]` holds the leaf of "abc\0" while no `keys[b]` refers to it
(the table entry of byte 0 was overwritten when the NODE16 with two children
under byte 0 was converted); `art_search("abc\0")` returns `NULL`. -/
theorem C20_node48_slot_without_key :
    (keys17.map (fun kv => kv.1)).Nodup ∧
    (as_inner (insert_all scalar_build keys17).root).map
      (fun x => (x.n.type, x.n.num_children, slot_at x.children 0, decide (1 ∈ x.keys),
        decide (node48_slots_referenced x)))
      = some (NODE48, 17, art_ref.leaf { value := some 100, key := [97, 98, 99, 0] },
          false, false) ∧
    art_search (insert_all scalar_build keys17) [97, 98, 99, 0] = none := by
  decide!

/-- C21 (fails on the code): after inserting "a", "b", "ab" and deleting "ab"
and "a", the NODE4 under byte 'a' of the root is still in the tree with
`num_children` 0 and no own leaf. -/
theorem C21_node_without_child_and_own_leaf :
    (as_inner (delete_all (insert_all scalar_build
        [([97], some 1), ([98], some 2), ([97, 98], some 3)]) [[97, 98], [97]]).root).map
      (fun r => (as_inner (child_of r 97)).map
        (fun x => (x.n.type, x.n.num_children, populated x, x.me)))
      = some (some (NODE4, 0, 0, none)) ∧
    art_size (delete_all (insert_all scalar_build
        [([97], some 1), ([98], some 2), ([97, 98], some 3)]) [[97, 98], [97]]) = 1 := by
  decide

/-- C22 (fails on the code): (a) after inserting "a", "b", "ab" and deleting
"ab", "a", "b" the root is a NODE4 with `partial_len` 1 and inline prefix "a"
whose subtree holds no leaf at all; (b) after inserting "ab\0", "abx", "ab" and
deleting "abx" the root has `partial_len` 3 and inline prefix "ab\0", while the
smallest key of its subtree is "ab", which has no byte 2. -/
theorem C22_partial_not_of_min_leaf :
    (as_inner (delete_all (insert_all scalar_build
        [([97], some 1), ([98], some 2), ([97, 98], some 3)]) [[97, 98], [97], [98]]).root).map
      (fun x => (x.n.partial_len, x.n.partial_bytes.take 1, destroy_node x.to_ref,
        decide (partial_is_min_leaf_bytes 0 x)))
      = some (1, [97], [], false) ∧
    (as_inner (delete_all (insert_all scalar_build
        [([97, 98, 0], some 1), ([97, 98, 120], some 2), ([97, 98], some 3)])
        [[97, 98, 120]]).root).map
      (fun x => (x.n.partial_len, x.n.partial_bytes.take 3,
        (destroy_node x.to_ref).map (fun l => l.key),
        decide (partial_is_min_leaf_bytes 0 x)))
      = some (3, [97, 98, 0], [[97, 98], [97, 98, 0]], false) := by
  decide

/-- C23: for a well-formed inner node `x` of any variant, a byte `c` that has no
child in `x` and a child reference `child` (not `NULL`), after add_child
find_child finds `child` for `c`, every other byte has the child it had before
(and none if it had none), and the number of populated slots is one more. -/
theorem C23_add_child_adds_exactly_one (b : build) (x : inner_node) (c : Nat)
    (child : art_ref) (hx : node_ok x) (hc : c < 256) (habs : find_child x c = none)
    (hchild : child.is_null = false) :
    (find_child (add_child b x c child) c).isSome = true ∧
    child_of (add_child b x c child) c = child ∧
    (∀ d, d ≠ c →
      child_of (add_child b x c child) d = child_of x d ∧
      (find_child (add_child b x c child) d).isSome = (find_child x d).isSome) ∧
    populated (add_child b x c child) = populated x + 1 := by
  obtain ⟨h1, h2⟩ := add_child_spec b x c child hx hc habs hchild
  have hcc : child_of (add_child b x c child) c = child := by
    rw [h2 c, if_pos rfl]
  refine ⟨?_, hcc, ?_, (add_child_count b x c child hx hc habs hchild).2.1⟩
  · rw [isSome_eq_child_of _ h1, hcc, hchild]
    rfl
  · intro d hd
    have hdd : child_of (add_child b x c child) d = child_of x d := by
      rw [h2 d, if_neg hd]
    exact ⟨hdd, by rw [isSome_eq_child_of _ h1, isSome_eq_child_of _ hx, hdd]⟩

set_option maxRecDepth 100000 in
/-- C23 at the NODE4 with the leaves "a", "b", "c" and the new byte 100. -/
theorem C23_add_child_adds_exactly_one_witness :
    node_ok three_leaves ∧ find_child three_leaves 100 = none ∧
    ((find_child (add_child scalar_build three_leaves 100
        (art_ref.leaf (make_leaf [100] (some 4)))) 100).isSome = true ∧
     child_of (add_child scalar_build three_leaves 100
        (art_ref.leaf (make_leaf [100] (some 4)))) 100 =
        art_ref.leaf (make_leaf [100] (some 4)) ∧
     (∀ d, d ≠ 100 →
       child_of (add_child scalar_build three_leaves 100
         (art_ref.leaf (make_leaf [100] (some 4)))) d = child_of three_leaves d ∧
       (find_child (add_child scalar_build three_leaves 100
         (art_ref.leaf (make_leaf [100] (some 4)))) d).isSome =
         (find_child three_leaves d).isSome) ∧
     populated (add_child scalar_build three_leaves 100
        (art_ref.leaf (make_leaf [100] (some 4)))) = populated three_leaves + 1) :=
  ⟨by decide, by decide,
   C23_add_child_adds_exactly_one scalar_build three_leaves 100
     (art_ref.leaf (make_leaf [100] (some 4))) (by decide) (by decide) (by decide)
     (by decide)⟩

/-- C24: add_child on a well-formed inner node changes the variant exactly at
capacity (a NODE4 with 4 children gives a NODE16, a NODE16 with 16 a NODE48, a
NODE48 with 48 a NODE256, any other node keeps its variant), and the node that
`*ref` holds afterwards has the `partial_len`, the inline prefix bytes and the
own leaf of the node it replaces. -/
theorem C24_add_child_grows_at_capacity (b : build) (x : inner_node) (c : Nat)
    (child : art_ref) (hx : node_ok x) :
    (add_child b x c child).n.type = variant_after_add x ∧
    (add_child b x c child).n.partial_len = x.n.partial_len ∧
    (∀ i < min MAX_PREFIX_LEN x.n.partial_len,
      byte_at (add_child b x c child).n.partial_bytes i = byte_at x.n.partial_bytes i) ∧
    (add_child b x c child).me = x.me := by
  obtain ⟨h1, h2, h3, h4⟩ := add_child_header b x c child hx
  exact ⟨h1, h2, h4, h3⟩

set_option maxRecDepth 100000 in
/-- C24 at the full NODE4 with the leaves "a", "b", "c", "d": adding byte 101
gives a NODE16. -/
theorem C24_add_child_grows_at_capacity_witness :
    node_ok four_leaves ∧ four_leaves.n.type = NODE4 ∧ four_leaves.n.num_children = 4 ∧
    variant_after_add four_leaves = NODE16 ∧
    ((add_child scalar_build four_leaves 101
        (art_ref.leaf (make_leaf [101] (some 5)))).n.type = variant_after_add four_leaves ∧
     (add_child scalar_build four_leaves 101
        (art_ref.leaf (make_leaf [101] (some 5)))).n.partial_len = four_leaves.n.partial_len ∧
     (∀ i < min MAX_PREFIX_LEN four_leaves.n.partial_len,
       byte_at (add_child scalar_build four_leaves 101
         (art_ref.leaf (make_leaf [101] (some 5)))).n.partial_bytes i =
         byte_at four_leaves.n.partial_bytes i) ∧
     (add_child scalar_build four_leaves 101
        (art_ref.leaf (make_leaf [101] (some 5)))).me = four_leaves.me) :=
  ⟨by decide, by decide, by decide, by decide,
   C24_add_child_grows_at_capacity scalar_build four_leaves 101
     (art_ref.leaf (make_leaf [101] (some 5))) (by decide)⟩

/-- C25: for a well-formed NODE16, NODE48 or NODE256 `x` and a byte `c` with a
child in `x` (at slot `pos`), remove_child leaves an inner node in which
find_child finds nothing for `c`, every other byte has the child it had before
(and none if it had none), and the number of populated slots is one less. -/
theorem C25_remove_child_removes_exactly_one (x : inner_node) (c pos : Nat)
    (hx : node_ok x) (ht : x.n.type ≠ NODE4) (hf : find_child x c = some pos) :
    ∃ y, remove_child x c pos = y.to_ref ∧
      find_child y c = none ∧
      (∀ d, d ≠ c → child_of y d = child_of x d ∧
        (find_child y d).isSome = (find_child x d).isSome) ∧
      populated y + 1 = populated x := by
  obtain ⟨y, h1, h2, h3, h4, _⟩ := remove_child_shape x c pos hx ht hf
  refine ⟨y, h1, ?_, ?_, h4⟩
  · have := isSome_eq_child_of y h2 c
    rw [h3 c, if_pos rfl] at this
    cases hfy : find_child y c with
    | none => rfl
    | some i =>
      rw [hfy] at this
      cases this
  · intro d hd
    have hdd : child_of y d = child_of x d := by rw [h3 d, if_neg hd]
    exact ⟨hdd, by rw [isSome_eq_child_of y h2, isSome_eq_child_of x hx, hdd]⟩

set_option maxRecDepth 100000 in
/-- C25 at the NODE16 with the leaves "a" .. "e" and the byte 98 at slot 1. -/
theorem C25_remove_child_removes_exactly_one_witness :
    node_ok five_leaves ∧ five_leaves.n.type = NODE16 ∧
    find_child five_leaves 98 = some 1 ∧
    ∃ y, remove_child five_leaves 98 1 = y.to_ref ∧
      find_child y 98 = none ∧
      (∀ d, d ≠ 98 → child_of y d = child_of five_leaves d ∧
        (find_child y d).isSome = (find_child five_leaves d).isSome) ∧
      populated y + 1 = populated five_leaves :=
  ⟨by decide, by decide, by decide,
   C25_remove_child_removes_exactly_one five_leaves 98 1 (by decide) (by decide)
     (by decide)⟩

/-- C26 (fails on the code): a NODE16 with the 5 children 1..5 loses 1 and
then 2; the second removal brings the count to 3 and replaces the node by a
NODE4 whose 4 slots are all filled, slot 3 holding a copy of the slot of key 5
beyond `num_children`.  When 5 and then 4 are deleted instead, slot 3 of the
NODE4 holds the leaf of the key 4 that this `art_delete` removes and returns. -/
theorem C26_shrink_copies_four_slots :
    (as_inner (delete_all (insert_all scalar_build
        [([1], some 1), ([2], some 2), ([3], some 3), ([4], some 4), ([5], some 5)])
        [[1]]).root).map (fun x => (x.n.type, x.n.num_children)) = some (NODE16, 4) ∧
    (as_inner (delete_all (insert_all scalar_build
        [([1], some 1), ([2], some 2), ([3], some 3), ([4], some 4), ([5], some 5)])
        [[1], [2]]).root).map
      (fun x => (x.n.type, x.n.num_children, x.keys, slots_in_use x, slot_at x.children 3))
      = some (NODE4, 3, [3, 4, 5, 5], 4, art_ref.leaf { value := some 5, key := [5] }) ∧
    (art_delete (delete_all (insert_all scalar_build
        [([1], some 1), ([2], some 2), ([3], some 3), ([4], some 4), ([5], some 5)])
        [[5]]) [4]).2 = some 4 ∧
    (as_inner (delete_all (insert_all scalar_build
        [([1], some 1), ([2], some 2), ([3], some 3), ([4], some 4), ([5], some 5)])
        [[5], [4]]).root).map
      (fun x => (x.n.type, x.n.num_children, x.keys, slots_in_use x, slot_at x.children 3))
      = some (NODE4, 3, [1, 2, 3, 4], 4, art_ref.leaf { value := some 4, key := [4] }) :=
  ⟨by decide, by decide, by decide, by decide⟩

/-- The shrink thresholds of remove_child: for a well-formed NODE16, NODE48 or
NODE256 `x` and a byte `c` with a child in `x`, remove_child gives a NODE48 for
a NODE256 exactly when the count drops to 37, a NODE16 for a NODE48 exactly
when it drops to 12, a NODE4 for a NODE16 exactly when it drops to 3, and keeps
the variant otherwise; the node afterwards is well formed, counts one child
less and has the `partial_len`, inline prefix bytes and own leaf of `x`.  A
replacement NODE48 or NODE16 has exactly `num_children` slots filled; a
replacement NODE4 has all 4 slots filled with `num_children` 3, slot 3 being
the copy of slot 3 of the NODE16. -/
theorem remove_child_shrinks_at_thresholds (x : inner_node) (c pos : Nat)
    (hx : node_ok x) (ht : x.n.type ≠ NODE4) (hf : find_child x c = some pos) :
    ∃ y, remove_child x c pos = y.to_ref ∧ node_ok y ∧
      y.n.type = variant_after_remove x ∧
      y.n.num_children = populated x - 1 ∧
      y.n.partial_len = x.n.partial_len ∧
      (∀ i < min MAX_PREFIX_LEN x.n.partial_len,
        byte_at y.n.partial_bytes i = byte_at x.n.partial_bytes i) ∧
      y.me = x.me ∧
      (y.n.type ≠ x.n.type →
        slots_in_use y = if y.n.type = NODE4 then 4 else y.n.num_children) ∧
      (y.n.type ≠ x.n.type → y.n.type = NODE4 →
        slot_at y.children 3 = slot_at x.children 3) := by
  obtain ⟨y, h1, h2, _, _, h5, h6, ⟨h7, h8, h9⟩, h10, h11⟩ :=
    remove_child_shape x c pos hx ht hf
  exact ⟨y, h1, h2, h6, h5, h7, h9, h8, h10, h11⟩

set_option maxRecDepth 100000 in
/-- The shrink thresholds at the NODE16 with the leaves "b" .. "e" and the byte
99 at slot 1: the count drops to 3 and a NODE4 replaces the node. -/
theorem remove_child_shrinks_at_thresholds_sample :
    node_ok four_in_sixteen ∧ four_in_sixteen.n.type = NODE16 ∧
    populated four_in_sixteen = 4 ∧
    find_child four_in_sixteen 99 = some 1 ∧
    variant_after_remove four_in_sixteen = NODE4 ∧
    ∃ y, remove_child four_in_sixteen 99 1 = y.to_ref ∧ node_ok y ∧
      y.n.type = variant_after_remove four_in_sixteen ∧
      y.n.num_children = populated four_in_sixteen - 1 ∧
      y.n.partial_len = four_in_sixteen.n.partial_len ∧
      (∀ i < min MAX_PREFIX_LEN four_in_sixteen.n.partial_len,
        byte_at y.n.partial_bytes i = byte_at four_in_sixteen.n.partial_bytes i) ∧
      y.me = four_in_sixteen.me ∧
      (y.n.type ≠ four_in_sixteen.n.type →
        slots_in_use y = if y.n.type = NODE4 then 4 else y.n.num_children) ∧
      (y.n.type ≠ four_in_sixteen.n.type → y.n.type = NODE4 →
        slot_at y.children 3 = slot_at four_in_sixteen.children 3) :=
  ⟨by decide, by decide, by decide, by decide, by decide,
   remove_child_shrinks_at_thresholds four_in_sixteen 99 1 (by decide) (by decide)
     (by decide)⟩

/-- C27 (fails on the code): the NODE4 under byte 'a' holds the own leaf "a"
and the children "ab", "ac"; deleting "ab" replaces the node by the leaf "ac",
and "a", which was found before, is no longer found. -/
theorem C27_collapse_with_own_leaf :
    (as_inner (insert_all scalar_build
        [([97], some 1), ([98], some 2), ([97, 98], some 3), ([97, 99], some 4)]).root).map
      (fun r => (as_inner (child_of r 97)).map (fun x => (x.n.num_children, x.me)))
      = some (some (2, some { value := some 1, key := [97] })) ∧
    art_search (insert_all scalar_build
        [([97], some 1), ([98], some 2), ([97, 98], some 3), ([97, 99], some 4)]) [97]
      = some 1 ∧
    (as_inner (delete_all (insert_all scalar_build
        [([97], some 1), ([98], some 2), ([97, 98], some 3), ([97, 99], some 4)])
        [[97, 98]]).root).map (fun r => child_of r 97)
      = some (art_ref.leaf { value := some 4, key := [97, 99] }) ∧
    art_search (delete_all (insert_all scalar_build
        [([97], some 1), ([98], some 2), ([97, 98], some 3), ([97, 99], some 4)])
        [[97, 98]]) [97] = none := by
  decide

/-- C28 (fails on the code): the NODE4 under byte 'a' holds the own leaf "a"
and the only child "ab"; after art_delete of "ab" the slot still holds the
NODE4, now with `num_children` 0 and its own leaf, not the leaf "a". -/
theorem C28_node_kept_with_own_leaf_only :
    (as_inner (insert_all scalar_build
        [([97], some 1), ([98], some 2), ([97, 98], some 3)]).root).map
      (fun r => (as_inner (child_of r 97)).map (fun x => (x.n.num_children, x.me)))
      = some (some (1, some { value := some 1, key := [97] })) ∧
    (art_delete (insert_all scalar_build
        [([97], some 1), ([98], some 2), ([97, 98], some 3)]) [97, 98]).2 = some 3 ∧
    (as_inner (art_delete (insert_all scalar_build
        [([97], some 1), ([98], some 2), ([97, 98], some 3)]) [97, 98]).1.root).map
      (fun r => child_of r 97)
      = some (art_ref.inner
          { partial_len := 0, type := NODE4, num_children := 0,
            partial_bytes := [0, 0, 0, 0, 0, 0, 0, 0, 0, 0] }
          [98, 0, 0, 0]
          [art_ref.leaf { value := some 3, key := [97, 98] },
           art_ref.null, art_ref.null, art_ref.null]
          (some { value := some 1, key := [97] })) := by
  decide

/-- C29: when remove_child takes one of the two children of a NODE4 `x` and the
remaining child (reached by the edge byte `keys[1 - pos]`) is an inner node, that
child takes the slot of `x` with its keys, children and own leaf, its
`partial_len` is its old `partial_len` plus that of `x` plus 1, and the first
`min(10, partial_len)` bytes of its inline prefix are those of the prefix of
`x`, the edge byte and the child's old prefix in a row. -/
theorem C29_collapse_concatenates_prefixes (x : inner_node) (c pos : Nat)
    (cn : art_node) (ck : List Nat) (cc : List art_ref) (cme : Option art_leaf)
    (ht : x.n.type = NODE4) (h2 : x.n.num_children = 2) (hpos : pos < 2)
    (hk : x.keys.length = 4) (hch : x.children.length = 4)
    (hP : x.n.partial_bytes.length = MAX_PREFIX_LEN)
    (hC : cn.partial_bytes.length = MAX_PREFIX_LEN)
    (hchild : slot_at x.children (1 - pos) = art_ref.inner cn ck cc cme) :
    ∃ cn', remove_child x c pos = art_ref.inner cn' ck cc cme ∧
      cn'.type = cn.type ∧ cn'.num_children = cn.num_children ∧
      cn'.partial_len = cn.partial_len + x.n.partial_len + 1 ∧
      ∀ i < min MAX_PREFIX_LEN cn'.partial_len,
        byte_at cn'.partial_bytes i =
          byte_at (x.n.partial_bytes.take x.n.partial_len ++ [byte_at x.keys (1 - pos)] ++
            cn.partial_bytes.take cn.partial_len) i := by
  have hpos' : pos < x.n.num_children := by omega
  have hn : (flat_remove x pos).n.num_children = 1 := by
    show (x.n.num_children + 255) % 256 = 1
    omega
  have hc0 : slot_at (flat_remove x pos).children 0 = slot_at x.children (1 - pos) := by
    rw [flat_remove_children x pos 0 hpos' (by omega)]
    by_cases h0 : pos = 0
    · have a : pos ≤ 0 ∧ 0 + 1 < x.n.num_children := by omega
      rw [if_pos a, h0]
    · have a : ¬ (pos ≤ 0 ∧ 0 + 1 < x.n.num_children) := by omega
      have e : 1 - pos = 0 := by omega
      rw [if_neg a, e]
  have hk0 : byte_at (flat_remove x pos).keys 0 = byte_at x.keys (1 - pos) := by
    rw [flat_remove_keys x pos 0 hpos' (by omega)]
    by_cases h0 : pos = 0
    · have a : pos ≤ 0 ∧ 0 + 1 < x.n.num_children := by omega
      rw [if_pos a, h0]
    · have a : ¬ (pos ≤ 0 ∧ 0 + 1 < x.n.num_children) := by omega
      have e : 1 - pos = 0 := by omega
      rw [if_neg a, e]
  obtain ⟨cn', e1, e2, e3, e4, e5⟩ :=
    collapse4_spec (flat_remove x pos) cn ck cc cme hP hC (hc0.trans hchild)
  rw [hk0] at e5
  refine ⟨cn', ?_, e2, e3, e4, e5⟩
  unfold remove_child
  rw [ht]
  dsimp only
  rw [remove_child4_eq x pos hpos', if_pos hn, e1]

/-- C29 at the NODE4 with prefix "zz", the inner child with prefix "1" under
'a' and the leaf "zzb" under 'b', when the leaf goes: the child comes to hold
the prefix "zza1". -/
theorem C29_collapse_concatenates_prefixes_witness :
    (insert_all scalar_build [([122, 122, 97, 49, 120], some 1),
      ([122, 122, 97, 49, 121], some 2), ([122, 122, 98], some 3)]).root =
      prefixed_pair.to_ref ∧
    ∃ cn', remove_child prefixed_pair 98 1 =
        art_ref.inner cn' [120, 121, 0, 0]
          [art_ref.leaf { value := some 1, key := [122, 122, 97, 49, 120] },
           art_ref.leaf { value := some 2, key := [122, 122, 97, 49, 121] },
           art_ref.null, art_ref.null] none ∧
      cn'.type = NODE4 ∧ cn'.num_children = 2 ∧
      cn'.partial_len = 1 + prefixed_pair.n.partial_len + 1 ∧
      ∀ i < min MAX_PREFIX_LEN cn'.partial_len,
        byte_at cn'.partial_bytes i =
          byte_at (prefixed_pair.n.partial_bytes.take prefixed_pair.n.partial_len ++
            [byte_at prefixed_pair.keys (1 - 1)] ++
            [49, 122, 97, 49, 0, 0, 0, 0, 0, 0].take 1) i :=
  ⟨by decide,
   C29_collapse_concatenates_prefixes prefixed_pair 98 1
     { partial_len := 1, type := NODE4, num_children := 2,
       partial_bytes := [49, 122, 97, 49, 0, 0, 0, 0, 0, 0] }
     [120, 121, 0, 0]
     [art_ref.leaf { value := some 1, key := [122, 122, 97, 49, 120] },
      art_ref.leaf { value := some 2, key := [122, 122, 97, 49, 121] },
      art_ref.null, art_ref.null] none
     (by decide) (by decide) (by decide) (by decide) (by decide) (by decide) (by decide)
     (by decide)⟩

/-- C30: let recursive_insert reach, at depth `D`, an inner node `x` whose
compressed prefix is `P` (true length `partial_len`, the first 10 bytes inline,
all of it in the key of the minimum leaf when it is longer), and let the key
agree with `P` before index `d < partial_len` and differ from it at `d` or end
there.  Then `*ref` becomes a new NODE4 `N` with `partial_len = d` and the first
`min(d, 10)` bytes of `P` inline; `x` is its child under `P[d]`, unchanged but for
`partial_len = partial_len - d - 1` and the inline bytes `P[d+1 ..]`; the leaf
of the new key is the child under `key[D + d]`, or the own leaf of `N` when the
key ends at `D + d`; art_search finds the new key, and for every key that runs
through `P` it gives what it gave before. -/
theorem C30_prefix_mismatch_split (b : build) (x : inner_node) (key : List Nat)
    (value : Option Nat) (D d : Nat) (replace : Bool) (P : List Nat)
    (hd : d < x.n.partial_len)
    (hPlen : x.n.partial_bytes.length = MAX_PREFIX_LEN)
    (hin : ∀ i < min MAX_PREFIX_LEN x.n.partial_len,
      byte_at x.n.partial_bytes i = byte_at P i)
    (hmin : MAX_PREFIX_LEN < x.n.partial_len →
      ∃ l, minimum x.to_ref = some l ∧ D + x.n.partial_len ≤ l.key.length ∧
        ∀ i < x.n.partial_len, byte_at l.key (D + i) = byte_at P i)
    (hpre : ∀ i < d, byte_at key (D + i) = byte_at P i)
    (hend : D + d ≤ key.length)
    (hdiff : D + d < key.length → byte_at key (D + d) ≠ byte_at P d)
    (hb1 : byte_at P d < 256)
    (hb2 : D + d < key.length → byte_at key (D + d) < 256) :
    ∃ N c1 : inner_node,
      (recursive_insert b x.to_ref key value D replace).ref = N.to_ref ∧
      (recursive_insert b x.to_ref key value D replace).ret = none ∧
      (recursive_insert b x.to_ref key value D replace).old = false ∧
      N.n.type = NODE4 ∧ N.n.partial_len = d ∧
      (∀ i < min MAX_PREFIX_LEN d, byte_at N.n.partial_bytes i = byte_at P i) ∧
      child_of N (byte_at P d) = c1.to_ref ∧
      c1.n.type = x.n.type ∧ c1.n.num_children = x.n.num_children ∧
      c1.keys = x.keys ∧ c1.children = x.children ∧ c1.me = x.me ∧
      c1.n.partial_len = x.n.partial_len - d - 1 ∧
      (∀ i < min MAX_PREFIX_LEN (x.n.partial_len - d - 1),
        byte_at c1.n.partial_bytes i = byte_at P (d + 1 + i)) ∧
      (D + d < key.length →
        child_of N (byte_at key (D + d)) = art_ref.leaf (make_leaf key value) ∧
        N.me = none ∧ N.n.num_children = 2) ∧
      (D + d = key.length → N.me = some (make_leaf key value) ∧ N.n.num_children = 1) ∧
      art_search_loop N.to_ref key D = value ∧
      ∀ k, D + x.n.partial_len ≤ k.length →
        (∀ i < x.n.partial_len, byte_at k (D + i) = byte_at P i) →
        art_search_loop N.to_ref k D = art_search_loop x.to_ref k D := by
  have hpm := prefix_mismatch_spec x key D d P hd hin hmin hpre hend hdiff
  obtain ⟨N, c1, h0, h⟩ :=
    split_node_spec b x key value D d P hd hPlen hin hmin hpre hend hdiff hb1 hb2
  have hcond : x.n.partial_len ≠ 0 ∧
      prefix_mismatch ⟨x.n, x.keys, x.children, x.me⟩ key D < x.n.partial_len :=
    ⟨by omega, by
      show prefix_mismatch x key D < _
      rw [hpm]
      exact hd⟩
  have hr : recursive_insert b x.to_ref key value D replace =
      { ref := split_node b x key value D d, ret := none, old := false } := by
    show recursive_insert b (art_ref.inner x.n x.keys x.children x.me) key value D replace
      = _
    rw [recursive_insert, if_pos hcond]
    show insert_result.mk (split_node b x key value D (prefix_mismatch x key D)) none false
      = _
    rw [hpm]
  rw [hr]
  exact ⟨N, c1, h0, rfl, rfl, h⟩

set_option maxRecDepth 100000 in
/-- C30 at scenario S3: the root after "foobarbaz1-test1-foo" and
"foobarbaz1-test1-bar" has the prefix "foobarbaz1-test1-" of length 17, and
"foobarbaz1-test2-foo" leaves it at index 15.  Also, in the tree with the three
keys art_iter_prefix of "foobarbaz1-test1" passes the first two keys and
art_search finds the third. -/
theorem C30_prefix_mismatch_split_witness :
    (insert_all scalar_build [(s3_key1, some 1), (s3_key2, some 2)]).root = s3_root.to_ref ∧
    ( art_iter_prefix
      (insert_all scalar_build [(s3_key1, some 1), (s3_key2, some 2), (s3_key3, some 3)])
      (s3_key1.take 16) record_cb []).2 = [(s3_key2, some 2), (s3_key1, some 1)] ∧
    art_search
      (insert_all scalar_build [(s3_key1, some 1), (s3_key2, some 2), (s3_key3, some 3)])
      s3_key3 = some 3 ∧
    15 < s3_root.n.partial_len ∧
    (0 + 15 < s3_key3.length → byte_at s3_key3 (0 + 15) ≠ byte_at (s3_key1.take 17) 15) ∧
    ∃ N c1 : inner_node,
      (recursive_insert scalar_build s3_root.to_ref s3_key3 (some 3) 0 true).ref = N.to_ref ∧
      (recursive_insert scalar_build s3_root.to_ref s3_key3 (some 3) 0 true).ret = none ∧
      (recursive_insert scalar_build s3_root.to_ref s3_key3 (some 3) 0 true).old = false ∧
      N.n.type = NODE4 ∧ N.n.partial_len = 15 ∧
      (∀ i < min MAX_PREFIX_LEN 15,
        byte_at N.n.partial_bytes i = byte_at (s3_key1.take 17) i) ∧
      child_of N (byte_at (s3_key1.take 17) 15) = c1.to_ref ∧
      c1.n.type = s3_root.n.type ∧ c1.n.num_children = s3_root.n.num_children ∧
      c1.keys = s3_root.keys ∧ c1.children = s3_root.children ∧ c1.me = s3_root.me ∧
      c1.n.partial_len = s3_root.n.partial_len - 15 - 1 ∧
      (∀ i < min MAX_PREFIX_LEN (s3_root.n.partial_len - 15 - 1),
        byte_at c1.n.partial_bytes i = byte_at (s3_key1.take 17) (15 + 1 + i)) ∧
      (0 + 15 < s3_key3.length →
        child_of N (byte_at s3_key3 (0 + 15)) = art_ref.leaf (make_leaf s3_key3 (some 3)) ∧
        N.me = none ∧ N.n.num_children = 2) ∧
      (0 + 15 = s3_key3.length →
        N.me = some (make_leaf s3_key3 (some 3)) ∧ N.n.num_children = 1) ∧
      art_search_loop N.to_ref s3_key3 0 = some 3 ∧
      ∀ k, 0 + s3_root.n.partial_len ≤ k.length →
        (∀ i < s3_root.n.partial_len, byte_at k (0 + i) = byte_at (s3_key1.take 17) i) →
        art_search_loop N.to_ref k 0 = art_search_loop s3_root.to_ref k 0 :=
  ⟨by decide, by decide, by decide, by decide, by decide,
   C30_prefix_mismatch_split scalar_build s3_root s3_key3 (some 3) 0 15 true
     (s3_key1.take 17) (by decide) (by decide) (by decide)
     (fun _ => ⟨{ value := some 2, key := s3_key2 }, by decide, by decide, by decide⟩)
     (by decide) (by decide) (by decide) (by decide) (by decide)⟩

/-- C31 (fails on the code): in the tree built by inserting "ab\0" -> 1 and
"abx" -> 2 the root has the prefix "ab" and no own leaf, so the key "ab" ends
exactly at the root.  `art_insert("ab", 3)` returns `NULL` but leaves the own
leaf of the root unset: it looks up the child under the byte read at
`key[key_len]` (0), descends into it and stores "ab" below that child, which
has become a NODE4; `art_search("ab")` then returns `NULL`. -/
theorem C31_key_ending_at_prefixed_node_descends :
    (as_inner (insert_all scalar_build
        [([97, 98, 0], some 1), ([97, 98, 120], some 2)]).root).map
      (fun x => (x.n.partial_len, x.n.partial_bytes.take 2, x.me, child_of x 0))
      = some (2, [97, 98], none, art_ref.leaf { value := some 1, key := [97, 98, 0] }) ∧
    (art_insert scalar_build (insert_all scalar_build
        [([97, 98, 0], some 1), ([97, 98, 120], some 2)]) [97, 98] (some 3)).2 = none ∧
    (as_inner (art_insert scalar_build (insert_all scalar_build
        [([97, 98, 0], some 1), ([97, 98, 120], some 2)]) [97, 98] (some 3)).1.root).map
      (fun x => (x.me, (as_inner (child_of x 0)).map
        (fun y => (y.n.type, y.me, child_of y 0))))
      = some (none, some (NODE4, some { value := some 1, key := [97, 98, 0] },
          art_ref.leaf { value := some 3, key := [97, 98] })) ∧
    art_search (art_insert scalar_build (insert_all scalar_build
        [([97, 98, 0], some 1), ([97, 98, 120], some 2)]) [97, 98] (some 3)).1 [97, 98]
      = none := by
  decide

/-- C32: for every four key bytes, read as a little-endian 32-bit word, every
byte `c` and every `num` in 0..4, `word_has_byte` is non-zero exactly when some
index below `num` holds `c`, and then the count of trailing zero bits of the
result, shifted right by 3, is the least such index; so the word-packed NODE4
lookup returns what the linear scan of the first `num` keys returns. -/
theorem C32_word_has_byte_agrees_with_scan (keys : List Nat) (c num : Nat)
    (hb : ∀ i < 4, byte_at keys i < 256) (hc : c < 256) (hn : num ≤ 4) :
    (word_has_byte (word_of_keys keys) c num ≠ 0 ↔ ∃ i, i < num ∧ byte_at keys i = c) ∧
    (word_has_byte (word_of_keys keys) c num ≠ 0 →
      ctz (word_has_byte (word_of_keys keys) c num) >>> 3 < num ∧
      byte_at keys (ctz (word_has_byte (word_of_keys keys) c num) >>> 3) = c ∧
      ∀ j, j < ctz (word_has_byte (word_of_keys keys) c num) >>> 3 → byte_at keys j ≠ c) ∧
    find_child4_word keys c num = first_index (fun i => byte_at keys i == c) num 0 := by
  have h := find_child4_word_eq keys c num hb hc hn
  refine ⟨?_, ?_, h⟩
  · constructor
    · intro a
      unfold find_child4_word at h
      dsimp only at h
      rw [if_pos a] at h
      have s := first_index_some h.symm
      exact ⟨ctz (word_has_byte (word_of_keys keys) c num) >>> 3, by omega,
        by simpa using s.2.2.1⟩
    · rintro ⟨i, hi, e⟩ a
      unfold find_child4_word at h
      dsimp only at h
      rw [if_neg (not_not.mpr a)] at h
      have s := first_index_none h.symm i (Nat.zero_le i) (by omega)
      simp [e] at s
  · intro a
    unfold find_child4_word at h
    dsimp only at h
    rw [if_pos a] at h
    have s := first_index_some h.symm
    refine ⟨by omega, by simpa using s.2.2.1, ?_⟩
    intro j hj
    have := s.2.2.2 j (Nat.zero_le j) hj
    simpa using this

/-- C32 at the keys 1, 2, 3, 2 with four children and the byte 2. -/
theorem C32_word_has_byte_agrees_with_scan_witness :
    (∀ i < 4, byte_at [1, 2, 3, 2] i < 256) ∧ 2 < 256 ∧ 4 ≤ 4 ∧
    ((word_has_byte (word_of_keys [1, 2, 3, 2]) 2 4 ≠ 0 ↔
        ∃ i, i < 4 ∧ byte_at [1, 2, 3, 2] i = 2) ∧
      (word_has_byte (word_of_keys [1, 2, 3, 2]) 2 4 ≠ 0 →
        ctz (word_has_byte (word_of_keys [1, 2, 3, 2]) 2 4) >>> 3 < 4 ∧
        byte_at [1, 2, 3, 2] (ctz (word_has_byte (word_of_keys [1, 2, 3, 2]) 2 4) >>> 3) = 2 ∧
        ∀ j, j < ctz (word_has_byte (word_of_keys [1, 2, 3, 2]) 2 4) >>> 3 →
          byte_at [1, 2, 3, 2] j ≠ 2) ∧
      find_child4_word [1, 2, 3, 2] 2 4 =
        first_index (fun i => byte_at [1, 2, 3, 2] i == 2) 4 0) :=
  ⟨by decide, by decide, by decide,
   C32_word_has_byte_agrees_with_scan [1, 2, 3, 2] 2 4 (by decide) (by decide) (by decide)⟩

/-- C33: for every list of keys and values whose keys are byte strings none of
which is a prefix of another, inserted in the order of the list into an empty
tree, and every list without repetition of keys among them, deleted in the
order of that list, `art_search` then returns the value inserted for every key
that was not deleted and `NULL` for every deleted key, and `art_size` is the
number of keys inserted minus the number deleted.  This holds for the scalar
and for the SSE2 build. -/
theorem C33_prefix_free_insert_delete_search (b : build)
    (ins : List (List Nat × Option Nat)) (del : List (List Nat))
    (hbytes : ∀ kv ∈ ins, ∀ c ∈ kv.1, c < 256)
    (hfree : ins.Pairwise (fun a c => ¬ a.1 <+: c.1 ∧ ¬ c.1 <+: a.1))
    (hdel : del.Nodup) (hsub : ∀ k ∈ del, k ∈ ins.map Prod.fst) :
    (∀ kv ∈ ins, kv.1 ∉ del →
      art_search (delete_all (insert_all b ins) del) kv.1 = kv.2) ∧
    (∀ k ∈ del, art_search (delete_all (insert_all b ins) del) k = none) ∧
    art_size (delete_all (insert_all b ins) del) = ins.length - del.length := by
  have hp : ins.Pairwise (fun a c => keys_differ a.1 c.1) :=
    hfree.imp (fun h => keys_differ_of_neither_prefixes _ _ h.1 h.2)
  have h1 := insert_fold_holds b ins art_tree_init [] tree_holds_init hp
    (fun _ _ kv hkv => absurd hkv (List.not_mem_nil kv))
    (fun a ha => byte_at_lt_of_mem a.1 (hbytes a ha))
    (fun kv hkv => absurd hkv (List.not_mem_nil kv))
  rw [List.append_nil] at h1
  have hnd : ((ins.reverse).map Prod.fst).Nodup := by
    rw [List.map_reverse, List.nodup_reverse]
    apply List.Pairwise.map _ _ hp
    intro a c hd e
    obtain ⟨j, _, _, hj⟩ := hd
    exact hj (by rw [e])
  obtain ⟨m', a1, a2, a3⟩ := delete_fold_holds del _ _ h1 hnd hdel (by
    intro k hk
    rw [List.map_reverse, List.mem_reverse]
    exact hsub k hk)
  change tree_holds (delete_all (insert_all b ins) del) m' at a1
  obtain ⟨s1, s2, s3⟩ := a1
  refine ⟨?_, ?_, ?_⟩
  · intro kv hkv hnot
    have hm : kv ∈ m' := (a3 kv).2 ⟨List.mem_reverse.2 hkv, hnot⟩
    have hl := (s3 ⟨kv.2, kv.1⟩).2 hm
    rcases s2 with s2 | s2
    · rw [s2] at hl
      exact absurd hl (has_leaf_null _)
    · exact radix_search_present 0 _ s2 _ hl
  · intro k hk
    rcases s2 with s2 | s2
    · unfold art_search
      rw [s2, art_search_loop]
    · cases hs : art_search (delete_all (insert_all b ins) del) k with
      | none => rfl
      | some v =>
        obtain ⟨l, l1, l2, _⟩ := radix_search_sound 0 _ s2 k v hs
        have := ((a3 _).1 ((s3 l).1 l1)).2
        dsimp only at this
        rw [l2] at this
        exact absurd hk this
  · show (delete_all (insert_all b ins) del).size = _
    rw [s1]
    rw [List.length_reverse] at a2
    omega

/-- C33 at the keys "ab\0", "abc\0", "b\0" inserted in this order and "abc\0"
deleted, in the scalar build. -/
theorem C33_prefix_free_insert_delete_search_witness :
    (∀ kv ∈ [([97, 98, 0], some 1), ([97, 98, 99, 0], some 2), ([98, 0], some 3)],
      ∀ c ∈ kv.1, c < 256) ∧
    ([([97, 98, 0], some 1), ([97, 98, 99, 0], some 2), ([98, 0], some 3)] :
      List (List Nat × Option Nat)).Pairwise (fun a c => ¬ a.1 <+: c.1 ∧ ¬ c.1 <+: a.1) ∧
    ([[97, 98, 99, 0]] : List (List Nat)).Nodup ∧
    (∀ k ∈ [[97, 98, 99, 0]],
      k ∈ ([([97, 98, 0], some 1), ([97, 98, 99, 0], some 2), ([98, 0], some 3)] :
        List (List Nat × Option Nat)).map Prod.fst) ∧
    ((∀ kv ∈ [([97, 98, 0], some 1), ([97, 98, 99, 0], some 2), ([98, 0], some 3)],
      kv.1 ∉ [[97, 98, 99, 0]] →
      art_search (delete_all (insert_all scalar_build
        [([97, 98, 0], some 1), ([97, 98, 99, 0], some 2), ([98, 0], some 3)])
        [[97, 98, 99, 0]]) kv.1 = kv.2) ∧
    (∀ k ∈ [[97, 98, 99, 0]],
      art_search (delete_all (insert_all scalar_build
        [([97, 98, 0], some 1), ([97, 98, 99, 0], some 2), ([98, 0], some 3)])
        [[97, 98, 99, 0]]) k = none) ∧
    art_size (delete_all (insert_all scalar_build
        [([97, 98, 0], some 1), ([97, 98, 99, 0], some 2), ([98, 0], some 3)])
        [[97, 98, 99, 0]]) =
      ([([97, 98, 0], some 1), ([97, 98, 99, 0], some 2), ([98, 0], some 3)] :
        List (List Nat × Option Nat)).length - ([[97, 98, 99, 0]] : List (List Nat)).length) :=
  ⟨by decide, by decide, by decide, by decide,
   C33_prefix_free_insert_delete_search scalar_build
     [([97, 98, 0], some 1), ([97, 98, 99, 0], some 2), ([98, 0], some 3)] [[97, 98, 99, 0]]
     (by decide) (by decide) (by decide) (by decide)⟩

/-- C34 (fails on the code): after inserting "x" -> 1, "y" -> 2, "xa" -> 3 and
"xb" -> 4 every key is found; after `art_delete("xa")` the key "x", the own
leaf of the NODE4 from which the leaf of "xa" was removed, is no longer found,
while "y" and "xb" still are. -/
theorem C34_delete_loses_own_leaf_key :
    [[120], [121], [120, 97], [120, 98]].map (art_search (insert_all scalar_build
        [([120], some 1), ([121], some 2), ([120, 97], some 3), ([120, 98], some 4)]))
      = [some 1, some 2, some 3, some 4] ∧
    (art_delete (insert_all scalar_build
        [([120], some 1), ([121], some 2), ([120, 97], some 3), ([120, 98], some 4)])
      [120, 97]).2 = some 3 ∧
    [[120], [121], [120, 98]].map (art_search (art_delete (insert_all scalar_build
        [([120], some 1), ([121], some 2), ([120, 97], some 3), ([120, 98], some 4)])
      [120, 97]).1)
      = [none, some 2, some 4] := by
  decide

/-- C35 (fails on the code): in the tree built by inserting the two 14-byte
keys "aaaaaaaaaaZZZ1" and "aaaaaaaaaaZZZ2" the root has `partial_len` 13; for
the 12-byte query "aaaaaaaaaaXY" `art_search` compares the 10 inline bytes,
adds 13 to `depth` and reads `key[13]`, an index that is not below `key_len`. -/
theorem C35_search_reads_past_key_end :
    (as_inner (insert_all scalar_build
        [(List.replicate 10 97 ++ [90, 90, 90, 49], some 1),
         (List.replicate 10 97 ++ [90, 90, 90, 50], some 2)]).root).map
      (fun x => x.n.partial_len) = some 13 ∧
    (List.replicate 10 97 ++ [88, 89]).length = 12 ∧
    art_search_reads (insert_all scalar_build
        [(List.replicate 10 97 ++ [90, 90, 90, 49], some 1),
         (List.replicate 10 97 ++ [90, 90, 90, 50], some 2)]).root
      (List.replicate 10 97 ++ [88, 89]) 0
      = [0, 1, 2, 3, 4, 5, 6, 7, 8, 9, 13] ∧
    art_search (insert_all scalar_build
        [(List.replicate 10 97 ++ [90, 90, 90, 49], some 1),
         (List.replicate 10 97 ++ [90, 90, 90, 50], some 2)])
      (List.replicate 10 97 ++ [88, 89]) = none := by
  decide

end Art
